import Mathlib

/-!
# Non-blocking queues: a verification development

A shallow embedding of `HazardPointer.c`, `BLQueue.c`, `LLQueue.c`,
`RingsQueue.c` and `SimpleQueue.c`, executed by one thread at a time.

## Memory model

* A pointer is a natural number (`Nat`), the address it holds; `0` is `NULL`.
* The heap maps an address to the object stored there.  `malloc` hands out the
  address `brk` and advances it, so every allocation is fresh; `free` makes
  the cell unallocated; reading or writing an unallocated cell (or `NULL`) is
  a `Fault.invalid_access`.
* Every `while` loop is a function that recurses on a fuel counter and gives
  `Fault.out_of_fuel` when the counter runs out.
* `int` counters touched through `atomic_fetch_add` wrap in two's complement
  (`wrap32`).
-/

namespace NBQ

/-! ## Common definitions -/

/-- The payload type `Value` (an `int64_t` in the headers); no arithmetic is
ever done on payloads, only comparisons with the two reserved values. -/
abbrev Value := Int

/-- Ways in which an execution can go wrong. -/
inductive Fault where
  | invalid_access
  | out_of_bounds
  | assertion_failed
  | out_of_fuel
  deriving DecidableEq, Repr

/-- Two's complement wrap-around of a 32-bit `int`. -/
def wrap32 (x : Int) : Int := (x + 2147483648) % 4294967296 - 2147483648

/-- The constant `MAX_THREADS` of `HazardPointer.h`. -/
def MAX_THREADS : Nat := 128

/-- The constant `RETIRED_THRESHOLD` of `HazardPointer.h`. -/
def RETIRED_THRESHOLD : Int := 128

/-- A node of a retired list (`struct RetiredPointer_Node`). -/
structure RetiredPointer_Node where
  pointer : Nat
  next : Nat
  deriving DecidableEq, Repr

/-- The header of a retired list (`struct RetiredPointer_List`). -/
structure RetiredPointer_List where
  head : Nat
  tail : Nat
  size : Int
  deriving DecidableEq, Repr

/-- A heap object is a retired-list node or a queue node of type `N`. -/
inductive Obj (N : Type) where
  | rnode : RetiredPointer_Node → Obj N
  | qnode : N → Obj N

/-- The heap together with the allocation frontier. -/
structure Mem (N : Type) where
  obj : Nat → Option (Obj N)
  brk : Nat

/-- The retired-list node stored at `a`, if any. -/
def Mem.rnode {N : Type} (m : Mem N) (a : Nat) : Option RetiredPointer_Node :=
  if a = 0 then none else
    match m.obj a with
    | some (Obj.rnode n) => some n
    | _ => none

/-- The queue node stored at `a`, if any. -/
def Mem.qnode {N : Type} (m : Mem N) (a : Nat) : Option N :=
  if a = 0 then none else
    match m.obj a with
    | some (Obj.qnode n) => some n
    | _ => none

/-- Overwrite the cell at `a`. -/
def Mem.store {N : Type} (m : Mem N) (a : Nat) (o : Obj N) : Mem N :=
  { m with obj := fun x => if x = a then some o else m.obj x }

/-- The library call `malloc`: the fresh address and the advanced frontier. -/
def malloc {N : Type} (m : Mem N) : Nat × Mem N :=
  (m.brk, { m with brk := m.brk + 1 })

/-- The library call `free`; `free(NULL)` does nothing. -/
def free {N : Type} (m : Mem N) (p : Nat) : Mem N :=
  if p = 0 then m else { m with obj := fun x => if x = p then none else m.obj x }

/-! ## HazardPointer.c -/

/-- The `struct HazardPointer`: the protected slots and the retired lists, both
indexed by thread.  The list headers, which the source allocates once in
`HazardPointer_initialize`, are kept by value. -/
structure HazardPointer where
  pointer : Nat → Nat
  retired_ptrs : Nat → RetiredPointer_List

/-- Everything the hazard-pointer functions can see: the heap, the
`HazardPointer` structure, and the globals `_thread_id` (of the running
thread) and `_num_threads`. -/
structure HPState (N : Type) where
  mem : Mem N
  hp : HazardPointer
  _thread_id : Int
  _num_threads : Int

/-- An index into one of the two arrays of length `MAX_THREADS`. -/
def arrayIndex (i : Int) : Option Nat :=
  if 0 ≤ i ∧ i < (MAX_THREADS : Int) then some i.toNat else none

/-- Write `v` into `hp->pointer[t]`. -/
def HazardPointer.setPointer (hp : HazardPointer) (t : Nat) (v : Nat) : HazardPointer :=
  { hp with pointer := fun i => if i = t then v else hp.pointer i }

/-- Replace the header `hp->retired_ptrs[t]`. -/
def HazardPointer.setList (hp : HazardPointer) (t : Nat) (l : RetiredPointer_List) :
    HazardPointer :=
  { hp with retired_ptrs := fun i => if i = t then l else hp.retired_ptrs i }

/-- `HazardPointer_register`. -/
def HazardPointer_register {N : Type} (s : HPState N) (thread_id num_threads : Int) :
    HPState N :=
  { s with _thread_id := thread_id, _num_threads := num_threads }

/-- `HazardPointer_initialize`: every one of the `MAX_THREADS` entries gets an
empty list and a null protected pointer. -/
def HazardPointer_initialize (hp : HazardPointer) : HazardPointer :=
  { pointer := fun i => if i < MAX_THREADS then 0 else hp.pointer i
    retired_ptrs := fun i =>
      if i < MAX_THREADS then { head := 0, tail := 0, size := 0 } else hp.retired_ptrs i }

/-- The `do ... while` loop of `HazardPointer_protect`; `atom` is the value held
by the location `*atom`, which no one else changes while this thread runs. -/
def HazardPointer_protect_loop {N : Type} (atom : Nat) :
    Nat → HPState N → Except Fault (HPState N)
  | 0, _ => .error .out_of_fuel
  | fuel + 1, s =>
    match arrayIndex s._thread_id with
    | none => .error .out_of_bounds
    | some t =>
      let s1 := { s with hp := s.hp.setPointer t atom }
      if s1.hp.pointer t ≠ atom then HazardPointer_protect_loop atom fuel s1
      else .ok s1

/-- `HazardPointer_protect`: the new state and the returned pointer. -/
def HazardPointer_protect {N : Type} (fuel : Nat) (s : HPState N) (atom : Nat) :
    Except Fault (HPState N × Nat) :=
  match HazardPointer_protect_loop atom fuel s with
  | .error e => .error e
  | .ok s1 =>
    match arrayIndex s1._thread_id with
    | none => .error .out_of_bounds
    | some t => .ok (s1, s1.hp.pointer t)

/-- `HazardPointer_clear`. -/
def HazardPointer_clear {N : Type} (s : HPState N) : Except Fault (HPState N) :=
  match arrayIndex s._thread_id with
  | none => .error .out_of_bounds
  | some t => .ok { s with hp := s.hp.setPointer t 0 }

/-- `create_retired__node`: allocate and fill a list node. -/
def create_retired__node {N : Type} (m : Mem N) (ptr : Nat) : Except Fault (Nat × Mem N) :=
  let (node, m1) := malloc m
  if node = 0 then .error .assertion_failed
  else .ok (node, m1.store node (Obj.rnode { pointer := ptr, next := 0 }))

/-- `add_to_retired_list`. -/
def add_to_retired_list {N : Type} (s : HPState N) (ptr : Nat) : Except Fault (HPState N) :=
  match arrayIndex s._thread_id with
  | none => .error .out_of_bounds
  | some t =>
    let ret_ptr_list := s.hp.retired_ptrs t
    match create_retired__node s.mem ptr with
    | .error e => .error e
    | .ok (new_node, m1) =>
      if ret_ptr_list.tail = 0 then
        .ok { s with
              mem := m1
              hp := s.hp.setList t
                { head := new_node, tail := new_node, size := ret_ptr_list.size + 1 } }
      else
        match m1.rnode ret_ptr_list.tail with
        | none => .error .invalid_access
        | some tl =>
          .ok { s with
                mem := m1.store ret_ptr_list.tail (Obj.rnode { tl with next := new_node })
                hp := s.hp.setList t
                  { ret_ptr_list with tail := new_node, size := ret_ptr_list.size + 1 } }

/-- The `for` loop of `can_free_node` over the remaining indices. -/
def can_free_node_loop (hp : HazardPointer) (ptr : Nat) : List Nat → Except Fault Bool
  | [] => .ok true
  | i :: rest =>
    if i < MAX_THREADS then
      if hp.pointer i = ptr then .ok false else can_free_node_loop hp ptr rest
    else .error .out_of_bounds

/-- `can_free_node`: no slot `pointer[i]`, `i < _num_threads`, equals `ptr`. -/
def can_free_node {N : Type} (s : HPState N) (ptr : Nat) : Except Fault Bool :=
  can_free_node_loop s.hp ptr (List.range s._num_threads.toNat)

/-- The `while (curr != NULL)` loop of `clean_retired_list`; it returns the
final state together with the final `prev`.  Note the argument handed to
`can_free_node`: it is `curr`, the address of the list node. -/
def clean_retired_list_loop {N : Type} (t : Nat) :
    Nat → HPState N → Nat → Nat → Except Fault (HPState N × Nat)
  | 0, _, _, _ => .error .out_of_fuel
  | fuel + 1, s, curr, prev =>
    if curr = 0 then .ok (s, prev) else
    match s.mem.rnode curr with
    | none => .error .invalid_access
    | some c =>
      let next := c.next
      match can_free_node s curr with
      | .error e => .error e
      | .ok false => clean_retired_list_loop t fuel s next curr
      | .ok true =>
        let l := s.hp.retired_ptrs t
        let s1 := { s with hp := s.hp.setList t { l with size := l.size - 1 } }
        let unlinked : Except Fault (HPState N) :=
          if prev = 0 then
            .ok { s1 with hp := s1.hp.setList t { s1.hp.retired_ptrs t with head := next } }
          else
            match s1.mem.rnode prev with
            | none => .error .invalid_access
            | some p => .ok { s1 with mem := s1.mem.store prev (Obj.rnode { p with next := next }) }
        match unlinked with
        | .error e => .error e
        | .ok s2 =>
          match s2.mem.rnode curr with
          | none => .error .invalid_access
          | some c2 =>
            let m3 := free s2.mem c2.pointer
            match m3.rnode curr with
            | none => .error .invalid_access
            | some _ =>
              let m4 := free m3 curr
              clean_retired_list_loop t fuel { s2 with mem := m4 } next prev

/-- `clean_retired_list`. -/
def clean_retired_list {N : Type} (fuel : Nat) (s : HPState N) : Except Fault (HPState N) :=
  match arrayIndex s._thread_id with
  | none => .error .out_of_bounds
  | some t =>
    match clean_retired_list_loop t fuel s (s.hp.retired_ptrs t).head 0 with
    | .error e => .error e
    | .ok (s1, prev) =>
      .ok { s1 with hp := s1.hp.setList t { s1.hp.retired_ptrs t with tail := prev } }

/-- `HazardPointer_retire`. -/
def HazardPointer_retire {N : Type} (fuel : Nat) (s : HPState N) (ptr : Nat) :
    Except Fault (HPState N) :=
  match arrayIndex s._thread_id with
  | none => .error .out_of_bounds
  | some t =>
    if (s.hp.retired_ptrs t).size = RETIRED_THRESHOLD then
      match clean_retired_list fuel s with
      | .error e => .error e
      | .ok s1 => add_to_retired_list s1 ptr
    else add_to_retired_list s ptr

/-! ## Operations and results shared by the queues -/

/-- The start of the world: nothing allocated, an arbitrary `HazardPointer`
structure not yet initialised, and the globals at their initial `-1`. -/
def boot (N : Type) (hp : HazardPointer) : HPState N :=
  { mem := { obj := fun _ => none, brk := 1 }, hp := hp, _thread_id := -1, _num_threads := -1 }

/-- A call made on a queue. -/
inductive Op where
  | push : Value → Op
  | pop : Op
  | is_empty : Op
  deriving DecidableEq, Repr

/-- What a call returns: nothing (`push`), a value (`pop`), a flag (`is_empty`). -/
inductive Ret where
  | unit : Ret
  | value : Value → Ret
  | bool : Bool → Ret
  deriving DecidableEq, Repr

/-- Index of a cell in a buffer of `size` cells, from a C `int`. -/
def bufIndex (size : Nat) (i : Int) : Option Nat :=
  if 0 ≤ i ∧ i < (size : Int) then some i.toNat else none

/-! ## RingsQueue.c -/

/-- The `struct RingsQueueNode`.  A cell of `buffer` is `none` until it is first
written: `malloc` does not initialise it. -/
structure RingsQueueNode where
  next : Nat
  buffer : Nat → Option Value
  push_idx : Int
  pop_idx : Int
  free_slots : Int

/-- The `struct RingsQueue` (the two mutexes play no role with one thread) and
the heap it lives in. -/
structure RingsQueue where
  mem : Mem RingsQueueNode
  head : Nat
  tail : Nat

/-- Write one cell of a ring. -/
def setCell {α : Type} (b : Nat → α) (i : Nat) (v : α) : Nat → α :=
  fun j => if j = i then v else b j

/-- `getValue`. -/
def getValue (RING_SIZE : Nat) (m : Mem RingsQueueNode) (node : Nat) :
    Except Fault (Value × Mem RingsQueueNode) :=
  match m.qnode node with
  | none => .error .invalid_access
  | some n =>
    match bufIndex RING_SIZE n.pop_idx with
    | none => .error .out_of_bounds
    | some i =>
      match n.buffer i with
      | none => .error .invalid_access
      | some val =>
        .ok (val, m.store node (Obj.qnode
          { n with
            pop_idx := Int.tmod (wrap32 (n.pop_idx + 1)) RING_SIZE
            free_slots := wrap32 (n.free_slots + 1) }))

/-- `pushValue`. -/
def pushValue (RING_SIZE : Nat) (m : Mem RingsQueueNode) (node : Nat) (val : Value) :
    Except Fault (Mem RingsQueueNode) :=
  match m.qnode node with
  | none => .error .invalid_access
  | some n =>
    match bufIndex RING_SIZE n.push_idx with
    | none => .error .out_of_bounds
    | some i =>
      .ok (m.store node (Obj.qnode
        { n with
          buffer := setCell n.buffer i (some val)
          push_idx := Int.tmod (wrap32 (n.push_idx + 1)) RING_SIZE
          free_slots := wrap32 (n.free_slots - 1) }))

/-- `RingsQueueNode_new`. -/
def RingsQueueNode_new (RING_SIZE : Nat) (m : Mem RingsQueueNode) :
    Except Fault (Nat × Mem RingsQueueNode) :=
  let (node, m1) := malloc m
  if node = 0 then .error .assertion_failed
  else .ok (node, m1.store node (Obj.qnode
    { next := 0, buffer := fun _ => none, push_idx := 0, pop_idx := 0,
      free_slots := RING_SIZE }))

/-- `RingsQueueNode_new_with_value`. -/
def RingsQueueNode_new_with_value (RING_SIZE : Nat) (m : Mem RingsQueueNode) (val : Value) :
    Except Fault (Nat × Mem RingsQueueNode) :=
  let (node, m1) := malloc m
  if node = 0 then .error .assertion_failed
  else
    match bufIndex RING_SIZE 0 with
    | none => .error .out_of_bounds
    | some i =>
      .ok (node, m1.store node (Obj.qnode
        { next := 0, buffer := setCell (fun _ => none) i (some val), push_idx := 1, pop_idx := 0,
          free_slots := (RING_SIZE : Int) - 1 }))

/-- `RingsQueue_new`, on an empty heap. -/
def RingsQueue_new (RING_SIZE : Nat) : Except Fault RingsQueue :=
  match RingsQueueNode_new RING_SIZE { obj := fun _ => none, brk := 1 } with
  | .error e => .error e
  | .ok (node, m) => .ok { mem := m, head := node, tail := node }

/-- `RingsQueue_push`. -/
def RingsQueue_push (RING_SIZE : Nat) (q : RingsQueue) (item : Value) :
    Except Fault RingsQueue :=
  match q.mem.qnode q.tail with
  | none => .error .invalid_access
  | some tl =>
    if tl.free_slots > 0 then
      match pushValue RING_SIZE q.mem q.tail item with
      | .error e => .error e
      | .ok m => .ok { q with mem := m }
    else
      match RingsQueueNode_new_with_value RING_SIZE q.mem item with
      | .error e => .error e
      | .ok (new_tail, m1) =>
        match m1.qnode q.tail with
        | none => .error .invalid_access
        | some tl1 =>
          .ok { q with
                mem := m1.store q.tail (Obj.qnode { tl1 with next := new_tail })
                tail := new_tail }

/-- `RingsQueue_pop`. -/
def RingsQueue_pop (RING_SIZE : Nat) (EMPTY_VALUE : Value) (q : RingsQueue) :
    Except Fault (Value × RingsQueue) :=
  match q.mem.qnode q.head with
  | none => .error .invalid_access
  | some head =>
    if head.next ≠ 0 ∧ head.free_slots = RING_SIZE then
      let new_head := head.next
      let m1 := free q.mem q.head
      match getValue RING_SIZE m1 new_head with
      | .error e => .error e
      | .ok (val, m2) => .ok (val, { q with mem := m2, head := new_head })
    else if head.free_slots < RING_SIZE then
      match getValue RING_SIZE q.mem q.head with
      | .error e => .error e
      | .ok (val, m2) => .ok (val, { q with mem := m2 })
    else .ok (EMPTY_VALUE, q)

/-- `RingsQueue_is_empty`. -/
def RingsQueue_is_empty (RING_SIZE : Nat) (q : RingsQueue) : Except Fault Bool :=
  match q.mem.qnode q.head with
  | none => .error .invalid_access
  | some head =>
    if head.free_slots < RING_SIZE ∨ head.next ≠ 0 then .ok false else .ok true

/-- One call on a `RingsQueue`. -/
def RingsQueue_step (RING_SIZE : Nat) (EMPTY_VALUE : Value) (q : RingsQueue) :
    Op → Except Fault (Ret × RingsQueue)
  | .push v =>
    match RingsQueue_push RING_SIZE q v with
    | .error e => .error e
    | .ok q1 => .ok (.unit, q1)
  | .pop =>
    match RingsQueue_pop RING_SIZE EMPTY_VALUE q with
    | .error e => .error e
    | .ok (v, q1) => .ok (.value v, q1)
  | .is_empty =>
    match RingsQueue_is_empty RING_SIZE q with
    | .error e => .error e
    | .ok b => .ok (.bool b, q)

/-- A sequence of calls on a `RingsQueue`, one after another. -/
def RingsQueue_run (RING_SIZE : Nat) (EMPTY_VALUE : Value) :
    RingsQueue → List Op → Except Fault (List Ret × RingsQueue)
  | q, [] => .ok ([], q)
  | q, op :: ops =>
    match RingsQueue_step RING_SIZE EMPTY_VALUE q op with
    | .error e => .error e
    | .ok (r, q1) =>
      match RingsQueue_run RING_SIZE EMPTY_VALUE q1 ops with
      | .error e => .error e
      | .ok (rs, q2) => .ok (r :: rs, q2)

/-- The calls on a fresh queue from `RingsQueue_new`. -/
def RingsQueue_session (RING_SIZE : Nat) (EMPTY_VALUE : Value) (ops : List Op) :
    Except Fault (List Ret × RingsQueue) :=
  match RingsQueue_new RING_SIZE with
  | .error e => .error e
  | .ok q => RingsQueue_run RING_SIZE EMPTY_VALUE q ops

/-! ## LLQueue.c -/

/-- The `struct LLNode`. -/
structure LLNode where
  next : Nat
  item : Value

/-- The `struct LLQueue` with the heap and the thread globals: `hs` carries the
heap, the field `hp` of the queue, `_thread_id` and `_num_threads`. -/
structure LLQueue where
  hs : HPState LLNode
  head : Nat
  tail : Nat

/-- `LLNode_new`. -/
def LLNode_new (m : Mem LLNode) (item : Value) : Except Fault (Nat × Mem LLNode) :=
  let (node, m1) := malloc m
  if node = 0 then .error .assertion_failed
  else .ok (node, m1.store node (Obj.qnode { next := 0, item := item }))

/-- `LLQueue_new`, called in the process state `s`. -/
def LLQueue_new (EMPTY_VALUE : Value) (s : HPState LLNode) : Except Fault LLQueue :=
  let s1 := { s with hp := HazardPointer_initialize s.hp }
  match LLNode_new s1.mem EMPTY_VALUE with
  | .error e => .error e
  | .ok (node, m) => .ok { hs := { s1 with mem := m }, head := node, tail := node }

/-- The `while (!finished)` loop of `LLQueue_push`. -/
def LLQueue_push_loop (new_node : Nat) : Nat → LLQueue → Except Fault LLQueue
  | 0, _ => .error .out_of_fuel
  | fuel + 1, q =>
    match HazardPointer_protect (fuel + 1) q.hs q.tail with
    | .error e => .error e
    | .ok (hs1, expected_tail) =>
      if q.tail = expected_tail then
        match hs1.mem.qnode expected_tail with
        | none => .error .invalid_access
        | some n =>
          .ok { hs := { hs1 with
                        mem := hs1.mem.store expected_tail (Obj.qnode { n with next := new_node }) }
                head := q.head
                tail := new_node }
      else LLQueue_push_loop new_node fuel { q with hs := hs1 }

/-- `LLQueue_push`. -/
def LLQueue_push (fuel : Nat) (q : LLQueue) (item : Value) : Except Fault LLQueue :=
  match LLNode_new q.hs.mem item with
  | .error e => .error e
  | .ok (new_node, m) =>
    match LLQueue_push_loop new_node fuel { q with hs := { q.hs with mem := m } } with
    | .error e => .error e
    | .ok q1 =>
      match HazardPointer_clear q1.hs with
      | .error e => .error e
      | .ok hs2 => .ok { q1 with hs := hs2 }

/-- The compare-exchange on `queue->head` followed by the retire of the old
head when the exchange succeeds, as `LLQueue_pop`, `LLQueue_is_empty`,
`BLQueue_pop` and `BLQueue_is_empty` all do it. -/
def advance_head {N : Type} (fuel : Nat) (hs : HPState N) (head expected_head next : Nat) :
    Except Fault (HPState N × Nat) :=
  if head = expected_head then
    match HazardPointer_retire fuel hs expected_head with
    | .error e => .error e
    | .ok hs1 => .ok (hs1, next)
  else .ok (hs, head)

/-- The `while (!finished)` loop of `LLQueue_pop`. -/
def LLQueue_pop_loop (EMPTY_VALUE : Value) : Nat → LLQueue → Except Fault (Value × LLQueue)
  | 0, _ => .error .out_of_fuel
  | fuel + 1, q =>
    match HazardPointer_protect (fuel + 1) q.hs q.head with
    | .error e => .error e
    | .ok (hs1, expected_head) =>
      if expected_head ≠ q.head then LLQueue_pop_loop EMPTY_VALUE fuel { q with hs := hs1 }
      else
        match hs1.mem.qnode expected_head with
        | none => .error .invalid_access
        | some n =>
          let value := n.item
          let hs2 := { hs1 with
                       mem := hs1.mem.store expected_head (Obj.qnode { n with item := EMPTY_VALUE }) }
          let finished := decide (value ≠ EMPTY_VALUE)
          if n.next ≠ 0 then
            match advance_head (fuel + 1) hs2 q.head expected_head n.next with
            | .error e => .error e
            | .ok (hs3, head3) =>
              let q3 : LLQueue := { hs := hs3, head := head3, tail := q.tail }
              if finished then .ok (value, q3) else LLQueue_pop_loop EMPTY_VALUE fuel q3
          else .ok (value, { q with hs := hs2 })

/-- `LLQueue_pop`. -/
def LLQueue_pop (EMPTY_VALUE : Value) (fuel : Nat) (q : LLQueue) :
    Except Fault (Value × LLQueue) :=
  match LLQueue_pop_loop EMPTY_VALUE fuel q with
  | .error e => .error e
  | .ok (value, q1) =>
    match HazardPointer_clear q1.hs with
    | .error e => .error e
    | .ok hs2 => .ok (value, { q1 with hs := hs2 })

/-- The `while (!finished)` loop of `LLQueue_is_empty`; it returns the last
`value` read. -/
def LLQueue_is_empty_loop (EMPTY_VALUE : Value) :
    Nat → LLQueue → Except Fault (Value × LLQueue)
  | 0, _ => .error .out_of_fuel
  | fuel + 1, q =>
    match HazardPointer_protect (fuel + 1) q.hs q.head with
    | .error e => .error e
    | .ok (hs1, expected_head) =>
      if expected_head ≠ q.head then LLQueue_is_empty_loop EMPTY_VALUE fuel { q with hs := hs1 }
      else
        match hs1.mem.qnode expected_head with
        | none => .error .invalid_access
        | some n =>
          let value := n.item
          if value ≠ EMPTY_VALUE then .ok (value, { q with hs := hs1 })
          else if n.next ≠ 0 then
            match advance_head (fuel + 1) hs1 q.head expected_head n.next with
            | .error e => .error e
            | .ok (hs3, head3) =>
              LLQueue_is_empty_loop EMPTY_VALUE fuel { hs := hs3, head := head3, tail := q.tail }
          else .ok (value, { q with hs := hs1 })

/-- `LLQueue_is_empty`. -/
def LLQueue_is_empty (EMPTY_VALUE : Value) (fuel : Nat) (q : LLQueue) :
    Except Fault (Bool × LLQueue) :=
  match LLQueue_is_empty_loop EMPTY_VALUE fuel q with
  | .error e => .error e
  | .ok (value, q1) =>
    match HazardPointer_clear q1.hs with
    | .error e => .error e
    | .ok hs2 => .ok (decide (value = EMPTY_VALUE), { q1 with hs := hs2 })

/-- One call on an `LLQueue`. -/
def LLQueue_step (EMPTY_VALUE : Value) (fuel : Nat) (q : LLQueue) :
    Op → Except Fault (Ret × LLQueue)
  | .push v =>
    match LLQueue_push fuel q v with
    | .error e => .error e
    | .ok q1 => .ok (.unit, q1)
  | .pop =>
    match LLQueue_pop EMPTY_VALUE fuel q with
    | .error e => .error e
    | .ok (v, q1) => .ok (.value v, q1)
  | .is_empty =>
    match LLQueue_is_empty EMPTY_VALUE fuel q with
    | .error e => .error e
    | .ok (b, q1) => .ok (.bool b, q1)

/-- A sequence of calls on an `LLQueue`, one after another. -/
def LLQueue_run (EMPTY_VALUE : Value) (fuel : Nat) :
    LLQueue → List Op → Except Fault (List Ret × LLQueue)
  | q, [] => .ok ([], q)
  | q, op :: ops =>
    match LLQueue_step EMPTY_VALUE fuel q op with
    | .error e => .error e
    | .ok (r, q1) =>
      match LLQueue_run EMPTY_VALUE fuel q1 ops with
      | .error e => .error e
      | .ok (rs, q2) => .ok (r :: rs, q2)

/-- A thread registers as `thread_id` among `num_threads`, creates a queue with
`LLQueue_new` and makes the calls `ops` on it. -/
def LLQueue_session (EMPTY_VALUE : Value) (fuel : Nat) (hp : HazardPointer)
    (thread_id num_threads : Int) (ops : List Op) : Except Fault (List Ret × LLQueue) :=
  match LLQueue_new EMPTY_VALUE (HazardPointer_register (boot LLNode hp) thread_id num_threads) with
  | .error e => .error e
  | .ok q => LLQueue_run EMPTY_VALUE fuel q ops

/-! ## BLQueue.c -/

/-- The `struct BLNode`; `push_idx` and `pop_idx` are `_Atomic int`. -/
structure BLNode where
  next : Nat
  buffer : Nat → Value
  push_idx : Int
  pop_idx : Int

/-- The `struct BLQueue` with the heap and the thread globals (in `hs`). -/
structure BLQueue where
  hs : HPState BLNode
  head : Nat
  tail : Nat

/-- `BLNode_new`. -/
def BLNode_new (BUFFER_SIZE : Nat) (EMPTY_VALUE : Value) (m : Mem BLNode) :
    Except Fault (Nat × Mem BLNode) :=
  let (node, m1) := malloc m
  if node = 0 then .error .assertion_failed
  else .ok (node, m1.store node (Obj.qnode
    { next := 0
      buffer := fun i => if i < BUFFER_SIZE then EMPTY_VALUE else 0
      push_idx := 0
      pop_idx := 0 }))

/-- `BLNode_new_with_value`. -/
def BLNode_new_with_value (BUFFER_SIZE : Nat) (EMPTY_VALUE : Value) (m : Mem BLNode)
    (value : Value) : Except Fault (Nat × Mem BLNode) :=
  let (node, m1) := malloc m
  if node = 0 then .error .assertion_failed
  else
    match bufIndex BUFFER_SIZE 0 with
    | none => .error .out_of_bounds
    | some i0 =>
      .ok (node, m1.store node (Obj.qnode
        { next := 0
          buffer := fun i => if i = i0 then value else if i < BUFFER_SIZE then EMPTY_VALUE else 0
          push_idx := 1
          pop_idx := 0 }))

/-- `BLQueue_new`, called in the process state `s`. -/
def BLQueue_new (BUFFER_SIZE : Nat) (EMPTY_VALUE : Value) (s : HPState BLNode) :
    Except Fault BLQueue :=
  let s1 := { s with hp := HazardPointer_initialize s.hp }
  match BLNode_new BUFFER_SIZE EMPTY_VALUE s1.mem with
  | .error e => .error e
  | .ok (node, m) => .ok { hs := { s1 with mem := m }, head := node, tail := node }

/-- The `while (!finished)` loop of `BLQueue_push`.  The `printf` of the source
has no effect on the state and is left out. -/
def BLQueue_push_loop (BUFFER_SIZE : Nat) (EMPTY_VALUE TAKEN_VALUE : Value) (item : Value) :
    Nat → BLQueue → Except Fault BLQueue
  | 0, _ => .error .out_of_fuel
  | fuel + 1, q =>
    match HazardPointer_protect (fuel + 1) q.hs q.tail with
    | .error e => .error e
    | .ok (hs1, expected_tail) =>
      if expected_tail ≠ q.tail then
        BLQueue_push_loop BUFFER_SIZE EMPTY_VALUE TAKEN_VALUE item fuel { q with hs := hs1 }
      else
        match hs1.mem.qnode expected_tail with
        | none => .error .invalid_access
        | some n =>
          let idx := n.push_idx
          let n1 := { n with push_idx := wrap32 (idx + 1) }
          let m1 := hs1.mem.store expected_tail (Obj.qnode n1)
          if idx < BUFFER_SIZE then
            match bufIndex BUFFER_SIZE idx with
            | none => .error .out_of_bounds
            | some i =>
              let value_read := n1.buffer i
              let m2 := m1.store expected_tail (Obj.qnode { n1 with buffer := setCell n1.buffer i item })
              let q2 : BLQueue := { q with hs := { hs1 with mem := m2 } }
              if value_read ≠ TAKEN_VALUE then .ok q2
              else BLQueue_push_loop BUFFER_SIZE EMPTY_VALUE TAKEN_VALUE item fuel q2
          else
            let next := n1.next
            if next = 0 then
              match BLNode_new_with_value BUFFER_SIZE EMPTY_VALUE m1 item with
              | .error e => .error e
              | .ok (new_node, m2) =>
                if q.tail = expected_tail then
                  match m2.qnode expected_tail with
                  | none => .error .invalid_access
                  | some n2 =>
                    .ok { hs := { hs1 with
                                  mem := m2.store expected_tail (Obj.qnode { n2 with next := new_node }) }
                          head := q.head
                          tail := new_node }
                else
                  BLQueue_push_loop BUFFER_SIZE EMPTY_VALUE TAKEN_VALUE item fuel
                    { q with hs := { hs1 with mem := free m2 new_node } }
            else
              BLQueue_push_loop BUFFER_SIZE EMPTY_VALUE TAKEN_VALUE item fuel
                { hs := { hs1 with mem := m1 }
                  head := q.head
                  tail := if q.tail = expected_tail then next else q.tail }

/-- `BLQueue_push`. -/
def BLQueue_push (BUFFER_SIZE : Nat) (EMPTY_VALUE TAKEN_VALUE : Value) (fuel : Nat)
    (q : BLQueue) (item : Value) : Except Fault BLQueue :=
  match BLQueue_push_loop BUFFER_SIZE EMPTY_VALUE TAKEN_VALUE item fuel q with
  | .error e => .error e
  | .ok q1 =>
    match HazardPointer_clear q1.hs with
    | .error e => .error e
    | .ok hs2 => .ok { q1 with hs := hs2 }

/-- The `while (!finished)` loop of `BLQueue_pop`. -/
def BLQueue_pop_loop (BUFFER_SIZE : Nat) (EMPTY_VALUE TAKEN_VALUE : Value) :
    Nat → BLQueue → Except Fault (Value × BLQueue)
  | 0, _ => .error .out_of_fuel
  | fuel + 1, q =>
    match HazardPointer_protect (fuel + 1) q.hs q.head with
    | .error e => .error e
    | .ok (hs1, expected_head) =>
      if expected_head ≠ q.head then
        BLQueue_pop_loop BUFFER_SIZE EMPTY_VALUE TAKEN_VALUE fuel { q with hs := hs1 }
      else
        match hs1.mem.qnode expected_head with
        | none => .error .invalid_access
        | some n =>
          let idx := n.pop_idx
          let n1 := { n with pop_idx := wrap32 (idx + 1) }
          let m1 := hs1.mem.store expected_head (Obj.qnode n1)
          if idx < BUFFER_SIZE ∧ idx ≥ 0 then
            match bufIndex BUFFER_SIZE idx with
            | none => .error .out_of_bounds
            | some i =>
              let value := n1.buffer i
              let m2 := m1.store expected_head
                (Obj.qnode { n1 with buffer := setCell n1.buffer i TAKEN_VALUE })
              let q2 : BLQueue := { q with hs := { hs1 with mem := m2 } }
              if value ≠ EMPTY_VALUE then .ok (value, q2)
              else BLQueue_pop_loop BUFFER_SIZE EMPTY_VALUE TAKEN_VALUE fuel q2
          else
            let next := n1.next
            if next = 0 then .ok (EMPTY_VALUE, { q with hs := { hs1 with mem := m1 } })
            else
              match advance_head (fuel + 1) { hs1 with mem := m1 } q.head expected_head next with
              | .error e => .error e
              | .ok (hs3, head3) =>
                BLQueue_pop_loop BUFFER_SIZE EMPTY_VALUE TAKEN_VALUE fuel
                  { hs := hs3, head := head3, tail := q.tail }

/-- `BLQueue_pop`. -/
def BLQueue_pop (BUFFER_SIZE : Nat) (EMPTY_VALUE TAKEN_VALUE : Value) (fuel : Nat)
    (q : BLQueue) : Except Fault (Value × BLQueue) :=
  match BLQueue_pop_loop BUFFER_SIZE EMPTY_VALUE TAKEN_VALUE fuel q with
  | .error e => .error e
  | .ok (value, q1) =>
    match HazardPointer_clear q1.hs with
    | .error e => .error e
    | .ok hs2 => .ok (value, { q1 with hs := hs2 })

/-- The `while (!finished)` loop of `BLQueue_is_empty`; it returns the last
`value` read. -/
def BLQueue_is_empty_loop (BUFFER_SIZE : Nat) (EMPTY_VALUE TAKEN_VALUE : Value) :
    Nat → BLQueue → Except Fault (Value × BLQueue)
  | 0, _ => .error .out_of_fuel
  | fuel + 1, q =>
    match HazardPointer_protect (fuel + 1) q.hs q.head with
    | .error e => .error e
    | .ok (hs1, expected_head) =>
      if expected_head ≠ q.head then
        BLQueue_is_empty_loop BUFFER_SIZE EMPTY_VALUE TAKEN_VALUE fuel { q with hs := hs1 }
      else
        match hs1.mem.qnode expected_head with
        | none => .error .invalid_access
        | some n =>
          let idx := n.pop_idx
          if idx < BUFFER_SIZE then
            match bufIndex BUFFER_SIZE idx with
            | none => .error .out_of_bounds
            | some i =>
              let value := n.buffer i
              if value = EMPTY_VALUE then .ok (value, { q with hs := hs1 })
              else if value = TAKEN_VALUE then
                BLQueue_is_empty_loop BUFFER_SIZE EMPTY_VALUE TAKEN_VALUE fuel { q with hs := hs1 }
              else .ok (value, { q with hs := hs1 })
          else
            let next := n.next
            if next = 0 then .ok (EMPTY_VALUE, { q with hs := hs1 })
            else
              match advance_head (fuel + 1) hs1 q.head expected_head next with
              | .error e => .error e
              | .ok (hs3, head3) =>
                BLQueue_is_empty_loop BUFFER_SIZE EMPTY_VALUE TAKEN_VALUE fuel
                  { hs := hs3, head := head3, tail := q.tail }

/-- `BLQueue_is_empty`. -/
def BLQueue_is_empty (BUFFER_SIZE : Nat) (EMPTY_VALUE TAKEN_VALUE : Value) (fuel : Nat)
    (q : BLQueue) : Except Fault (Bool × BLQueue) :=
  match BLQueue_is_empty_loop BUFFER_SIZE EMPTY_VALUE TAKEN_VALUE fuel q with
  | .error e => .error e
  | .ok (value, q1) =>
    match HazardPointer_clear q1.hs with
    | .error e => .error e
    | .ok hs2 => .ok (decide (value = EMPTY_VALUE), { q1 with hs := hs2 })

/-- One call on a `BLQueue`. -/
def BLQueue_step (BUFFER_SIZE : Nat) (EMPTY_VALUE TAKEN_VALUE : Value) (fuel : Nat)
    (q : BLQueue) : Op → Except Fault (Ret × BLQueue)
  | .push v =>
    match BLQueue_push BUFFER_SIZE EMPTY_VALUE TAKEN_VALUE fuel q v with
    | .error e => .error e
    | .ok q1 => .ok (.unit, q1)
  | .pop =>
    match BLQueue_pop BUFFER_SIZE EMPTY_VALUE TAKEN_VALUE fuel q with
    | .error e => .error e
    | .ok (v, q1) => .ok (.value v, q1)
  | .is_empty =>
    match BLQueue_is_empty BUFFER_SIZE EMPTY_VALUE TAKEN_VALUE fuel q with
    | .error e => .error e
    | .ok (b, q1) => .ok (.bool b, q1)

/-- A sequence of calls on a `BLQueue`, one after another. -/
def BLQueue_run (BUFFER_SIZE : Nat) (EMPTY_VALUE TAKEN_VALUE : Value) (fuel : Nat) :
    BLQueue → List Op → Except Fault (List Ret × BLQueue)
  | q, [] => .ok ([], q)
  | q, op :: ops =>
    match BLQueue_step BUFFER_SIZE EMPTY_VALUE TAKEN_VALUE fuel q op with
    | .error e => .error e
    | .ok (r, q1) =>
      match BLQueue_run BUFFER_SIZE EMPTY_VALUE TAKEN_VALUE fuel q1 ops with
      | .error e => .error e
      | .ok (rs, q2) => .ok (r :: rs, q2)

/-- A thread registers as `thread_id` among `num_threads`, creates a queue with
`BLQueue_new` and makes the calls `ops` on it. -/
def BLQueue_session (BUFFER_SIZE : Nat) (EMPTY_VALUE TAKEN_VALUE : Value) (fuel : Nat)
    (hp : HazardPointer) (thread_id num_threads : Int) (ops : List Op) :
    Except Fault (List Ret × BLQueue) :=
  match BLQueue_new BUFFER_SIZE EMPTY_VALUE
      (HazardPointer_register (boot BLNode hp) thread_id num_threads) with
  | .error e => .error e
  | .ok q => BLQueue_run BUFFER_SIZE EMPTY_VALUE TAKEN_VALUE fuel q ops

/-! ## The reference queue -/

/-- What a call on the reference queue returns; a `pop` of the empty queue
returns `none`. -/
inductive RefRet where
  | pushed : RefRet
  | popped : Option Value → RefRet
  | empty : Bool → RefRet
  deriving DecidableEq, Repr

/-- One call on the reference queue, a list with the oldest value first. -/
def refStep (q : List Value) : Op → RefRet × List Value
  | .push v => (.pushed, q ++ [v])
  | .pop =>
    match q with
    | [] => (.popped none, [])
    | v :: rest => (.popped (some v), rest)
  | .is_empty => (.empty q.isEmpty, q)

/-- The results of a sequence of calls on the reference queue. -/
def refRun : List Value → List Op → List RefRet
  | _, [] => []
  | q, op :: ops => (refStep q op).1 :: refRun (refStep q op).2 ops

/-- The content of the reference queue after a sequence of calls. -/
def refFinal : List Value → List Op → List Value
  | q, [] => q
  | q, op :: ops => refFinal (refStep q op).2 ops

/-- How the C interface reports a reference result: an empty pop is `EMPTY_VALUE`. -/
def RefRet.toRet (EMPTY_VALUE : Value) : RefRet → Ret
  | .pushed => .unit
  | .popped none => .value EMPTY_VALUE
  | .popped (some v) => .value v
  | .empty b => .bool b

/-- The values handed to `push` in a sequence of calls. -/
def pushedValues : List Op → List Value
  | [] => []
  | .push v :: ops => v :: pushedValues ops
  | _ :: ops => pushedValues ops


/-! ## Predicates and observations used in the statements -/

/-- The running thread is registered: `0 ≤ _thread_id < _num_threads ≤ MAX_THREADS`. -/
def Registered {N : Type} (s : HPState N) : Prop :=
  0 ≤ s._thread_id ∧ s._thread_id < s._num_threads ∧ s._num_threads ≤ (MAX_THREADS : Int)

/-- The retired pointers met when walking a retired list from the node at `a`,
for at most `fuel` nodes. -/
def retiredPointersFrom {N : Type} (m : Mem N) : Nat → Nat → List Nat
  | 0, _ => []
  | fuel + 1, a =>
    match m.rnode a with
    | none => []
    | some n => n.pointer :: retiredPointersFrom m fuel n.next

/-- Some slot `pointer[j]` with `j < _num_threads` holds the address `p`. -/
def protectedBy {N : Type} (s : HPState N) (p : Nat) : Bool :=
  (List.range s._num_threads.toNat).any fun j => decide (s.hp.pointer j = p)

/-- `Seg nx a l b`: following the successor function `nx` from the address `a`
visits exactly the addresses of `l`, in this order, and then arrives at `b`. -/
def Seg (nx : Nat → Option Nat) : Nat → List Nat → Nat → Prop
  | a, [], b => a = b
  | a, x :: l, b => a = x ∧ a ≠ 0 ∧ ∃ n, nx a = some n ∧ Seg nx n l b

/-- A null-terminated linked list starting at `a` whose nodes live at `l`. -/
def Chain (nx : Nat → Option Nat) (a : Nat) (l : List Nat) : Prop := Seg nx a l 0

/-- The `next` field of the retired-list node at `a`. -/
def rnext {N : Type} (m : Mem N) (a : Nat) : Option Nat :=
  match m.rnode a with
  | none => none
  | some n => some n.next

/-- The retired list of thread `t` is a well-formed list whose nodes live at
the addresses `l`: `head` starts a null-terminated chain through `l`, `tail`
is the last node (null when there is none) and `size` is the number of nodes. -/
structure RetiredList {N : Type} (s : HPState N) (t : Nat) (l : List Nat) : Prop where
  chain : Chain (rnext s.mem) (s.hp.retired_ptrs t).head l
  tail_eq : (s.hp.retired_ptrs t).tail = l.getLast?.getD 0
  size_eq : (s.hp.retired_ptrs t).size = l.length

/-- No node of the list `l` has a retired pointer that is the address of a
node of `l`, and every node of `l` was handed out by `malloc` (lies below
`brk`): the retired pointers are objects of the user, not list nodes. -/
def RetiredSeparate {N : Type} (s : HPState N) (l : List Nat) : Prop :=
  (∀ a, a ∈ l → a < s.mem.brk)
    ∧ ∀ a, a ∈ l → ∀ n, s.mem.rnode a = some n → n.pointer ∉ l

/-- The state `s'` differs from `s` at most in the heap and in the retired list
of thread `t`. -/
structure SameSlots {N : Type} (s s' : HPState N) (t : Nat) : Prop where
  pointer : s'.hp.pointer = s.hp.pointer
  others : ∀ i, i ≠ t → s'.hp.retired_ptrs i = s.hp.retired_ptrs i
  thread_id : s'._thread_id = s._thread_id
  num_threads : s'._num_threads = s._num_threads

/-- The `next` field of the queue node at `a`, read through the accessor `nx`. -/
def nodeNext {N : Type} (nx : N → Nat) (m : Mem N) (a : Nat) : Option Nat :=
  match m.qnode a with
  | none => none
  | some n => some (nx n)

/-- The ring of node `n` holds exactly the values `vs`, oldest first, starting at
cell `i = pop_idx`; `push_idx` is `vs.length` cells further (modulo
`RING_SIZE`) and `free_slots` counts the other cells. -/
structure RingAt (RING_SIZE : Nat) (n : RingsQueueNode) (i : Nat) (vs : List Value) : Prop where
  lt : i < RING_SIZE
  pop : n.pop_idx = (i : Int)
  push : n.push_idx = (((i + vs.length) % RING_SIZE : Nat) : Int)
  free : n.free_slots = (RING_SIZE : Int) - (vs.length : Int)
  len : vs.length ≤ RING_SIZE
  cells : ∀ k v, vs[k]? = some v → n.buffer ((i + k) % RING_SIZE) = some v

/-- The heap of `q` represents the nodes `cs`, given from head to tail as pairs
of an address and the values waiting in that node's ring. -/
structure RingsRep (RING_SIZE : Nat) (q : RingsQueue) (cs : List (Nat × List Value)) : Prop where
  chain : Chain (nodeNext RingsQueueNode.next q.mem) q.head (cs.map Prod.fst)
  tail : (cs.map Prod.fst).getLast? = some q.tail
  nodes : ∀ a vs, (a, vs) ∈ cs → ∃ n i, q.mem.qnode a = some n ∧ RingAt RING_SIZE n i vs
  only_head_empty : ∀ a vs, (a, vs) ∈ cs → vs = [] → a = q.head
  fresh : ∀ a vs, (a, vs) ∈ cs → a < q.mem.brk
  brk_pos : q.mem.brk ≠ 0

/-- The queue `q` holds the values `vals`, oldest first. -/
def RingsInv (RING_SIZE : Nat) (q : RingsQueue) (vals : List Value) : Prop :=
  ∃ cs, RingsRep RING_SIZE q cs ∧ vals = (cs.map Prod.snd).flatten

/-- The retired list of the running thread, with nodes at `l`, as the queues
leave it: well formed, at most `RETIRED_THRESHOLD` long, made of allocated list
nodes whose retired pointers are neither list nodes nor among the live queue
nodes `live`; and the slots of all other threads are null. -/
structure RetiredOK {N : Type} (hs : HPState N) (live l : List Nat) : Prop where
  reg : Registered hs
  slots : ∀ j, j < MAX_THREADS → j ≠ hs._thread_id.toNat → hs.hp.pointer j = 0
  rlist : RetiredList hs hs._thread_id.toNat l
  rsize : l.length ≤ 128
  rfresh : ∀ a, a ∈ l → a < hs.mem.brk
  dead : ∀ a, a ∈ l → ∀ m, hs.mem.rnode a = some m →
    m.pointer ∉ l ∧ m.pointer ∉ live ∧ m.pointer < hs.mem.brk
  brk_pos : hs.mem.brk ≠ 0

/-- The heap of `q` represents the nodes `cs`, given from head to tail as pairs
of an address and the item stored there; only the head node may hold
`EMPTY_VALUE`; `l` are the nodes of the running thread's retired list. -/
structure LLRep (EMPTY_VALUE : Value) (q : LLQueue) (cs : List (Nat × Value)) (l : List Nat) :
    Prop where
  chain : Chain (nodeNext LLNode.next q.hs.mem) q.head (cs.map Prod.fst)
  tail : (cs.map Prod.fst).getLast? = some q.tail
  nodes : ∀ a v, (a, v) ∈ cs → ∃ n, q.hs.mem.qnode a = some n ∧ n.item = v
  only_head_empty : ∀ a v, (a, v) ∈ cs → v = EMPTY_VALUE → a = q.head
  fresh : ∀ a v, (a, v) ∈ cs → a < q.hs.mem.brk
  retired : RetiredOK q.hs (cs.map Prod.fst) l

/-- The queue `q` holds the values `vals`, oldest first. -/
def LLInv (EMPTY_VALUE : Value) (q : LLQueue) (vals : List Value) : Prop :=
  ∃ cs l, LLRep EMPTY_VALUE q cs l
    ∧ vals = (cs.map Prod.snd).filter fun v => decide (v ≠ EMPTY_VALUE)

/-- The state `hs2` is `hs` after the running thread has written `head` into its
slot and has possibly rewritten the queue node at `head`, which is now `n'`. -/
structure HeadTouched {N : Type} (hs : HPState N) (head : Nat) (hs2 : HPState N) (n' : N) :
    Prop where
  hp : hs2.hp = hs.hp.setPointer hs._thread_id.toNat head
  thread_id : hs2._thread_id = hs._thread_id
  num_threads : hs2._num_threads = hs._num_threads
  brk : hs2.mem.brk = hs.mem.brk
  node : hs2.mem.qnode head = some n'
  obj : ∀ a, a ≠ head → hs2.mem.obj a = hs.mem.obj a

/-- The values that the `pop` calls of a reference run returned, in order. -/
def poppedValues : List RefRet → List Value
  | [] => []
  | .popped (some v) :: rs => v :: poppedValues rs
  | _ :: rs => poppedValues rs

/-- The head node of `q` has no successor, its `pop_idx` is `p`, and every cell
of its buffer holds `TAKEN_VALUE`: the queue is empty and the node used up. -/
structure BLStuck (BUFFER_SIZE : Nat) (TAKEN_VALUE : Value) (q : BLQueue) (p : Int) : Prop where
  reg : Registered q.hs
  head_ne : q.head ≠ 0
  node : ∃ n, q.hs.mem.qnode q.head = some n ∧ n.next = 0 ∧ n.pop_idx = p
    ∧ ∀ i, i < BUFFER_SIZE → n.buffer i = TAKEN_VALUE

/-- The head node of `q` has no successor, its `pop_idx` is `k`, the cells below
`k` hold `TAKEN_VALUE` and the cells from `k` on still hold `EMPTY_VALUE`. -/
structure BLFresh (BUFFER_SIZE : Nat) (EMPTY_VALUE TAKEN_VALUE : Value) (q : BLQueue) (k : Nat) :
    Prop where
  reg : Registered q.hs
  head_ne : q.head ≠ 0
  node : ∃ n, q.hs.mem.qnode q.head = some n ∧ n.next = 0 ∧ n.pop_idx = (k : Int)
    ∧ (∀ i, i < k → n.buffer i = TAKEN_VALUE)
    ∧ (∀ i, k ≤ i → i < BUFFER_SIZE → n.buffer i = EMPTY_VALUE)

/-- The hazard-pointer structure before `HazardPointer_initialize`, as used in
the concrete sessions below. -/
def hp0 : HazardPointer :=
  { pointer := fun _ => 0, retired_ptrs := fun _ => { head := 0, tail := 0, size := 0 } }

/-- The cells of the node `n`, with `pop_idx = po` and the pushes at position
`pu` (`push_idx`, taken as `BUFFER_SIZE` once the node has a successor): the
values `vs` wait in the cells from `po` up to `pu`, the cells from `pu` up to
`po` were taken while empty, and the cells above both still hold `EMPTY_VALUE`. -/
structure BLCells (BUFFER_SIZE : Nat) (EMPTY_VALUE TAKEN_VALUE : Value) (n : BLNode)
    (po pu : Nat) (vs : List Value) : Prop where
  pop : n.pop_idx = (po : Int)
  push : n.next = 0 → n.push_idx = (pu : Int)
  push_nonneg : 0 ≤ n.push_idx
  full : n.next ≠ 0 → pu = BUFFER_SIZE
  pu_le : pu ≤ BUFFER_SIZE
  len : vs.length = pu - po
  vals : ∀ j v, vs[j]? = some v → n.buffer (po + j) = v ∧ v ≠ EMPTY_VALUE ∧ v ≠ TAKEN_VALUE
  taken : ∀ i, pu ≤ i → i < po → i < BUFFER_SIZE → n.buffer i = TAKEN_VALUE
  empty : ∀ i, pu ≤ i → po ≤ i → i < BUFFER_SIZE → n.buffer i = EMPTY_VALUE

/-- The heap of `q` represents the nodes `cs`, given from head to tail as pairs
of an address and the values waiting in that node; only the head node may
hold none; no `pop_idx` exceeds `BUFFER_SIZE + 1 + c`; `l` are the nodes of the
running thread's retired list. -/
structure BLRep (BUFFER_SIZE : Nat) (EMPTY_VALUE TAKEN_VALUE : Value) (q : BLQueue)
    (cs : List (Nat × List Value)) (l : List Nat) (c : Nat) : Prop where
  chain : Chain (nodeNext BLNode.next q.hs.mem) q.head (cs.map Prod.fst)
  tail : (cs.map Prod.fst).getLast? = some q.tail
  nodes : ∀ a vs, (a, vs) ∈ cs → ∃ n po pu, q.hs.mem.qnode a = some n
    ∧ BLCells BUFFER_SIZE EMPTY_VALUE TAKEN_VALUE n po pu vs ∧ po ≤ BUFFER_SIZE + 1 + c
  only_head_empty : ∀ a vs, (a, vs) ∈ cs → vs = [] → a = q.head
  fresh : ∀ a vs, (a, vs) ∈ cs → a < q.hs.mem.brk
  retired : RetiredOK q.hs (cs.map Prod.fst) l

/-- The queue `q` holds the values `vals`, oldest first, and no `pop_idx` exceeds
`BUFFER_SIZE + 1 + c`. -/
def BLInv (BUFFER_SIZE : Nat) (EMPTY_VALUE TAKEN_VALUE : Value) (q : BLQueue)
    (vals : List Value) (c : Nat) : Prop :=
  ∃ cs l, BLRep BUFFER_SIZE EMPTY_VALUE TAKEN_VALUE q cs l c ∧ vals = (cs.map Prod.snd).flatten

/-- `getValue` behind a check of the condition under which its callers mean to
apply it: the node holds a value, `0 ≤ free_slots < RING_SIZE`.  The check is not
in the source; it is there to state that it never fails. -/
def getValue_checked (RING_SIZE : Nat) (m : Mem RingsQueueNode) (node : Nat) :
    Except Fault (Value × Mem RingsQueueNode) :=
  match m.qnode node with
  | none => .error .invalid_access
  | some n =>
    if 0 ≤ n.free_slots ∧ n.free_slots < RING_SIZE then getValue RING_SIZE m node
    else .error .assertion_failed

/-- `pushValue` behind a check of the condition under which its caller means to
apply it: the node has a free slot, `0 < free_slots ≤ RING_SIZE`. -/
def pushValue_checked (RING_SIZE : Nat) (m : Mem RingsQueueNode) (node : Nat) (val : Value) :
    Except Fault (Mem RingsQueueNode) :=
  match m.qnode node with
  | none => .error .invalid_access
  | some n =>
    if 0 < n.free_slots ∧ n.free_slots ≤ RING_SIZE then pushValue RING_SIZE m node val
    else .error .assertion_failed

/-- `RingsQueue_push` with the checked `pushValue`. -/
def RingsQueue_push_checked (RING_SIZE : Nat) (q : RingsQueue) (item : Value) :
    Except Fault RingsQueue :=
  match q.mem.qnode q.tail with
  | none => .error .invalid_access
  | some tl =>
    if tl.free_slots > 0 then
      match pushValue_checked RING_SIZE q.mem q.tail item with
      | .error e => .error e
      | .ok m => .ok { q with mem := m }
    else
      match RingsQueueNode_new_with_value RING_SIZE q.mem item with
      | .error e => .error e
      | .ok (new_tail, m1) =>
        match m1.qnode q.tail with
        | none => .error .invalid_access
        | some tl1 =>
          .ok { q with
                mem := m1.store q.tail (Obj.qnode { tl1 with next := new_tail })
                tail := new_tail }

/-- `RingsQueue_pop` with the checked `getValue`. -/
def RingsQueue_pop_checked (RING_SIZE : Nat) (EMPTY_VALUE : Value) (q : RingsQueue) :
    Except Fault (Value × RingsQueue) :=
  match q.mem.qnode q.head with
  | none => .error .invalid_access
  | some head =>
    if head.next ≠ 0 ∧ head.free_slots = RING_SIZE then
      let new_head := head.next
      let m1 := free q.mem q.head
      match getValue_checked RING_SIZE m1 new_head with
      | .error e => .error e
      | .ok (val, m2) => .ok (val, { q with mem := m2, head := new_head })
    else if head.free_slots < RING_SIZE then
      match getValue_checked RING_SIZE q.mem q.head with
      | .error e => .error e
      | .ok (val, m2) => .ok (val, { q with mem := m2 })
    else .ok (EMPTY_VALUE, q)

/-- One call on a `RingsQueue`, with the checks. -/
def RingsQueue_step_checked (RING_SIZE : Nat) (EMPTY_VALUE : Value) (q : RingsQueue) :
    Op → Except Fault (Ret × RingsQueue)
  | .push v =>
    match RingsQueue_push_checked RING_SIZE q v with
    | .error e => .error e
    | .ok q1 => .ok (.unit, q1)
  | .pop =>
    match RingsQueue_pop_checked RING_SIZE EMPTY_VALUE q with
    | .error e => .error e
    | .ok (v, q1) => .ok (.value v, q1)
  | .is_empty =>
    match RingsQueue_is_empty RING_SIZE q with
    | .error e => .error e
    | .ok b => .ok (.bool b, q)

/-- A sequence of calls on a `RingsQueue`, with the checks. -/
def RingsQueue_run_checked (RING_SIZE : Nat) (EMPTY_VALUE : Value) :
    RingsQueue → List Op → Except Fault (List Ret × RingsQueue)
  | q, [] => .ok ([], q)
  | q, op :: ops =>
    match RingsQueue_step_checked RING_SIZE EMPTY_VALUE q op with
    | .error e => .error e
    | .ok (r, q1) =>
      match RingsQueue_run_checked RING_SIZE EMPTY_VALUE q1 ops with
      | .error e => .error e
      | .ok (rs, q2) => .ok (r :: rs, q2)

/-- The calls on a fresh queue from `RingsQueue_new`, with the checks. -/
def RingsQueue_session_checked (RING_SIZE : Nat) (EMPTY_VALUE : Value) (ops : List Op) :
    Except Fault (List Ret × RingsQueue) :=
  match RingsQueue_new RING_SIZE with
  | .error e => .error e
  | .ok q => RingsQueue_run_checked RING_SIZE EMPTY_VALUE q ops

/-- The calls of a thread that pushes the value `v` `n` times and then pops `n`
times. -/
def pushThenPop (n : Nat) (v : Value) : List Op :=
  List.replicate n (.push v) ++ List.replicate n .pop

/-! ## SimpleQueue.c -/

/-- The `struct SimpleQueueNode`. -/
structure SimpleQueueNode where
  next : Nat
  item : Value

/-- The `struct SimpleQueue` (the two mutexes play no role with one thread) and
the heap it lives in. -/
structure SimpleQueue where
  mem : Mem SimpleQueueNode
  head : Nat
  tail : Nat

/-- `SimpleQueueNode_new`. -/
def SimpleQueueNode_new (m : Mem SimpleQueueNode) (item : Value) :
    Except Fault (Nat × Mem SimpleQueueNode) :=
  let (node, m1) := malloc m
  if node = 0 then .error .assertion_failed
  else .ok (node, m1.store node (Obj.qnode { next := 0, item := item }))

/-- `SimpleQueue_new`, on an empty heap: the queue starts with a sentinel node
that holds `EMPTY_VALUE`. -/
def SimpleQueue_new (EMPTY_VALUE : Value) : Except Fault SimpleQueue :=
  match SimpleQueueNode_new { obj := fun _ => none, brk := 1 } EMPTY_VALUE with
  | .error e => .error e
  | .ok (node, m) => .ok { mem := m, head := node, tail := node }

/-- `SimpleQueue_push`. -/
def SimpleQueue_push (q : SimpleQueue) (item : Value) : Except Fault SimpleQueue :=
  match SimpleQueueNode_new q.mem item with
  | .error e => .error e
  | .ok (new_node, m1) =>
    match m1.qnode q.tail with
    | none => .error .invalid_access
    | some tl =>
      .ok { mem := m1.store q.tail (Obj.qnode { tl with next := new_node })
            head := q.head
            tail := new_node }

/-- `SimpleQueue_pop`. -/
def SimpleQueue_pop (EMPTY_VALUE : Value) (q : SimpleQueue) : Except Fault (Value × SimpleQueue) :=
  let old_head := q.head
  match q.mem.qnode old_head with
  | none => .error .invalid_access
  | some oh =>
    let new_head := oh.next
    if new_head = 0 then .ok (EMPTY_VALUE, q)
    else
      match q.mem.qnode new_head with
      | none => .error .invalid_access
      | some nh =>
        let val := nh.item
        .ok (val, { mem := free q.mem old_head, head := new_head, tail := q.tail })

/-- `SimpleQueue_is_empty`. -/
def SimpleQueue_is_empty (q : SimpleQueue) : Except Fault Bool :=
  match q.mem.qnode q.head with
  | none => .error .invalid_access
  | some h => .ok (decide (h.next = 0))

/-- One call on a `SimpleQueue`. -/
def SimpleQueue_step (EMPTY_VALUE : Value) (q : SimpleQueue) : Op → Except Fault (Ret × SimpleQueue)
  | .push v =>
    match SimpleQueue_push q v with
    | .error e => .error e
    | .ok q1 => .ok (.unit, q1)
  | .pop =>
    match SimpleQueue_pop EMPTY_VALUE q with
    | .error e => .error e
    | .ok (v, q1) => .ok (.value v, q1)
  | .is_empty =>
    match SimpleQueue_is_empty q with
    | .error e => .error e
    | .ok b => .ok (.bool b, q)

/-- A sequence of calls on a `SimpleQueue`, one after another. -/
def SimpleQueue_run (EMPTY_VALUE : Value) :
    SimpleQueue → List Op → Except Fault (List Ret × SimpleQueue)
  | q, [] => .ok ([], q)
  | q, op :: ops =>
    match SimpleQueue_step EMPTY_VALUE q op with
    | .error e => .error e
    | .ok (r, q1) =>
      match SimpleQueue_run EMPTY_VALUE q1 ops with
      | .error e => .error e
      | .ok (rs, q2) => .ok (r :: rs, q2)

/-- The calls on a fresh queue from `SimpleQueue_new`. -/
def SimpleQueue_session (EMPTY_VALUE : Value) (ops : List Op) :
    Except Fault (List Ret × SimpleQueue) :=
  match SimpleQueue_new EMPTY_VALUE with
  | .error e => .error e
  | .ok q => SimpleQueue_run EMPTY_VALUE q ops

/-- The heap of `q` represents the nodes `cs`, given from head to tail as pairs
of an address and the item stored there; the first of them is the sentinel. -/
structure SimpleRep (q : SimpleQueue) (cs : List (Nat × Value)) : Prop where
  chain : Chain (nodeNext SimpleQueueNode.next q.mem) q.head (cs.map Prod.fst)
  tail : (cs.map Prod.fst).getLast? = some q.tail
  nodes : ∀ a v, (a, v) ∈ cs → ∃ n, q.mem.qnode a = some n ∧ n.item = v
  fresh : ∀ a v, (a, v) ∈ cs → a < q.mem.brk
  brk_pos : q.mem.brk ≠ 0

/-- The queue `q` holds the values `vals`, oldest first: the items of the nodes
after the sentinel. -/
def SimpleInv (q : SimpleQueue) (vals : List Value) : Prop :=
  ∃ cs, SimpleRep q cs ∧ vals = (cs.map Prod.snd).tail

/-- What a `BLQueue_push` of `item` may do to a node: `pop_idx` stays, `push_idx`
does not decrease, and a cell either stays or receives `item` in place of
`EMPTY_VALUE` or of `TAKEN_VALUE`. -/
def PushedNode (EMPTY_VALUE TAKEN_VALUE item : Value) (n n' : BLNode) : Prop :=
  n'.pop_idx = n.pop_idx ∧ n.push_idx ≤ n'.push_idx
    ∧ ∀ i, n'.buffer i = n.buffer i
        ∨ (n'.buffer i = item ∧ (n.buffer i = EMPTY_VALUE ∨ n.buffer i = TAKEN_VALUE))

/-- What a `BLQueue_pop` may do to a node: `push_idx`
stays, `pop_idx` does not decrease, and a cell either stays or becomes
`TAKEN_VALUE`. -/
def PoppedNode (TAKEN_VALUE : Value) (n n' : BLNode) : Prop :=
  n'.push_idx = n.push_idx ∧ n.pop_idx ≤ n'.pop_idx
    ∧ ∀ i, n'.buffer i = n.buffer i ∨ n'.buffer i = TAKEN_VALUE

/-- What one call may do to a node of the queue. -/
def nodeMove (EMPTY_VALUE TAKEN_VALUE : Value) : Op → BLNode → BLNode → Prop
  | .push item, n, n' => PushedNode EMPTY_VALUE TAKEN_VALUE item n n'
  | .pop, n, n' => PoppedNode TAKEN_VALUE n n'
  | .is_empty, n, n' => n' = n

/-- The ways in which one call may change a buffer cell from `old` to `new`: not at
all; a push puts its item where `EMPTY_VALUE` or `TAKEN_VALUE` was; a pop puts
`TAKEN_VALUE` where a value or `EMPTY_VALUE` was. -/
def cellMove (EMPTY_VALUE TAKEN_VALUE : Value) (op : Op) (old new : Value) : Prop :=
  new = old ∨
    match op with
    | .push item => new = item ∧ (old = EMPTY_VALUE ∨ old = TAKEN_VALUE)
    | .pop => new = TAKEN_VALUE ∧ old ≠ TAKEN_VALUE
    | .is_empty => False

/-- The content of cell `i` of the queue node at address `a` after a run, if the
run returned and the node exists. -/
def cellAt (r : Except Fault (List Ret × BLQueue)) (a i : Nat) : Option Value :=
  match r with
  | .error _ => none
  | .ok (_, q) => (q.hs.mem.qnode a).map fun n => n.buffer i

/-- The retired list of thread `t` is well formed: with `l` the nodes reachable from `head`
through `next` up to the null pointer, `size` is the number of these nodes, `head` is null
iff `tail` is null iff `size` is 0, and when there is a node, `tail` is the last one
reachable from `head` and its `next` is null. -/
def RetiredWellFormed {N : Type} (s : HPState N) (t : Nat) : Prop :=
  ∃ l, Chain (rnext s.mem) (s.hp.retired_ptrs t).head l
    ∧ (s.hp.retired_ptrs t).size = (l.length : Int)
    ∧ ((s.hp.retired_ptrs t).head = 0 ↔ (s.hp.retired_ptrs t).tail = 0)
    ∧ ((s.hp.retired_ptrs t).tail = 0 ↔ (s.hp.retired_ptrs t).size = 0)
    ∧ (l ≠ [] → l.getLast? = some (s.hp.retired_ptrs t).tail
        ∧ rnext s.mem (s.hp.retired_ptrs t).tail = some 0)

/-- The `pop_idx` of the head node after a run, if the run returned and the node
exists. -/
def headPopIdx (r : Except Fault (List Ret × BLQueue)) : Option Int :=
  match r with
  | .error _ => none
  | .ok (_, q) => (q.hs.mem.qnode q.head).map fun n => n.pop_idx

/-- The pointer held by the last node of the running thread's retired list: the pointer
that the most recent `HazardPointer_retire` of this thread was given. -/
def lastRetiredOf {N : Type} (s : HPState N) : Option Nat :=
  match arrayIndex s._thread_id with
  | none => none
  | some t => (s.mem.rnode (s.hp.retired_ptrs t).tail).map fun n => n.pointer

/-- The pointer last retired, after a run on a `BLQueue`. -/
def lastRetired (r : Except Fault (List Ret × BLQueue)) : Option Nat :=
  match r with
  | .error _ => none
  | .ok (_, q) => lastRetiredOf q.hs

/-- What every state of a `BLQueue` reached by sequential calls satisfies, whatever the
values of the `pop_idx` counters: the nodes at `as` form the chain from `head` to `tail`,
every cell of the tail node from `push_idx` on holds `EMPTY_VALUE` or `TAKEN_VALUE` (no
push has written there yet), the nodes lie below the allocation frontier, and `l` are the
nodes of the running thread's retired list. -/
structure BLWeak (BUFFER_SIZE : Nat) (EMPTY_VALUE TAKEN_VALUE : Value) (q : BLQueue)
    (as l : List Nat) : Prop where
  chain : Chain (nodeNext BLNode.next q.hs.mem) q.head as
  tail : as.getLast? = some q.tail
  cells : ∀ n, q.hs.mem.qnode q.tail = some n → ∀ i, i < BUFFER_SIZE → n.push_idx ≤ (i : Int) →
    n.buffer i = EMPTY_VALUE ∨ n.buffer i = TAKEN_VALUE
  fresh : ∀ a, a ∈ as → a < q.hs.mem.brk
  retired : RetiredOK q.hs as l

/-- The cells of `n'` are those of `n`, but for cells that now hold `TAKEN_VALUE`: what
pops do to a node. -/
def TakenCells (TAKEN_VALUE : Value) (n n' : BLNode) : Prop :=
  ∀ i, n'.buffer i = n.buffer i ∨ n'.buffer i = TAKEN_VALUE

/-- The cells of `n'` are those of `n`, but for cells that held `EMPTY_VALUE` or
`TAKEN_VALUE` and now hold `item`: what a push of `item` does to a node. -/
def PutCells (EMPTY_VALUE TAKEN_VALUE item : Value) (n n' : BLNode) : Prop :=
  ∀ i, n'.buffer i = n.buffer i
    ∨ (n'.buffer i = item ∧ (n.buffer i = EMPTY_VALUE ∨ n.buffer i = TAKEN_VALUE))

/-- A state for the scan: thread 0 of 2 has retired the queue node at address
`1`, its list node lives at address `2`, and `slot1` is what thread 1 protects. -/
def scanState (slot1 : Nat) : HPState LLNode :=
  { mem :=
      { obj := fun a =>
          if a = 1 then some (Obj.qnode { next := 0, item := 5 })
          else if a = 2 then some (Obj.rnode { pointer := 1, next := 0 })
          else none
        brk := 3 }
    hp :=
      { pointer := fun i => if i = 1 then slot1 else 0
        retired_ptrs := fun i =>
          if i = 0 then { head := 2, tail := 2, size := 1 } else { head := 0, tail := 0, size := 0 } }
    _thread_id := 0
    _num_threads := 2 }

/-- What a scan leaves behind: the retired pointers still on thread 0's list
and whether the cell at address `1` is still allocated. -/
def scanOutcome (r : Except Fault (HPState LLNode)) : Option (List Nat × Bool) :=
  match r with
  | .error _ => none
  | .ok s => some (retiredPointersFrom s.mem 4 (s.hp.retired_ptrs 0).head, (s.mem.obj 1).isSome)


/-! # Proofs -/

/-! ## HazardPointer.c -/

theorem arrayIndex_of_registered {N : Type} (s : HPState N) (h : Registered s) :
    arrayIndex s._thread_id = some s._thread_id.toNat ∧ s._thread_id.toNat < MAX_THREADS := by
  obtain ⟨h0, h1, h2⟩ := h
  have hlt : s._thread_id < (MAX_THREADS : Int) := lt_of_lt_of_le h1 h2
  refine ⟨by simp [arrayIndex, h0, hlt], ?_⟩
  have := Int.toNat_of_nonneg h0
  omega

theorem HazardPointer_protect_loop_succ {N : Type} (atom : Nat) (fuel : Nat) (s : HPState N)
    (t : Nat) (ht : arrayIndex s._thread_id = some t) :
    HazardPointer_protect_loop atom (fuel + 1) s
      = .ok { s with hp := s.hp.setPointer t atom } := by
  simp [HazardPointer_protect_loop, ht, HazardPointer.setPointer]

theorem HazardPointer_protect_succ {N : Type} (atom : Nat) (fuel : Nat) (s : HPState N)
    (t : Nat) (ht : arrayIndex s._thread_id = some t) :
    HazardPointer_protect (fuel + 1) s atom
      = .ok ({ s with hp := s.hp.setPointer t atom }, atom) := by
  simp [HazardPointer_protect, HazardPointer_protect_loop_succ atom fuel s t ht, ht,
    HazardPointer.setPointer]

/-- C1 (the code at the failing input): thread 1 protects the retired pointer `1`,
yet the scan of thread 0 drops it from the list and frees the cell, because
`can_free_node` is asked about the address `2` of the list node. -/
theorem clean_retired_list_frees_protected :
    protectedBy (scanState 1) 1 = true
      ∧ retiredPointersFrom (scanState 1).mem 4 ((scanState 1).hp.retired_ptrs 0).head = [1]
      ∧ scanOutcome (clean_retired_list 2 (scanState 1)) = some ([], false) := by
  decide

/-- C5 (the code at the failing input): no slot holds the retired pointer `1`, yet
the scan of thread 0 keeps it on the list, because thread 1 protects the
address `2` at which the list node itself lives. -/
theorem clean_retired_list_keeps_unprotected :
    protectedBy (scanState 2) 1 = false
      ∧ scanOutcome (clean_retired_list 2 (scanState 2)) = some ([1], true) := by
  decide

/-- C7: in a state whose protected entries are all null, `HazardPointer_protect`
followed at once by `HazardPointer_clear`, by a registered thread, both return
and leave the protected array as it was, all null. -/
theorem HazardPointer_protect_clear_roundtrip {N : Type} (s : HPState N) (fuel : Nat)
    (slot : Nat) (hreg : Registered s) (hnull : ∀ i, i < MAX_THREADS → s.hp.pointer i = 0) :
    ∃ s1 s2, HazardPointer_protect (fuel + 1) s slot = .ok (s1, slot)
      ∧ HazardPointer_clear s1 = .ok s2
      ∧ s2.hp.pointer = s.hp.pointer
      ∧ ∀ i, i < MAX_THREADS → s2.hp.pointer i = 0 := by
  obtain ⟨ht, hlt⟩ := arrayIndex_of_registered s hreg
  have hp : s.hp.pointer s._thread_id.toNat = 0 := hnull _ hlt
  have hfun : (fun i => if i = s._thread_id.toNat then 0
      else if i = s._thread_id.toNat then slot else s.hp.pointer i) = s.hp.pointer := by
    funext i
    by_cases hi : i = s._thread_id.toNat
    · simp [hi, hp]
    · simp [hi]
  have h1 := HazardPointer_protect_succ slot fuel s _ ht
  have h2 : HazardPointer_clear
      ({ s with hp := s.hp.setPointer s._thread_id.toNat slot } : HPState N)
      = .ok { s with
              hp := ((s.hp.setPointer s._thread_id.toNat slot).setPointer s._thread_id.toNat 0) } := by
    simp [HazardPointer_clear, ht]
  refine ⟨_, _, h1, h2, ?_, ?_⟩
  · simpa [HazardPointer.setPointer] using hfun
  · intro i hi
    simp only [HazardPointer.setPointer]
    rw [congrFun hfun i]
    exact hnull i hi

/-- C7 at a concrete input: thread 3 of 4 protects the pointer `9` and clears. -/
theorem HazardPointer_protect_clear_roundtrip_witness :
    ∃ s1 s2,
      HazardPointer_protect 1
          (HazardPointer_register
            { boot LLNode ⟨fun _ => 7, fun _ => ⟨0, 0, 0⟩⟩ with
              hp := HazardPointer_initialize ⟨fun _ => 7, fun _ => ⟨0, 0, 0⟩⟩ } 3 4) 9
        = .ok (s1, 9)
      ∧ HazardPointer_clear s1 = .ok s2
      ∧ s2.hp.pointer = ( HazardPointer_initialize ⟨fun _ => 7, fun _ => ⟨0, 0, 0⟩⟩).pointer
      ∧ ∀ i, i < MAX_THREADS → s2.hp.pointer i = 0 :=
  HazardPointer_protect_clear_roundtrip
    (HazardPointer_register
      { boot LLNode ⟨fun _ => 7, fun _ => ⟨0, 0, 0⟩⟩ with
        hp := HazardPointer_initialize ⟨fun _ => 7, fun _ => ⟨0, 0, 0⟩⟩ } 3 4) 0 9
    (by simp [Registered, HazardPointer_register, MAX_THREADS])
    (by intro i hi; simp [HazardPointer_register, HazardPointer_initialize, hi])

/-! ## Linked lists in the heap -/

theorem Seg_congr {nx nx' : Nat → Option Nat} :
    ∀ (l : List Nat) (a b : Nat), (∀ x, x ∈ l → nx' x = nx x) → Seg nx a l b → Seg nx' a l b
  | [], _, _, _, h => h
  | x :: l, a, b, hag, h => by
    obtain ⟨h1, h2, n, h3, h4⟩ := h
    refine ⟨h1, h2, n, ?_, Seg_congr l n b (fun y hy => hag y (List.mem_cons_of_mem _ hy)) h4⟩
    rw [hag a (by simp [h1])]
    exact h3

theorem Seg_append {nx : Nat → Option Nat} :
    ∀ (l1 l2 : List Nat) (a b c : Nat), Seg nx a l1 b → Seg nx b l2 c → Seg nx a (l1 ++ l2) c
  | [], _, _, _, _, h1, h2 => by
    simp only [Seg] at h1
    subst h1
    simpa using h2
  | x :: l1, l2, a, b, c, h1, h2 => by
    obtain ⟨e, hne, n, hn, hs⟩ := h1
    exact ⟨e, hne, n, hn, Seg_append l1 l2 n b c hs h2⟩

theorem Seg_append_inv {nx : Nat → Option Nat} :
    ∀ (l1 l2 : List Nat) (a c : Nat), Seg nx a (l1 ++ l2) c → ∃ b, Seg nx a l1 b ∧ Seg nx b l2 c
  | [], _, a, _, h => ⟨a, rfl, by simpa using h⟩
  | x :: l1, l2, a, c, h => by
    obtain ⟨e, hne, n, hn, hs⟩ := h
    obtain ⟨b, hb1, hb2⟩ := Seg_append_inv l1 l2 n c hs
    exact ⟨b, ⟨e, hne, n, hn, hb1⟩, hb2⟩

theorem Seg_snoc {nx : Nat → Option Nat} (l : List Nat) (a x c : Nat) :
    Seg nx a (l ++ [x]) c ↔ Seg nx a l x ∧ x ≠ 0 ∧ nx x = some c := by
  constructor
  · intro h
    obtain ⟨b, hb1, hb2⟩ := Seg_append_inv l [x] a c h
    obtain ⟨e, hne, n, hn, hs⟩ := hb2
    simp only [Seg] at hs
    subst e
    subst hs
    exact ⟨hb1, hne, hn⟩
  · rintro ⟨h1, h2, h3⟩
    exact Seg_append l [x] a x c h1 ⟨rfl, h2, c, h3, rfl⟩

theorem Chain_unique {nx : Nat → Option Nat} :
    ∀ (l l' : List Nat) (a : Nat), Chain nx a l → Chain nx a l' → l = l'
  | [], [], _, _, _ => rfl
  | [], y :: l', a, h, h' => by
    simp only [Chain, Seg] at h
    exact absurd h h'.2.1
  | x :: l, [], a, h, h' => by
    simp only [Chain, Seg] at h'
    exact absurd h' h.2.1
  | x :: l, y :: l', a, h, h' => by
    obtain ⟨e, _, n, hn, hs⟩ := h
    obtain ⟨e', _, n', hn', hs'⟩ := h'
    rw [hn] at hn'
    cases hn'
    rw [← e, ← e', Chain_unique l l' n hs hs']

theorem Chain_nodup {nx : Nat → Option Nat} :
    ∀ (l : List Nat) (a : Nat), Chain nx a l → l.Nodup
  | [], _, _ => List.nodup_nil
  | x :: l, a, h => by
    have h0 := h
    obtain ⟨e, hne, n, hn, hs⟩ := h
    refine List.nodup_cons.mpr ⟨?_, Chain_nodup l n hs⟩
    intro hx
    obtain ⟨l1, l2, hl⟩ := List.append_of_mem hx
    rw [hl] at hs
    obtain ⟨b, _, hb2⟩ := Seg_append_inv l1 (x :: l2) n 0 hs
    have hbx : b = x := hb2.1
    rw [hbx, ← e] at hb2
    have := Chain_unique _ _ a h0 hb2
    have hlen := congrArg List.length this
    rw [hl] at hlen
    simp at hlen
    omega

theorem Seg_getLast {nx : Nat → Option Nat} (l : List Nat) (a x c : Nat)
    (h : Seg nx a (l ++ [x]) c) : nx x = some c := ((Seg_snoc l a x c).mp h).2.2

theorem Seg_mem_ne_zero {nx : Nat → Option Nat} :
    ∀ (l : List Nat) (a b : Nat), Seg nx a l b → ∀ x, x ∈ l → x ≠ 0
  | [], _, _, _, _, hx => by simp at hx
  | y :: l, a, b, h, x, hx => by
    obtain ⟨e, hne, n, _, hs⟩ := h
    rcases List.mem_cons.mp hx with hx | hx
    · rw [hx, ← e]; exact hne
    · exact Seg_mem_ne_zero l n b hs x hx

theorem Seg_mem_some {nx : Nat → Option Nat} :
    ∀ (l : List Nat) (a b : Nat), Seg nx a l b → ∀ x, x ∈ l → ∃ n, nx x = some n
  | [], _, _, _, _, hx => by simp at hx
  | y :: l, a, b, h, x, hx => by
    obtain ⟨e, _, n, hn, hs⟩ := h
    rcases List.mem_cons.mp hx with hx | hx
    · rw [hx, ← e]; exact ⟨n, hn⟩
    · exact Seg_mem_some l n b hs x hx

/-! ## Heap updates -/

@[simp] theorem Mem.store_brk {N : Type} (m : Mem N) (a : Nat) (o : Obj N) :
    (m.store a o).brk = m.brk := rfl

@[simp] theorem free_brk {N : Type} (m : Mem N) (p : Nat) : (free m p).brk = m.brk := by
  unfold free; split <;> rfl

theorem Mem.rnode_store_rnode {N : Type} (m : Mem N) (a : Nat) (n : RetiredPointer_Node)
    (ha : a ≠ 0) : (m.store a (Obj.rnode n)).rnode a = some n := by
  simp [Mem.rnode, Mem.store, ha]

theorem Mem.rnode_store_ne {N : Type} (m : Mem N) (a x : Nat) (o : Obj N) (h : x ≠ a) :
    (m.store a o).rnode x = m.rnode x := by
  simp [Mem.rnode, Mem.store, h]

theorem Mem.qnode_store_qnode {N : Type} (m : Mem N) (a : Nat) (n : N)
    (ha : a ≠ 0) : (m.store a (Obj.qnode n)).qnode a = some n := by
  simp [Mem.qnode, Mem.store, ha]

theorem Mem.qnode_store_ne {N : Type} (m : Mem N) (a x : Nat) (o : Obj N) (h : x ≠ a) :
    (m.store a o).qnode x = m.qnode x := by
  simp [Mem.qnode, Mem.store, h]

theorem Mem.qnode_store_rnode {N : Type} (m : Mem N) (a x : Nat) (n n0 : RetiredPointer_Node)
    (h : m.rnode a = some n0) : (m.store a (Obj.rnode n)).qnode x = m.qnode x := by
  by_cases hx : x = a
  · subst hx
    unfold Mem.rnode at h
    unfold Mem.qnode Mem.store
    by_cases h0 : x = 0
    · simp [h0]
    · simp only [h0, if_false] at h ⊢
      simp only [if_true]
      cases hm : m.obj x with
      | none => simp [hm] at h
      | some o =>
        cases o with
        | rnode r => rfl
        | qnode q => simp [hm] at h
  · exact Mem.qnode_store_ne m a x _ hx

theorem Mem.rnode_store_qnode {N : Type} (m : Mem N) (a x : Nat) (n n0 : N)
    (h : m.qnode a = some n0) : (m.store a (Obj.qnode n)).rnode x = m.rnode x := by
  by_cases hx : x = a
  · subst hx
    unfold Mem.qnode at h
    unfold Mem.rnode Mem.store
    by_cases h0 : x = 0
    · simp [h0]
    · simp only [h0, if_false] at h ⊢
      simp only [if_true]
      cases hm : m.obj x with
      | none => simp [hm] at h
      | some o =>
        cases o with
        | rnode r => simp [hm] at h
        | qnode q => rfl
  · exact Mem.rnode_store_ne m a x _ hx

theorem rnode_free_ne {N : Type} (m : Mem N) (p x : Nat) (h : x ≠ p) :
    (free m p).rnode x = m.rnode x := by
  unfold free; split
  · rfl
  · simp [Mem.rnode, h]

theorem qnode_free_ne {N : Type} (m : Mem N) (p x : Nat) (h : x ≠ p) :
    (free m p).qnode x = m.qnode x := by
  unfold free; split
  · rfl
  · simp [Mem.qnode, h]

theorem rnode_free_same {N : Type} (m : Mem N) (p : Nat) : (free m p).rnode p = none := by
  unfold free; split
  · rename_i h; simp [Mem.rnode, h]
  · simp [Mem.rnode]

theorem qnode_free_same {N : Type} (m : Mem N) (p : Nat) : (free m p).qnode p = none := by
  unfold free; split
  · rename_i h; simp [Mem.qnode, h]
  · simp [Mem.qnode]

theorem obj_free_ne {N : Type} (m : Mem N) (p x : Nat) (h : x ≠ p) :
    (free m p).obj x = m.obj x := by
  unfold free; split
  · rfl
  · simp [h]

theorem Mem.obj_store_ne {N : Type} (m : Mem N) (a x : Nat) (o : Obj N) (h : x ≠ a) :
    (m.store a o).obj x = m.obj x := by
  simp [Mem.store, h]

theorem rnext_eq_of_rnode {N : Type} {m m' : Mem N} {x : Nat}
    (h : m'.rnode x = m.rnode x) : rnext m' x = rnext m x := by
  simp [rnext, h]

theorem rnext_some {N : Type} {m : Mem N} {x n : Nat} (h : rnext m x = some n) :
    ∃ c, m.rnode x = some c ∧ c.next = n := by
  unfold rnext at h
  cases hc : m.rnode x with
  | none => simp [hc] at h
  | some c => simp [hc] at h; exact ⟨c, rfl, h⟩

theorem can_free_node_loop_eq (hp : HazardPointer) (ptr : Nat) :
    ∀ (js : List Nat), (∀ j, j ∈ js → j < MAX_THREADS) →
      can_free_node_loop hp ptr js = .ok (!js.any fun j => decide (hp.pointer j = ptr))
  | [], _ => rfl
  | j :: js, h => by
    have hj : j < MAX_THREADS := h j (by simp)
    have ih := can_free_node_loop_eq hp ptr js (fun i hi => h i (List.mem_cons_of_mem _ hi))
    by_cases hp' : hp.pointer j = ptr
    · simp [can_free_node_loop, hj, hp']
    · simp [can_free_node_loop, hj, hp', ih]

theorem can_free_node_eq {N : Type} (s : HPState N) (ptr : Nat)
    (h : s._num_threads ≤ (MAX_THREADS : Int)) :
    can_free_node s ptr = .ok (!protectedBy s ptr) := by
  unfold can_free_node protectedBy
  apply can_free_node_loop_eq
  intro j hj
  have := List.mem_range.mp hj
  omega

/-! ## The retired lists -/

theorem SameSlots.refl {N : Type} (s : HPState N) (t : Nat) : SameSlots s s t :=
  ⟨rfl, fun _ _ => rfl, rfl, rfl⟩

theorem SameSlots.trans {N : Type} {s1 s2 s3 : HPState N} {t : Nat}
    (h12 : SameSlots s1 s2 t) (h23 : SameSlots s2 s3 t) : SameSlots s1 s3 t :=
  ⟨h23.pointer.trans h12.pointer, fun i hi => (h23.others i hi).trans (h12.others i hi),
    h23.thread_id.trans h12.thread_id, h23.num_threads.trans h12.num_threads⟩

theorem protectedBy_congr {N : Type} {s s' : HPState N} (hp : s'.hp.pointer = s.hp.pointer)
    (hn : s'._num_threads = s._num_threads) (a : Nat) : protectedBy s' a = protectedBy s a := by
  simp [protectedBy, hp, hn]

theorem getLast?_concat_getD (l : List Nat) (x : Nat) : (l ++ [x]).getLast?.getD 0 = x := by
  simp

theorem add_to_retired_list_spec {N : Type} (s : HPState N) (ptr : Nat) (t : Nat)
    (l : List Nat) (ht : arrayIndex s._thread_id = some t) (hl : RetiredList s t l)
    (hfresh : ∀ a, a ∈ l → a < s.mem.brk) (hbrk : s.mem.brk ≠ 0) :
    ∃ s', add_to_retired_list s ptr = .ok s'
      ∧ RetiredList s' t (l ++ [s.mem.brk])
      ∧ s'.mem.rnode s.mem.brk = some { pointer := ptr, next := 0 }
      ∧ s'.mem.brk = s.mem.brk + 1
      ∧ (s'.hp.retired_ptrs t).size = (s.hp.retired_ptrs t).size + 1
      ∧ SameSlots s s' t
      ∧ (∀ a, a ≠ s.mem.brk → s'.mem.qnode a = s.mem.qnode a)
      ∧ (∀ a, a ∈ l → ∀ n', s'.mem.rnode a = some n' →
          ∃ n, s.mem.rnode a = some n ∧ n.pointer = n'.pointer) := by
  obtain ⟨hchain, htail, hsize⟩ := hl
  rcases List.eq_nil_or_concat l with hnil | ⟨l0, tl, hl0⟩
  · subst hnil
    have htl : (s.hp.retired_ptrs t).tail = 0 := by simpa using htail
    simp only [add_to_retired_list, ht, create_retired__node, malloc, hbrk, htl, if_true,
        if_false]
    refine ⟨_, rfl, ?_⟩
    refine ⟨⟨?_, ?_, ?_⟩, ?_, ?_, ?_, ⟨?_, ?_, ?_, ?_⟩, ?_, ?_⟩
    · refine ⟨?_, by simpa [HazardPointer.setList] using hbrk, 0, ?_, rfl⟩
      · simp [HazardPointer.setList]
      · simp [rnext, HazardPointer.setList, Mem.rnode, Mem.store, hbrk]
    · simp [HazardPointer.setList]
    · simp [HazardPointer.setList, hsize]
    · simp [Mem.rnode, Mem.store, hbrk]
    · rfl
    · simp [HazardPointer.setList]
    · rfl
    · intro i hi; simp [HazardPointer.setList, hi]
    · rfl
    · rfl
    · intro a ha; simp [Mem.qnode, Mem.store, ha]
    · intro a ha; simp at ha
  · rw [List.concat_eq_append] at hl0
    subst hl0
    have htl : (s.hp.retired_ptrs t).tail = tl := by simpa using htail
    obtain ⟨hseg, htl0, hnx⟩ := (Seg_snoc l0 _ tl 0).mp hchain
    obtain ⟨c, hc, hcn⟩ := rnext_some hnx
    have hnd : (l0 ++ [tl]).Nodup := Chain_nodup _ _ hchain
    have htl_lt : tl < s.mem.brk := hfresh tl (by simp)
    have htl_ne : tl ≠ s.mem.brk := by omega
    have htl_notin : tl ∉ l0 := by
      intro h
      have := List.nodup_append.mp hnd
      exact this.2.2 h (by simp)
    have hc1 : (({ s.mem with brk := s.mem.brk + 1 } : Mem N).store s.mem.brk
        (Obj.rnode { pointer := ptr, next := 0 })).rnode tl = some c := by
      rw [Mem.rnode_store_ne _ _ _ _ htl_ne]
      exact hc
    simp only [add_to_retired_list, ht, create_retired__node, malloc, hbrk, htl, htl0, if_false,
        hc1]
    refine ⟨_, rfl, ?_⟩
    refine ⟨⟨?_, ?_, ?_⟩, ?_, ?_, ?_, ⟨?_, ?_, ?_, ?_⟩, ?_, ?_⟩
    · have hhead : ((s.hp.setList t { s.hp.retired_ptrs t with
          tail := s.mem.brk, size := (s.hp.retired_ptrs t).size + 1 }).retired_ptrs t).head
          = (s.hp.retired_ptrs t).head := by simp [HazardPointer.setList]
      show Seg _ _ _ _
      rw [hhead]
      apply (Seg_snoc (l0 ++ [tl]) _ _ 0).mpr
      refine ⟨(Seg_snoc l0 _ tl _).mpr ⟨?_, htl0, ?_⟩, hbrk, ?_⟩
      · refine Seg_congr l0 _ _ ?_ hseg
        intro x hx
        have hx1 : x ≠ tl := fun h => htl_notin (h ▸ hx)
        have hx2 : x ≠ s.mem.brk := by
          have := hfresh x (by simp [hx]); omega
        apply rnext_eq_of_rnode
        rw [Mem.rnode_store_ne _ _ _ _ hx1, Mem.rnode_store_ne _ _ _ _ hx2]
        rfl
      · simp [rnext, Mem.rnode_store_rnode _ _ _ htl0]
      · simp only [rnext]
        rw [Mem.rnode_store_ne _ _ _ _ (Ne.symm htl_ne), Mem.rnode_store_rnode _ _ _ hbrk]
    · simp [HazardPointer.setList]
    · simp [HazardPointer.setList, hsize]; ring
    · show Mem.rnode _ _ = _
      rw [Mem.rnode_store_ne _ _ _ _ (Ne.symm htl_ne), Mem.rnode_store_rnode _ _ _ hbrk]
    · rfl
    · simp [HazardPointer.setList]
    · rfl
    · intro i hi; simp [HazardPointer.setList, hi]
    · rfl
    · rfl
    · intro a ha
      show Mem.qnode _ _ = _
      rw [Mem.qnode_store_rnode _ _ _ _ c hc1, Mem.qnode_store_ne _ _ _ _ ha]
      rfl
    · intro a ha n' hn'
      have ha2 : a ≠ s.mem.brk := by
        have := hfresh a ha; omega
      by_cases hat : a = tl
      · subst hat
        change Mem.rnode (Mem.store _ a _) a = some n' at hn'
        rw [Mem.rnode_store_rnode _ _ _ htl0] at hn'
        cases hn'
        exact ⟨c, hc, rfl⟩
      · change Mem.rnode (Mem.store _ tl _) a = some n' at hn'
        rw [Mem.rnode_store_ne _ _ _ _ hat, Mem.rnode_store_ne _ _ _ _ ha2] at hn'
        exact ⟨n', hn', rfl⟩

theorem Mem.rnode_congr {N : Type} {m m' : Mem N} {x : Nat} (h : m'.obj x = m.obj x) :
    m'.rnode x = m.rnode x := by
  simp [Mem.rnode, h]

theorem Mem.qnode_congr {N : Type} {m m' : Mem N} {x : Nat} (h : m'.obj x = m.obj x) :
    m'.qnode x = m.qnode x := by
  simp [Mem.qnode, h]

/-- One iteration of the scan on a node that `can_free_node` lets go. -/
theorem clean_retired_list_loop_unlink {N : Type} (t : Nat) (s : HPState N) (x n prev : Nat)
    (pre rest : List Nat) (c : RetiredPointer_Node)
    (hnum : s._num_threads ≤ (MAX_THREADS : Int))
    (hseg : Seg (rnext s.mem) (s.hp.retired_ptrs t).head pre x)
    (hx0 : x ≠ 0) (hc : s.mem.rnode x = some c) (hcn : c.next = n)
    (hprev : prev = pre.getLast?.getD 0)
    (hnd : (pre ++ x :: rest).Nodup)
    (hsep : ∀ a, a ∈ pre ++ x :: rest → ∀ m, s.mem.rnode a = some m → m.pointer ∉ pre ++ x :: rest)
    (hprot : protectedBy s x = false) :
    ∃ s3 : HPState N,
      (∀ f, clean_retired_list_loop t (f + 1) s x prev = clean_retired_list_loop t f s3 n prev)
      ∧ (∀ y, y ≠ x → y ≠ c.pointer → y ∉ pre → s3.mem.obj y = s.mem.obj y)
      ∧ Seg (rnext s3.mem) (s3.hp.retired_ptrs t).head pre n
      ∧ (∀ a, a ∈ pre ++ rest → ∀ m', s3.mem.rnode a = some m' →
          ∃ m, s.mem.rnode a = some m ∧ m.pointer = m'.pointer ∧ (a ∉ pre → m' = m))
      ∧ (s3.hp.retired_ptrs t).size = (s.hp.retired_ptrs t).size - 1
      ∧ (s3.hp.retired_ptrs t).tail = (s.hp.retired_ptrs t).tail
      ∧ SameSlots s s3 t
      ∧ s3.mem.brk = s.mem.brk := by
  have hxmem : x ∈ pre ++ x :: rest := by simp
  have hcp : c.pointer ∉ pre ++ x :: rest := hsep x hxmem c hc
  have hcpx : x ≠ c.pointer := fun h => hcp (h ▸ hxmem)
  have hcan : can_free_node s x = .ok true := by
    rw [can_free_node_eq s x hnum, hprot]; rfl
  have hxpre : x ∉ pre := by
    intro h
    exact (List.nodup_append.mp hnd).2.2 h (by simp)
  rcases List.eq_nil_or_concat pre with hnil | ⟨pre0, p, hp0⟩
  · subst hnil
    have hprev0 : prev = 0 := by simpa using hprev
    have hhead : (s.hp.retired_ptrs t).head = x := hseg
    subst hprev0
    have hc3 : (free s.mem c.pointer).rnode x = some c := by
      rw [rnode_free_ne _ _ _ hcpx]; exact hc
    refine ⟨{ s with
              mem := free (free s.mem c.pointer) x
              hp := (s.hp.setList t { s.hp.retired_ptrs t with
                      size := (s.hp.retired_ptrs t).size - 1 }).setList t
                    { head := n, tail := (s.hp.retired_ptrs t).tail,
                      size := (s.hp.retired_ptrs t).size - 1 } }, ?_, ?_, ?_, ?_, ?_, ?_, ?_, ?_⟩
    · intro f
      conv_lhs => unfold clean_retired_list_loop
      simp only [hx0, if_false, hc, hcan, if_true, hc3, hcn]
      simp [HazardPointer.setList]
    · intro y hy1 hy2 _
      show (free (free s.mem c.pointer) x).obj y = _
      rw [obj_free_ne _ _ _ hy1, obj_free_ne _ _ _ hy2]
    · simp [Seg, HazardPointer.setList]
    · intro a ha m' hm'
      have ha' : a ∈ rest := by simpa using ha
      have hax : a ≠ x := fun h => (List.nodup_cons.mp (by simpa using hnd)).1 (h ▸ ha')
      have hacp : a ≠ c.pointer := fun h => hcp (by simp [← h, ha'])
      change (free (free s.mem c.pointer) x).rnode a = some m' at hm'
      rw [rnode_free_ne _ _ _ hax, rnode_free_ne _ _ _ hacp] at hm'
      exact ⟨m', hm', rfl, fun _ => rfl⟩
    · simp [HazardPointer.setList]
    · simp [HazardPointer.setList]
    · exact ⟨rfl, fun i hi => by simp [HazardPointer.setList, hi], rfl, rfl⟩
    · simp
  · rw [List.concat_eq_append] at hp0
    subst hp0
    have hprevp : prev = p := by simpa using hprev
    subst hprevp
    obtain ⟨hseg0, hp0, hpnx⟩ := (Seg_snoc pre0 _ prev x).mp hseg
    obtain ⟨pc, hpc, hpcn⟩ := rnext_some hpnx
    have hpx : x ≠ prev := fun h => hxpre (by simp [h])
    have hpcp : prev ≠ c.pointer := fun h => hcp (by simp [← h])
    have hc2 : (s.mem.store prev (Obj.rnode { pc with next := n })).rnode x = some c := by
      rw [Mem.rnode_store_ne _ _ _ _ hpx]; exact hc
    have hc3 : (free (s.mem.store prev (Obj.rnode { pc with next := n })) c.pointer).rnode x
        = some c := by
      rw [rnode_free_ne _ _ _ hcpx]; exact hc2
    have hprev_notin : prev ∉ pre0 := by
      have h1 : (pre0 ++ [prev]).Nodup := (List.nodup_append.mp hnd).1
      intro h
      exact (List.nodup_append.mp h1).2.2 h (by simp)
    refine ⟨{ s with
              mem := free (free (s.mem.store prev (Obj.rnode { pc with next := n })) c.pointer) x
              hp := s.hp.setList t { s.hp.retired_ptrs t with
                      size := (s.hp.retired_ptrs t).size - 1 } }, ?_, ?_, ?_, ?_, ?_, ?_, ?_, ?_⟩
    · intro f
      conv_lhs => unfold clean_retired_list_loop
      simp only [hx0, if_false, hc, hcan, hp0, hpc, hc2, hc3, hcn]
    · intro y hy1 hy2 hy3
      have hyp : y ≠ prev := fun h => hy3 (by simp [h])
      show (free (free _ c.pointer) x).obj y = _
      rw [obj_free_ne _ _ _ hy1, obj_free_ne _ _ _ hy2, Mem.obj_store_ne _ _ _ _ hyp]
    · have hhead : ((s.hp.setList t { s.hp.retired_ptrs t with
          size := (s.hp.retired_ptrs t).size - 1 }).retired_ptrs t).head
          = (s.hp.retired_ptrs t).head := by simp [HazardPointer.setList]
      show Seg _ _ _ _
      rw [hhead]
      refine (Seg_snoc pre0 _ prev n).mpr ⟨Seg_congr pre0 _ _ ?_ hseg0, hp0, ?_⟩
      · intro y hy
        have hy1 : y ≠ x := fun h => hxpre (by simp [← h, hy])
        have hy2 : y ≠ c.pointer := fun h => hcp (by simp [← h, hy])
        have hy3 : y ≠ prev := fun h => hprev_notin (h ▸ hy)
        apply rnext_eq_of_rnode
        show (free (free _ c.pointer) x).rnode y = _
        rw [rnode_free_ne _ _ _ hy1, rnode_free_ne _ _ _ hy2, Mem.rnode_store_ne _ _ _ _ hy3]
      · show rnext (free (free _ c.pointer) x) prev = _
        simp only [rnext]
        rw [rnode_free_ne _ _ _ (Ne.symm hpx), rnode_free_ne _ _ _ hpcp,
          Mem.rnode_store_rnode _ _ _ hp0]
    · intro a ha m' hm'
      have hax : a ≠ x := by
        intro h
        subst h
        rcases List.mem_append.mp ha with h1 | h1
        · exact hxpre h1
        · have : (a :: rest).Nodup := (List.nodup_append.mp hnd).2.1
          exact (List.nodup_cons.mp this).1 h1
      have hacp : a ≠ c.pointer := by
        intro h
        apply hcp
        rw [← h]
        rcases List.mem_append.mp ha with h1 | h1
        · exact List.mem_append_left _ h1
        · exact List.mem_append_right _ (List.mem_cons_of_mem _ h1)
      change (free (free _ c.pointer) x).rnode a = some m' at hm'
      rw [rnode_free_ne _ _ _ hax, rnode_free_ne _ _ _ hacp] at hm'
      by_cases hap : a = prev
      · subst hap
        rw [Mem.rnode_store_rnode _ _ _ hp0] at hm'
        cases hm'
        exact ⟨pc, hpc, rfl, fun h => absurd (by simp) h⟩
      · rw [Mem.rnode_store_ne _ _ _ _ hap] at hm'
        exact ⟨m', hm', rfl, fun _ => rfl⟩
    · simp [HazardPointer.setList]
    · simp [HazardPointer.setList]
    · exact ⟨rfl, fun i hi => by simp [HazardPointer.setList, hi], rfl, rfl⟩
    · simp

/-- The scan loop on a well-formed list: it keeps exactly the nodes whose own
address some slot holds, in their order, and frees the others. -/
theorem clean_retired_list_loop_spec {N : Type} (t : Nat) :
    ∀ (rest : List Nat) (fuel : Nat) (s : HPState N) (curr prev : Nat) (pre : List Nat),
      rest.length < fuel →
      s._num_threads ≤ (MAX_THREADS : Int) →
      Seg (rnext s.mem) (s.hp.retired_ptrs t).head pre curr →
      Chain (rnext s.mem) curr rest →
      prev = pre.getLast?.getD 0 →
      (pre ++ rest).Nodup →
      (∀ a, a ∈ pre ++ rest → ∀ m, s.mem.rnode a = some m → m.pointer ∉ pre ++ rest) →
      ∃ s', clean_retired_list_loop t fuel s curr prev
            = .ok (s', (pre ++ rest.filter (protectedBy s)).getLast?.getD 0)
        ∧ Chain (rnext s'.mem) (s'.hp.retired_ptrs t).head (pre ++ rest.filter (protectedBy s))
        ∧ (s'.hp.retired_ptrs t).size
            + ((rest.filter fun a => !protectedBy s a).length : Int) = (s.hp.retired_ptrs t).size
        ∧ (s'.hp.retired_ptrs t).tail = (s.hp.retired_ptrs t).tail
        ∧ SameSlots s s' t
        ∧ s'.mem.brk = s.mem.brk
        ∧ (∀ a, a ∉ pre ++ rest →
            (∀ x, x ∈ rest → ∀ m, s.mem.rnode x = some m → m.pointer ≠ a) →
            s'.mem.obj a = s.mem.obj a)
        ∧ (∀ a, a ∈ pre ++ rest.filter (protectedBy s) → ∀ m', s'.mem.rnode a = some m' →
            ∃ m, s.mem.rnode a = some m ∧ m.pointer = m'.pointer)
  | [], fuel, s, curr, prev, pre, hfuel, _, hseg, hch, hprev, _, _ => by
    obtain ⟨f, rfl⟩ : ∃ f, fuel = f + 1 := ⟨fuel - 1, by simp at hfuel; omega⟩
    have hcurr : curr = 0 := hch
    subst hcurr
    refine ⟨s, ?_, ?_, ?_, rfl, SameSlots.refl s t, rfl, fun _ _ _ => rfl, ?_⟩
    · simp [clean_retired_list_loop, hprev]
    · simpa [Chain] using hseg
    · simp
    · intro a _ m' hm'
      exact ⟨m', hm', rfl⟩
  | x :: rest, fuel, s, curr, prev, pre, hfuel, hnum, hseg, hch, hprev, hnd, hsep => by
    obtain ⟨f, rfl⟩ : ∃ f, fuel = f + 1 := ⟨fuel - 1, by simp at hfuel; omega⟩
    have hf : rest.length < f := by simp at hfuel; omega
    obtain ⟨e, hx0, n, hn, hs⟩ := hch
    subst e
    obtain ⟨c, hc, hcn⟩ := rnext_some hn
    have hxpre : curr ∉ pre := fun h => (List.nodup_append.mp hnd).2.2 h (by simp)
    have hxrest : curr ∉ rest := (List.nodup_cons.mp (List.nodup_append.mp hnd).2.1).1
    cases hprot : protectedBy s curr with
    | true =>
      have hcan : can_free_node s curr = .ok false := by
        rw [can_free_node_eq s curr hnum, hprot]; rfl
      have hnd' : ((pre ++ [curr]) ++ rest).Nodup := by simpa using hnd
      have hsep' : ∀ a, a ∈ (pre ++ [curr]) ++ rest → ∀ m, s.mem.rnode a = some m →
          m.pointer ∉ (pre ++ [curr]) ++ rest := by
        intro a ha m hm
        have := hsep a (by simpa using ha) m hm
        simpa using this
      obtain ⟨s', h1, h2, h3, h4, h5, h6, h7, h8⟩ :=
        clean_retired_list_loop_spec t rest f s n curr (pre ++ [curr]) hf hnum
          ((Seg_snoc pre _ curr n).mpr ⟨hseg, hx0, hn⟩) hs (by simp) hnd' hsep'
      refine ⟨s', ?_, ?_, ?_, h4, h5, h6, ?_, ?_⟩
      · conv_lhs => unfold clean_retired_list_loop
        simp only [hx0, if_false, hc, hcan, hcn]
        rw [h1]
        simp [List.filter_cons, hprot]
      · simpa [List.filter_cons, hprot] using h2
      · simpa [List.filter_cons, hprot] using h3
      · intro a ha hp
        apply h7 a (by simpa using ha)
        intro y hy m hm
        exact hp y (List.mem_cons_of_mem _ hy) m hm
      · intro a ha m' hm'
        exact h8 a (by simpa [List.filter_cons, hprot] using ha) m' hm'
    | false =>
      obtain ⟨s3, g1, g2, g3, g4, g5, g6, g7, g8⟩ :=
        clean_retired_list_loop_unlink t s curr n prev pre rest c hnum hseg hx0 hc hcn hprev
          hnd hsep hprot
      have hcp : c.pointer ∉ pre ++ curr :: rest := hsep curr (by simp) c hc
      have hprot3 : ∀ a, protectedBy s3 a = protectedBy s a :=
        protectedBy_congr g7.pointer g7.num_threads
      have hfun : protectedBy s3 = protectedBy s := funext hprot3
      have hrn : ∀ y, y ∈ rest → s3.mem.rnode y = s.mem.rnode y := by
        intro y hy
        apply Mem.rnode_congr
        apply g2 y
        · exact fun h => hxrest (h ▸ hy)
        · exact fun h => hcp (by simp [← h, hy])
        · intro h
          exact (List.nodup_append.mp hnd).2.2 h (List.mem_cons_of_mem _ hy)
      have hs3 : Chain (rnext s3.mem) n rest :=
        Seg_congr rest n 0 (fun y hy => rnext_eq_of_rnode (hrn y hy)) hs
      have hnd3 : (pre ++ rest).Nodup := by
        have := List.nodup_append.mp hnd
        refine List.nodup_append.mpr ⟨this.1, (List.nodup_cons.mp this.2.1).2, ?_⟩
        intro a ha hb
        exact this.2.2 ha (List.mem_cons_of_mem _ hb)
      have hsep3 : ∀ a, a ∈ pre ++ rest → ∀ m, s3.mem.rnode a = some m →
          m.pointer ∉ pre ++ rest := by
        intro a ha m' hm'
        obtain ⟨m, hm, hmp, _⟩ := g4 a ha m' hm'
        have ha' : a ∈ pre ++ curr :: rest := by
          rcases List.mem_append.mp ha with h | h
          · exact List.mem_append_left _ h
          · exact List.mem_append_right _ (List.mem_cons_of_mem _ h)
        have := hsep a ha' m hm
        rw [← hmp]
        intro h
        apply this
        rcases List.mem_append.mp h with h | h
        · exact List.mem_append_left _ h
        · exact List.mem_append_right _ (List.mem_cons_of_mem _ h)
      have g7n : s3._num_threads ≤ (MAX_THREADS : Int) := by rw [g7.num_threads]; exact hnum
      obtain ⟨s', h1, h2, h3, h4, h5, h6, h7, h8⟩ :=
        clean_retired_list_loop_spec t rest f s3 n prev pre hf g7n g3 hs3 hprev hnd3 hsep3
      rw [hfun] at h1 h2 h8
      have hfun' : (fun a => !protectedBy s3 a) = (fun a => !protectedBy s a) := by
        funext a; rw [hprot3]
      rw [hfun'] at h3
      refine ⟨s', ?_, ?_, ?_, h4.trans g6, g7.trans h5, h6.trans g8, ?_, ?_⟩
      · rw [g1 f, h1]
        simp [List.filter_cons, hprot]
      · simpa [List.filter_cons, hprot] using h2
      · simp only [List.filter_cons, hprot, Bool.not_false, if_true, List.length_cons]
        rw [g5] at h3
        push_cast
        omega
      · intro a ha hp
        have ha1 : a ∉ pre := fun h => ha (List.mem_append_left _ h)
        have ha2 : a ≠ curr := fun h => ha (by simp [h])
        have ha3 : a ∉ rest := fun h => ha (by simp [h])
        have hacp : a ≠ c.pointer := fun h => hp curr (by simp) c hc h.symm
        rw [h7 a (fun h => (List.mem_append.mp h).elim ha1 ha3)]
        · exact g2 a ha2 hacp ha1
        · intro y hy m hm
          rw [hrn y hy] at hm
          exact hp y (List.mem_cons_of_mem _ hy) m hm
      · intro a ha m' hm'
        have ha' : a ∈ pre ++ rest.filter (protectedBy s) := by
          simpa [List.filter_cons, hprot] using ha
        obtain ⟨m3, hm3, hp3⟩ := h8 a ha' m' hm'
        have ha3 : a ∈ pre ++ rest := by
          rcases List.mem_append.mp ha' with h | h
          · exact List.mem_append_left _ h
          · exact List.mem_append_right _ (List.mem_of_mem_filter h)
        obtain ⟨m, hm, hmp, _⟩ := g4 a ha3 m3 hm3
        exact ⟨m, hm, hmp.trans hp3⟩

theorem length_filter_add_not (p : Nat → Bool) :
    ∀ l : List Nat, (l.filter p).length + (l.filter fun a => !p a).length = l.length
  | [] => rfl
  | x :: l => by
    have ih := length_filter_add_not p l
    cases hp : p x <;> simp [List.filter_cons, hp] <;> omega

/-- The scan on a well-formed list: the list that remains is made of the nodes
whose own address some slot holds; cells that are neither list nodes nor
retired pointers of the list are untouched. -/
theorem clean_retired_list_spec {N : Type} (s : HPState N) (fuel t : Nat) (l : List Nat)
    (ht : arrayIndex s._thread_id = some t) (hnum : s._num_threads ≤ (MAX_THREADS : Int))
    (hl : RetiredList s t l)
    (hsep : ∀ a, a ∈ l → ∀ m, s.mem.rnode a = some m → m.pointer ∉ l)
    (hfuel : l.length < fuel) :
    ∃ s', clean_retired_list fuel s = .ok s'
      ∧ RetiredList s' t (l.filter (protectedBy s))
      ∧ SameSlots s s' t
      ∧ s'.mem.brk = s.mem.brk
      ∧ (∀ a, a ∉ l → (∀ x, x ∈ l → ∀ m, s.mem.rnode x = some m → m.pointer ≠ a) →
          s'.mem.obj a = s.mem.obj a)
      ∧ (∀ a, a ∈ l.filter (protectedBy s) → ∀ m', s'.mem.rnode a = some m' →
          ∃ m, s.mem.rnode a = some m ∧ m.pointer = m'.pointer) := by
  obtain ⟨s1, h1, h2, h3, _, h5, h6, h7, h8⟩ :=
    clean_retired_list_loop_spec t l fuel s (s.hp.retired_ptrs t).head 0 [] hfuel hnum rfl
      hl.chain rfl (by simpa using Chain_nodup _ _ hl.chain) (by simpa using hsep)
  simp only [List.nil_append] at h1 h2 h7 h8
  simp only [clean_retired_list, ht, h1]
  refine ⟨_, rfl, ⟨?_, ?_, ?_⟩, ⟨h5.pointer, ?_, h5.thread_id, h5.num_threads⟩, h6, h7, h8⟩
  · simpa [HazardPointer.setList] using h2
  · simp [HazardPointer.setList]
  · have hlen := length_filter_add_not (protectedBy s) l
    have hsz := hl.size_eq
    simp only [HazardPointer.setList, if_true]
    have : ((l.filter (protectedBy s)).length : Int)
        + ((l.filter fun a => !protectedBy s a).length : Int) = (l.length : Int) := by
      exact_mod_cast hlen
    omega
  · intro i hi
    simp only [HazardPointer.setList, hi, if_false]
    exact h5.others i hi

/-- C6: `HazardPointer_retire` on a well-formed retired list returns; it runs the
scan first exactly when the size is `RETIRED_THRESHOLD` on entry (`mid` is the
state after the possible scan); and in both cases the new node, which holds
`ptr`, is the last entry and the tail of the list, and the size is one more
than in `mid`. -/
theorem HazardPointer_retire_appends {N : Type} (s : HPState N) (fuel ptr : Nat)
    (l : List Nat) (hreg : Registered s)
    (hl : RetiredList s s._thread_id.toNat l) (hsep : RetiredSeparate s l)
    (hbrk : s.mem.brk ≠ 0) (hfuel : l.length < fuel) :
    ∃ mid s' lmid,
      HazardPointer_retire fuel s ptr = .ok s'
      ∧ ((s.hp.retired_ptrs s._thread_id.toNat).size = RETIRED_THRESHOLD →
          clean_retired_list fuel s = .ok mid ∧ lmid = l.filter (protectedBy s))
      ∧ ((s.hp.retired_ptrs s._thread_id.toNat).size ≠ RETIRED_THRESHOLD →
          mid = s ∧ lmid = l)
      ∧ add_to_retired_list mid ptr = .ok s'
      ∧ RetiredList mid s._thread_id.toNat lmid
      ∧ RetiredList s' s._thread_id.toNat (lmid ++ [s.mem.brk])
      ∧ s'.mem.rnode s.mem.brk = some { pointer := ptr, next := 0 }
      ∧ (s'.hp.retired_ptrs s._thread_id.toNat).tail = s.mem.brk
      ∧ (s'.hp.retired_ptrs s._thread_id.toNat).size
          = (mid.hp.retired_ptrs s._thread_id.toNat).size + 1 := by
  obtain ⟨ht, _⟩ := arrayIndex_of_registered s hreg
  by_cases hsz : (s.hp.retired_ptrs s._thread_id.toNat).size = RETIRED_THRESHOLD
  · obtain ⟨mid, c1, c2, c3, c4, _, _⟩ :=
      clean_retired_list_spec s fuel _ l ht hreg.2.2 hl hsep.2 hfuel
    have htm : arrayIndex mid._thread_id = some s._thread_id.toNat := by
      rw [c3.thread_id]; exact ht
    have hfresh : ∀ a, a ∈ l.filter (protectedBy s) → a < mid.mem.brk := by
      intro a ha
      rw [c4]
      exact hsep.1 a (List.mem_of_mem_filter ha)
    obtain ⟨s', a1, a2, a3, _, a5, _, _, _⟩ :=
      add_to_retired_list_spec mid ptr _ _ htm c2 hfresh (by rw [c4]; exact hbrk)
    rw [c4] at a2 a3
    refine ⟨mid, s', _, ?_, fun _ => ⟨c1, rfl⟩, fun h => absurd hsz h, a1, c2, a2, a3, ?_, a5⟩
    · simp only [HazardPointer_retire, ht, hsz, if_true, c1, a1]
    · rw [a2.tail_eq]; simp
  · obtain ⟨s', a1, a2, a3, _, a5, _, _, _⟩ :=
      add_to_retired_list_spec s ptr _ l ht hl hsep.1 hbrk
    refine ⟨s, s', l, ?_, fun h => absurd h hsz, fun _ => ⟨rfl, rfl⟩, a1, hl, a2, a3, ?_, a5⟩
    · simp only [HazardPointer_retire, ht, hsz, if_false, a1]
    · rw [a2.tail_eq]; simp

/-- C6 at a concrete input: thread 0 of 2, whose list holds one node, retires the
pointer `9`. -/
theorem HazardPointer_retire_appends_witness :
    ∃ mid s' lmid,
      HazardPointer_retire 2 (scanState 1) 9 = .ok s'
      ∧ (((scanState 1).hp.retired_ptrs (scanState 1)._thread_id.toNat).size = RETIRED_THRESHOLD →
          clean_retired_list 2 (scanState 1) = .ok mid
            ∧ lmid = [2].filter (protectedBy (scanState 1)))
      ∧ (((scanState 1).hp.retired_ptrs (scanState 1)._thread_id.toNat).size ≠ RETIRED_THRESHOLD →
          mid = scanState 1 ∧ lmid = [2])
      ∧ add_to_retired_list mid 9 = .ok s'
      ∧ RetiredList mid (scanState 1)._thread_id.toNat lmid
      ∧ RetiredList s' (scanState 1)._thread_id.toNat (lmid ++ [(scanState 1).mem.brk])
      ∧ s'.mem.rnode (scanState 1).mem.brk = some { pointer := 9, next := 0 }
      ∧ (s'.hp.retired_ptrs (scanState 1)._thread_id.toNat).tail = (scanState 1).mem.brk
      ∧ (s'.hp.retired_ptrs (scanState 1)._thread_id.toNat).size
          = (mid.hp.retired_ptrs (scanState 1)._thread_id.toNat).size + 1 :=
  HazardPointer_retire_appends (scanState 1) 2 9 [2]
    (by simp [Registered, scanState, MAX_THREADS])
    ⟨⟨rfl, by decide, 0, rfl, rfl⟩, rfl, rfl⟩
    ⟨by intro a ha; simp at ha; subst ha; decide,
     by
      intro a ha m hm
      simp at ha
      subst ha
      have : m = { pointer := 1, next := 0 } := by
        have h2 : (scanState 1).mem.rnode 2 = some { pointer := 1, next := 0 } := rfl
        rw [h2] at hm
        exact (Option.some.inj hm).symm
      subst this
      decide⟩
    (by decide) (by decide)

/-! ## RingsQueue.c -/

theorem wrap32_of_range (x : Int) (h1 : -2147483648 ≤ x) (h2 : x < 2147483648) :
    wrap32 x = x := by
  unfold wrap32; omega

theorem mod_add_ne (R i k c : Nat) (hk : k < c) (hc : c < R) :
    (i + k) % R ≠ (i + c) % R := by
  intro h
  have h1 : k ≡ c [MOD R] := Nat.ModEq.add_left_cancel' i h
  have := Nat.ModEq.eq_of_lt_of_lt h1 (by omega) hc
  omega

theorem getValue_spec (R : Nat) (hR : R < 2147483648) (m : Mem RingsQueueNode) (a : Nat)
    (n : RingsQueueNode) (i : Nat) (v : Value) (vs : List Value)
    (hn : m.qnode a = some n) (hr : RingAt R n i (v :: vs)) :
    ∃ n', getValue R m a = .ok (v, m.store a (Obj.qnode n'))
      ∧ RingAt R n' ((i + 1) % R) vs ∧ n'.next = n.next := by
  obtain ⟨hlt, hpop, hpush, hfree, hlen, hcells⟩ := hr
  have hb : bufIndex R n.pop_idx = some i := by
    simp [bufIndex, hpop, hlt]
  have hv : n.buffer i = some v := by
    have := hcells 0 v (by simp)
    simpa [Nat.mod_eq_of_lt hlt] using this
  simp only [List.length_cons] at hpush hfree hlen
  have hw1 : wrap32 (n.pop_idx + 1) = ((i + 1 : Nat) : Int) := by
    rw [hpop, wrap32_of_range] <;> push_cast <;> omega
  have hw2 : wrap32 (n.free_slots + 1) = (R : Int) - (vs.length : Int) := by
    rw [hfree, wrap32_of_range] <;> push_cast <;> omega
  have htm : Int.tmod (wrap32 (n.pop_idx + 1)) R = (((i + 1) % R : Nat) : Int) := by
    rw [hw1, Int.tmod_eq_emod (by positivity) (by positivity), Int.natCast_mod]
  simp only [getValue, hn, hb, hv]
  refine ⟨_, rfl, ?_⟩
  refine ⟨⟨?_, ?_, ?_, ?_, ?_, ?_⟩, ?_⟩
  · exact Nat.mod_lt _ (by omega)
  · exact htm
  · show n.push_idx = _
    rw [hpush]
    congr 1
    rw [Nat.mod_add_mod]
    congr 1
    omega
  · exact hw2
  · omega
  · intro k w hk
    show n.buffer _ = _
    have := hcells (k + 1) w (by simpa using hk)
    rw [Nat.mod_add_mod]
    rw [show i + 1 + k = i + (k + 1) by omega]
    exact this
  · rfl

theorem pushValue_spec (R : Nat) (hR : R < 2147483648) (m : Mem RingsQueueNode) (a : Nat)
    (n : RingsQueueNode) (i : Nat) (val : Value) (vs : List Value)
    (hn : m.qnode a = some n) (hr : RingAt R n i vs) (hroom : vs.length < R) :
    ∃ n', pushValue R m a val = .ok (m.store a (Obj.qnode n'))
      ∧ RingAt R n' i (vs ++ [val]) ∧ n'.next = n.next := by
  obtain ⟨hlt, hpop, hpush, hfree, hlen, hcells⟩ := hr
  have hjlt : (i + vs.length) % R < R := Nat.mod_lt _ (by omega)
  obtain ⟨j, hjdef⟩ : ∃ j, (i + vs.length) % R = j := ⟨_, rfl⟩
  rw [hjdef] at hpush hjlt
  have hb : bufIndex R n.push_idx = some j := by
    simp [bufIndex, hpush, hjlt]
  have hw1 : wrap32 (n.push_idx + 1) = ((j + 1 : Nat) : Int) := by
    rw [hpush, wrap32_of_range] <;> push_cast <;> omega
  have hw2 : wrap32 (n.free_slots - 1) = (R : Int) - ((vs.length + 1 : Nat) : Int) := by
    rw [hfree, wrap32_of_range] <;> push_cast <;> omega
  have hmod : (j + 1) % R = (i + (vs.length + 1)) % R := by
    rw [← hjdef, Nat.mod_add_mod]
    rfl
  have htm : Int.tmod (wrap32 (n.push_idx + 1)) R
      = (((i + (vs.length + 1)) % R : Nat) : Int) := by
    rw [hw1, Int.tmod_eq_emod (by positivity) (by positivity), ← Int.natCast_mod, hmod]
  simp only [pushValue, hn, hb]
  refine ⟨_, rfl, ?_⟩
  refine ⟨⟨hlt, hpop, ?_, ?_, ?_, ?_⟩, ?_⟩
  · simpa using htm
  · simpa using hw2
  · simp; omega
  · intro k w hk
    show setCell n.buffer _ _ _ = _
    by_cases hkl : k < vs.length
    · rw [List.getElem?_append_left hkl] at hk
      have hne := mod_add_ne R i k vs.length hkl hroom
      rw [hjdef] at hne
      simp only [setCell, hne, if_false]
      exact hcells k w hk
    · have hk' : k = vs.length := by
        by_contra hne
        have : (vs ++ [val])[k]? = none := by
          apply List.getElem?_eq_none
          simp; omega
        rw [this] at hk
        cases hk
      subst hk'
      simp at hk
      simp [setCell, hk, hjdef]
  · rfl

theorem nodeNext_some {N : Type} {nx : N → Nat} {m : Mem N} {x k : Nat}
    (h : nodeNext nx m x = some k) : ∃ n, m.qnode x = some n ∧ nx n = k := by
  unfold nodeNext at h
  cases hc : m.qnode x with
  | none => simp [hc] at h
  | some c => simp [hc] at h; exact ⟨c, rfl, h⟩

theorem nodeNext_of_qnode {N : Type} {nx : N → Nat} {m : Mem N} {x : Nat} {n : N}
    (h : m.qnode x = some n) : nodeNext nx m x = some (nx n) := by
  simp [nodeNext, h]

theorem nodeNext_congr {N : Type} {nx : N → Nat} {m m' : Mem N} {x : Nat}
    (h : m'.qnode x = m.qnode x) : nodeNext nx m' x = nodeNext nx m x := by
  simp [nodeNext, h]

theorem Mem.qnode_store_store {N : Type} (m : Mem N) (a b : Nat) (n : N) (o : Obj N)
    (hab : b ≠ a) (hb : b ≠ 0) : ((m.store b (Obj.qnode n)).store a o).qnode b = some n := by
  rw [Mem.qnode_store_ne _ _ _ _ hab]
  exact Mem.qnode_store_qnode _ _ _ hb

theorem RingAt.set_next {R : Nat} {n : RingsQueueNode} {i : Nat} {vs : List Value}
    (h : RingAt R n i vs) (k : Nat) : RingAt R { n with next := k } i vs :=
  ⟨h.lt, h.pop, h.push, h.free, h.len, h.cells⟩

theorem RingsRep.head_eq {R : Nat} {q : RingsQueue} {a : Nat} {vs : List Value}
    {cs : List (Nat × List Value)} (h : RingsRep R q ((a, vs) :: cs)) : q.head = a :=
  h.chain.1

theorem RingsRep.addrs_nodup {R : Nat} {q : RingsQueue} {cs : List (Nat × List Value)}
    (h : RingsRep R q cs) : (cs.map Prod.fst).Nodup := Chain_nodup _ _ h.chain

theorem RingsQueue_push_spec (R : Nat) (hR2 : 2 ≤ R) (hR : R < 2147483648) (q : RingsQueue)
    (cs : List (Nat × List Value)) (v : Value) (hrep : RingsRep R q cs) :
    ∃ q' cs', RingsQueue_push R q v = .ok q' ∧ RingsRep R q' cs'
      ∧ (cs'.map Prod.snd).flatten = (cs.map Prod.snd).flatten ++ [v] := by
  have hnd := hrep.addrs_nodup
  obtain ⟨hchain, htail, hnodes, hohe, hfresh, hbrk⟩ := hrep
  rcases List.eq_nil_or_concat cs with hnil | ⟨cs0, ⟨tl, vs⟩, hcs⟩
  · subst hnil; simp at htail
  rw [List.concat_eq_append] at hcs
  subst hcs
  have htl : tl = q.tail := by simpa using htail
  subst htl
  simp only [List.map_append, List.map_cons, List.map_nil] at hchain hnd
  obtain ⟨n, i, hn, hring⟩ := hnodes q.tail vs (by simp)
  obtain ⟨hseg, htl0, hnx⟩ := (Seg_snoc _ _ _ 0).mp hchain
  obtain ⟨n0, hn0, hnn⟩ := nodeNext_some hnx
  rw [hn] at hn0
  cases hn0
  have htl_notin : q.tail ∉ cs0.map Prod.fst := fun h =>
    (List.nodup_append.mp hnd).2.2 h (by simp)
  have hne_of_mem : ∀ a ws, (a, ws) ∈ cs0 → a ≠ q.tail := by
    intro a ws h e
    exact htl_notin (e ▸ List.mem_map_of_mem Prod.fst h)
  by_cases hroom : vs.length < R
  · obtain ⟨n', hpv, hring', hnext'⟩ := pushValue_spec R hR q.mem q.tail n i v vs hn hring hroom
    have hfs : n.free_slots > 0 := by rw [hring.free]; omega
    refine ⟨{ q with mem := q.mem.store q.tail (Obj.qnode n') }, cs0 ++ [(q.tail, vs ++ [v])],
      ?_, ⟨?_, ?_, ?_, ?_, ?_, ?_⟩, ?_⟩
    · simp only [RingsQueue_push, hn, hfs, if_true, hpv]
    · simp only [List.map_append, List.map_cons, List.map_nil]
      refine Seg_congr _ _ _ ?_ hchain
      intro x _
      by_cases hx : x = q.tail
      · subst hx
        rw [nodeNext_of_qnode (Mem.qnode_store_qnode _ _ _ htl0), nodeNext_of_qnode hn, hnext']
      · exact nodeNext_congr (Mem.qnode_store_ne _ _ _ _ hx)
    · simp
    · intro a ws hmem
      rcases List.mem_append.mp hmem with h | h
      · obtain ⟨m, j, hm, hr⟩ := hnodes a ws (List.mem_append_left _ h)
        exact ⟨m, j, by
          show (q.mem.store _ _).qnode a = _
          rw [Mem.qnode_store_ne _ _ _ _ (hne_of_mem a ws h)]; exact hm, hr⟩
      · simp at h
        obtain ⟨rfl, rfl⟩ := h
        exact ⟨n', i, Mem.qnode_store_qnode _ _ _ htl0, hring'⟩
    · intro a ws hmem hws
      rcases List.mem_append.mp hmem with h | h
      · exact hohe a ws (List.mem_append_left _ h) hws
      · simp at h
        obtain ⟨rfl, rfl⟩ := h
        simp at hws
    · intro a ws hmem
      rcases List.mem_append.mp hmem with h | h
      · exact hfresh a ws (List.mem_append_left _ h)
      · simp at h
        exact h.1 ▸ hfresh q.tail vs (by simp)
    · exact hbrk
    · simp [List.flatten_append]
  · have hlen : vs.length = R := le_antisymm hring.len (not_lt.mp hroom)
    have hfs : ¬ n.free_slots > 0 := by rw [hring.free]; omega
    have hb0 : bufIndex R 0 = some 0 := by
      simp [bufIndex]; omega
    have htl_lt : q.tail < q.mem.brk := hfresh q.tail vs (by simp)
    have htl_ne : q.tail ≠ q.mem.brk := by omega
    have hm1 : ∀ o, (({ q.mem with brk := q.mem.brk + 1 } : Mem RingsQueueNode).store q.mem.brk
        o).qnode q.tail = some n := by
      intro o
      rw [Mem.qnode_store_ne _ _ _ _ htl_ne]; exact hn
    simp only [RingsQueue_push, hn, hfs, if_false, RingsQueueNode_new_with_value, malloc, hbrk,
      hb0, hm1]
    refine ⟨_, cs0 ++ [(q.tail, vs), (q.mem.brk, [v])], rfl, ?_, ?_⟩
    · refine ⟨?_, ?_, ?_, ?_, ?_, ?_⟩
      · simp only [List.map_append, List.map_cons, List.map_nil]
        rw [show cs0.map Prod.fst ++ [q.tail, q.mem.brk]
            = (cs0.map Prod.fst ++ [q.tail]) ++ [q.mem.brk] by simp]
        refine (Seg_snoc _ _ _ 0).mpr ⟨(Seg_snoc _ _ _ _).mpr ⟨Seg_congr _ _ _ ?_ hseg, htl0, ?_⟩,
          hbrk, ?_⟩
        · intro x hx
          have hx1 : x ≠ q.tail := fun h => htl_notin (h ▸ hx)
          have hx2 : x ≠ q.mem.brk := by
            obtain ⟨⟨a, ws⟩, hmem, rfl⟩ := List.mem_map.mp hx
            have := hfresh a ws (List.mem_append_left _ hmem)
            simp only at this ⊢
            omega
          apply nodeNext_congr
          show (Mem.store _ _ _).qnode x = _
          rw [Mem.qnode_store_ne _ _ _ _ hx1, Mem.qnode_store_ne _ _ _ _ hx2]
          rfl
        · exact nodeNext_of_qnode (Mem.qnode_store_qnode _ _ _ htl0)
        · unfold nodeNext
          rw [Mem.qnode_store_ne _ _ _ _ (Ne.symm htl_ne), Mem.qnode_store_qnode _ _ _ hbrk]
      · simp
      · intro a ws hmem
        rcases List.mem_append.mp hmem with h | h
        · obtain ⟨m, j, hm, hr⟩ := hnodes a ws (List.mem_append_left _ h)
          have ha2 : a ≠ q.mem.brk := by
            have := hfresh a ws (List.mem_append_left _ h); omega
          refine ⟨m, j, ?_, hr⟩
          show (Mem.store _ _ _).qnode a = _
          rw [Mem.qnode_store_ne _ _ _ _ (hne_of_mem a ws h), Mem.qnode_store_ne _ _ _ _ ha2]
          exact hm
        · simp at h
          rcases h with ⟨rfl, rfl⟩ | ⟨rfl, rfl⟩
          · exact ⟨_, i, Mem.qnode_store_qnode _ _ _ htl0, hring.set_next _⟩
          · refine ⟨_, 0, Mem.qnode_store_store _ _ _ _ _ (Ne.symm htl_ne) hbrk, ?_⟩
            refine ⟨by omega, rfl, ?_, ?_, by simp; omega, ?_⟩
            · simp [Nat.mod_eq_of_lt (show 1 < R by omega)]
            · simp
            · intro k w hk
              have hk0 : k = 0 := by
                by_contra hne
                have : ([v] : List Value)[k]? = none := by
                  apply List.getElem?_eq_none; simp; omega
                rw [this] at hk; cases hk
              subst hk0
              simp at hk
              simp [setCell, hk]
      · intro a ws hmem hws
        rcases List.mem_append.mp hmem with h | h
        · exact hohe a ws (List.mem_append_left _ h) hws
        · simp at h
          rcases h with ⟨rfl, rfl⟩ | ⟨rfl, rfl⟩
          · exact hohe _ _ (by simp) hws
          · simp at hws
      · intro a ws hmem
        show a < q.mem.brk + 1
        rcases List.mem_append.mp hmem with h | h
        · have := hfresh a ws (List.mem_append_left _ h); omega
        · simp at h
          rcases h with ⟨rfl, rfl⟩ | ⟨rfl, rfl⟩
          · omega
          · omega
      · show q.mem.brk + 1 ≠ 0
        omega
    · simp [List.flatten_append]

theorem RingsQueue_pop_spec (R : Nat) (hR : R < 2147483648) (E : Value) (q : RingsQueue)
    (cs : List (Nat × List Value)) (hrep : RingsRep R q cs) :
    ∃ r q' cs', RingsQueue_pop R E q = .ok (r, q') ∧ RingsRep R q' cs'
      ∧ RefRet.toRet E (refStep (cs.map Prod.snd).flatten .pop).1 = .value r
      ∧ (cs'.map Prod.snd).flatten = (refStep (cs.map Prod.snd).flatten .pop).2 := by
  have hnd := hrep.addrs_nodup
  have hrep0 := hrep
  obtain ⟨hchain, htail, hnodes, hohe, hfresh, hbrk⟩ := hrep
  cases cs with
  | nil => simp at htail
  | cons p cs1 =>
    obtain ⟨h, vs0⟩ := p
    obtain ⟨e, hh0, nx, hnx, hrest⟩ := hchain
    have e' : q.head = h := e
    subst e'
    obtain ⟨n, i, hn, hring⟩ := hnodes q.head vs0 (by simp)
    obtain ⟨n0, hn0, hnn⟩ := nodeNext_some hnx
    rw [hn] at hn0
    cases hn0
    subst hnn
    simp only [List.map_cons, List.nodup_cons] at hnd
    by_cases hA : n.next ≠ 0 ∧ n.free_slots = (R : Int)
    · -- the head is used up and has a successor
      have hvs0 : vs0 = [] := by
        have := hring.free
        rw [hA.2] at this
        have : vs0.length = 0 := by omega
        exact List.length_eq_zero.mp this
      subst hvs0
      cases cs1 with
      | nil =>
        have : n.next = 0 := hrest
        exact absurd this hA.1
      | cons p2 cs2 =>
        obtain ⟨h2, vs2⟩ := p2
        have hrest0 := hrest
        obtain ⟨e2, h20, nx2, hnx2, hrest2⟩ := hrest
        have e2' : n.next = h2 := e2
        rw [e2'] at hA hrest0 h20
        have hh2 : h2 ≠ q.head := by
          intro heq
          apply hnd.1
          simp [heq]
        have hvs2 : vs2 ≠ [] := fun hv => hh2 (hohe h2 vs2 (by simp) hv)
        obtain ⟨v, vs2', rfl⟩ := List.exists_cons_of_ne_nil hvs2
        obtain ⟨n2, i2, hn2, hring2⟩ := hnodes h2 (v :: vs2') (by simp)
        have hn2' : (free q.mem q.head).qnode h2 = some n2 := by
          rw [qnode_free_ne _ _ _ hh2]; exact hn2
        obtain ⟨n2', hgv, hring2', hnext2'⟩ :=
          getValue_spec R hR (free q.mem q.head) h2 n2 i2 v vs2' hn2' hring2
        simp only [List.map_cons, List.nodup_cons] at hnd
        have hmem_ne : ∀ a ws, (a, ws) ∈ cs2 → a ≠ h2 ∧ a ≠ q.head := by
          intro a ws hm
          have ha : a ∈ cs2.map Prod.fst := List.mem_map_of_mem Prod.fst hm
          refine ⟨fun h => hnd.2.1 (h ▸ ha), fun h => hnd.1 ?_⟩
          simp [← h, ha]
        refine ⟨v, { q with mem := (free q.mem q.head).store h2 (Obj.qnode n2'), head := h2 },
          (h2, vs2') :: cs2, ?_, ⟨?_, ?_, ?_, ?_, ?_, ?_⟩, ?_, ?_⟩
        · simp only [RingsQueue_pop, hn, e2', hA, and_self, if_true, hgv, ne_eq, not_false_eq_true]
        · simp only [List.map_cons]
          refine Seg_congr _ _ _ ?_ hrest0
          intro x hx
          have hxh : x ≠ q.head := by
            intro h
            apply hnd.1
            simpa [h] using hx
          by_cases hx2 : x = h2
          · subst hx2
            rw [nodeNext_of_qnode (Mem.qnode_store_qnode _ _ _ h20), nodeNext_of_qnode hn2, hnext2']
          · apply nodeNext_congr
            show (Mem.store _ _ _).qnode x = _
            rw [Mem.qnode_store_ne _ _ _ _ hx2, qnode_free_ne _ _ _ hxh]
        · simpa [List.getLast?_cons_cons] using htail
        · intro a ws hm
          rcases List.mem_cons.mp hm with h | h
          · cases h
            exact ⟨n2', _, Mem.qnode_store_qnode _ _ _ h20, hring2'⟩
          · obtain ⟨m, j, hmq, hr⟩ := hnodes a ws (by simp [h])
            refine ⟨m, j, ?_, hr⟩
            show (Mem.store _ _ _).qnode a = _
            rw [Mem.qnode_store_ne _ _ _ _ (hmem_ne a ws h).1,
              qnode_free_ne _ _ _ (hmem_ne a ws h).2]
            exact hmq
        · intro a ws hm hws
          rcases List.mem_cons.mp hm with h | h
          · cases h; rfl
          · exact absurd (hohe a ws (by simp [h]) hws) (hmem_ne a ws h).2
        · intro a ws hm
          show a < (Mem.store _ _ _).brk
          simp only [Mem.store_brk, free_brk]
          rcases List.mem_cons.mp hm with h | h
          · cases h
            exact hfresh h2 (v :: vs2') (by simp)
          · exact hfresh a ws (by simp [h])
        · show (Mem.store _ _ _).brk ≠ 0
          simpa using hbrk
        · simp [refStep, RefRet.toRet]
        · simp [refStep]
    · by_cases hB : n.free_slots < (R : Int)
      · have hvs0 : vs0 ≠ [] := by
          intro h
          subst h
          have := hring.free
          simp at this
          omega
        obtain ⟨v, vs0', rfl⟩ := List.exists_cons_of_ne_nil hvs0
        obtain ⟨n', hgv, hring', hnext'⟩ := getValue_spec R hR q.mem q.head n i v vs0' hn hring
        have hmem_ne : ∀ a ws, (a, ws) ∈ cs1 → a ≠ q.head := by
          intro a ws hm h
          exact hnd.1 (h ▸ List.mem_map_of_mem Prod.fst hm)
        refine ⟨v, { q with mem := q.mem.store q.head (Obj.qnode n') }, (q.head, vs0') :: cs1,
          ?_, ⟨?_, ?_, ?_, ?_, ?_, ?_⟩, ?_, ?_⟩
        · simp only [RingsQueue_pop, hn, hA, if_false, hB, if_true, hgv]
        · refine Seg_congr _ _ _ ?_ hrep0.chain
          intro x _
          by_cases hx : x = q.head
          · subst hx
            rw [nodeNext_of_qnode (Mem.qnode_store_qnode _ _ _ hh0), nodeNext_of_qnode hn, hnext']
          · exact nodeNext_congr (Mem.qnode_store_ne _ _ _ _ hx)
        · exact htail
        · intro a ws hm
          rcases List.mem_cons.mp hm with h | h
          · cases h
            exact ⟨n', _, Mem.qnode_store_qnode _ _ _ hh0, hring'⟩
          · obtain ⟨m, j, hmq, hr⟩ := hnodes a ws (by simp [h])
            refine ⟨m, j, ?_, hr⟩
            show (Mem.store _ _ _).qnode a = _
            rw [Mem.qnode_store_ne _ _ _ _ (hmem_ne a ws h)]
            exact hmq
        · intro a ws hm hws
          rcases List.mem_cons.mp hm with h | h
          · cases h; rfl
          · exact hohe a ws (by simp [h]) hws
        · intro a ws hm
          rcases List.mem_cons.mp hm with h | h
          · cases h; exact hfresh q.head (v :: vs0') (by simp)
          · exact hfresh a ws (by simp [h])
        · exact hbrk
        · simp [refStep, RefRet.toRet]
        · simp [refStep]
      · -- the head is empty and there is no successor
        have hvs0 : vs0 = [] := by
          have h1 := hring.free
          have h2 := hring.len
          have : vs0.length = 0 := by omega
          exact List.length_eq_zero.mp this
        subst hvs0
        have hfree : n.free_slots = (R : Int) := by simpa using hring.free
        have hnext : n.next = 0 := by
          by_contra h
          exact hA ⟨h, hfree⟩
        have hcs1 : cs1 = [] := by
          cases cs1 with
          | nil => rfl
          | cons p2 cs2 =>
            obtain ⟨e2, h20, _⟩ := hrest
            exact absurd hnext h20
        subst hcs1
        refine ⟨E, q, [(q.head, [])], ?_, hrep0, ?_, ?_⟩
        · simp only [RingsQueue_pop, hn, hA, if_false, hB]
        · simp [refStep, RefRet.toRet]
        · simp [refStep]

theorem RingsQueue_is_empty_spec (R : Nat) (q : RingsQueue)
    (cs : List (Nat × List Value)) (hrep : RingsRep R q cs) :
    ∃ n, q.mem.qnode q.head = some n
      ∧ RingsQueue_is_empty R q = .ok (cs.map Prod.snd).flatten.isEmpty
      ∧ ((cs.map Prod.snd).flatten = [] ↔ n.free_slots = (R : Int) ∧ n.next = 0) := by
  have hnd := hrep.addrs_nodup
  obtain ⟨hchain, htail, hnodes, hohe, hfresh, hbrk⟩ := hrep
  cases cs with
  | nil => simp at htail
  | cons p cs1 =>
    obtain ⟨h, vs0⟩ := p
    obtain ⟨e, hh0, nx, hnx, hrest⟩ := hchain
    have e' : q.head = h := e
    subst e'
    obtain ⟨n, i, hn, hring⟩ := hnodes q.head vs0 (by simp)
    obtain ⟨n0, hn0, hnn⟩ := nodeNext_some hnx
    rw [hn] at hn0
    cases hn0
    subst hnn
    simp only [List.map_cons, List.nodup_cons] at hnd
    have key : ((vs0 :: cs1.map Prod.snd).flatten = [] ↔ n.free_slots = (R : Int) ∧ n.next = 0) := by
      constructor
      · intro hflat
        simp only [List.flatten_cons, List.append_eq_nil] at hflat
        have hv := hflat.1
        subst hv
        refine ⟨by simpa using hring.free, ?_⟩
        cases cs1 with
        | nil => exact hrest
        | cons p2 cs2 =>
          obtain ⟨h2, vs2⟩ := p2
          exfalso
          simp only [List.map_cons, List.flatten_cons, List.append_eq_nil] at hflat
          have := hohe h2 vs2 (by simp) hflat.2.1
          apply hnd.1
          simp [this]
      · rintro ⟨hf, hx⟩
        have hv : vs0 = [] := by
          have h1 := hring.free
          have : vs0.length = 0 := by omega
          exact List.length_eq_zero.mp this
        subst hv
        cases cs1 with
        | nil => rfl
        | cons p2 cs2 =>
          obtain ⟨e2, h20, _⟩ := hrest
          exact absurd hx h20
    refine ⟨n, hn, ?_, key⟩
    simp only [RingsQueue_is_empty, hn, List.map_cons]
    by_cases hc : n.free_slots < (R : Int) ∨ n.next ≠ 0
    · have : (vs0 :: cs1.map Prod.snd).flatten ≠ [] := by
        intro h
        have := key.mp h
        rcases hc with hc | hc
        · omega
        · exact hc this.2
      simp only [hc, if_true]
      cases hfl : (vs0 :: cs1.map Prod.snd).flatten with
      | nil => exact absurd hfl this
      | cons _ _ => rfl
    · have hc' : n.free_slots = (R : Int) ∧ n.next = 0 := by
        have h1 := hring.free
        constructor
        · by_contra h
          apply hc
          left
          omega
        · by_contra h
          exact hc (Or.inr h)
      simp only [hc, if_false]
      rw [key.mpr hc']
      rfl

theorem RingsQueue_new_spec (R : Nat) (hR : 0 < R) :
    ∃ q, RingsQueue_new R = .ok q ∧ RingsRep R q [(1, [])] := by
  refine ⟨{ mem := ({ obj := fun _ => none, brk := 2 } : Mem RingsQueueNode).store 1
              (Obj.qnode { next := 0, buffer := fun _ => none, push_idx := 0, pop_idx := 0,
                           free_slots := R }),
            head := 1, tail := 1 }, rfl, ⟨?_, rfl, ?_, ?_, ?_, Nat.succ_ne_zero 1⟩⟩
  · exact ⟨rfl, Nat.succ_ne_zero 0, 0, rfl, rfl⟩
  · intro a vs h
    simp at h
    obtain ⟨rfl, rfl⟩ := h
    exact ⟨_, 0, rfl, ⟨hR, rfl, by simp, by simp, by simp, by intro k v h; simp at h⟩⟩
  · intro a vs h _
    simp at h
    exact h.1
  · intro a vs h
    simp at h
    rw [h.1]
    exact Nat.lt_succ_self 1

theorem RingsQueue_step_spec (R : Nat) (hR2 : 2 ≤ R) (hR : R < 2147483648) (E : Value)
    (q : RingsQueue) (vals : List Value) (op : Op) (hinv : RingsInv R q vals) :
    ∃ q', RingsQueue_step R E q op = .ok ((refStep vals op).1.toRet E, q')
      ∧ RingsInv R q' (refStep vals op).2 := by
  obtain ⟨cs, hrep, rfl⟩ := hinv
  cases op with
  | push v =>
    obtain ⟨q', cs', h1, h2, h3⟩ := RingsQueue_push_spec R hR2 hR q cs v hrep
    exact ⟨q', by simp [RingsQueue_step, h1, refStep, RefRet.toRet], cs', h2, by simp [refStep, h3]⟩
  | pop =>
    obtain ⟨r, q', cs', h1, h2, h3, h4⟩ := RingsQueue_pop_spec R hR E q cs hrep
    exact ⟨q', by simp [RingsQueue_step, h1, h3], cs', h2, h4.symm⟩
  | is_empty =>
    obtain ⟨n, _, h1, _⟩ := RingsQueue_is_empty_spec R q cs hrep
    exact ⟨q, by simp [RingsQueue_step, h1, refStep, RefRet.toRet], cs, hrep, rfl⟩

theorem RingsQueue_run_spec (R : Nat) (hR2 : 2 ≤ R) (hR : R < 2147483648) (E : Value) :
    ∀ (ops : List Op) (q : RingsQueue) (vals : List Value), RingsInv R q vals →
      ∃ q', RingsQueue_run R E q ops = .ok ((refRun vals ops).map (RefRet.toRet E), q')
        ∧ RingsInv R q' (refFinal vals ops)
  | [], q, vals, h => ⟨q, rfl, h⟩
  | op :: ops, q, vals, h => by
    obtain ⟨q1, h1, h2⟩ := RingsQueue_step_spec R hR2 hR E q vals op h
    obtain ⟨q2, h3, h4⟩ := RingsQueue_run_spec R hR2 hR E ops q1 _ h2
    exact ⟨q2, by simp [RingsQueue_run, h1, h3, refRun], h4⟩

theorem RingsQueue_session_spec (R : Nat) (hR2 : 2 ≤ R) (hR : R < 2147483648) (E : Value)
    (ops : List Op) :
    ∃ q, RingsQueue_session R E ops = .ok ((refRun [] ops).map (RefRet.toRet E), q)
      ∧ RingsInv R q (refFinal [] ops) := by
  obtain ⟨q0, h0, hrep⟩ := RingsQueue_new_spec R (by omega)
  obtain ⟨q, h1, h2⟩ := RingsQueue_run_spec R hR2 hR E ops q0 [] ⟨_, hrep, rfl⟩
  exact ⟨q, by simp [RingsQueue_session, h0, h1], h2⟩

/-- A value popped from the reference queue was in it at the start or was pushed. -/
theorem refRun_popped_mem :
    ∀ (ops : List Op) (q : List Value) (v : Value),
      RefRet.popped (some v) ∈ refRun q ops → v ∈ q ∨ v ∈ pushedValues ops
  | [], _, _, h => by simp [refRun] at h
  | op :: ops, q, v, h => by
    simp only [refRun, List.mem_cons] at h
    cases op with
    | push w =>
      rcases h with h | h
      · simp [refStep] at h
      · rcases refRun_popped_mem ops _ v h with h' | h'
        · simp only [refStep, List.mem_append, List.mem_singleton] at h'
          rcases h' with h' | h'
          · exact Or.inl h'
          · exact Or.inr (by simp [pushedValues, h'])
        · exact Or.inr (by simp [pushedValues, h'])
    | pop =>
      cases q with
      | nil =>
        rcases h with h | h
        · simp [refStep] at h
        · rcases refRun_popped_mem ops _ v h with h' | h'
          · simp [refStep] at h'
          · exact Or.inr (by simpa [pushedValues] using h')
      | cons w rest =>
        rcases h with h | h
        · simp [refStep] at h
          exact Or.inl (by simp [h])
        · rcases refRun_popped_mem ops _ v h with h' | h'
          · simp only [refStep] at h'
            exact Or.inl (List.mem_cons_of_mem _ h')
          · exact Or.inr (by simpa [pushedValues] using h')
    | is_empty =>
      rcases h with h | h
      · simp [refStep] at h
      · rcases refRun_popped_mem ops _ v h with h' | h'
        · exact Or.inl (by simpa [refStep] using h')
        · exact Or.inr (by simpa [pushedValues] using h')

/-- When no pushed value is `EMPTY_VALUE`, a call reports `EMPTY_VALUE` exactly when
it is a `pop` that found the reference queue empty. -/
theorem refRun_empty_exact (E : Value) (ops : List Op)
    (hv : ∀ v, v ∈ pushedValues ops → v ≠ E) (r : RefRet) (hr : r ∈ refRun [] ops) :
    r.toRet E = .value E ↔ r = .popped none := by
  cases r with
  | pushed => simp [RefRet.toRet]
  | empty b => simp [RefRet.toRet]
  | popped o =>
    cases o with
    | none => simp [RefRet.toRet]
    | some v =>
      have : v ≠ E := by
        rcases refRun_popped_mem ops [] v hr with h | h
        · simp at h
        · exact hv v h
      simp [RefRet.toRet, this]

/-- C4: on a queue from `RingsQueue_new`, every sequence of calls returns, and
returns what the reference FIFO queue returns (a `pop` gives the oldest value
not yet popped, `EMPTY_VALUE` when there is none); when no pushed value is
`EMPTY_VALUE` itself, a `pop` gives `EMPTY_VALUE` exactly when every pushed value has
already been popped.  `RING_SIZE` is any value from 2 that fits an `int`. -/
theorem RingsQueue_fifo (RING_SIZE : Nat) (EMPTY_VALUE : Value) (ops : List Op)
    (hR2 : 2 ≤ RING_SIZE) (hR : RING_SIZE < 2147483648) :
    ∃ q, RingsQueue_session RING_SIZE EMPTY_VALUE ops
          = .ok ((refRun [] ops).map (RefRet.toRet EMPTY_VALUE), q)
      ∧ ((∀ v, v ∈ pushedValues ops → v ≠ EMPTY_VALUE) →
          ∀ r, r ∈ refRun [] ops → (r.toRet EMPTY_VALUE = .value EMPTY_VALUE ↔ r = .popped none)) := by
  obtain ⟨q, h, _⟩ := RingsQueue_session_spec RING_SIZE hR2 hR EMPTY_VALUE ops
  exact ⟨q, h, fun hv r hr => refRun_empty_exact EMPTY_VALUE ops hv r hr⟩

/-- C4 at a concrete input: rings of 2 cells, three pushes that spill into a
second node, then pops that wrap the ring and find the queue empty. -/
theorem RingsQueue_fifo_witness :
    ∃ q, RingsQueue_session 2 0 [.push 1, .push 2, .push 3, .pop, .push 4, .pop, .pop, .pop, .pop]
          = .ok ((refRun [] [.push 1, .push 2, .push 3, .pop, .push 4, .pop, .pop, .pop, .pop]).map
              (RefRet.toRet 0), q)
      ∧ ((∀ v, v ∈ pushedValues [.push 1, .push 2, .push 3, .pop, .push 4, .pop, .pop, .pop, .pop]
            → v ≠ 0) →
          ∀ r, r ∈ refRun [] [.push 1, .push 2, .push 3, .pop, .push 4, .pop, .pop, .pop, .pop] →
            (r.toRet 0 = .value 0 ↔ r = .popped none)) :=
  RingsQueue_fifo 2 0 [.push 1, .push 2, .push 3, .pop, .push 4, .pop, .pop, .pop, .pop]
    (by decide) (by decide)

/-- C10: after any sequence of calls on a queue from `RingsQueue_new`,
`RingsQueue_is_empty` returns, and returns `true` exactly when every pushed value
has been popped, which is exactly when the head node has
`free_slots == RING_SIZE` and no successor. -/
theorem RingsQueue_is_empty_iff (RING_SIZE : Nat) (EMPTY_VALUE : Value) (ops : List Op)
    (hR2 : 2 ≤ RING_SIZE) (hR : RING_SIZE < 2147483648) :
    ∃ rs q head b,
      RingsQueue_session RING_SIZE EMPTY_VALUE ops = .ok (rs, q)
      ∧ q.mem.qnode q.head = some head
      ∧ RingsQueue_is_empty RING_SIZE q = .ok b
      ∧ (b = true ↔ refFinal [] ops = [])
      ∧ (refFinal [] ops = [] ↔ head.free_slots = (RING_SIZE : Int) ∧ head.next = 0) := by
  obtain ⟨q, h, cs, hrep, hvals⟩ := RingsQueue_session_spec RING_SIZE hR2 hR EMPTY_VALUE ops
  obtain ⟨n, hn, he, hiff⟩ := RingsQueue_is_empty_spec RING_SIZE q cs hrep
  rw [← hvals] at he hiff
  exact ⟨_, q, n, _, h, hn, he, by simp [List.isEmpty_iff], hiff⟩

/-- C10 at a concrete input: rings of 2 cells, one value left in the second node. -/
theorem RingsQueue_is_empty_iff_witness :
    ∃ rs q head b,
      RingsQueue_session 2 0 [.push 1, .push 2, .push 3, .pop, .pop] = .ok (rs, q)
      ∧ q.mem.qnode q.head = some head
      ∧ RingsQueue_is_empty 2 q = .ok b
      ∧ (b = true ↔ refFinal [] [.push 1, .push 2, .push 3, .pop, .pop] = [])
      ∧ (refFinal [] [.push 1, .push 2, .push 3, .pop, .pop] = []
          ↔ head.free_slots = ((2 : Nat) : Int) ∧ head.next = 0) :=
  RingsQueue_is_empty_iff 2 0 [.push 1, .push 2, .push 3, .pop, .pop] (by decide) (by decide)

/-- With `RING_SIZE = 1` the node made by `RingsQueueNode_new_with_value` has
`push_idx = 1`, outside its ring, and a later push into it writes out of bounds:
the bound `2 ≤ RING_SIZE` of the two statements above is needed. -/
theorem RingsQueue_ring_size_one :
    (RingsQueue_session 1 0 [.push 1, .push 2, .pop, .pop, .push 3]).toOption.isNone = true := by
  decide

/-! ## Retiring from a queue -/

theorem protectedBy_false_of_slots {N : Type} (hs : HPState N) (a : Nat)
    (hreg : Registered hs)
    (hslots : ∀ j, j < MAX_THREADS → j ≠ hs._thread_id.toNat → hs.hp.pointer j = 0)
    (ha0 : a ≠ 0) (hat : hs.hp.pointer hs._thread_id.toNat ≠ a) : protectedBy hs a = false := by
  unfold protectedBy
  rw [Bool.eq_false_iff]
  intro h
  obtain ⟨j, hj, hp⟩ := List.any_eq_true.mp h
  have hjlt : j < MAX_THREADS := by
    have := List.mem_range.mp hj
    have h2 := hreg.2.2
    omega
  have hp' : hs.hp.pointer j = a := by simpa using hp
  by_cases hjt : j = hs._thread_id.toNat
  · exact hat (hjt ▸ hp')
  · rw [hslots j hjlt hjt] at hp'
    exact ha0 hp'.symm

theorem rnode_qnode_exclusive {N : Type} {m : Mem N} {a : Nat} {r : RetiredPointer_Node} {n : N}
    (hr : m.rnode a = some r) (hq : m.qnode a = some n) : False := by
  unfold Mem.rnode at hr
  unfold Mem.qnode at hq
  by_cases h0 : a = 0
  · simp [h0] at hr
  · simp only [h0, if_false] at hr hq
    cases hm : m.obj a with
    | none => simp [hm] at hr
    | some o =>
      cases o with
      | rnode _ => simp [hm] at hq
      | qnode _ => simp [hm] at hr

theorem RetiredList.mem_rnode {N : Type} {hs : HPState N} {t : Nat} {l : List Nat}
    (h : RetiredList hs t l) (a : Nat) (ha : a ∈ l) : ∃ m, hs.mem.rnode a = some m := by
  obtain ⟨n, hn⟩ := Seg_mem_some l _ 0 h.chain a ha
  obtain ⟨c, hc, _⟩ := rnext_some hn
  exact ⟨c, hc⟩

theorem RetiredList.mem_ne_zero {N : Type} {hs : HPState N} {t : Nat} {l : List Nat}
    (h : RetiredList hs t l) (a : Nat) (ha : a ∈ l) : a ≠ 0 :=
  Seg_mem_ne_zero l _ 0 h.chain a ha

/-- Retiring the old head `p`, a live queue node that the running thread still
protects: the call returns, the list stays as the queues need it, and no live
queue node is touched. -/
theorem HazardPointer_retire_seq {N : Type} (hs : HPState N) (fuel p : Nat) (n : N)
    (live l : List Nat) (hok : RetiredOK hs (p :: live) l) (hfuel : 128 < fuel)
    (hp : hs.mem.qnode p = some n) (hprot : hs.hp.pointer hs._thread_id.toNat = p)
    (hpb : p < hs.mem.brk) (hplive : p ∉ live)
    (hlive : ∀ a, a ∈ live → (∃ k, hs.mem.qnode a = some k) ∧ a < hs.mem.brk) :
    ∃ hs' l', HazardPointer_retire fuel hs p = .ok hs'
      ∧ RetiredOK hs' live l'
      ∧ SameSlots hs hs' hs._thread_id.toNat
      ∧ hs'.mem.brk = hs.mem.brk + 1
      ∧ (∀ a, a ∈ live → hs'.mem.qnode a = hs.mem.qnode a) := by
  obtain ⟨hreg, hslots, hrl, hsz, hrf, hdead, hbrk⟩ := hok
  obtain ⟨ht, htlt⟩ := arrayIndex_of_registered hs hreg
  have hunprot : ∀ a, a ∈ l → protectedBy hs a = false := by
    intro a ha
    apply protectedBy_false_of_slots hs a hreg hslots (hrl.mem_ne_zero a ha)
    rw [hprot]
    intro h
    obtain ⟨m, hm⟩ := hrl.mem_rnode a ha
    exact rnode_qnode_exclusive hm (h ▸ hp)
  have hpl : p ∉ l := by
    intro h
    obtain ⟨m, hm⟩ := hrl.mem_rnode p h
    exact rnode_qnode_exclusive hm hp
  have hlivel : ∀ a, a ∈ live → a ∉ l := by
    intro a ha h
    obtain ⟨m, hm⟩ := hrl.mem_rnode a h
    obtain ⟨k, hk⟩ := (hlive a ha).1
    exact rnode_qnode_exclusive hm hk
  by_cases hsize : (hs.hp.retired_ptrs hs._thread_id.toNat).size = RETIRED_THRESHOLD
  · obtain ⟨mid, c1, c2, c3, c4, c5, _⟩ :=
      clean_retired_list_spec hs fuel _ l ht hreg.2.2 hrl (fun a ha m hm => (hdead a ha m hm).1)
        (by omega)
    have hfil : l.filter (protectedBy hs) = [] := by
      apply List.filter_eq_nil_iff.mpr
      intro a ha
      simp [hunprot a ha]
    rw [hfil] at c2
    have htm : arrayIndex mid._thread_id = some hs._thread_id.toNat := by
      rw [c3.thread_id]; exact ht
    obtain ⟨s', a1, a2, a3, a4, _, a6, a7, _⟩ :=
      add_to_retired_list_spec mid p _ [] htm c2 (by simp) (by rw [c4]; exact hbrk)
    rw [c4] at a2 a3 a4 a7
    have hss : SameSlots hs s' hs._thread_id.toNat := c3.trans a6
    refine ⟨s', [hs.mem.brk], ?_, ⟨?_, ?_, ?_, by simp, ?_, ?_, ?_⟩, hss, a4, ?_⟩
    · simp only [HazardPointer_retire, ht, hsize, if_true, c1, a1]
    · simpa [Registered, hss.thread_id, hss.num_threads] using hreg
    · intro j hj hjt
      rw [hss.pointer]
      exact hslots j hj (by rwa [hss.thread_id] at hjt)
    · rw [hss.thread_id]; simpa using a2
    · intro a ha
      simp at ha
      rw [a4, ha]; omega
    · intro a ha m hm
      simp at ha
      subst ha
      rw [a3] at hm
      cases hm
      refine ⟨?_, hplive, by rw [a4]; show p < _; omega⟩
      simp
      show p ≠ hs.mem.brk
      omega
    · rw [a4]; omega
    · intro a ha
      have hab : a ≠ hs.mem.brk := by
        have := (hlive a ha).2; omega
      rw [a7 a hab]
      apply Mem.qnode_congr
      apply c5 a (hlivel a ha)
      intro x hx m hm h
      exact (hdead x hx m hm).2.1 (by simp [h, ha])
  · obtain ⟨s', a1, a2, a3, a4, _, a6, a7, a8⟩ :=
      add_to_retired_list_spec hs p _ l ht hrl hrf hbrk
    have hlen : l.length < 128 := by
      have h1 := hrl.size_eq
      have h2 : (l.length : Int) ≠ 128 := by
        rw [← h1]; exact hsize
      omega
    refine ⟨s', l ++ [hs.mem.brk], ?_, ⟨?_, ?_, ?_, by simp; omega, ?_, ?_, ?_⟩, a6, a4, ?_⟩
    · simp only [HazardPointer_retire, ht, hsize, if_false, a1]
    · simpa [Registered, a6.thread_id, a6.num_threads] using hreg
    · intro j hj hjt
      rw [a6.pointer]
      exact hslots j hj (by rwa [a6.thread_id] at hjt)
    · rw [a6.thread_id]; exact a2
    · intro a ha
      rw [a4]
      rcases List.mem_append.mp ha with h | h
      · have := hrf a h; omega
      · simp at h; omega
    · intro a ha m' hm'
      rw [a4]
      rcases List.mem_append.mp ha with h | h
      · obtain ⟨m, hm, hmp⟩ := a8 a h m' hm'
        obtain ⟨d1, d2, d3⟩ := hdead a h m hm
        rw [← hmp]
        refine ⟨?_, fun hh => d2 (List.mem_cons_of_mem _ hh), by omega⟩
        intro hh
        rcases List.mem_append.mp hh with h' | h'
        · exact d1 h'
        · simp at h'; omega
      · simp at h
        subst h
        rw [a3] at hm'
        cases hm'
        refine ⟨?_, hplive, by show p < _; omega⟩
        intro hh
        rcases List.mem_append.mp hh with h' | h'
        · exact hpl h'
        · simp at h'
          have : p = hs.mem.brk := h'
          omega
    · rw [a4]; omega
    · intro a ha
      have hab : a ≠ hs.mem.brk := by
        have := (hlive a ha).2; omega
      exact a7 a hab

/-! ## LLQueue.c -/

theorem RetiredList.frame {N : Type} {hs hs' : HPState N} {t : Nat} {l : List Nat}
    (h : RetiredList hs t l) (hl : hs'.hp.retired_ptrs t = hs.hp.retired_ptrs t)
    (hrn : ∀ a, a ∈ l → hs'.mem.rnode a = hs.mem.rnode a) : RetiredList hs' t l := by
  refine ⟨?_, by rw [hl]; exact h.tail_eq, by rw [hl]; exact h.size_eq⟩
  rw [hl]
  exact Seg_congr l _ _ (fun x hx => rnext_eq_of_rnode (hrn x hx)) h.chain

/-- The retired list does not notice changes made to queue nodes or to the slot
of the running thread. -/
theorem RetiredOK.of_frame {N : Type} {hs hs' : HPState N} {live live' l : List Nat}
    (h : RetiredOK hs live l)
    (hlists : hs'.hp.retired_ptrs = hs.hp.retired_ptrs)
    (hptr : ∀ j, j ≠ hs._thread_id.toNat → hs'.hp.pointer j = hs.hp.pointer j)
    (htid : hs'._thread_id = hs._thread_id) (hnum : hs'._num_threads = hs._num_threads)
    (hrn : ∀ a, a ∈ l → hs'.mem.rnode a = hs.mem.rnode a)
    (hbrk : hs.mem.brk ≤ hs'.mem.brk)
    (hlive : ∀ x, x ∈ live' → x ∈ live ∨ hs.mem.brk ≤ x) : RetiredOK hs' live' l := by
  obtain ⟨hreg, hslots, hrl, hsz, hrf, hdead, hb⟩ := h
  refine ⟨?_, ?_, ?_, hsz, ?_, ?_, by omega⟩
  · simpa [Registered, htid, hnum] using hreg
  · intro j hj hjt
    rw [htid] at hjt
    rw [hptr j hjt]
    exact hslots j hj hjt
  · rw [htid]
    exact hrl.frame (by rw [hlists]) hrn
  · intro a ha
    have := hrf a ha; omega
  · intro a ha m hm
    rw [hrn a ha] at hm
    obtain ⟨d1, d2, d3⟩ := hdead a ha m hm
    refine ⟨d1, ?_, by omega⟩
    intro hx
    rcases hlive _ hx with h1 | h1
    · exact d2 h1
    · omega

theorem LLRep.nodup {E : Value} {q : LLQueue} {cs : List (Nat × Value)} {l : List Nat}
    (h : LLRep E q cs l) : (cs.map Prod.fst).Nodup := Chain_nodup _ _ h.chain

theorem LLRep.not_mem_retired {E : Value} {q : LLQueue} {cs : List (Nat × Value)} {l : List Nat}
    (h : LLRep E q cs l) (a : Nat) (v : Value) (ha : (a, v) ∈ cs) : a ∉ l := by
  intro hl
  obtain ⟨m, hm⟩ := h.retired.rlist.mem_rnode a hl
  obtain ⟨n, hn, _⟩ := h.nodes a v ha
  exact rnode_qnode_exclusive hm hn

theorem LLQueue_new_spec (E : Value) (hp : HazardPointer) (thread_id num_threads : Int)
    (h0 : 0 ≤ thread_id) (h1 : thread_id < num_threads) (h2 : num_threads ≤ (MAX_THREADS : Int)) :
    ∃ q, LLQueue_new E (HazardPointer_register (boot LLNode hp) thread_id num_threads) = .ok q
      ∧ LLRep E q [(1, E)] [] := by
  have htlt : thread_id.toNat < MAX_THREADS := by
    have := Int.toNat_of_nonneg h0
    omega
  refine ⟨_, rfl, ⟨?_, rfl, ?_, ?_, ?_, ⟨⟨h0, h1, h2⟩, ?_, ⟨?_, ?_, ?_⟩, by simp, ?_, ?_, ?_⟩⟩⟩
  · exact ⟨rfl, Nat.succ_ne_zero 0, 0, rfl, rfl⟩
  · intro a v h
    simp at h
    obtain ⟨rfl, rfl⟩ := h
    exact ⟨_, rfl, rfl⟩
  · intro a v h _
    simp at h
    exact h.1
  · intro a v h
    simp at h
    rw [h.1]
    exact Nat.lt_succ_self 1
  · intro j hj _
    show (if j < MAX_THREADS then 0 else hp.pointer j) = 0
    simp [hj]
  · show Seg _ (if thread_id.toNat < MAX_THREADS then _ else _ : RetiredPointer_List).head [] 0
    simp [htlt, Seg]
  · show (if thread_id.toNat < MAX_THREADS then _ else _ : RetiredPointer_List).tail = _
    simp [htlt]
  · show (if thread_id.toNat < MAX_THREADS then _ else _ : RetiredPointer_List).size = _
    simp [htlt]
  · intro a ha; simp at ha
  · intro a ha; simp at ha
  · exact Nat.succ_ne_zero 1

theorem LLQueue_push_spec (E : Value) (fuel : Nat) (q : LLQueue) (cs : List (Nat × Value))
    (l : List Nat) (v : Value) (hv : v ≠ E) (hrep : LLRep E q cs l) :
    ∃ q', LLQueue_push (fuel + 1) q v = .ok q'
      ∧ LLRep E q' (cs ++ [(q.hs.mem.brk, v)]) l := by
  have hnd := hrep.nodup
  have hnl := hrep.not_mem_retired
  obtain ⟨hchain, htail, hnodes, hohe, hfresh, hret⟩ := hrep
  obtain ⟨ht, htlt⟩ := arrayIndex_of_registered q.hs hret.reg
  have hbrk := hret.brk_pos
  rcases List.eq_nil_or_concat cs with hnil | ⟨cs0, ⟨tl, vt⟩, hcs⟩
  · subst hnil; simp at htail
  rw [List.concat_eq_append] at hcs
  subst hcs
  have htl : tl = q.tail := by simpa using htail
  subst htl
  simp only [List.map_append, List.map_cons, List.map_nil] at hchain hnd
  obtain ⟨n, hn, hitem⟩ := hnodes q.tail vt (by simp)
  obtain ⟨hseg, htl0, hnx⟩ := (Seg_snoc _ _ _ 0).mp hchain
  have htl_notin : q.tail ∉ cs0.map Prod.fst := fun h =>
    (List.nodup_append.mp hnd).2.2 h (by simp)
  have hne_of_mem : ∀ a w, (a, w) ∈ cs0 → a ≠ q.tail := by
    intro a w h e
    exact htl_notin (e ▸ List.mem_map_of_mem Prod.fst h)
  have htl_lt : q.tail < q.hs.mem.brk := hfresh q.tail vt (by simp)
  have htl_ne : q.tail ≠ q.hs.mem.brk := by omega
  have hm1 : ∀ o, (({ q.hs.mem with brk := q.hs.mem.brk + 1 } : Mem LLNode).store q.hs.mem.brk
      o).qnode q.tail = some n := by
    intro o
    rw [Mem.qnode_store_ne _ _ _ _ htl_ne]; exact hn
  have hprot := HazardPointer_protect_succ q.tail fuel
    ({ q.hs with
       mem := (Mem.store { q.hs.mem with brk := q.hs.mem.brk + 1 } q.hs.mem.brk
                (Obj.qnode { next := 0, item := v })) } : HPState LLNode) _ ht
  simp only [LLQueue_push, LLNode_new, malloc, hbrk, if_false, LLQueue_push_loop, hprot, if_true,
    hm1, HazardPointer_clear, ht]
  refine ⟨_, rfl, ?_⟩
  refine ⟨?_, ?_, ?_, ?_, ?_, ?_⟩
  · simp only [List.map_append, List.map_cons, List.map_nil]
    rw [show cs0.map Prod.fst ++ [q.tail] ++ [q.hs.mem.brk]
        = (cs0.map Prod.fst ++ [q.tail]) ++ [q.hs.mem.brk] by simp]
    refine (Seg_snoc _ _ _ 0).mpr ⟨(Seg_snoc _ _ _ _).mpr ⟨Seg_congr _ _ _ ?_ hseg, htl0, ?_⟩,
      hbrk, ?_⟩
    · intro x hx
      have hx1 : x ≠ q.tail := fun h => htl_notin (h ▸ hx)
      have hx2 : x ≠ q.hs.mem.brk := by
        obtain ⟨⟨a, w⟩, hmem, rfl⟩ := List.mem_map.mp hx
        have := hfresh a w (List.mem_append_left _ hmem)
        simp only at this ⊢
        omega
      apply nodeNext_congr
      show (Mem.store _ _ _).qnode x = _
      rw [Mem.qnode_store_ne _ _ _ _ hx1, Mem.qnode_store_ne _ _ _ _ hx2]
      rfl
    · exact nodeNext_of_qnode (Mem.qnode_store_qnode _ _ _ htl0)
    · exact nodeNext_of_qnode (Mem.qnode_store_store _ _ _ _ _ (Ne.symm htl_ne) hbrk)
  · simp
  · intro a w hmem
    rcases List.mem_append.mp hmem with h | h
    · rcases List.mem_append.mp h with h | h
      · obtain ⟨m, hm, hi⟩ := hnodes a w (List.mem_append_left _ h)
        have ha2 : a ≠ q.hs.mem.brk := by
          have := hfresh a w (List.mem_append_left _ h); omega
        refine ⟨m, ?_, hi⟩
        show (Mem.store _ _ _).qnode a = _
        rw [Mem.qnode_store_ne _ _ _ _ (hne_of_mem a w h), Mem.qnode_store_ne _ _ _ _ ha2]
        exact hm
      · simp at h
        obtain ⟨rfl, rfl⟩ := h
        exact ⟨_, Mem.qnode_store_qnode _ _ _ htl0, hitem⟩
    · simp at h
      obtain ⟨rfl, rfl⟩ := h
      exact ⟨_, Mem.qnode_store_store _ _ _ _ _ (Ne.symm htl_ne) hbrk, rfl⟩
  · intro a w hmem hw
    rcases List.mem_append.mp hmem with h | h
    · exact hohe a w h hw
    · simp at h
      exact absurd (h.2 ▸ hw) hv
  · intro a w hmem
    show a < q.hs.mem.brk + 1
    rcases List.mem_append.mp hmem with h | h
    · have := hfresh a w h; omega
    · simp at h
      omega
  · refine hret.of_frame rfl ?_ rfl rfl ?_ (Nat.le_succ _) ?_
    · intro j hj
      simp [HazardPointer.setPointer, hj]
    · intro a ha
      have ha1 : a ≠ q.hs.mem.brk := by
        have := hret.rfresh a ha; omega
      show (Mem.store _ _ _).rnode a = _
      rw [Mem.rnode_store_qnode _ _ _ _ n (hm1 _), Mem.rnode_store_ne _ _ _ _ ha1]
      rfl
    · intro x hx
      simp only [List.map_append, List.map_cons, List.map_nil, List.mem_append,
        List.mem_singleton] at hx
      rcases hx with hx | hx
      · left
        simp only [List.map_append, List.map_cons, List.map_nil, List.mem_append,
          List.mem_singleton]
        exact hx
      · right; omega

theorem HeadTouched.retired {N : Type} {hs hs2 : HPState N} {head : Nat} {n n' : N}
    {live l : List Nat} (ht : HeadTouched hs head hs2 n') (hn : hs.mem.qnode head = some n)
    (hok : RetiredOK hs live l) : RetiredOK hs2 live l := by
  refine hok.of_frame (by rw [ht.hp]; rfl) ?_ ht.thread_id ht.num_threads ?_
    (le_of_eq ht.brk.symm) (fun x hx => Or.inl hx)
  · intro j hj
    rw [ht.hp]
    simp [HazardPointer.setPointer, hj]
  · intro a ha
    apply Mem.rnode_congr
    apply ht.obj
    intro h
    obtain ⟨m, hm⟩ := hok.rlist.mem_rnode a ha
    exact rnode_qnode_exclusive hm (h ▸ hn)

/-- The queue after its head node was touched: same nodes, the head item is
the one now stored. -/
theorem LLRep.touch {E : Value} {q : LLQueue} {v0 : Value} {cs1 : List (Nat × Value)}
    {l : List Nat} {hs2 : HPState LLNode} {n n' : LLNode}
    (hrep : LLRep E q ((q.head, v0) :: cs1) l) (ht : HeadTouched q.hs q.head hs2 n')
    (hn : q.hs.mem.qnode q.head = some n) (hnext : n'.next = n.next) :
    LLRep E { q with hs := hs2 } ((q.head, n'.item) :: cs1) l := by
  have hnd := hrep.nodup
  simp only [List.map_cons, List.nodup_cons] at hnd
  have hne : ∀ a w, (a, w) ∈ cs1 → a ≠ q.head := by
    intro a w hm h
    exact hnd.1 (h ▸ List.mem_map_of_mem Prod.fst hm)
  obtain ⟨hchain, htail, hnodes, hohe, hfresh, hret⟩ := hrep
  refine ⟨?_, htail, ?_, ?_, ?_, ht.retired hn hret⟩
  · refine Seg_congr _ _ _ ?_ hchain
    intro x _
    by_cases hx : x = q.head
    · subst hx
      show nodeNext LLNode.next hs2.mem _ = _
      rw [nodeNext_of_qnode ht.node, nodeNext_of_qnode hn, hnext]
    · exact nodeNext_congr (Mem.qnode_congr (ht.obj x hx))
  · intro a w hm
    rcases List.mem_cons.mp hm with h | h
    · cases h
      exact ⟨n', ht.node, rfl⟩
    · obtain ⟨m, hmq, hi⟩ := hnodes a w (by simp [h])
      refine ⟨m, ?_, hi⟩
      show hs2.mem.qnode a = _
      rw [Mem.qnode_congr (ht.obj a (hne a w h))]
      exact hmq
  · intro a w hm hw
    rcases List.mem_cons.mp hm with h | h
    · cases h; rfl
    · exact hohe a w (by simp [h]) hw
  · intro a w hm
    show a < hs2.mem.brk
    rw [ht.brk]
    rcases List.mem_cons.mp hm with h | h
    · cases h; exact hfresh q.head v0 (by simp)
    · exact hfresh a w (by simp [h])

/-- The head moves on to its successor and the old head is retired. -/
theorem LL_advance {E : Value} {q : LLQueue} {v0 v2 : Value} {h2 : Nat}
    {cs2 : List (Nat × Value)} {l : List Nat} {hs2 : HPState LLNode} {n n' : LLNode}
    (fuel : Nat) (hfuel : 128 < fuel)
    (hrep : LLRep E q ((q.head, v0) :: (h2, v2) :: cs2) l)
    (ht : HeadTouched q.hs q.head hs2 n') (hn : q.hs.mem.qnode q.head = some n) :
    ∃ hs3 l', advance_head fuel hs2 q.head q.head h2 = .ok (hs3, h2)
      ∧ LLRep E { hs := hs3, head := h2, tail := q.tail } ((h2, v2) :: cs2) l' := by
  have hnd := hrep.nodup
  simp only [List.map_cons, List.nodup_cons] at hnd
  obtain ⟨hchain, htail, hnodes, hohe, hfresh, hret⟩ := hrep
  obtain ⟨e, hh0, nx, hnx, hrest⟩ := hchain
  have hret2 : RetiredOK hs2 (q.head :: ((h2, v2) :: cs2).map Prod.fst) l := ht.retired hn hret
  have hlive_ne : ∀ a, a ∈ ((h2, v2) :: cs2).map Prod.fst → a ≠ q.head := by
    intro a ha h
    exact hnd.1 (h ▸ ha)
  have hlive : ∀ a, a ∈ ((h2, v2) :: cs2).map Prod.fst →
      (∃ k, hs2.mem.qnode a = some k) ∧ a < hs2.mem.brk := by
    intro a ha
    obtain ⟨⟨a', w⟩, hm, rfl⟩ := List.mem_map.mp ha
    obtain ⟨m, hmq, _⟩ := hnodes a' w (List.mem_cons_of_mem _ hm)
    refine ⟨⟨m, ?_⟩, ?_⟩
    · rw [Mem.qnode_congr (ht.obj a' (hlive_ne a' ha))]; exact hmq
    · rw [ht.brk]; exact hfresh a' w (List.mem_cons_of_mem _ hm)
  have hprot : hs2.hp.pointer hs2._thread_id.toNat = q.head := by
    rw [ht.hp, ht.thread_id]
    simp [HazardPointer.setPointer]
  obtain ⟨hs3, l', r1, r2, r3, r4, r5⟩ :=
    HazardPointer_retire_seq hs2 fuel q.head n' _ l hret2 hfuel ht.node hprot
      (by rw [ht.brk]; exact hfresh q.head v0 (by simp)) hnd.1 hlive
  have hq3 : ∀ a, a ∈ ((h2, v2) :: cs2).map Prod.fst → hs3.mem.qnode a = q.hs.mem.qnode a := by
    intro a ha
    rw [r5 a ha, Mem.qnode_congr (ht.obj a (hlive_ne a ha))]
  refine ⟨hs3, l', by simp only [advance_head, if_true, r1], ⟨?_, ?_, ?_, ?_, ?_, r2⟩⟩
  · have hrest' : Chain (nodeNext LLNode.next q.hs.mem) h2 (((h2, v2) :: cs2).map Prod.fst) := by
      have e2 : nx = h2 := hrest.1
      rw [e2] at hrest
      exact hrest
    exact Seg_congr _ _ _ (fun x hx => nodeNext_congr (hq3 x hx)) hrest'
  · simpa [List.getLast?_cons_cons] using htail
  · intro a w hm
    obtain ⟨m, hmq, hi⟩ := hnodes a w (List.mem_cons_of_mem _ hm)
    refine ⟨m, ?_, hi⟩
    show hs3.mem.qnode a = _
    rw [hq3 a (List.mem_map_of_mem Prod.fst hm)]
    exact hmq
  · intro a w hm hw
    have := hohe a w (List.mem_cons_of_mem _ hm) hw
    exact absurd this (hlive_ne a (List.mem_map_of_mem Prod.fst hm))
  · intro a w hm
    show a < hs3.mem.brk
    rw [r4, ht.brk]
    have := hfresh a w (List.mem_cons_of_mem _ hm)
    omega

theorem HeadTouched.protect {N : Type} (hs : HPState N) (head : Nat) (n : N)
    (hn : hs.mem.qnode head = some n) :
    HeadTouched hs head { hs with hp := hs.hp.setPointer hs._thread_id.toNat head } n :=
  ⟨rfl, rfl, rfl, rfl, hn, fun _ _ => rfl⟩

theorem HeadTouched.store {N : Type} (hs : HPState N) (head : Nat) (n' : N) (h0 : head ≠ 0) :
    HeadTouched hs head
      { hs with
        mem := hs.mem.store head (Obj.qnode n')
        hp := hs.hp.setPointer hs._thread_id.toNat head } n' :=
  ⟨rfl, rfl, rfl, rfl, Mem.qnode_store_qnode _ _ _ h0, fun _ ha => Mem.obj_store_ne _ _ _ _ ha⟩

theorem LLRep.head_cases {E : Value} {q : LLQueue} {cs : List (Nat × Value)} {l : List Nat}
    (h : LLRep E q cs l) : ∃ v0 cs1, cs = (q.head, v0) :: cs1 := by
  cases cs with
  | nil => have := h.tail; simp at this
  | cons p cs1 =>
    obtain ⟨a, v0⟩ := p
    have : q.head = a := h.chain.1
    exact ⟨v0, cs1, by rw [this]⟩

theorem LLRep.head_node {E : Value} {q : LLQueue} {v0 : Value} {cs1 : List (Nat × Value)}
    {l : List Nat} (h : LLRep E q ((q.head, v0) :: cs1) l) :
    ∃ n, q.hs.mem.qnode q.head = some n ∧ n.item = v0 ∧ q.head ≠ 0
      ∧ (cs1 = [] → n.next = 0)
      ∧ (∀ h2 v2 cs2, cs1 = (h2, v2) :: cs2 → n.next = h2 ∧ h2 ≠ 0 ∧ v2 ≠ E) := by
  have hnd := h.nodup
  obtain ⟨n, hn, hi⟩ := h.nodes q.head v0 (by simp)
  obtain ⟨_, hh0, nx, hnx, hrest⟩ := h.chain
  rw [nodeNext_of_qnode hn] at hnx
  cases hnx
  refine ⟨n, hn, hi, hh0, ?_, ?_⟩
  · intro hc
    subst hc
    exact hrest
  · intro h2 v2 cs2 hc
    subst hc
    obtain ⟨e2, h20, _⟩ := hrest
    have e2' : n.next = h2 := e2
    refine ⟨e2', e2' ▸ h20, ?_⟩
    intro hv
    have := h.only_head_empty h2 v2 (by simp) hv
    simp only [List.map_cons, List.nodup_cons] at hnd
    apply hnd.1
    simp [this]

theorem LLRep.set_pointer {E : Value} {q : LLQueue} {cs : List (Nat × Value)} {l : List Nat}
    (h : LLRep E q cs l) (x : Nat) :
    LLRep E { q with hs := { q.hs with hp := q.hs.hp.setPointer q.hs._thread_id.toNat x } } cs l := by
  obtain ⟨hchain, htail, hnodes, hohe, hfresh, hret⟩ := h
  refine ⟨hchain, htail, hnodes, hohe, hfresh, ?_⟩
  refine hret.of_frame rfl ?_ rfl rfl (fun _ _ => rfl) (le_refl _) (fun x hx => Or.inl hx)
  intro j hj
  simp [HazardPointer.setPointer, hj]

theorem LLQueue_pop_loop_unfold (E : Value) (f : Nat) (q : LLQueue) (n : LLNode)
    (hreg : Registered q.hs) (hn : q.hs.mem.qnode q.head = some n) :
    LLQueue_pop_loop E (f + 1) q =
      if n.next ≠ 0 then
        match advance_head (f + 1)
            { q.hs with
              mem := q.hs.mem.store q.head (Obj.qnode { n with item := E })
              hp := q.hs.hp.setPointer q.hs._thread_id.toNat q.head }
            q.head q.head n.next with
        | .error e => .error e
        | .ok (hs3, head3) =>
          if n.item ≠ E then .ok (n.item, { hs := hs3, head := head3, tail := q.tail })
          else LLQueue_pop_loop E f { hs := hs3, head := head3, tail := q.tail }
      else
        .ok (n.item, { q with hs :=
          { q.hs with
            mem := q.hs.mem.store q.head (Obj.qnode { n with item := E })
            hp := q.hs.hp.setPointer q.hs._thread_id.toNat q.head } }) := by
  obtain ⟨ht, _⟩ := arrayIndex_of_registered q.hs hreg
  conv_lhs => unfold LLQueue_pop_loop
  simp only [HazardPointer_protect_succ q.head f q.hs _ ht, ne_eq, not_true_eq_false, if_false, hn,
    decide_not, Bool.not_eq_true', decide_eq_false_iff_not]

theorem LLQueue_is_empty_loop_unfold (E : Value) (f : Nat) (q : LLQueue) (n : LLNode)
    (hreg : Registered q.hs) (hn : q.hs.mem.qnode q.head = some n) :
    LLQueue_is_empty_loop E (f + 1) q =
      if n.item ≠ E then
        .ok (n.item, { q with hs :=
          { q.hs with hp := q.hs.hp.setPointer q.hs._thread_id.toNat q.head } })
      else if n.next ≠ 0 then
        match advance_head (f + 1)
            { q.hs with hp := q.hs.hp.setPointer q.hs._thread_id.toNat q.head }
            q.head q.head n.next with
        | .error e => .error e
        | .ok (hs3, head3) =>
          LLQueue_is_empty_loop E f { hs := hs3, head := head3, tail := q.tail }
      else
        .ok (n.item, { q with hs :=
          { q.hs with hp := q.hs.hp.setPointer q.hs._thread_id.toNat q.head } }) := by
  obtain ⟨ht, _⟩ := arrayIndex_of_registered q.hs hreg
  conv_lhs => unfold LLQueue_is_empty_loop
  simp only [HazardPointer_protect_succ q.head f q.hs _ ht, ne_eq, not_true_eq_false, if_false, hn]

theorem LLQueue_pop_loop_value (E : Value) (f : Nat) (q : LLQueue) (v0 : Value)
    (cs1 : List (Nat × Value)) (l : List Nat) (hf : 128 ≤ f)
    (hrep : LLRep E q ((q.head, v0) :: cs1) l) (hv0 : v0 ≠ E) :
    ∃ q' cs' l', LLQueue_pop_loop E (f + 1) q = .ok (v0, q') ∧ LLRep E q' cs' l'
      ∧ (cs'.map Prod.snd).filter (fun v => decide (v ≠ E))
          = (cs1.map Prod.snd).filter (fun v => decide (v ≠ E)) := by
  obtain ⟨n, hn, hitem, hh0, hnil, hcons⟩ := hrep.head_node
  have hreg := hrep.retired.reg
  have hst := HeadTouched.store q.hs q.head { n with item := E } hh0
  rw [LLQueue_pop_loop_unfold E f q n hreg hn]
  cases cs1 with
  | nil =>
    have hnx := hnil rfl
    have := hrep.touch hst hn rfl
    exact ⟨_, _, l, by simp only [hnx, ne_eq, not_true_eq_false, if_false, hitem], this, by simp⟩
  | cons p cs2 =>
    obtain ⟨h2, v2⟩ := p
    obtain ⟨hnx, h20, hv2⟩ := hcons h2 v2 cs2 rfl
    obtain ⟨hs3, l', a1, a2⟩ := LL_advance (f + 1) (by omega) hrep hst hn
    refine ⟨_, _, l', ?_, a2, rfl⟩
    rw [hnx] at a1 ⊢
    simp only [ne_eq, h20, not_false_eq_true, if_true, a1, hitem, hv0]

theorem LLQueue_pop_loop_spec (E : Value) (f : Nat) (q : LLQueue) (cs : List (Nat × Value))
    (l : List Nat) (hf : 128 ≤ f) (hrep : LLRep E q cs l) :
    ∃ r q' cs' l', LLQueue_pop_loop E (f + 2) q = .ok (r, q') ∧ LLRep E q' cs' l'
      ∧ RefRet.toRet E (refStep ((cs.map Prod.snd).filter (fun v => decide (v ≠ E))) .pop).1
          = .value r
      ∧ (cs'.map Prod.snd).filter (fun v => decide (v ≠ E))
          = (refStep ((cs.map Prod.snd).filter (fun v => decide (v ≠ E))) .pop).2 := by
  obtain ⟨v0, cs1, rfl⟩ := hrep.head_cases
  by_cases hv0 : v0 = E
  · subst hv0
    obtain ⟨n, hn, hitem, hh0, hnil, hcons⟩ := hrep.head_node
    have hreg := hrep.retired.reg
    have hst := HeadTouched.store q.hs q.head { n with item := v0 } hh0
    rw [LLQueue_pop_loop_unfold v0 (f + 1) q n hreg hn]
    cases cs1 with
    | nil =>
      have hnx := hnil rfl
      have := hrep.touch hst hn rfl
      refine ⟨v0, _, _, l, by simp only [hnx, ne_eq, not_true_eq_false, if_false, hitem], this,
        ?_, ?_⟩
      · simp [refStep, RefRet.toRet]
      · simp [refStep]
    | cons p cs2 =>
      obtain ⟨h2, v2⟩ := p
      obtain ⟨hnx, h20, hv2⟩ := hcons h2 v2 cs2 rfl
      obtain ⟨hs3, l', a1, a2⟩ := LL_advance (f + 2) (by omega) hrep hst hn
      obtain ⟨q', cs', l'', b1, b2, b3⟩ :=
        LLQueue_pop_loop_value v0 f { hs := hs3, head := h2, tail := q.tail } v2 cs2 l' hf a2 hv2
      refine ⟨v2, q', cs', l'', ?_, b2, ?_, ?_⟩
      · rw [hnx] at a1 ⊢
        simp only [ne_eq, h20, not_false_eq_true, if_true, a1, hitem, not_true_eq_false, if_false]
        exact b1
      · simp [refStep, RefRet.toRet, hv2]
      · rw [b3]
        simp [refStep, hv2]
  · obtain ⟨q', cs', l', b1, b2, b3⟩ :=
      LLQueue_pop_loop_value E (f + 1) q v0 cs1 l (by omega) hrep hv0
    refine ⟨v0, q', cs', l', b1, b2, ?_, ?_⟩
    · simp [refStep, RefRet.toRet, hv0]
    · rw [b3]
      simp [refStep, hv0]

theorem LLQueue_pop_spec (E : Value) (f : Nat) (q : LLQueue) (cs : List (Nat × Value))
    (l : List Nat) (hf : 128 ≤ f) (hrep : LLRep E q cs l) :
    ∃ r q' cs' l', LLQueue_pop E (f + 2) q = .ok (r, q') ∧ LLRep E q' cs' l'
      ∧ RefRet.toRet E (refStep ((cs.map Prod.snd).filter (fun v => decide (v ≠ E))) .pop).1
          = .value r
      ∧ (cs'.map Prod.snd).filter (fun v => decide (v ≠ E))
          = (refStep ((cs.map Prod.snd).filter (fun v => decide (v ≠ E))) .pop).2 := by
  obtain ⟨r, q', cs', l', h1, h2, h3, h4⟩ := LLQueue_pop_loop_spec E f q cs l hf hrep
  obtain ⟨ht, _⟩ := arrayIndex_of_registered q'.hs h2.retired.reg
  refine ⟨r, _, cs', l', ?_, h2.set_pointer 0, h3, h4⟩
  simp only [LLQueue_pop, h1, HazardPointer_clear, ht]

theorem LLQueue_is_empty_loop_value (E : Value) (f : Nat) (q : LLQueue) (v0 : Value)
    (cs1 : List (Nat × Value)) (l : List Nat)
    (hrep : LLRep E q ((q.head, v0) :: cs1) l) (hv0 : v0 ≠ E) :
    ∃ q', LLQueue_is_empty_loop E (f + 1) q = .ok (v0, q')
      ∧ LLRep E q' ((q.head, v0) :: cs1) l ∧ q'.head = q.head := by
  obtain ⟨n, hn, hitem, hh0, hnil, hcons⟩ := hrep.head_node
  have hreg := hrep.retired.reg
  rw [LLQueue_is_empty_loop_unfold E f q n hreg hn]
  simp only [hitem, ne_eq, hv0, not_false_eq_true, if_true]
  exact ⟨_, rfl, hrep.set_pointer q.head, rfl⟩

/-- The loop of `LLQueue_is_empty`: the value it ends on is `EMPTY_VALUE` exactly when
the queue holds no value, and then the head it ends on has an `EMPTY_VALUE` item
and no successor. -/
theorem LLQueue_is_empty_loop_spec (E : Value) (f : Nat) (q : LLQueue) (cs : List (Nat × Value))
    (l : List Nat) (hf : 128 ≤ f) (hrep : LLRep E q cs l) :
    ∃ r q' cs' l', LLQueue_is_empty_loop E (f + 2) q = .ok (r, q') ∧ LLRep E q' cs' l'
      ∧ (r = E ↔ (cs.map Prod.snd).filter (fun v => decide (v ≠ E)) = [])
      ∧ (cs'.map Prod.snd).filter (fun v => decide (v ≠ E))
          = (cs.map Prod.snd).filter (fun v => decide (v ≠ E))
      ∧ (r = E → ∃ n, q'.hs.mem.qnode q'.head = some n ∧ n.item = E ∧ n.next = 0) := by
  obtain ⟨v0, cs1, rfl⟩ := hrep.head_cases
  by_cases hv0 : v0 = E
  · subst hv0
    obtain ⟨n, hn, hitem, hh0, hnil, hcons⟩ := hrep.head_node
    have hreg := hrep.retired.reg
    have hst := HeadTouched.protect q.hs q.head n hn
    rw [LLQueue_is_empty_loop_unfold v0 (f + 1) q n hreg hn]
    cases cs1 with
    | nil =>
      have hnx := hnil rfl
      simp only [hnx, hitem, ne_eq, not_true_eq_false, if_false]
      refine ⟨v0, _, _, l, rfl, hrep.set_pointer q.head, ?_, rfl, ?_⟩
      · simp
      · intro _
        exact ⟨n, hn, hitem, hnx⟩
    | cons p cs2 =>
      obtain ⟨h2, v2⟩ := p
      obtain ⟨hnx, h20, hv2⟩ := hcons h2 v2 cs2 rfl
      obtain ⟨hs3, l', a1, a2⟩ := LL_advance (f + 2) (by omega) hrep hst hn
      obtain ⟨q', b1, b2, _⟩ :=
        LLQueue_is_empty_loop_value v0 f { hs := hs3, head := h2, tail := q.tail } v2 cs2 l' a2 hv2
      refine ⟨v2, q', _, l', ?_, b2, ?_, ?_, ?_⟩
      · rw [hnx]
        simp only [ne_eq, h20, not_false_eq_true, if_true, a1, hitem, not_true_eq_false, if_false]
        exact b1
      · simp [hv2]
      · simp [hv2]
      · intro h; exact absurd h hv2
  · obtain ⟨q', b1, b2, _⟩ := LLQueue_is_empty_loop_value E (f + 1) q v0 cs1 l hrep hv0
    refine ⟨v0, q', _, l, b1, b2, ?_, rfl, ?_⟩
    · simp [hv0]
    · intro h; exact absurd h hv0

theorem LLQueue_is_empty_spec (E : Value) (f : Nat) (q : LLQueue) (cs : List (Nat × Value))
    (l : List Nat) (hf : 128 ≤ f) (hrep : LLRep E q cs l) :
    ∃ b q' cs' l', LLQueue_is_empty E (f + 2) q = .ok (b, q') ∧ LLRep E q' cs' l'
      ∧ (b = true ↔ (cs.map Prod.snd).filter (fun v => decide (v ≠ E)) = [])
      ∧ (cs'.map Prod.snd).filter (fun v => decide (v ≠ E))
          = (cs.map Prod.snd).filter (fun v => decide (v ≠ E))
      ∧ (b = true → ∃ n, q'.hs.mem.qnode q'.head = some n ∧ n.item = E ∧ n.next = 0) := by
  obtain ⟨r, q', cs', l', h1, h2, h3, h4, h5⟩ := LLQueue_is_empty_loop_spec E f q cs l hf hrep
  obtain ⟨ht, _⟩ := arrayIndex_of_registered q'.hs h2.retired.reg
  refine ⟨decide (r = E), _, cs', l', ?_, h2.set_pointer 0, ?_, h4, ?_⟩
  · simp only [LLQueue_is_empty, h1, HazardPointer_clear, ht]
  · rw [decide_eq_true_iff]; exact h3
  · intro hb
    exact h5 (of_decide_eq_true hb)

/-- Nothing is lost and nothing is returned twice in the reference queue: the
values popped so far, followed by the values still waiting, are the initial
content followed by the pushed values, in order. -/
theorem refRun_conservation :
    ∀ (ops : List Op) (q : List Value),
      poppedValues (refRun q ops) ++ refFinal q ops = q ++ pushedValues ops
  | [], q => by simp [refRun, refFinal, poppedValues, pushedValues]
  | op :: ops, q => by
    have ih := refRun_conservation ops (refStep q op).2
    cases op with
    | push v =>
      simp only [refRun, refFinal, refStep, poppedValues, pushedValues] at ih ⊢
      rw [ih]; simp
    | pop =>
      cases q with
      | nil =>
        simp only [refRun, refFinal, refStep, poppedValues, pushedValues] at ih ⊢
        exact ih
      | cons w rest =>
        simp only [refRun, refFinal, refStep, poppedValues, pushedValues] at ih ⊢
        rw [List.cons_append, ih]; rfl
    | is_empty =>
      simp only [refRun, refFinal, refStep, poppedValues, pushedValues] at ih ⊢
      exact ih

theorem LLQueue_step_spec (E : Value) (f : Nat) (hf : 128 ≤ f) (q : LLQueue)
    (vals : List Value) (op : Op) (hop : ∀ v, op = .push v → v ≠ E) (hinv : LLInv E q vals) :
    ∃ q', LLQueue_step E (f + 2) q op = .ok ((refStep vals op).1.toRet E, q')
      ∧ LLInv E q' (refStep vals op).2 := by
  obtain ⟨cs, l, hrep, rfl⟩ := hinv
  cases op with
  | push v =>
    have hv := hop v rfl
    obtain ⟨q', h1, h2⟩ := LLQueue_push_spec E (f + 1) q cs l v hv hrep
    refine ⟨q', by simp [LLQueue_step, h1, refStep, RefRet.toRet], _, l, h2, ?_⟩
    simp [refStep, List.filter_append, hv]
  | pop =>
    obtain ⟨r, q', cs', l', h1, h2, h3, h4⟩ := LLQueue_pop_spec E f q cs l hf hrep
    exact ⟨q', by simp only [LLQueue_step, h1, h3], cs', l', h2, h4.symm⟩
  | is_empty =>
    obtain ⟨b, q', cs', l', h1, h2, h3, h4, _⟩ := LLQueue_is_empty_spec E f q cs l hf hrep
    refine ⟨q', ?_, cs', l', h2, ?_⟩
    · have hb : b = ((cs.map Prod.snd).filter fun v => decide (v ≠ E)).isEmpty := by
        cases b with
        | true => rw [h3.mp rfl]; rfl
        | false =>
          cases hfl : (cs.map Prod.snd).filter fun v => decide (v ≠ E) with
          | nil => exact absurd (h3.mpr hfl) (by simp)
          | cons _ _ => rfl
      simp [LLQueue_step, h1, refStep, RefRet.toRet, hb]
    · simp only [refStep]; exact h4.symm

theorem LLQueue_run_spec (E : Value) (f : Nat) (hf : 128 ≤ f) :
    ∀ (ops : List Op) (q : LLQueue) (vals : List Value),
      (∀ v, v ∈ pushedValues ops → v ≠ E) → LLInv E q vals →
      ∃ q', LLQueue_run E (f + 2) q ops = .ok ((refRun vals ops).map (RefRet.toRet E), q')
        ∧ LLInv E q' (refFinal vals ops)
  | [], q, vals, _, h => ⟨q, rfl, h⟩
  | op :: ops, q, vals, hv, h => by
    have hop : ∀ v, op = .push v → v ≠ E := by
      intro v hv'
      subst hv'
      exact hv v (by simp [pushedValues])
    have hv' : ∀ v, v ∈ pushedValues ops → v ≠ E := by
      intro v hm
      apply hv v
      cases op <;> simp [pushedValues, hm]
    obtain ⟨q1, h1, h2⟩ := LLQueue_step_spec E f hf q vals op hop h
    obtain ⟨q2, h3, h4⟩ := LLQueue_run_spec E f hf ops q1 _ hv' h2
    exact ⟨q2, by simp [LLQueue_run, h1, h3, refRun], h4⟩

theorem LLQueue_session_spec (E : Value) (fuel : Nat) (hp : HazardPointer)
    (thread_id num_threads : Int) (ops : List Op)
    (h0 : 0 ≤ thread_id) (h1 : thread_id < num_threads) (h2 : num_threads ≤ (MAX_THREADS : Int))
    (hfuel : 130 ≤ fuel) (hv : ∀ v, v ∈ pushedValues ops → v ≠ E) :
    ∃ q, LLQueue_session E fuel hp thread_id num_threads ops
          = .ok ((refRun [] ops).map (RefRet.toRet E), q)
      ∧ LLInv E q (refFinal [] ops) := by
  obtain ⟨f, rfl⟩ : ∃ f, fuel = f + 2 := ⟨fuel - 2, by omega⟩
  obtain ⟨q0, hq0, hrep⟩ := LLQueue_new_spec E hp thread_id num_threads h0 h1 h2
  obtain ⟨q, h3, h4⟩ := LLQueue_run_spec E f (by omega) ops q0 [] hv ⟨_, _, hrep, by simp⟩
  exact ⟨q, by simp only [LLQueue_session, hq0, h3], h4⟩

/-- C3: a registered thread creates a queue with `LLQueue_new` and makes any
sequence of calls, pushing values other than `EMPTY_VALUE`.  Every call returns, and
returns what the reference FIFO queue returns: a `pop` gives the oldest value
not yet popped, and `EMPTY_VALUE` exactly when every pushed value has been popped.
The queue ends up holding the reference content, and the popped values
followed by that content are the pushed values in order: none is returned
twice, none is lost. -/
theorem LLQueue_fifo (EMPTY_VALUE : Value) (fuel : Nat) (hp : HazardPointer)
    (thread_id num_threads : Int) (ops : List Op)
    (h0 : 0 ≤ thread_id) (h1 : thread_id < num_threads) (h2 : num_threads ≤ (MAX_THREADS : Int))
    (hfuel : 130 ≤ fuel) (hv : ∀ v, v ∈ pushedValues ops → v ≠ EMPTY_VALUE) :
    ∃ q, LLQueue_session EMPTY_VALUE fuel hp thread_id num_threads ops
          = .ok ((refRun [] ops).map (RefRet.toRet EMPTY_VALUE), q)
      ∧ (∀ r, r ∈ refRun [] ops →
          (r.toRet EMPTY_VALUE = .value EMPTY_VALUE ↔ r = .popped none))
      ∧ LLInv EMPTY_VALUE q (refFinal [] ops)
      ∧ poppedValues (refRun [] ops) ++ refFinal [] ops = pushedValues ops := by
  obtain ⟨q, h, hinv⟩ :=
    LLQueue_session_spec EMPTY_VALUE fuel hp thread_id num_threads ops h0 h1 h2 hfuel hv
  exact ⟨q, h, fun r hr => refRun_empty_exact EMPTY_VALUE ops hv r hr, hinv,
    by simpa using refRun_conservation ops []⟩

/-- C3 at a concrete input: thread 1 of 2 pushes and pops five values. -/
theorem LLQueue_fifo_witness :
    ∃ q, LLQueue_session 0 130 ⟨fun _ => 0, fun _ => ⟨0, 0, 0⟩⟩ 1 2
            [.push 1, .push 2, .pop, .push 3, .pop, .pop, .pop]
          = .ok ((refRun [] [.push 1, .push 2, .pop, .push 3, .pop, .pop, .pop]).map
              (RefRet.toRet 0), q)
      ∧ (∀ r, r ∈ refRun [] [.push 1, .push 2, .pop, .push 3, .pop, .pop, .pop] →
          (r.toRet 0 = .value 0 ↔ r = .popped none))
      ∧ LLInv 0 q (refFinal [] [.push 1, .push 2, .pop, .push 3, .pop, .pop, .pop])
      ∧ poppedValues (refRun [] [.push 1, .push 2, .pop, .push 3, .pop, .pop, .pop])
            ++ refFinal [] [.push 1, .push 2, .pop, .push 3, .pop, .pop, .pop]
          = pushedValues [.push 1, .push 2, .pop, .push 3, .pop, .pop, .pop] :=
  LLQueue_fifo 0 130 ⟨fun _ => 0, fun _ => ⟨0, 0, 0⟩⟩ 1 2
    [.push 1, .push 2, .pop, .push 3, .pop, .pop, .pop]
    (by decide) (by decide) (by decide) (by decide) (by decide)

/-- C9: in every state that a registered thread reaches by calls on a queue from
`LLQueue_new` (pushing values other than `EMPTY_VALUE`), `LLQueue_is_empty` returns, the
`LLQueue_pop` made right after it returns, and the first returns `true` exactly
when the second returns `EMPTY_VALUE`; when it returns `true` the head it ended on has
an `EMPTY_VALUE` item and a null `next`. -/
theorem LLQueue_is_empty_iff (EMPTY_VALUE : Value) (fuel : Nat) (hp : HazardPointer)
    (thread_id num_threads : Int) (ops : List Op)
    (h0 : 0 ≤ thread_id) (h1 : thread_id < num_threads) (h2 : num_threads ≤ (MAX_THREADS : Int))
    (hfuel : 130 ≤ fuel) (hv : ∀ v, v ∈ pushedValues ops → v ≠ EMPTY_VALUE) :
    ∃ rs q b q1 v q2,
      LLQueue_session EMPTY_VALUE fuel hp thread_id num_threads ops = .ok (rs, q)
      ∧ LLQueue_is_empty EMPTY_VALUE fuel q = .ok (b, q1)
      ∧ LLQueue_pop EMPTY_VALUE fuel q1 = .ok (v, q2)
      ∧ (b = true ↔ v = EMPTY_VALUE)
      ∧ (b = true →
          ∃ n, q1.hs.mem.qnode q1.head = some n ∧ n.item = EMPTY_VALUE ∧ n.next = 0) := by
  obtain ⟨q, h, cs, l, hrep, hvals⟩ :=
    LLQueue_session_spec EMPTY_VALUE fuel hp thread_id num_threads ops h0 h1 h2 hfuel hv
  obtain ⟨f, rfl⟩ : ∃ f, fuel = f + 2 := ⟨fuel - 2, by omega⟩
  obtain ⟨b, q1, cs1, l1, e1, e2, e3, e4, e5⟩ :=
    LLQueue_is_empty_spec EMPTY_VALUE f q cs l (by omega) hrep
  obtain ⟨v, q2, cs2, l2, p1, _, p3, _⟩ :=
    LLQueue_pop_spec EMPTY_VALUE f q1 cs1 l1 (by omega) e2
  refine ⟨_, q, b, q1, v, q2, h, e1, p1, ?_, e5⟩
  rw [e4] at p3
  rw [e3]
  cases hfl : (cs.map Prod.snd).filter fun v => decide (v ≠ EMPTY_VALUE) with
  | nil =>
    rw [hfl] at p3
    simp only [refStep, RefRet.toRet, Ret.value.injEq] at p3
    simp [p3]
  | cons w rest =>
    rw [hfl] at p3
    simp only [refStep, RefRet.toRet, Ret.value.injEq] at p3
    have hw : w ∈ (cs.map Prod.snd).filter fun v => decide (v ≠ EMPTY_VALUE) := by
      rw [hfl]; simp
    have hne : w ≠ EMPTY_VALUE := by simpa using (List.mem_filter.mp hw).2
    simp [← p3, hne]

/-- C9 at a concrete input: thread 0 of 1, one value left in the queue. -/
theorem LLQueue_is_empty_iff_witness :
    ∃ rs q b q1 v q2,
      LLQueue_session 0 130 ⟨fun _ => 0, fun _ => ⟨0, 0, 0⟩⟩ 0 1
          [.push 1, .push 2, .is_empty, .pop] = .ok (rs, q)
      ∧ LLQueue_is_empty 0 130 q = .ok (b, q1)
      ∧ LLQueue_pop 0 130 q1 = .ok (v, q2)
      ∧ (b = true ↔ v = 0)
      ∧ (b = true → ∃ n, q1.hs.mem.qnode q1.head = some n ∧ n.item = 0 ∧ n.next = 0) :=
  LLQueue_is_empty_iff 0 130 ⟨fun _ => 0, fun _ => ⟨0, 0, 0⟩⟩ 0 1
    [.push 1, .push 2, .is_empty, .pop]
    (by decide) (by decide) (by decide) (by decide) (by decide)

/-! ## BLQueue.c -/

theorem wrap32_succ_wrap32 (x : Int) : wrap32 (wrap32 x + 1) = wrap32 (x + 1) := by
  unfold wrap32; omega

theorem BLQueue_pop_loop_outside (B : Nat) (E T : Value) (f : Nat) (q : BLQueue) (p : Int)
    (hs : BLStuck B T q p) (hout : ¬ (p < (B : Int) ∧ p ≥ 0)) :
    ∃ q', BLQueue_pop_loop B E T (f + 1) q = .ok (E, q') ∧ BLStuck B T q' (wrap32 (p + 1)) := by
  obtain ⟨hreg, hh0, n, hn, hnx, hp, hcells⟩ := hs
  obtain ⟨ht, _⟩ := arrayIndex_of_registered q.hs hreg
  conv => enter [1, q', 1, 1]; unfold BLQueue_pop_loop
  simp only [HazardPointer_protect_succ q.head f q.hs _ ht, ne_eq, not_true_eq_false, if_false, hn,
    hp, hout, hnx, if_true]
  refine ⟨_, rfl, ⟨hreg, hh0, _, Mem.qnode_store_qnode _ _ _ hh0, rfl, rfl, hcells⟩⟩

theorem BLQueue_pop_loop_inside (B : Nat) (E T : Value) (f : Nat) (q : BLQueue) (p : Int)
    (hTE : T ≠ E) (hs : BLStuck B T q p) (hin : p < (B : Int) ∧ p ≥ 0) :
    ∃ q', BLQueue_pop_loop B E T (f + 1) q = .ok (T, q') ∧ BLStuck B T q' (wrap32 (p + 1)) := by
  obtain ⟨hreg, hh0, n, hn, hnx, hp, hcells⟩ := hs
  obtain ⟨ht, _⟩ := arrayIndex_of_registered q.hs hreg
  have hb : bufIndex B p = some p.toNat := by
    simp [bufIndex, hin.1, hin.2]
  have hplt : p.toNat < B := by
    have := Int.toNat_of_nonneg hin.2
    omega
  have hcell : n.buffer p.toNat = T := hcells _ hplt
  conv => enter [1, q', 1, 1]; unfold BLQueue_pop_loop
  simp only [HazardPointer_protect_succ q.head f q.hs _ ht, ne_eq, not_true_eq_false, if_false, hn,
    hp, hin, and_self, if_true, hb, hcell, hTE, not_false_eq_true]
  refine ⟨_, rfl, ⟨hreg, hh0, _, Mem.qnode_store_qnode _ _ _ hh0, hnx, rfl, ?_⟩⟩
  intro i hi
  show setCell n.buffer _ T i = T
  unfold setCell
  split
  · rfl
  · exact hcells i hi

theorem BLStuck.set_slot {B : Nat} {T : Value} {q : BLQueue} {p : Int}
    (h : BLStuck B T q p) (x : Nat) :
    BLStuck B T { q with hs := { q.hs with hp := q.hs.hp.setPointer q.hs._thread_id.toNat x } } p :=
  ⟨h.reg, h.head_ne, h.node⟩

theorem BLQueue_pop_outside (B : Nat) (E T : Value) (f : Nat) (q : BLQueue) (p : Int)
    (hs : BLStuck B T q p) (hout : ¬ (p < (B : Int) ∧ p ≥ 0)) :
    ∃ q', BLQueue_pop B E T (f + 1) q = .ok (E, q') ∧ BLStuck B T q' (wrap32 (p + 1)) := by
  obtain ⟨q1, h1, h2⟩ := BLQueue_pop_loop_outside B E T f q p hs hout
  obtain ⟨ht, _⟩ := arrayIndex_of_registered q1.hs h2.reg
  exact ⟨_, by simp only [BLQueue_pop, h1, HazardPointer_clear, ht], h2.set_slot 0⟩

theorem BLQueue_pop_inside (B : Nat) (E T : Value) (f : Nat) (q : BLQueue) (p : Int)
    (hTE : T ≠ E) (hs : BLStuck B T q p) (hin : p < (B : Int) ∧ p ≥ 0) :
    ∃ q', BLQueue_pop B E T (f + 1) q = .ok (T, q') ∧ BLStuck B T q' (wrap32 (p + 1)) := by
  obtain ⟨q1, h1, h2⟩ := BLQueue_pop_loop_inside B E T f q p hTE hs hin
  obtain ⟨ht, _⟩ := arrayIndex_of_registered q1.hs h2.reg
  exact ⟨_, by simp only [BLQueue_pop, h1, HazardPointer_clear, ht], h2.set_slot 0⟩

/-- A pop of the empty fresh node: it turns every remaining cell into `TAKEN_VALUE`,
finds no successor and returns `EMPTY_VALUE`, leaving `pop_idx = BUFFER_SIZE + 1`. -/
theorem BLQueue_pop_loop_fresh (B : Nat) (E T : Value) (hB : B < 2147483647) :
    ∀ (d k f : Nat) (q : BLQueue), k + d = B → BLFresh B E T q k →
      ∃ q', BLQueue_pop_loop B E T (d + 1 + f) q = .ok (E, q') ∧ BLStuck B T q' ((B : Int) + 1)
  | 0, k, f, q, hk, hfr => by
    obtain ⟨hreg, hh0, n, hn, hnx, hp, hlow, _⟩ := hfr
    obtain ⟨ht, _⟩ := arrayIndex_of_registered q.hs hreg
    have hkB : k = B := by omega
    rw [hkB] at hp hlow
    have hout : ¬ ((B : Int) < (B : Int) ∧ (B : Int) ≥ 0) := by omega
    have hw : wrap32 ((B : Int) + 1) = (B : Int) + 1 := wrap32_of_range _ (by omega) (by omega)
    conv => enter [1, q', 1, 1]; rw [show 0 + 1 + f = f + 1 by omega]; unfold BLQueue_pop_loop
    simp only [HazardPointer_protect_succ q.head f q.hs _ ht, ne_eq, not_true_eq_false, if_false,
      hn, hp, hout, hnx, if_true, hw]
    exact ⟨_, rfl, ⟨hreg, hh0, _, Mem.qnode_store_qnode _ _ _ hh0, rfl, rfl, hlow⟩⟩
  | d + 1, k, f, q, hk, hfr => by
    obtain ⟨hreg, hh0, n, hn, hnx, hp, hlow, hhigh⟩ := hfr
    obtain ⟨ht, _⟩ := arrayIndex_of_registered q.hs hreg
    have hin : (k : Int) < (B : Int) ∧ (k : Int) ≥ 0 := by omega
    have hb : bufIndex B (k : Int) = some k := by
      simp [bufIndex]; omega
    have hcell : n.buffer k = E := hhigh k (le_refl _) (by omega)
    have hw : wrap32 ((k : Int) + 1) = ((k + 1 : Nat) : Int) := by
      rw [wrap32_of_range _ (by omega) (by omega)]; push_cast; rfl
    have hfr' : BLFresh B E T
        { q with hs :=
          { q.hs with
            mem := (q.hs.mem.store q.head (Obj.qnode { n with pop_idx := wrap32 ((k : Int) + 1) })).store
              q.head (Obj.qnode
                { next := n.next, buffer := setCell n.buffer k T, push_idx := n.push_idx,
                  pop_idx := wrap32 ((k : Int) + 1) })
            hp := q.hs.hp.setPointer q.hs._thread_id.toNat q.head } } (k + 1) := by
      refine ⟨hreg, hh0, _, Mem.qnode_store_qnode _ _ _ hh0, hnx, hw, ?_, ?_⟩
      · intro i hi
        show setCell n.buffer k T i = T
        unfold setCell
        split
        · rfl
        · exact hlow i (by omega)
      · intro i hi1 hi2
        show setCell n.buffer k T i = E
        unfold setCell
        rw [if_neg (by omega)]
        exact hhigh i (by omega) hi2
    obtain ⟨q', h1, h2⟩ := BLQueue_pop_loop_fresh B E T hB d (k + 1) f _ (by omega) hfr'
    refine ⟨q', ?_, h2⟩
    rw [show d + 1 + 1 + f = (d + 1 + f) + 1 by omega]
    conv_lhs => unfold BLQueue_pop_loop
    simp only [HazardPointer_protect_succ q.head (d + 1 + f) q.hs _ ht, ne_eq, not_true_eq_false,
      if_false, hn, hp, hin, and_self, if_true, hb, hcell]
    exact h1

theorem BLQueue_new_spec (B : Nat) (E T : Value) (hp : HazardPointer)
    (thread_id num_threads : Int)
    (h0 : 0 ≤ thread_id) (h1 : thread_id < num_threads) (h2 : num_threads ≤ (MAX_THREADS : Int)) :
    ∃ q, BLQueue_new B E (HazardPointer_register (boot BLNode hp) thread_id num_threads) = .ok q
      ∧ BLFresh B E T q 0 := by
  refine ⟨_, rfl, ⟨⟨h0, h1, h2⟩, Nat.succ_ne_zero 0, _, rfl, rfl, rfl, ?_, ?_⟩⟩
  · intro i hi; omega
  · intro i _ hi
    show (if i < B then E else 0) = E
    simp [hi]

/-- The first pop of a fresh queue. -/
theorem BLQueue_pop_fresh (B : Nat) (E T : Value) (hB : B < 2147483647) (f : Nat) (q : BLQueue)
    (hfr : BLFresh B E T q 0) :
    ∃ q', BLQueue_pop B E T (B + 1 + f) q = .ok (E, q') ∧ BLStuck B T q' ((B : Int) + 1) := by
  obtain ⟨q1, h1, h2⟩ := BLQueue_pop_loop_fresh B E T hB B 0 f q (by omega) hfr
  obtain ⟨ht, _⟩ := arrayIndex_of_registered q1.hs h2.reg
  exact ⟨_, by simp only [BLQueue_pop, h1, HazardPointer_clear, ht], h2.set_slot 0⟩

/-- Pops of the empty queue whose head node is used up: each returns
`EMPTY_VALUE` and adds one to `pop_idx`, as long as the counter, which wraps around,
does not come back into `[0, BUFFER_SIZE)`. -/
theorem BLQueue_run_stuck (B : Nat) (E T : Value) (f : Nat) :
    ∀ (m c : Nat) (q : BLQueue), c + m + B + 1 ≤ 4294967296 →
      BLStuck B T q (wrap32 ((B : Int) + 1 + c)) →
      ∃ q', BLQueue_run B E T (f + 1) q (List.replicate m .pop)
            = .ok (List.replicate m (.value E), q')
        ∧ BLStuck B T q' (wrap32 ((B : Int) + 1 + (c + m : Nat)))
  | 0, c, q, _, hs => ⟨q, rfl, by simpa using hs⟩
  | m + 1, c, q, hc, hs => by
    have hout : ¬ (wrap32 ((B : Int) + 1 + c) < (B : Int) ∧ wrap32 ((B : Int) + 1 + c) ≥ 0) := by
      unfold wrap32; omega
    obtain ⟨q1, h1, h2⟩ := BLQueue_pop_outside B E T f q _ hs hout
    rw [wrap32_succ_wrap32] at h2
    have h2' : BLStuck B T q1 (wrap32 ((B : Int) + 1 + ((c + 1 : Nat) : Int))) := by
      have : (B : Int) + 1 + (c : Int) + 1 = (B : Int) + 1 + ((c + 1 : Nat) : Int) := by
        push_cast; ring
      rw [← this]; exact h2
    obtain ⟨q2, h3, h4⟩ := BLQueue_run_stuck B E T f m (c + 1) q1 (by omega) h2'
    refine ⟨q2, ?_, ?_⟩
    · simp only [List.replicate_succ, BLQueue_run, BLQueue_step, h1, h3]
    · rw [show c + (m + 1) = c + 1 + m by omega]; exact h4

/-- A run of `m + 1` pops on a new queue: all return `EMPTY_VALUE`, and the `pop_idx` of
the only node ends at `BUFFER_SIZE + 1 + m`, wrapped to 32 bits. -/
theorem BLQueue_session_pops (B : Nat) (E T : Value) (hB : B < 2147483647) (f : Nat)
    (hp : HazardPointer) (thread_id num_threads : Int)
    (h0 : 0 ≤ thread_id) (h1 : thread_id < num_threads) (h2 : num_threads ≤ (MAX_THREADS : Int))
    (m : Nat) (hm : m + B + 1 ≤ 4294967296) :
    ∃ q, BLQueue_session B E T (B + 1 + f) hp thread_id num_threads (List.replicate (m + 1) .pop)
          = .ok (List.replicate (m + 1) (.value E), q)
      ∧ BLStuck B T q (wrap32 ((B : Int) + 1 + m)) := by
  obtain ⟨q0, hq0, hfr⟩ := BLQueue_new_spec B E T hp thread_id num_threads h0 h1 h2
  obtain ⟨q1, hq1, hs1⟩ := BLQueue_pop_fresh B E T hB f q0 hfr
  have hs1' : BLStuck B T q1 (wrap32 ((B : Int) + 1 + (0 : Nat))) := by
    rw [wrap32_of_range _ (by omega) (by push_cast; omega)]
    simpa using hs1
  obtain ⟨q2, hq2, hs2⟩ := BLQueue_run_stuck B E T (B + f) m 0 q1 (by omega) hs1'
  rw [show B + f + 1 = B + 1 + f by omega] at hq2
  refine ⟨q2, ?_, by simpa using hs2⟩
  simp only [BLQueue_session, hq0, List.replicate_succ, BLQueue_run, BLQueue_step, hq1]
  rw [hq2]

/-- With `pop_idx` negative, `BLQueue_is_empty` indexes the buffer out of bounds. -/
theorem BLQueue_is_empty_negative (B : Nat) (E T : Value) (f : Nat) (q : BLQueue) (p : Int)
    (hs : BLStuck B T q p) (hneg : p < 0) :
    BLQueue_is_empty B E T (f + 1) q = .error .out_of_bounds := by
  obtain ⟨hreg, hh0, n, hn, hnx, hp, hcells⟩ := hs
  obtain ⟨ht, _⟩ := arrayIndex_of_registered q.hs hreg
  have hlt : p < (B : Int) := by omega
  have hb : bufIndex B p = none := by
    simp [bufIndex]; omega
  unfold BLQueue_is_empty BLQueue_is_empty_loop
  simp only [HazardPointer_protect_succ q.head f q.hs _ ht, ne_eq, not_true_eq_false, if_false, hn,
    hp, hlt, if_true, hb]

/-- With `pop_idx` wrapped back into the buffer, `BLQueue_is_empty` finds
`TAKEN_VALUE` there and retries for ever: no amount of fuel is enough. -/
theorem BLQueue_is_empty_loop_spins (B : Nat) (E T : Value) (hTE : T ≠ E) (p : Int)
    (hin : 0 ≤ p ∧ p < (B : Int)) :
    ∀ (fuel : Nat) (q : BLQueue), BLStuck B T q p →
      BLQueue_is_empty_loop B E T fuel q = .error .out_of_fuel
  | 0, _, _ => rfl
  | f + 1, q, hs => by
    have hs0 := hs
    obtain ⟨hreg, hh0, n, hn, hnx, hp, hcells⟩ := hs
    obtain ⟨ht, _⟩ := arrayIndex_of_registered q.hs hreg
    have hb : bufIndex B p = some p.toNat := by
      simp [bufIndex, hin.1, hin.2]
    have hplt : p.toNat < B := by
      have := Int.toNat_of_nonneg hin.1
      omega
    have hcell : n.buffer p.toNat = T := hcells _ hplt
    have ih := BLQueue_is_empty_loop_spins B E T hTE p hin f _ (hs0.set_slot q.head)
    unfold BLQueue_is_empty_loop
    simp only [HazardPointer_protect_succ q.head f q.hs _ ht, ne_eq, not_true_eq_false, if_false,
      hn, hp, hin.2, if_true, hb, hcell, hTE]
    exact ih

theorem refRun_replicate_pop (n : Nat) :
    refRun [] (List.replicate n .pop) = List.replicate n (.popped none) := by
  induction n with
  | zero => rfl
  | succ n ih => simp only [List.replicate_succ, refRun, refStep, ih]

/-- C2 (the code at the failing input), with `BUFFER_SIZE = 1024`, `EMPTY_VALUE = 0`,
`TAKEN_VALUE = -1`: after `2^32 - 1024` pops of a new queue, which all return
`EMPTY_VALUE` as they should, `pop_idx` has wrapped around to 0 and the next pop returns
`TAKEN_VALUE`, where the reference queue, still empty, gives `EMPTY_VALUE`. -/
theorem BLQueue_pop_after_wraparound :
    ∃ q q',
      BLQueue_session 1024 0 (-1) 1025 hp0 0 1 (List.replicate 4294966272 .pop)
        = .ok ((refRun [] (List.replicate 4294966272 .pop)).map (RefRet.toRet 0), q)
      ∧ BLQueue_pop 1024 0 (-1) 1025 q = .ok (-1, q')
      ∧ refFinal [] (List.replicate 4294966272 .pop) = []
      ∧ (refStep [] .pop).1.toRet 0 = .value 0 := by
  obtain ⟨q, h1, h2⟩ := BLQueue_session_pops 1024 0 (-1) (by decide) 0 hp0 0 1
    (by decide) (by decide) (by decide) 4294966271 (by decide)
  have hw : wrap32 (((1024 : Nat) : Int) + 1 + ((4294966271 : Nat) : Int)) = 0 := by
    unfold wrap32; decide
  rw [hw] at h2
  obtain ⟨q', h3, _⟩ := BLQueue_pop_inside 1024 0 (-1) 1024 q 0 (by decide) h2 (by decide)
  refine ⟨q, q', ?_, h3, ?_, rfl⟩
  · rw [refRun_replicate_pop, List.map_replicate]
    exact h1
  · have : ∀ n, refFinal [] (List.replicate n Op.pop) = [] := by
      intro n
      induction n with
      | zero => rfl
      | succ n ih => simpa only [List.replicate_succ, refFinal, refStep] using ih
    exact this _

/-- C8 (the code at the failing input), with `BUFFER_SIZE = 1024`, `EMPTY_VALUE = 0`,
`TAKEN_VALUE = -1`: after `2^31 - 1024` pops of a new queue `pop_idx` is `INT_MIN`;
a pop made now returns `EMPTY_VALUE`, but `BLQueue_is_empty` does not return `true`: it
reads `buffer[INT_MIN]`. -/
theorem BLQueue_is_empty_after_wraparound :
    ∃ rs q q',
      BLQueue_session 1024 0 (-1) 1025 hp0 0 1 (List.replicate 2147482624 .pop) = .ok (rs, q)
      ∧ BLQueue_is_empty 1024 0 (-1) 1025 q = .error .out_of_bounds
      ∧ BLQueue_pop 1024 0 (-1) 1025 q = .ok (0, q') := by
  obtain ⟨q, h1, h2⟩ := BLQueue_session_pops 1024 0 (-1) (by decide) 0 hp0 0 1
    (by decide) (by decide) (by decide) 2147482623 (by decide)
  have hw : wrap32 (((1024 : Nat) : Int) + 1 + ((2147482623 : Nat) : Int)) = -2147483648 := by
    unfold wrap32; decide
  rw [hw] at h2
  obtain ⟨q', h3, _⟩ := BLQueue_pop_outside 1024 0 (-1) 1024 q _ h2 (by decide)
  exact ⟨_, q, q', h1, BLQueue_is_empty_negative 1024 0 (-1) 1024 q _ h2 (by decide), h3⟩

theorem HeadTouched.of_mem {N : Type} (hs : HPState N) (a : Nat) (m' : Mem N) (n' : N)
    (hbrk : m'.brk = hs.mem.brk) (hnode : m'.qnode a = some n')
    (hobj : ∀ x, x ≠ a → m'.obj x = hs.mem.obj x) :
    HeadTouched hs a
      { hs with mem := m', hp := hs.hp.setPointer hs._thread_id.toNat a } n' :=
  ⟨rfl, rfl, rfl, hbrk, hnode, hobj⟩

/-- A node touched twice is a touched node. -/
theorem HeadTouched.again {N : Type} {hs hs2 : HPState N} {a : Nat} {n' : N}
    (h : HeadTouched hs a hs2 n') (m' : Mem N) (n'' : N)
    (hbrk : m'.brk = hs2.mem.brk) (hnode : m'.qnode a = some n'')
    (hobj : ∀ x, x ≠ a → m'.obj x = hs2.mem.obj x) :
    HeadTouched hs a
      { hs2 with mem := m', hp := hs2.hp.setPointer hs2._thread_id.toNat a } n'' := by
  refine ⟨?_, h.thread_id, h.num_threads, hbrk.trans h.brk, hnode,
    fun x hx => (hobj x hx).trans (h.obj x hx)⟩
  show hs2.hp.setPointer hs2._thread_id.toNat a = _
  rw [h.hp, h.thread_id]
  simp only [HazardPointer.setPointer]
  congr 1
  funext i
  split <;> rfl

theorem BLRep.addr_nodup {B : Nat} {E T : Value} {q : BLQueue} {cs : List (Nat × List Value)}
    {l : List Nat} {c : Nat} (h : BLRep B E T q cs l c) : (cs.map Prod.fst).Nodup :=
  Chain_nodup _ _ h.chain

theorem BLRep.mono {B : Nat} {E T : Value} {q : BLQueue} {cs : List (Nat × List Value)}
    {l : List Nat} {c c' : Nat} (h : BLRep B E T q cs l c) (hc : c ≤ c') :
    BLRep B E T q cs l c' := by
  refine ⟨h.chain, h.tail, ?_, h.only_head_empty, h.fresh, h.retired⟩
  intro a vs hm
  obtain ⟨n, po, pu, hn, hcells, hpo⟩ := h.nodes a vs hm
  exact ⟨n, po, pu, hn, hcells, by omega⟩

theorem wrap32_nat_succ (k : Nat) (h : k + 1 < 2147483648) :
    wrap32 ((k : Int) + 1) = ((k + 1 : Nat) : Int) := by
  rw [wrap32_of_range _ (by omega) (by omega)]
  push_cast
  rfl

theorem PoppedNode.popped_refl (T : Value) (n : BLNode) : PoppedNode T n n :=
  ⟨rfl, le_refl _, fun _ => Or.inl rfl⟩

theorem PoppedNode.popped_trans {T : Value} {a b c : BLNode} (h1 : PoppedNode T a b)
    (h2 : PoppedNode T b c) : PoppedNode T a c := by
  refine ⟨h2.1.trans h1.1, le_trans h1.2.1 h2.2.1, fun i => ?_⟩
  rcases h2.2.2 i with h | h
  · rw [h]; exact h1.2.2 i
  · exact Or.inr h

theorem PushedNode.pushed_refl (E T item : Value) (n : BLNode) : PushedNode E T item n n :=
  ⟨rfl, le_refl _, fun _ => Or.inl rfl⟩

theorem PushedNode.pushed_trans {E T item : Value} {a b c : BLNode} (h1 : PushedNode E T item a b)
    (h2 : PushedNode E T item b c) : PushedNode E T item a c := by
  refine ⟨h2.1.trans h1.1, le_trans h1.2.1 h2.2.1, fun i => ?_⟩
  rcases h2.2.2 i with h | ⟨h, hb⟩
  · rw [h]; exact h1.2.2 i
  · rcases h1.2.2 i with h' | ⟨_, ha⟩
    · exact Or.inr ⟨h, h' ▸ hb⟩
    · exact Or.inr ⟨h, ha⟩

/-- A pop takes the cell `po`: `pop_idx` goes from `po` to `po + 1`. -/
theorem PoppedNode.take (T : Value) (n : BLNode) (po : Nat) (hpo : po + 1 < 2147483648)
    (hp : n.pop_idx = (po : Int)) :
    PoppedNode T n
      { next := n.next, buffer := setCell n.buffer po T, push_idx := n.push_idx,
        pop_idx := wrap32 ((po : Int) + 1) } := by
  refine ⟨rfl, ?_, fun i => ?_⟩
  · show n.pop_idx ≤ wrap32 ((po : Int) + 1)
    rw [wrap32_nat_succ po hpo, hp]
    push_cast
    omega
  · show setCell n.buffer po T i = n.buffer i ∨ setCell n.buffer po T i = T
    unfold setCell
    by_cases hi : i = po
    · rw [if_pos hi]; exact Or.inr rfl
    · rw [if_neg hi]; exact Or.inl rfl

/-- Touching one node leaves every other node of the queue as it was. -/
theorem BLRep.touched_nodes {B : Nat} {E T : Value} {q : BLQueue}
    {cs : List (Nat × List Value)} {l : List Nat} {c : Nat} {x : Nat}
    {hs2 : HPState BLNode} {n n' : BLNode}
    (hrep : BLRep B E T q cs l c) (ht : HeadTouched q.hs x hs2 n')
    (hn : q.hs.mem.qnode x = some n) (R : BLNode → BLNode → Prop) (hrefl : ∀ m, R m m)
    (hR : R n n') :
    ∀ a, a ∈ cs.map Prod.fst →
      ∃ m m', q.hs.mem.qnode a = some m ∧ hs2.mem.qnode a = some m' ∧ R m m' := by
  intro a ha
  obtain ⟨⟨a', w⟩, hm, rfl⟩ := List.mem_map.mp ha
  obtain ⟨m, _, _, hmq, _⟩ := hrep.nodes a' w hm
  show ∃ m m', q.hs.mem.qnode a' = some m ∧ hs2.mem.qnode a' = some m' ∧ R m m'
  by_cases hx : a' = x
  · rw [hx] at hmq ⊢
    rw [hn] at hmq
    cases hmq
    exact ⟨n, n', hn, ht.node, hR⟩
  · exact ⟨m, m, hmq, by rw [Mem.qnode_congr (ht.obj a' hx)]; exact hmq, hrefl m⟩

/-- The queue after one of its nodes was touched without changing its `next`. -/
theorem BLRep.touch_node {B : Nat} {E T : Value} {q : BLQueue} {a : Nat} {vs : List Value}
    (cs0 : List (Nat × List Value)) (vs' : List Value) (c' : Nat)
    {cs1 : List (Nat × List Value)} {l : List Nat} {c : Nat}
    {hs2 : HPState BLNode} {n n' : BLNode}
    (hrep : BLRep B E T q (cs0 ++ (a, vs) :: cs1) l c) (ht : HeadTouched q.hs a hs2 n')
    (hn : q.hs.mem.qnode a = some n) (hnext : n'.next = n.next)
    (hok : ∃ po pu, BLCells B E T n' po pu vs' ∧ po ≤ B + 1 + c') (hc : c ≤ c')
    (hemp : vs' = [] → a = q.head) :
    BLRep B E T { q with hs := hs2 } (cs0 ++ (a, vs') :: cs1) l c' := by
  have hnd := hrep.addr_nodup
  simp only [List.map_append, List.map_cons] at hnd
  have hne : ∀ x w, (x, w) ∈ cs0 ∨ (x, w) ∈ cs1 → x ≠ a := by
    intro x w hm h
    subst h
    have h1 := List.nodup_append.mp hnd
    rcases hm with hm | hm
    · exact h1.2.2 (List.mem_map_of_mem Prod.fst hm) (by simp)
    · exact (List.nodup_cons.mp h1.2.1).1 (List.mem_map_of_mem Prod.fst hm)
  obtain ⟨hchain, htail, hnodes, hohe, hfresh, hret⟩ := hrep
  have hmap : (cs0 ++ (a, vs') :: cs1).map Prod.fst = (cs0 ++ (a, vs) :: cs1).map Prod.fst := by
    simp
  refine ⟨?_, ?_, ?_, ?_, ?_, ?_⟩
  · rw [hmap]
    refine Seg_congr _ _ _ ?_ hchain
    intro x _
    by_cases hx : x = a
    · subst hx
      show nodeNext BLNode.next hs2.mem _ = _
      rw [nodeNext_of_qnode ht.node, nodeNext_of_qnode hn, hnext]
    · exact nodeNext_congr (Mem.qnode_congr (ht.obj x hx))
  · rw [hmap]; exact htail
  · intro x w hm
    rcases List.mem_append.mp hm with h | h
    · obtain ⟨m, po, pu, hmq, hcl, hpo⟩ := hnodes x w (List.mem_append_left _ h)
      refine ⟨m, po, pu, ?_, hcl, by omega⟩
      show hs2.mem.qnode x = _
      rw [Mem.qnode_congr (ht.obj x (hne x w (Or.inl h)))]
      exact hmq
    · rcases List.mem_cons.mp h with h | h
      · cases h
        obtain ⟨po, pu, hcl, hpo⟩ := hok
        exact ⟨n', po, pu, ht.node, hcl, hpo⟩
      · obtain ⟨m, po, pu, hmq, hcl, hpo⟩ :=
          hnodes x w (List.mem_append_right _ (List.mem_cons_of_mem _ h))
        refine ⟨m, po, pu, ?_, hcl, by omega⟩
        show hs2.mem.qnode x = _
        rw [Mem.qnode_congr (ht.obj x (hne x w (Or.inr h)))]
        exact hmq
  · intro x w hm hw
    rcases List.mem_append.mp hm with h | h
    · exact hohe x w (List.mem_append_left _ h) hw
    · rcases List.mem_cons.mp h with h | h
      · cases h; exact hemp hw
      · exact hohe x w (List.mem_append_right _ (List.mem_cons_of_mem _ h)) hw
  · intro x w hm
    show x < hs2.mem.brk
    rw [ht.brk]
    rcases List.mem_append.mp hm with h | h
    · exact hfresh x w (List.mem_append_left _ h)
    · rcases List.mem_cons.mp h with h | h
      · cases h; exact hfresh a vs (by simp)
      · exact hfresh x w (List.mem_append_right _ (List.mem_cons_of_mem _ h))
  · rw [hmap]
    exact ht.retired hn hret

/-- The head of a `BLQueue` moves on to its successor and the old head is retired. -/
theorem BL_advance {B : Nat} {E T : Value} {q : BLQueue} {vs0 vs2 : List Value} {h2 : Nat}
    {cs2 : List (Nat × List Value)} {l : List Nat} {c : Nat} {hs2 : HPState BLNode}
    {n n' : BLNode} (fuel : Nat) (hfuel : 128 < fuel)
    (hrep : BLRep B E T q ((q.head, vs0) :: (h2, vs2) :: cs2) l c)
    (ht : HeadTouched q.hs q.head hs2 n') (hn : q.hs.mem.qnode q.head = some n) :
    ∃ hs3 l', advance_head fuel hs2 q.head q.head h2 = .ok (hs3, h2)
      ∧ BLRep B E T { hs := hs3, head := h2, tail := q.tail } ((h2, vs2) :: cs2) l' c
      ∧ hs3.mem.brk = q.hs.mem.brk + 1
      ∧ ∀ a, a ∈ ((h2, vs2) :: cs2).map Prod.fst → hs3.mem.qnode a = q.hs.mem.qnode a := by
  have hnd := hrep.addr_nodup
  simp only [List.map_cons, List.nodup_cons] at hnd
  obtain ⟨hchain, htail, hnodes, hohe, hfresh, hret⟩ := hrep
  obtain ⟨e, hh0, nx, hnx, hrest⟩ := hchain
  have hret2 : RetiredOK hs2 (q.head :: ((h2, vs2) :: cs2).map Prod.fst) l := ht.retired hn hret
  have hlive_ne : ∀ a, a ∈ ((h2, vs2) :: cs2).map Prod.fst → a ≠ q.head := by
    intro a ha h
    exact hnd.1 (h ▸ ha)
  have hlive : ∀ a, a ∈ ((h2, vs2) :: cs2).map Prod.fst →
      (∃ k, hs2.mem.qnode a = some k) ∧ a < hs2.mem.brk := by
    intro a ha
    obtain ⟨⟨a', w⟩, hm, rfl⟩ := List.mem_map.mp ha
    obtain ⟨m, _, _, hmq, _⟩ := hnodes a' w (List.mem_cons_of_mem _ hm)
    refine ⟨⟨m, ?_⟩, ?_⟩
    · rw [Mem.qnode_congr (ht.obj a' (hlive_ne a' ha))]; exact hmq
    · rw [ht.brk]; exact hfresh a' w (List.mem_cons_of_mem _ hm)
  have hprot : hs2.hp.pointer hs2._thread_id.toNat = q.head := by
    rw [ht.hp, ht.thread_id]
    simp [HazardPointer.setPointer]
  obtain ⟨hs3, l', r1, r2, r3, r4, r5⟩ :=
    HazardPointer_retire_seq hs2 fuel q.head n' _ l hret2 hfuel ht.node hprot
      (by rw [ht.brk]; exact hfresh q.head vs0 (by simp)) hnd.1 hlive
  have hq3 : ∀ a, a ∈ ((h2, vs2) :: cs2).map Prod.fst → hs3.mem.qnode a = q.hs.mem.qnode a := by
    intro a ha
    rw [r5 a ha, Mem.qnode_congr (ht.obj a (hlive_ne a ha))]
  refine ⟨hs3, l', by simp only [advance_head, if_true, r1], ⟨?_, ?_, ?_, ?_, ?_, r2⟩,
    by rw [r4, ht.brk], hq3⟩
  · have hrest' : Chain (nodeNext BLNode.next q.hs.mem) h2 (((h2, vs2) :: cs2).map Prod.fst) := by
      have e2 : nx = h2 := hrest.1
      rw [e2] at hrest
      exact hrest
    exact Seg_congr _ _ _ (fun x hx => nodeNext_congr (hq3 x hx)) hrest'
  · simpa [List.getLast?_cons_cons] using htail
  · intro a w hm
    obtain ⟨m, po, pu, hmq, hcl, hpo⟩ := hnodes a w (List.mem_cons_of_mem _ hm)
    refine ⟨m, po, pu, ?_, hcl, hpo⟩
    show hs3.mem.qnode a = _
    rw [hq3 a (List.mem_map_of_mem Prod.fst hm)]
    exact hmq
  · intro a w hm hw
    have := hohe a w (List.mem_cons_of_mem _ hm) hw
    exact absurd this (hlive_ne a (List.mem_map_of_mem Prod.fst hm))
  · intro a w hm
    show a < hs3.mem.brk
    rw [r4, ht.brk]
    have := hfresh a w (List.mem_cons_of_mem _ hm)
    omega

theorem BLRep.head_split {B : Nat} {E T : Value} {q : BLQueue} {cs : List (Nat × List Value)}
    {l : List Nat} {c : Nat} (h : BLRep B E T q cs l c) :
    ∃ vs0 cs1, cs = (q.head, vs0) :: cs1 := by
  cases cs with
  | nil => have := h.tail; simp at this
  | cons p cs1 =>
    obtain ⟨a, vs0⟩ := p
    have : q.head = a := h.chain.1
    exact ⟨vs0, cs1, by rw [this]⟩

theorem BLRep.head_cells {B : Nat} {E T : Value} {q : BLQueue} {vs0 : List Value}
    {cs1 : List (Nat × List Value)} {l : List Nat} {c : Nat}
    (h : BLRep B E T q ((q.head, vs0) :: cs1) l c) :
    ∃ n po pu, q.hs.mem.qnode q.head = some n ∧ BLCells B E T n po pu vs0 ∧ po ≤ B + 1 + c
      ∧ q.head ≠ 0
      ∧ (cs1 = [] → n.next = 0)
      ∧ (∀ h2 vs2 cs2, cs1 = (h2, vs2) :: cs2 → n.next = h2 ∧ h2 ≠ 0 ∧ vs2 ≠ []) := by
  have hnd := h.addr_nodup
  obtain ⟨n, po, pu, hn, hcl, hpo⟩ := h.nodes q.head vs0 (by simp)
  obtain ⟨_, hh0, nx, hnx, hrest⟩ := h.chain
  rw [nodeNext_of_qnode hn] at hnx
  cases hnx
  refine ⟨n, po, pu, hn, hcl, hpo, hh0, ?_, ?_⟩
  · intro hc
    subst hc
    exact hrest
  · intro h2 vs2 cs2 hc
    subst hc
    obtain ⟨e2, h20, _⟩ := hrest
    have e2' : n.next = h2 := e2
    refine ⟨e2', e2' ▸ h20, ?_⟩
    intro hv
    have := h.only_head_empty h2 vs2 (by simp) hv
    simp only [List.map_cons, List.nodup_cons] at hnd
    apply hnd.1
    simp [this]

theorem BLRep.clear_slot {B : Nat} {E T : Value} {q : BLQueue} {cs : List (Nat × List Value)}
    {l : List Nat} {c : Nat} (h : BLRep B E T q cs l c) (x : Nat) :
    BLRep B E T
      { q with hs := { q.hs with hp := q.hs.hp.setPointer q.hs._thread_id.toNat x } } cs l c := by
  obtain ⟨hchain, htail, hnodes, hohe, hfresh, hret⟩ := h
  refine ⟨hchain, htail, hnodes, hohe, hfresh, ?_⟩
  refine hret.of_frame rfl ?_ rfl rfl (fun _ _ => rfl) (le_refl _) (fun x hx => Or.inl hx)
  intro j hj
  simp [HazardPointer.setPointer, hj]

theorem double_store_touched (hs : HPState BLNode) (a : Nat) (n1 n2 : BLNode) (ha : a ≠ 0) :
    HeadTouched hs a
      { hs with
        mem := (hs.mem.store a (Obj.qnode n1)).store a (Obj.qnode n2)
        hp := hs.hp.setPointer hs._thread_id.toNat a } n2 :=
  HeadTouched.of_mem hs a _ n2 rfl (Mem.qnode_store_qnode _ _ _ ha)
    (fun x hx => by rw [Mem.obj_store_ne _ _ _ _ hx, Mem.obj_store_ne _ _ _ _ hx])

/-- The node that `add_to_retired_list` appends holds the pointer it was given. -/
theorem add_to_retired_list_last {N : Type} (s s' : HPState N) (ptr : Nat)
    (h : add_to_retired_list s ptr = .ok s') : lastRetiredOf s' = some ptr := by
  unfold add_to_retired_list at h
  cases ht : arrayIndex s._thread_id with
  | none => simp [ht] at h
  | some t =>
    simp only [ht, create_retired__node, malloc] at h
    by_cases hb : s.mem.brk = 0
    · simp [hb] at h
    · simp only [hb, if_false] at h
      by_cases htl : (s.hp.retired_ptrs t).tail = 0
      · simp only [htl, if_true] at h
        cases h
        simp [lastRetiredOf, ht, HazardPointer.setList, Mem.rnode, Mem.store, hb]
      · simp only [htl, if_false] at h
        split at h
        · cases h
        · rename_i tl htlq
          cases h
          by_cases hbt : s.mem.brk = (s.hp.retired_ptrs t).tail
          · have : tl.pointer = ptr := by
              rw [← hbt] at htlq
              simp [Mem.rnode, Mem.store, hb] at htlq
              rw [← htlq]
            simp [lastRetiredOf, ht, HazardPointer.setList, Mem.rnode, Mem.store, hb, hbt, this]
            exact ⟨_, ⟨htl, rfl⟩, rfl⟩
          · simp [lastRetiredOf, ht, HazardPointer.setList, Mem.rnode, Mem.store, hb, hbt]

/-- After `HazardPointer_retire` the last node of the list holds the retired pointer. -/
theorem HazardPointer_retire_last {N : Type} (fuel : Nat) (s s' : HPState N) (ptr : Nat)
    (h : HazardPointer_retire fuel s ptr = .ok s') : lastRetiredOf s' = some ptr := by
  unfold HazardPointer_retire at h
  split at h
  · cases h
  · split at h
    · split at h
      · cases h
      · exact add_to_retired_list_last _ _ _ h
    · exact add_to_retired_list_last _ _ _ h

/-- A head that `advance_head` moves on is retired. -/
theorem advance_head_last {N : Type} (fuel : Nat) (hs hs3 : HPState N) (head next x : Nat)
    (h : advance_head fuel hs head head next = .ok (hs3, x)) : lastRetiredOf hs3 = some head := by
  simp only [advance_head, if_true] at h
  split at h
  · cases h
  · rename_i hs1 hr
    cases h
    exact HazardPointer_retire_last _ _ _ _ hr

/-- Touching a queue node does not change what was last retired. -/
theorem lastRetiredOf_touched {N : Type} {hs hs2 : HPState N} {a p : Nat} {n' : N}
    (ht : HeadTouched hs a hs2 n') (hq : ∃ k, hs.mem.qnode a = some k)
    (h : lastRetiredOf hs = some p) : lastRetiredOf hs2 = some p := by
  unfold lastRetiredOf at h ⊢
  rw [ht.thread_id]
  cases hti : arrayIndex hs._thread_id with
  | none => simp [hti] at h
  | some t =>
    simp only [hti] at h ⊢
    have hl : hs2.hp.retired_ptrs t = hs.hp.retired_ptrs t := by rw [ht.hp]; rfl
    rw [hl]
    obtain ⟨m, hm, _⟩ := Option.map_eq_some'.mp h
    have hx : (hs.hp.retired_ptrs t).tail ≠ a := by
      intro e
      obtain ⟨k, hk⟩ := hq
      exact rnode_qnode_exclusive hm (e ▸ hk)
    rw [Mem.rnode_congr (ht.obj _ hx)]
    exact h

/-- A pop that finds a value in the head node takes it. -/
theorem BLQueue_pop_loop_take (B : Nat) (E T : Value) (hB : B < 2147483647) (f : Nat)
    (q : BLQueue) (v : Value) (vs0 : List Value) (cs1 : List (Nat × List Value)) (l : List Nat)
    (c : Nat) (hrep : BLRep B E T q ((q.head, v :: vs0) :: cs1) l c) :
    ∃ q', BLQueue_pop_loop B E T (f + 1) q = .ok (v, q')
      ∧ BLRep B E T q' ((q.head, vs0) :: cs1) l c ∧ q'.head = q.head
      ∧ q'.hs.mem.brk = q.hs.mem.brk ∧ q'.tail = q.tail
      ∧ (∀ a, a ∈ ((q.head, vs0) :: cs1).map Prod.fst →
          ∃ m m', q.hs.mem.qnode a = some m ∧ q'.hs.mem.qnode a = some m' ∧ PoppedNode T m m')
      ∧ ∃ n', HeadTouched q.hs q.head q'.hs n' := by
  obtain ⟨n, po, pu, hn, hcl, hpo, hh0, _, _⟩ := hrep.head_cells
  obtain ⟨ht, _⟩ := arrayIndex_of_registered q.hs hrep.retired.reg
  have hlen := hcl.len
  simp only [List.length_cons] at hlen
  have hpu := hcl.pu_le
  have hpolt : po < B := by omega
  have hin : (po : Int) < (B : Int) ∧ (po : Int) ≥ 0 := by omega
  have hb : bufIndex B (po : Int) = some po := by
    simp [bufIndex]; omega
  obtain ⟨hcell, hvE, _⟩ := hcl.vals 0 v (by simp)
  simp only [Nat.add_zero] at hcell
  have htouch := double_store_touched q.hs q.head
    { n with pop_idx := wrap32 ((po : Int) + 1) }
    { next := n.next, buffer := setCell n.buffer po T, push_idx := n.push_idx,
      pop_idx := wrap32 ((po : Int) + 1) } hh0
  have hrep' := BLRep.touch_node [] vs0 c hrep htouch hn rfl
    ⟨po + 1, pu, ⟨wrap32_nat_succ po (by omega), hcl.push, hcl.push_nonneg, hcl.full, hpu,
      by omega, ?_, ?_, ?_⟩, by omega⟩ (le_refl _)
    (fun _ => rfl)
  · refine ⟨_, ?_, hrep', rfl, rfl, rfl, ?_, _, htouch⟩
    · conv_lhs => unfold BLQueue_pop_loop
      simp only [HazardPointer_protect_succ q.head f q.hs _ ht, ne_eq, not_true_eq_false,
        if_false, hn, hcl.pop, hin, and_self, if_true, hb, hcell, hvE, not_false_eq_true]
    · exact hrep.touched_nodes htouch hn (PoppedNode T) (PoppedNode.popped_refl T)
        (PoppedNode.take T n po (by omega) hcl.pop)
  · intro j w hj
    have := hcl.vals (j + 1) w (by simpa using hj)
    refine ⟨?_, this.2⟩
    show setCell n.buffer po T (po + 1 + j) = w
    unfold setCell
    rw [if_neg (by omega), show po + 1 + j = po + (j + 1) by omega]
    exact this.1
  · intro i h1 h2 _
    omega
  · intro i h1 h2 h3
    show setCell n.buffer po T i = E
    unfold setCell
    rw [if_neg (by omega)]
    exact hcl.empty i h1 (by omega) h3

/-! ## Unregistered threads and the frame of protect and clear -/

theorem arrayIndex_neg_one : arrayIndex (-1) = none := by
  simp [arrayIndex]

/-- C13 (amended): for a thread that never called `HazardPointer_register`
(`_thread_id` still `-1`) no assertion stops `HazardPointer_protect`,
`HazardPointer_clear` or `HazardPointer_retire`: each of them indexes its array
with `-1`, an access outside the array. -/
theorem HazardPointer_unregistered_out_of_bounds {N : Type} (s : HPState N) (fuel : Nat)
    (ptr : Nat) (hid : s._thread_id = -1) :
    HazardPointer_protect (fuel + 1) s ptr = .error .out_of_bounds
      ∧ HazardPointer_clear s = .error .out_of_bounds
      ∧ HazardPointer_retire fuel s ptr = .error .out_of_bounds := by
  refine ⟨?_, ?_, ?_⟩
  · simp [HazardPointer_protect, HazardPointer_protect_loop, hid, arrayIndex_neg_one]
  · simp [HazardPointer_clear, hid, arrayIndex_neg_one]
  · simp [HazardPointer_retire, hid, arrayIndex_neg_one]

/-- C13 (amended) at a concrete input: the state at the start of the world. -/
theorem HazardPointer_unregistered_out_of_bounds_witness :
    (boot LLNode hp0)._thread_id = -1
      ∧ HazardPointer_protect (0 + 1) (boot LLNode hp0) 5 = .error .out_of_bounds
      ∧ HazardPointer_clear (boot LLNode hp0) = .error .out_of_bounds
      ∧ HazardPointer_retire 0 (boot LLNode hp0) 5 = .error .out_of_bounds :=
  ⟨rfl, HazardPointer_unregistered_out_of_bounds (boot LLNode hp0) 0 5 rfl⟩

/-- C13 (the claim fails): in the state at the start of the world, where no
thread has registered, `HazardPointer_protect`, `HazardPointer_clear` and
`HazardPointer_retire` are not stopped by an assertion; they access index `-1`. -/
theorem HazardPointer_unregistered_not_asserted :
    ¬ (HazardPointer_protect 1 (boot LLNode hp0) 5 = .error .assertion_failed)
      ∧ ¬ (HazardPointer_clear (boot LLNode hp0) = .error .assertion_failed)
      ∧ ¬ (HazardPointer_retire 1 (boot LLNode hp0) 5 = .error .assertion_failed) := by
  refine ⟨?_, ?_, ?_⟩
  · simp [HazardPointer_protect, HazardPointer_protect_loop, boot, arrayIndex_neg_one]
  · simp [HazardPointer_clear, boot, arrayIndex_neg_one]
  · simp [HazardPointer_retire, boot, arrayIndex_neg_one]

/-- C17: a call of `HazardPointer_protect` by a registered thread `i` returns the
pointer held by the slot, leaves `pointer[i]` equal to it and changes no other
protected entry, no retired list, nothing in the heap and neither global;
`HazardPointer_clear` likewise changes only `pointer[i]`, which becomes null. -/
theorem HazardPointer_protect_clear_frame {N : Type} (s : HPState N) (fuel : Nat) (slot : Nat)
    (hreg : Registered s) :
    (∃ s1, HazardPointer_protect (fuel + 1) s slot = .ok (s1, slot)
        ∧ s1.hp.pointer s._thread_id.toNat = slot
        ∧ (∀ j, j ≠ s._thread_id.toNat → s1.hp.pointer j = s.hp.pointer j)
        ∧ s1.hp.retired_ptrs = s.hp.retired_ptrs
        ∧ s1.mem = s.mem ∧ s1._thread_id = s._thread_id ∧ s1._num_threads = s._num_threads)
      ∧ ∃ s2, HazardPointer_clear s = .ok s2
        ∧ s2.hp.pointer s._thread_id.toNat = 0
        ∧ (∀ j, j ≠ s._thread_id.toNat → s2.hp.pointer j = s.hp.pointer j)
        ∧ s2.hp.retired_ptrs = s.hp.retired_ptrs
        ∧ s2.mem = s.mem ∧ s2._thread_id = s._thread_id ∧ s2._num_threads = s._num_threads := by
  obtain ⟨ht, _⟩ := arrayIndex_of_registered s hreg
  refine ⟨⟨_, HazardPointer_protect_succ slot fuel s _ ht, ?_, ?_, rfl, rfl, rfl, rfl⟩,
    ⟨{ s with hp := s.hp.setPointer s._thread_id.toNat 0 }, ?_, ?_, ?_, rfl, rfl, rfl, rfl⟩⟩
  · simp [HazardPointer.setPointer]
  · intro j hj
    simp [HazardPointer.setPointer, hj]
  · simp [HazardPointer_clear, ht]
  · simp [HazardPointer.setPointer]
  · intro j hj
    simp [HazardPointer.setPointer, hj]

/-- C17 at a concrete input: thread 2 of 4, whose slot holds `7`, protects the
pointer `9`; the slots of the other threads keep their `7`. -/
theorem HazardPointer_protect_clear_frame_witness :
    Registered (HazardPointer_register (boot LLNode ⟨fun _ => 7, fun _ => ⟨0, 0, 0⟩⟩) 2 4)
      ∧ ∃ s1, HazardPointer_protect (0 + 1)
            (HazardPointer_register (boot LLNode ⟨fun _ => 7, fun _ => ⟨0, 0, 0⟩⟩) 2 4) 9
          = .ok (s1, 9)
        ∧ s1.hp.pointer 2 = 9 ∧ s1.hp.pointer 1 = 7 ∧ s1.hp.pointer 3 = 7 :=
  ⟨by simp [Registered, HazardPointer_register, boot, MAX_THREADS],
   by
    obtain ⟨⟨s1, h1, h2, h3, _⟩, _⟩ := HazardPointer_protect_clear_frame
      (HazardPointer_register (boot LLNode ⟨fun _ => 7, fun _ => ⟨0, 0, 0⟩⟩) 2 4) 0 9
      (by simp [Registered, HazardPointer_register, boot, MAX_THREADS])
    refine ⟨s1, h1, h2, ?_, ?_⟩
    · have := h3 1 (by simp [HazardPointer_register, boot])
      simpa [HazardPointer_register, boot] using this
    · have := h3 3 (by simp [HazardPointer_register, boot])
      simpa [HazardPointer_register, boot] using this⟩

/-! ## The retired list of an `LLQueue` stays short -/

theorem pushedValues_take_subset :
    ∀ (ops : List Op) (k : Nat) (v : Value), v ∈ pushedValues (ops.take k) → v ∈ pushedValues ops
  | [], k, v, h => by simpa using h
  | op :: ops, 0, v, h => by simp [pushedValues] at h
  | op :: ops, k + 1, v, h => by
    cases op with
    | push w =>
      simp only [List.take_succ_cons, pushedValues, List.mem_cons] at h ⊢
      rcases h with h | h
      · exact Or.inl h
      · exact Or.inr (pushedValues_take_subset ops k v h)
    | pop =>
      simp only [List.take_succ_cons, pushedValues] at h ⊢
      exact pushedValues_take_subset ops k v h
    | is_empty =>
      simp only [List.take_succ_cons, pushedValues] at h ⊢
      exact pushedValues_take_subset ops k v h

theorem pushedValues_append (a b : List Op) :
    pushedValues (a ++ b) = pushedValues a ++ pushedValues b := by
  induction a with
  | nil => rfl
  | cons op a ih => cases op <;> simp [pushedValues, ih]

theorem pushedValues_pushThenPop (n : Nat) (v w : Value) (h : w ∈ pushedValues (pushThenPop n v)) :
    w = v := by
  have h1 : ∀ k, pushedValues (List.replicate k (Op.push v)) = List.replicate k v := by
    intro k
    induction k with
    | zero => rfl
    | succ k ih => simp [List.replicate_succ, pushedValues, ih]
  have h2 : ∀ k, pushedValues (List.replicate k Op.pop) = [] := by
    intro k
    induction k with
    | zero => rfl
    | succ k ih => simp [List.replicate_succ, pushedValues, ih]
  rw [pushThenPop, pushedValues_append, h1, h2, List.append_nil] at h
  exact (List.mem_replicate.mp h).2

/-- C12: a registered thread creates a queue with `LLQueue_new` and makes any
sequence of calls (pushing values other than `EMPTY_VALUE`); after every prefix
of the calls its retired list is a well-formed list whose number of entries,
which is also what the field `size` says, is at most `RETIRED_THRESHOLD`. -/
theorem LLQueue_retired_bounded (EMPTY_VALUE : Value) (fuel : Nat) (hp : HazardPointer)
    (thread_id num_threads : Int) (ops : List Op) (k : Nat)
    (h0 : 0 ≤ thread_id) (h1 : thread_id < num_threads) (h2 : num_threads ≤ (MAX_THREADS : Int))
    (hfuel : 130 ≤ fuel) (hv : ∀ v, v ∈ pushedValues ops → v ≠ EMPTY_VALUE) :
    ∃ rs q l, LLQueue_session EMPTY_VALUE fuel hp thread_id num_threads (ops.take k) = .ok (rs, q)
      ∧ RetiredList q.hs q.hs._thread_id.toNat l
      ∧ (q.hs.hp.retired_ptrs q.hs._thread_id.toNat).size = (l.length : Int)
      ∧ (l.length : Int) ≤ RETIRED_THRESHOLD := by
  obtain ⟨q, h, cs, l, hrep, _⟩ :=
    LLQueue_session_spec EMPTY_VALUE fuel hp thread_id num_threads (ops.take k) h0 h1 h2 hfuel
      (fun v hm => hv v (pushedValues_take_subset ops k v hm))
  refine ⟨_, q, l, h, hrep.retired.rlist, hrep.retired.rlist.size_eq, ?_⟩
  have := hrep.retired.rsize
  simp only [RETIRED_THRESHOLD]
  omega

/-- C12 at a concrete input: thread 0 of 4 pushes 1000 items and pops 1000 times. -/
theorem LLQueue_retired_bounded_witness :
    ∃ rs q l, LLQueue_session 0 130 hp0 0 4 ((pushThenPop 1000 7).take 2000) = .ok (rs, q)
      ∧ RetiredList q.hs q.hs._thread_id.toNat l
      ∧ (q.hs.hp.retired_ptrs q.hs._thread_id.toNat).size = (l.length : Int)
      ∧ (l.length : Int) ≤ RETIRED_THRESHOLD :=
  LLQueue_retired_bounded 0 130 hp0 0 4 (pushThenPop 1000 7) 2000
    (by decide) (by decide) (by decide) (by decide)
    (fun v hm => by rw [pushedValues_pushThenPop 1000 7 v hm]; decide)

/-! ## `free_slots` stays in range -/

theorem RingAt.free_range {R : Nat} {n : RingsQueueNode} {i : Nat} {vs : List Value}
    (h : RingAt R n i vs) : 0 ≤ n.free_slots ∧ n.free_slots ≤ (R : Int) := by
  have h1 := h.free
  have h2 := h.len
  omega

theorem RingsQueue_push_checked_eq (R : Nat) (q : RingsQueue) (cs : List (Nat × List Value))
    (v : Value) (hrep : RingsRep R q cs) :
    RingsQueue_push_checked R q v = RingsQueue_push R q v := by
  obtain ⟨hchain, htail, hnodes, hohe, hfresh, hbrk⟩ := hrep
  rcases List.eq_nil_or_concat cs with hnil | ⟨cs0, ⟨tl, vs⟩, hcs⟩
  · subst hnil; simp at htail
  rw [List.concat_eq_append] at hcs
  subst hcs
  have htl : tl = q.tail := by simpa using htail
  subst htl
  obtain ⟨n, i, hn, hring⟩ := hnodes q.tail vs (by simp)
  have hr := hring.free_range
  by_cases hfs : n.free_slots > 0
  · have hc : 0 < n.free_slots ∧ n.free_slots ≤ (R : Int) := ⟨hfs, hr.2⟩
    simp only [RingsQueue_push_checked, RingsQueue_push, hn, hfs, if_true, pushValue_checked, hc,
      and_self]
  · simp only [RingsQueue_push_checked, RingsQueue_push, hn, hfs, if_false]

theorem RingsQueue_pop_checked_eq (R : Nat) (E : Value) (q : RingsQueue)
    (cs : List (Nat × List Value)) (hrep : RingsRep R q cs) :
    RingsQueue_pop_checked R E q = RingsQueue_pop R E q := by
  have hnd := hrep.addrs_nodup
  obtain ⟨hchain, htail, hnodes, hohe, hfresh, hbrk⟩ := hrep
  cases cs with
  | nil => simp at htail
  | cons p cs1 =>
    obtain ⟨h, vs0⟩ := p
    obtain ⟨e, hh0, nx, hnx, hrest⟩ := hchain
    have e' : q.head = h := e
    subst e'
    obtain ⟨n, i, hn, hring⟩ := hnodes q.head vs0 (by simp)
    obtain ⟨n0, hn0, hnn⟩ := nodeNext_some hnx
    rw [hn] at hn0
    cases hn0
    subst hnn
    simp only [List.map_cons, List.nodup_cons] at hnd
    have hr := hring.free_range
    by_cases hA : n.next ≠ 0 ∧ n.free_slots = (R : Int)
    · have hvs0 : vs0 = [] := by
        have := hring.free
        rw [hA.2] at this
        have : vs0.length = 0 := by omega
        exact List.length_eq_zero.mp this
      subst hvs0
      cases cs1 with
      | nil =>
        have : n.next = 0 := hrest
        exact absurd this hA.1
      | cons p2 cs2 =>
        obtain ⟨h2, vs2⟩ := p2
        obtain ⟨e2, h20, nx2, hnx2, hrest2⟩ := hrest
        have e2' : n.next = h2 := e2
        have hh2 : h2 ≠ q.head := by
          intro heq
          apply hnd.1
          simp [heq]
        have hvs2 : vs2 ≠ [] := fun hv => hh2 (hohe h2 vs2 (by simp) hv)
        obtain ⟨n2, i2, hn2, hring2⟩ := hnodes h2 vs2 (by simp)
        have hn2' : (free q.mem q.head).qnode n.next = some n2 := by
          rw [e2', qnode_free_ne _ _ _ hh2]; exact hn2
        have hc : 0 ≤ n2.free_slots ∧ n2.free_slots < (R : Int) := by
          have h1 := hring2.free
          have h2 := hring2.len
          have h3 : 0 < vs2.length := List.length_pos.mpr hvs2
          omega
        simp only [RingsQueue_pop_checked, RingsQueue_pop, hn, hA, and_self, if_true,
          getValue_checked, hn2', hc, ne_eq, not_false_eq_true]
    · by_cases hB : n.free_slots < (R : Int)
      · have hc : 0 ≤ n.free_slots ∧ n.free_slots < (R : Int) := ⟨hr.1, hB⟩
        simp only [RingsQueue_pop_checked, RingsQueue_pop, hn, hA, if_false, hB, if_true,
          getValue_checked, hc, and_self]
      · simp only [RingsQueue_pop_checked, RingsQueue_pop, hn, hA, if_false, hB]

theorem RingsQueue_run_checked_eq (R : Nat) (hR2 : 2 ≤ R) (hR : R < 2147483648) (E : Value) :
    ∀ (ops : List Op) (q : RingsQueue) (vals : List Value), RingsInv R q vals →
      RingsQueue_run_checked R E q ops = RingsQueue_run R E q ops
  | [], _, _, _ => rfl
  | op :: ops, q, vals, h => by
    obtain ⟨q1, h1, h2⟩ := RingsQueue_step_spec R hR2 hR E q vals op h
    obtain ⟨cs, hrep, _⟩ := h
    have hstep : RingsQueue_step_checked R E q op = RingsQueue_step R E q op := by
      cases op with
      | push v => simp only [RingsQueue_step_checked, RingsQueue_step,
          RingsQueue_push_checked_eq R q cs v hrep]
      | pop => simp only [RingsQueue_step_checked, RingsQueue_step,
          RingsQueue_pop_checked_eq R E q cs hrep]
      | is_empty => rfl
    simp only [RingsQueue_run_checked, RingsQueue_run, hstep, h1,
      RingsQueue_run_checked_eq R hR2 hR E ops q1 _ h2]

/-- C19: after any sequence of calls on a queue from `RingsQueue_new`, every node
of the queue has `0 ≤ free_slots ≤ RING_SIZE`; and the calls never applied
`pushValue` to a node without a free slot nor `getValue` to a node without a
value: run with those two checks in place, the calls give the same results and
the same final queue. -/
theorem RingsQueue_free_slots_range (RING_SIZE : Nat) (hR2 : 2 ≤ RING_SIZE)
    (hR : RING_SIZE < 2147483648) (EMPTY_VALUE : Value) (ops : List Op) :
    ∃ rs q l, RingsQueue_session RING_SIZE EMPTY_VALUE ops = .ok (rs, q)
      ∧ RingsQueue_session_checked RING_SIZE EMPTY_VALUE ops = .ok (rs, q)
      ∧ Chain (nodeNext RingsQueueNode.next q.mem) q.head l
      ∧ ∀ a, a ∈ l → ∃ n, q.mem.qnode a = some n
          ∧ 0 ≤ n.free_slots ∧ n.free_slots ≤ (RING_SIZE : Int) := by
  obtain ⟨q0, hq0, hrep0⟩ := RingsQueue_new_spec RING_SIZE (by omega)
  obtain ⟨q, h1, cs, hrep, _⟩ :=
    RingsQueue_run_spec RING_SIZE hR2 hR EMPTY_VALUE ops q0 [] ⟨_, hrep0, rfl⟩
  have h2 := RingsQueue_run_checked_eq RING_SIZE hR2 hR EMPTY_VALUE ops q0 [] ⟨_, hrep0, rfl⟩
  refine ⟨(refRun [] ops).map (RefRet.toRet EMPTY_VALUE), q, cs.map Prod.fst,
    by simp only [RingsQueue_session, hq0, h1],
    by simp only [RingsQueue_session_checked, hq0, h2, h1], hrep.chain, ?_⟩
  intro a ha
  obtain ⟨⟨a', vs⟩, hm, rfl⟩ := List.mem_map.mp ha
  obtain ⟨n, i, hn, hring⟩ := hrep.nodes a' vs hm
  exact ⟨n, hn, hring.free_range⟩

/-- C19 at a concrete input: rings of four cells, six pushes and seven pops. -/
theorem RingsQueue_free_slots_range_witness :
    ∃ rs q l,
      RingsQueue_session 4 0
          [.push 1, .push 2, .push 3, .push 4, .push 5, .pop, .pop, .push 6, .pop, .pop, .pop,
            .pop, .pop] = .ok (rs, q)
      ∧ RingsQueue_session_checked 4 0
          [.push 1, .push 2, .push 3, .push 4, .push 5, .pop, .pop, .push 6, .pop, .pop, .pop,
            .pop, .pop] = .ok (rs, q)
      ∧ Chain (nodeNext RingsQueueNode.next q.mem) q.head l
      ∧ ∀ a, a ∈ l → ∃ n, q.mem.qnode a = some n ∧ 0 ≤ n.free_slots ∧ n.free_slots ≤ ((4 : Nat) : Int) :=
  RingsQueue_free_slots_range 4 (by decide) (by decide) 0 _

/-! ## SimpleQueue.c -/

theorem SimpleQueue_new_spec (E : Value) :
    ∃ q, SimpleQueue_new E = .ok q ∧ SimpleRep q [(1, E)] := by
  refine ⟨{ mem := ({ obj := fun _ => none, brk := 2 } : Mem SimpleQueueNode).store 1
              (Obj.qnode { next := 0, item := E }),
            head := 1, tail := 1 }, rfl, ⟨?_, rfl, ?_, ?_, Nat.succ_ne_zero 1⟩⟩
  · exact ⟨rfl, Nat.succ_ne_zero 0, 0, rfl, rfl⟩
  · intro a v h
    simp at h
    obtain ⟨rfl, rfl⟩ := h
    exact ⟨_, rfl, rfl⟩
  · intro a v h
    simp at h
    rw [h.1]
    exact Nat.lt_succ_self 1

theorem SimpleQueue_push_spec (q : SimpleQueue) (cs : List (Nat × Value)) (v : Value)
    (hrep : SimpleRep q cs) :
    ∃ q', SimpleQueue_push q v = .ok q' ∧ SimpleRep q' (cs ++ [(q.mem.brk, v)]) := by
  have hnd := Chain_nodup _ _ hrep.chain
  obtain ⟨hchain, htail, hnodes, hfresh, hbrk⟩ := hrep
  rcases List.eq_nil_or_concat cs with hnil | ⟨cs0, ⟨tl, w⟩, hcs⟩
  · subst hnil; simp at htail
  rw [List.concat_eq_append] at hcs
  subst hcs
  have htl : tl = q.tail := by simpa using htail
  subst htl
  simp only [List.map_append, List.map_cons, List.map_nil] at hchain hnd
  obtain ⟨n, hn, _⟩ := hnodes q.tail w (by simp)
  obtain ⟨hseg, htl0, hnx⟩ := (Seg_snoc _ _ _ 0).mp hchain
  have htl_notin : q.tail ∉ cs0.map Prod.fst := fun h =>
    (List.nodup_append.mp hnd).2.2 h (by simp)
  have hne_of_mem : ∀ a u, (a, u) ∈ cs0 → a ≠ q.tail := by
    intro a u h e
    exact htl_notin (e ▸ List.mem_map_of_mem Prod.fst h)
  have htl_lt : q.tail < q.mem.brk := hfresh q.tail w (by simp)
  have htl_ne : q.tail ≠ q.mem.brk := by omega
  have hm1 : ∀ o, (({ q.mem with brk := q.mem.brk + 1 } : Mem SimpleQueueNode).store q.mem.brk
      o).qnode q.tail = some n := by
    intro o
    rw [Mem.qnode_store_ne _ _ _ _ htl_ne]; exact hn
  simp only [SimpleQueue_push, SimpleQueueNode_new, malloc, hbrk, if_false, hm1]
  refine ⟨_, rfl, ⟨?_, ?_, ?_, ?_, ?_⟩⟩
  · simp only [List.map_append, List.map_cons, List.map_nil]
    refine (Seg_snoc _ _ _ 0).mpr ⟨(Seg_snoc _ _ _ _).mpr ⟨Seg_congr _ _ _ ?_ hseg, htl0, ?_⟩,
      hbrk, ?_⟩
    · intro x hx
      have hx1 : x ≠ q.tail := fun h => htl_notin (h ▸ hx)
      have hx2 : x ≠ q.mem.brk := by
        obtain ⟨⟨a, u⟩, hmem, rfl⟩ := List.mem_map.mp hx
        have := hfresh a u (List.mem_append_left _ hmem)
        simp only at this ⊢
        omega
      apply nodeNext_congr
      show (Mem.store _ _ _).qnode x = _
      rw [Mem.qnode_store_ne _ _ _ _ hx1, Mem.qnode_store_ne _ _ _ _ hx2]
      rfl
    · exact nodeNext_of_qnode (Mem.qnode_store_qnode _ _ _ htl0)
    · exact nodeNext_of_qnode (Mem.qnode_store_store _ _ _ _ _ (Ne.symm htl_ne) hbrk)
  · simp
  · intro a u hmem
    rcases List.mem_append.mp hmem with h | h
    · rcases List.mem_append.mp h with h | h
      · obtain ⟨m, hm, hi⟩ := hnodes a u (List.mem_append_left _ h)
        have ha2 : a ≠ q.mem.brk := by
          have := hfresh a u (List.mem_append_left _ h); omega
        refine ⟨m, ?_, hi⟩
        show (Mem.store _ _ _).qnode a = _
        rw [Mem.qnode_store_ne _ _ _ _ (hne_of_mem a u h), Mem.qnode_store_ne _ _ _ _ ha2]
        exact hm
      · simp only [List.mem_singleton, Prod.mk.injEq] at h
        obtain ⟨rfl, rfl⟩ := h
        obtain ⟨m, hm, hi⟩ := hnodes q.tail u (by simp)
        rw [hn] at hm
        cases hm
        exact ⟨_, Mem.qnode_store_qnode _ _ _ htl0, hi⟩
    · simp only [List.mem_singleton, Prod.mk.injEq] at h
      obtain ⟨rfl, rfl⟩ := h
      exact ⟨_, Mem.qnode_store_store _ _ _ _ _ (Ne.symm htl_ne) hbrk, rfl⟩
  · intro a u hmem
    show a < q.mem.brk + 1
    rcases List.mem_append.mp hmem with h | h
    · have := hfresh a u h; omega
    · simp only [List.mem_singleton, Prod.mk.injEq] at h
      omega
  · show q.mem.brk + 1 ≠ 0
    omega

theorem SimpleQueue_pop_spec (E : Value) (q : SimpleQueue) (cs : List (Nat × Value))
    (hrep : SimpleRep q cs) :
    ∃ n r q' cs', q.mem.qnode q.head = some n
      ∧ SimpleQueue_pop E q = .ok (r, q') ∧ SimpleRep q' cs'
      ∧ RefRet.toRet E (refStep (cs.map Prod.snd).tail .pop).1 = .value r
      ∧ (cs'.map Prod.snd).tail = (refStep (cs.map Prod.snd).tail .pop).2
      ∧ (n.next = 0 ↔ (cs.map Prod.snd).tail = []) := by
  have hnd := Chain_nodup _ _ hrep.chain
  have hrep0 := hrep
  obtain ⟨hchain, htail, hnodes, hfresh, hbrk⟩ := hrep
  cases cs with
  | nil => simp at htail
  | cons p cs1 =>
    obtain ⟨h, s⟩ := p
    obtain ⟨e, hh0, nx, hnx, hrest⟩ := hchain
    have e' : q.head = h := e
    subst e'
    obtain ⟨n, hn, _⟩ := hnodes q.head s (by simp)
    obtain ⟨n0, hn0, hnn⟩ := nodeNext_some hnx
    rw [hn] at hn0
    cases hn0
    subst hnn
    simp only [List.map_cons, List.nodup_cons] at hnd
    cases cs1 with
    | nil =>
      have hz : n.next = 0 := hrest
      refine ⟨n, E, q, [(q.head, s)], hn, ?_, hrep0, ?_, ?_, ?_⟩
      · simp only [SimpleQueue_pop, hn, hz, if_true]
      · simp [refStep, RefRet.toRet]
      · simp [refStep]
      · simp [hz]
    | cons p2 cs2 =>
      obtain ⟨h2, v⟩ := p2
      have hrest0 := hrest
      obtain ⟨e2, h20, nx2, hnx2, hrest2⟩ := hrest
      have e2' : n.next = h2 := e2
      have hnz : ¬ n.next = 0 := h20
      have hh2 : h2 ≠ q.head := by
        intro heq
        apply hnd.1
        simp [heq]
      obtain ⟨n2, hn2, hi2⟩ := hnodes h2 v (by simp)
      have hn2' : q.mem.qnode n.next = some n2 := by rw [e2']; exact hn2
      refine ⟨n, v, { mem := free q.mem q.head, head := h2, tail := q.tail }, (h2, v) :: cs2,
        hn, ?_, ⟨?_, ?_, ?_, ?_, ?_⟩, ?_, ?_, ?_⟩
      · have h20' : ¬ h2 = 0 := e2' ▸ h20
        simp only [SimpleQueue_pop, hn, e2', h20', if_false, hn2, hi2]
      · simp only [List.map_cons]
        rw [e2'] at hrest0
        refine Seg_congr _ _ _ ?_ hrest0
        intro x hx
        have hxh : x ≠ q.head := by
          intro h
          apply hnd.1
          simpa [h] using hx
        apply nodeNext_congr
        show (free _ _).qnode x = _
        rw [qnode_free_ne _ _ _ hxh]
      · simpa [List.getLast?_cons_cons] using htail
      · intro a u hm
        have ha : a ≠ q.head := by
          intro h
          apply hnd.1
          rw [← h]
          exact List.mem_map_of_mem Prod.fst hm
        obtain ⟨m, hmq, hi⟩ := hnodes a u (List.mem_cons_of_mem _ hm)
        refine ⟨m, ?_, hi⟩
        show (free _ _).qnode a = _
        rw [qnode_free_ne _ _ _ ha]
        exact hmq
      · intro a u hm
        show a < (free _ _).brk
        rw [free_brk]
        exact hfresh a u (List.mem_cons_of_mem _ hm)
      · show (free _ _).brk ≠ 0
        rw [free_brk]
        exact hbrk
      · simp [refStep, RefRet.toRet]
      · simp [refStep]
      · simp [hnz]

theorem SimpleQueue_is_empty_spec (q : SimpleQueue) (cs : List (Nat × Value))
    (hrep : SimpleRep q cs) :
    SimpleQueue_is_empty q = .ok ((cs.map Prod.snd).tail.isEmpty) := by
  obtain ⟨n, r, q', cs', hn, _, _, _, _, hiff⟩ := SimpleQueue_pop_spec 0 q cs hrep
  simp only [SimpleQueue_is_empty, hn]
  by_cases hz : n.next = 0
  · simp [hz, hiff.mp hz]
  · have : (cs.map Prod.snd).tail ≠ [] := fun h => hz (hiff.mpr h)
    simp [hz, this]

theorem SimpleQueue_step_spec (E : Value) (q : SimpleQueue) (vals : List Value) (op : Op)
    (hinv : SimpleInv q vals) :
    ∃ q', SimpleQueue_step E q op = .ok ((refStep vals op).1.toRet E, q')
      ∧ SimpleInv q' (refStep vals op).2 := by
  obtain ⟨cs, hrep, rfl⟩ := hinv
  cases op with
  | push v =>
    obtain ⟨q', h1, h2⟩ := SimpleQueue_push_spec q cs v hrep
    refine ⟨q', by simp [SimpleQueue_step, h1, refStep, RefRet.toRet], _, h2, ?_⟩
    have hne : cs ≠ [] := by
      intro h
      have := hrep.tail
      simp [h] at this
    obtain ⟨p, cs1, rfl⟩ := List.exists_cons_of_ne_nil hne
    simp [refStep]
  | pop =>
    obtain ⟨n, r, q', cs', _, h1, h2, h3, h4, _⟩ := SimpleQueue_pop_spec E q cs hrep
    exact ⟨q', by simp [SimpleQueue_step, h1, h3], cs', h2, h4.symm⟩
  | is_empty =>
    have h1 := SimpleQueue_is_empty_spec q cs hrep
    exact ⟨q, by simp [SimpleQueue_step, h1, refStep, RefRet.toRet], cs, hrep, rfl⟩

theorem SimpleQueue_run_spec (E : Value) :
    ∀ (ops : List Op) (q : SimpleQueue) (vals : List Value), SimpleInv q vals →
      ∃ q', SimpleQueue_run E q ops = .ok ((refRun vals ops).map (RefRet.toRet E), q')
        ∧ SimpleInv q' (refFinal vals ops)
  | [], q, vals, h => ⟨q, rfl, h⟩
  | op :: ops, q, vals, h => by
    obtain ⟨q1, h1, h2⟩ := SimpleQueue_step_spec E q vals op h
    obtain ⟨q2, h3, h4⟩ := SimpleQueue_run_spec E ops q1 _ h2
    exact ⟨q2, by simp [SimpleQueue_run, h1, h3, refRun], h4⟩

theorem SimpleQueue_session_spec (E : Value) (ops : List Op) :
    ∃ q, SimpleQueue_session E ops = .ok ((refRun [] ops).map (RefRet.toRet E), q)
      ∧ SimpleInv q (refFinal [] ops) := by
  obtain ⟨q0, h0, hrep⟩ := SimpleQueue_new_spec E
  obtain ⟨q, h1, h2⟩ := SimpleQueue_run_spec E ops q0 [] ⟨_, hrep, rfl⟩
  exact ⟨q, by simp [SimpleQueue_session, h0, h1], h2⟩

/-- C14: after any sequence of calls on a queue from `SimpleQueue_new` (pushing
values other than `EMPTY_VALUE`) every call has returned what the reference FIFO
queue returns, so each pop gave the oldest value not yet popped; and the pop
made next returns the reference result too, which is `EMPTY_VALUE` exactly when
`head->next` is null, which is exactly when every pushed value has been popped. -/
theorem SimpleQueue_fifo (EMPTY_VALUE : Value) (ops : List Op)
    (hv : ∀ v, v ∈ pushedValues ops → v ≠ EMPTY_VALUE) :
    ∃ q n v q2,
      SimpleQueue_session EMPTY_VALUE ops
          = .ok ((refRun [] ops).map (RefRet.toRet EMPTY_VALUE), q)
      ∧ (∀ r, r ∈ refRun [] ops →
          (r.toRet EMPTY_VALUE = .value EMPTY_VALUE ↔ r = .popped none))
      ∧ poppedValues (refRun [] ops) ++ refFinal [] ops = pushedValues ops
      ∧ q.mem.qnode q.head = some n
      ∧ SimpleQueue_pop EMPTY_VALUE q = .ok (v, q2)
      ∧ RefRet.toRet EMPTY_VALUE (refStep (refFinal [] ops) .pop).1 = .value v
      ∧ (v = EMPTY_VALUE ↔ n.next = 0)
      ∧ (n.next = 0 ↔ refFinal [] ops = []) := by
  obtain ⟨q, h, cs, hrep, hvals⟩ := SimpleQueue_session_spec EMPTY_VALUE ops
  obtain ⟨n, v, q2, cs2, hn, hpop, _, hret, _, hiff⟩ := SimpleQueue_pop_spec EMPTY_VALUE q cs hrep
  have hcons : poppedValues (refRun [] ops) ++ refFinal [] ops = pushedValues ops := by
    simpa using refRun_conservation ops []
  rw [← hvals] at hret hiff
  refine ⟨q, n, v, q2, h, fun r hr => refRun_empty_exact EMPTY_VALUE ops hv r hr, hcons, hn,
    hpop, hret, ?_, hiff⟩
  rw [hiff]
  cases hfl : refFinal [] ops with
  | nil =>
    rw [hfl] at hret
    simp only [refStep, RefRet.toRet, Ret.value.injEq] at hret
    simp [hret]
  | cons w rest =>
    rw [hfl] at hret
    simp only [refStep, RefRet.toRet, Ret.value.injEq] at hret
    have hw : w ∈ pushedValues ops := by
      rw [← hcons, hfl]
      simp
    have hne := hv w hw
    simp [← hret, hne]

/-- C14 at a concrete input: push 1 to 5 and pop five times; the next pop finds
the queue empty. -/
theorem SimpleQueue_fifo_witness :
    ∃ q n v q2,
      SimpleQueue_session 0
          [.push 1, .push 2, .push 3, .push 4, .push 5, .pop, .pop, .pop, .pop, .pop]
          = .ok ((refRun []
              [.push 1, .push 2, .push 3, .push 4, .push 5, .pop, .pop, .pop, .pop, .pop]).map
              (RefRet.toRet 0), q)
      ∧ (∀ r, r ∈ refRun []
            [.push 1, .push 2, .push 3, .push 4, .push 5, .pop, .pop, .pop, .pop, .pop] →
          (r.toRet 0 = .value 0 ↔ r = .popped none))
      ∧ poppedValues (refRun []
            [.push 1, .push 2, .push 3, .push 4, .push 5, .pop, .pop, .pop, .pop, .pop])
          ++ refFinal [] [.push 1, .push 2, .push 3, .push 4, .push 5, .pop, .pop, .pop, .pop, .pop]
          = pushedValues
            [.push 1, .push 2, .push 3, .push 4, .push 5, .pop, .pop, .pop, .pop, .pop]
      ∧ q.mem.qnode q.head = some n
      ∧ SimpleQueue_pop 0 q = .ok (v, q2)
      ∧ RefRet.toRet 0 (refStep (refFinal []
            [.push 1, .push 2, .push 3, .push 4, .push 5, .pop, .pop, .pop, .pop, .pop]) .pop).1
          = .value v
      ∧ (v = 0 ↔ n.next = 0)
      ∧ (n.next = 0 ↔ refFinal []
            [.push 1, .push 2, .push 3, .push 4, .push 5, .pop, .pop, .pop, .pop, .pop] = []) :=
  SimpleQueue_fifo 0 [.push 1, .push 2, .push 3, .push 4, .push 5, .pop, .pop, .pop, .pop, .pop]
    (by decide)

/-! ## BLQueue.c: pop from a represented state -/

/-- A pop that finds the head used up moves `pop_idx` on and touches no cell. -/
theorem PoppedNode.skip (T : Value) (n : BLNode) (po : Nat) (hpo : po + 1 < 2147483648)
    (hp : n.pop_idx = (po : Int)) :
    PoppedNode T n { n with pop_idx := wrap32 ((po : Int) + 1) } := by
  refine ⟨rfl, ?_, fun i => Or.inl rfl⟩
  show n.pop_idx ≤ wrap32 ((po : Int) + 1)
  rw [wrap32_nat_succ po hpo, hp]
  push_cast
  omega

/-- A node found after a touch was there before it. -/
theorem HeadTouched.back {hs hs2 : HPState BLNode} {x : Nat} {n n' : BLNode}
    (ht : HeadTouched hs x hs2 n') (hn : hs.mem.qnode x = some n)
    (R : BLNode → BLNode → Prop) (hrefl : ∀ m, R m m) (hR : R n n') :
    ∀ a m2, hs2.mem.qnode a = some m2 → ∃ m, hs.mem.qnode a = some m ∧ R m m2 := by
  intro a m2 h2
  by_cases hx : a = x
  · rw [hx] at h2 ⊢
    rw [ht.node] at h2
    cases h2
    exact ⟨n, hn, hR⟩
  · rw [Mem.qnode_congr (ht.obj a hx)] at h2
    exact ⟨m2, h2, hrefl m2⟩

/-- A pop that finds no value in the head node: it takes the remaining empty
cells one by one, and once the node is used up it returns `EMPTY_VALUE` when there is
no successor, or moves the head on and takes the first value of the successor. -/
theorem BLQueue_pop_loop_drain (B : Nat) (E T : Value) (hB : B < 2147483647) :
    ∀ (d f : Nat) (q : BLQueue) (cs1 : List (Nat × List Value)) (l : List Nat) (c : Nat)
      (n : BLNode) (po pu : Nat),
      BLRep B E T q ((q.head, []) :: cs1) l c → B + c + 2 < 2147483647 →
      q.hs.mem.qnode q.head = some n → BLCells B E T n po pu [] → B - po = d →
      ∃ r q' cs' l', BLQueue_pop_loop B E T (d + 130 + f) q = .ok (r, q')
        ∧ BLRep B E T q' cs' l' (c + 1) ∧ (cs1 ≠ [] → BLRep B E T q' cs' l' c)
        ∧ RefRet.toRet E (refStep (cs1.map Prod.snd).flatten .pop).1 = .value r
        ∧ (cs'.map Prod.snd).flatten = (refStep (cs1.map Prod.snd).flatten .pop).2
        ∧ q'.hs.mem.brk + cs'.length = q.hs.mem.brk + (cs1.length + 1)
        ∧ q'.tail = q.tail
        ∧ (∀ a, a ∈ cs'.map Prod.fst →
            ∃ m m', q.hs.mem.qnode a = some m ∧ q'.hs.mem.qnode a = some m' ∧ PoppedNode T m m')
        ∧ (cs'.map Prod.fst = q.head :: cs1.map Prod.fst
          ∨ (cs'.map Prod.fst = cs1.map Prod.fst ∧ lastRetiredOf q'.hs = some q.head))
  | 0, f, q, cs1, l, c, n, po, pu, hrep, hc, hn, hcl, hd => by
    obtain ⟨n0, po0, pu0, hn0, hcl0, hpo, hh0, hnil, hcons⟩ := hrep.head_cells
    rw [hn] at hn0
    cases hn0
    have hpo_eq : po0 = po := by
      have h1 := hcl.pop
      have h2 := hcl0.pop
      omega
    subst hpo_eq
    obtain ⟨ht, _⟩ := arrayIndex_of_registered q.hs hrep.retired.reg
    have hge : B ≤ po0 := by omega
    have hout : ¬ ((po0 : Int) < (B : Int) ∧ (po0 : Int) ≥ 0) := by omega
    have hlen := hcl.len
    simp only [List.length_nil] at hlen
    have htouch : HeadTouched q.hs q.head
        { q.hs with
          mem := q.hs.mem.store q.head (Obj.qnode { n with pop_idx := wrap32 ((po0 : Int) + 1) })
          hp := q.hs.hp.setPointer q.hs._thread_id.toNat q.head }
        { n with pop_idx := wrap32 ((po0 : Int) + 1) } :=
      HeadTouched.store q.hs q.head _ hh0
    have hskip := PoppedNode.skip T n po0 (by omega) hcl.pop
    cases cs1 with
    | nil =>
      have hnx := hnil rfl
      have hrep' := BLRep.touch_node [] [] (c + 1) hrep htouch hn rfl
        ⟨po0 + 1, pu, ⟨wrap32_nat_succ po0 (by omega), hcl.push, hcl.push_nonneg, hcl.full,
          hcl.pu_le, by simp; omega, ?_, ?_, ?_⟩, by omega⟩
        (Nat.le_succ c) (fun _ => rfl)
      · refine ⟨E, _, _, l, ?_, hrep', fun h => absurd rfl h, ?_, ?_, rfl, rfl, ?_, Or.inl rfl⟩
        · rw [show 0 + 130 + f = (129 + f) + 1 by omega]
          conv_lhs => unfold BLQueue_pop_loop
          simp only [HazardPointer_protect_succ q.head (129 + f) q.hs _ ht, ne_eq,
            not_true_eq_false, if_false, hn, hcl.pop, hout, hnx, if_true]
        · simp [refStep, RefRet.toRet]
        · simp [refStep]
        · exact hrep.touched_nodes htouch hn (PoppedNode T) (PoppedNode.popped_refl T) hskip
      · intro j w hj; simp at hj
      · intro i h1 h2 h3
        show n.buffer i = T
        exact hcl.taken i h1 (by omega) h3
      · intro i h1 h2 h3
        omega
    | cons p cs2 =>
      obtain ⟨h2, vs2⟩ := p
      obtain ⟨hnx, h20, hvs2⟩ := hcons h2 vs2 cs2 rfl
      obtain ⟨v, vs2', rfl⟩ := List.exists_cons_of_ne_nil hvs2
      obtain ⟨hs3, l', a1, a2, a3, a4⟩ := BL_advance (128 + f + 1 + 1) (by omega) hrep htouch hn
      obtain ⟨q', b1, b2, _, b4, b5, b6, n7, b7⟩ := BLQueue_pop_loop_take B E T hB (128 + f)
        { hs := hs3, head := h2, tail := q.tail } v vs2' cs2 l' c a2
      have hlast : lastRetiredOf q'.hs = some q.head := by
        obtain ⟨k, _, _, hk, _⟩ := a2.head_cells
        exact lastRetiredOf_touched b7 ⟨k, hk⟩ (advance_head_last _ _ _ _ _ _ a1)
      refine ⟨v, q', _, l', ?_, b2.mono (Nat.le_succ c), fun _ => b2, ?_, ?_, ?_, b5, ?_,
        Or.inr ⟨rfl, hlast⟩⟩
      · rw [show 0 + 130 + f = (128 + f + 1) + 1 by omega]
        conv_lhs => unfold BLQueue_pop_loop
        simp only [hnx] at a1
        simp only [HazardPointer_protect_succ q.head (128 + f + 1) q.hs _ ht, ne_eq,
          not_true_eq_false, if_false, hn, hcl.pop, hout, hnx, h20, a1]
        exact b1
      · simp [refStep, RefRet.toRet]
      · simp [refStep]
      · rw [b4]
        show hs3.mem.brk + _ = _
        rw [a3]
        simp only [List.length_cons]
        omega
      · intro a ha
        obtain ⟨m3, m', c1, c2, c3⟩ := b6 a ha
        refine ⟨m3, m', ?_, c2, c3⟩
        rw [← a4 a ha]
        exact c1
  | d + 1, f, q, cs1, l, c, n, po, pu, hrep, hc, hn, hcl, hd => by
    obtain ⟨n0, po0, pu0, hn0, hcl0, hpo, hh0, hnil, hcons⟩ := hrep.head_cells
    rw [hn] at hn0
    cases hn0
    obtain ⟨ht, _⟩ := arrayIndex_of_registered q.hs hrep.retired.reg
    have hpolt : po < B := by omega
    have hlen := hcl.len
    simp only [List.length_nil] at hlen
    have hpu : pu ≤ po := by omega
    have hnx : n.next = 0 := by
      by_contra h
      have := hcl.full h
      omega
    have hcs1 : cs1 = [] := by
      cases cs1 with
      | nil => rfl
      | cons p cs2 =>
        obtain ⟨h2, vs2⟩ := p
        obtain ⟨e, h20, _⟩ := hcons h2 vs2 cs2 rfl
        rw [hnx] at e
        exact absurd e.symm h20
    subst hcs1
    have hin : (po : Int) < (B : Int) ∧ (po : Int) ≥ 0 := by omega
    have hb : bufIndex B (po : Int) = some po := by
      simp [bufIndex]; omega
    have hcell : n.buffer po = E := hcl.empty po hpu (le_refl _) hpolt
    have htake := PoppedNode.take T n po (by omega) hcl.pop
    have htouch := double_store_touched q.hs q.head
      { n with pop_idx := wrap32 ((po : Int) + 1) }
      { next := n.next, buffer := setCell n.buffer po T, push_idx := n.push_idx,
        pop_idx := wrap32 ((po : Int) + 1) } hh0
    have hcl' : BLCells B E T
        { next := n.next, buffer := setCell n.buffer po T, push_idx := n.push_idx,
          pop_idx := wrap32 ((po : Int) + 1) } (po + 1) pu [] := by
      refine ⟨wrap32_nat_succ po (by omega), hcl.push, hcl.push_nonneg, hcl.full, hcl.pu_le,
        by simp; omega, ?_, ?_, ?_⟩
      · intro j w hj; simp at hj
      · intro i h1 h2 h3
        show setCell n.buffer po T i = T
        unfold setCell
        by_cases hi : i = po
        · rw [if_pos hi]
        · rw [if_neg hi]
          exact hcl.taken i h1 (by omega) h3
      · intro i h1 h2 h3
        show setCell n.buffer po T i = E
        unfold setCell
        rw [if_neg (by omega)]
        exact hcl.empty i h1 (by omega) h3
    have hrep' := BLRep.touch_node [] [] c hrep htouch hn rfl
      ⟨po + 1, pu, hcl', by omega⟩ (le_refl _) (fun _ => rfl)
    obtain ⟨r, q', cs', l', b1, b2, _, b3, b4, b5, b6, b7, b8⟩ :=
      BLQueue_pop_loop_drain B E T hB d f _ [] l c _ (po + 1) pu hrep' hc
        (htouch.node) hcl' (by omega)
    refine ⟨r, q', cs', l', ?_, b2, fun h => absurd rfl h, b3, b4, b5, b6, ?_, b8⟩
    · rw [show d + 1 + 130 + f = (d + 130 + f) + 1 by omega]
      conv_lhs => unfold BLQueue_pop_loop
      simp only [HazardPointer_protect_succ q.head (d + 130 + f) q.hs _ ht, ne_eq,
        not_true_eq_false, if_false, hn, hcl.pop, hin, and_self, if_true, hb, hcell]
      exact b1
    · intro a ha
      obtain ⟨m2, m', c1, c2, c3⟩ := b7 a ha
      obtain ⟨m, d1, d2⟩ := htouch.back hn (PoppedNode T) (PoppedNode.popped_refl T) htake a m2 c1
      exact ⟨m, m', d1, c2, d2.popped_trans c3⟩

/-- `BLQueue_pop` from a represented state, while `pop_idx` stays away from the
wrap-around. -/
theorem BLQueue_pop_spec (B : Nat) (E T : Value) (hB : B < 2147483647) (f : Nat) (q : BLQueue)
    (cs : List (Nat × List Value)) (l : List Nat) (c : Nat)
    (hrep : BLRep B E T q cs l c) (hc : B + c + 2 < 2147483647) :
    ∃ r q' cs' l', BLQueue_pop B E T (B + 130 + f) q = .ok (r, q')
      ∧ BLRep B E T q' cs' l' (c + 1)
      ∧ ((cs.map Prod.snd).flatten ≠ [] → BLRep B E T q' cs' l' c)
      ∧ RefRet.toRet E (refStep (cs.map Prod.snd).flatten .pop).1 = .value r
      ∧ (cs'.map Prod.snd).flatten = (refStep (cs.map Prod.snd).flatten .pop).2
      ∧ q'.hs.mem.brk + cs'.length = q.hs.mem.brk + cs.length
      ∧ q'.tail = q.tail
      ∧ (∀ a, a ∈ cs'.map Prod.fst →
          ∃ m m', q.hs.mem.qnode a = some m ∧ q'.hs.mem.qnode a = some m' ∧ PoppedNode T m m')
      ∧ (cs'.map Prod.fst = cs.map Prod.fst
        ∨ (cs.map Prod.fst = q.head :: cs'.map Prod.fst
          ∧ lastRetiredOf q'.hs = some q.head)) := by
  obtain ⟨vs0, cs1, rfl⟩ := hrep.head_split
  have key : ∃ r q' cs' l', BLQueue_pop_loop B E T (B + 130 + f) q = .ok (r, q')
      ∧ BLRep B E T q' cs' l' (c + 1)
      ∧ ((((q.head, vs0) :: cs1).map Prod.snd).flatten ≠ [] → BLRep B E T q' cs' l' c)
      ∧ RefRet.toRet E (refStep (((q.head, vs0) :: cs1).map Prod.snd).flatten .pop).1 = .value r
      ∧ (cs'.map Prod.snd).flatten
          = (refStep (((q.head, vs0) :: cs1).map Prod.snd).flatten .pop).2
      ∧ q'.hs.mem.brk + cs'.length = q.hs.mem.brk + ((q.head, vs0) :: cs1).length
      ∧ q'.tail = q.tail
      ∧ (∀ a, a ∈ cs'.map Prod.fst →
          ∃ m m', q.hs.mem.qnode a = some m ∧ q'.hs.mem.qnode a = some m'
            ∧ PoppedNode T m m')
      ∧ (cs'.map Prod.fst = ((q.head, vs0) :: cs1).map Prod.fst
        ∨ (((q.head, vs0) :: cs1).map Prod.fst = q.head :: cs'.map Prod.fst
          ∧ lastRetiredOf q'.hs = some q.head)) := by
    cases vs0 with
    | nil =>
      obtain ⟨n, po, pu, hn, hcl, hpo, _⟩ := hrep.head_cells
      obtain ⟨r, q', cs', l', b1, b2, b2', b3, b4, b5, b6, b7, b8⟩ :=
        BLQueue_pop_loop_drain B E T hB (B - po) (f + (B - (B - po))) q cs1 l c n po pu hrep hc
          hn hcl rfl
      have b8' : cs'.map Prod.fst = ((q.head, ([] : List Value)) :: cs1).map Prod.fst
          ∨ (((q.head, ([] : List Value)) :: cs1).map Prod.fst = q.head :: cs'.map Prod.fst
            ∧ lastRetiredOf q'.hs = some q.head) := by
        rcases b8 with e | ⟨e, hl⟩
        · exact Or.inl (by rw [e]; rfl)
        · exact Or.inr ⟨by rw [e]; rfl, hl⟩
      refine ⟨r, q', cs', l', ?_, b2, ?_, by simpa using b3, by simpa using b4, ?_, b6, b7, b8'⟩
      · rw [show B + 130 + f = B - po + 130 + (f + (B - (B - po))) by omega]
        exact b1
      · intro hne
        apply b2'
        intro h
        rw [h] at hne
        simp at hne
      · simpa using b5
    | cons v vs0' =>
      obtain ⟨q', b1, b2, _, b4, b5, b6, _⟩ :=
        BLQueue_pop_loop_take B E T hB (B + 129 + f) q v vs0' cs1 l c hrep
      refine ⟨v, q', _, l, ?_, b2.mono (Nat.le_succ c), fun _ => b2,
        by simp [refStep, RefRet.toRet], by simp [refStep], ?_, b5, b6, Or.inl rfl⟩
      · rw [show B + 130 + f = B + 129 + f + 1 by omega]
        exact b1
      · rw [b4]
        simp
  obtain ⟨r, q', cs', l', h1, h2, h2', h3, h4, h5, h6, h7, h8⟩ := key
  obtain ⟨ht, _⟩ := arrayIndex_of_registered q'.hs h2.retired.reg
  refine ⟨r, _, cs', l', ?_, h2.clear_slot 0, fun h => (h2' h).clear_slot 0, h3, h4, h5, h6, h7,
    h8⟩
  simp only [BLQueue_pop, h1, HazardPointer_clear, ht]

/-! ## BLQueue.c: push onto a represented state -/

theorem BLRep.tail_cases {B : Nat} {E T : Value} {q : BLQueue} {cs : List (Nat × List Value)}
    {l : List Nat} {c : Nat} (h : BLRep B E T q cs l c) :
    ∃ cs0 vs, cs = cs0 ++ [(q.tail, vs)] := by
  rcases List.eq_nil_or_concat cs with hnil | ⟨cs0, ⟨tl, vs⟩, hcs⟩
  · subst hnil; have := h.tail; simp at this
  · rw [List.concat_eq_append] at hcs
    subst hcs
    have htl : tl = q.tail := by simpa using h.tail
    exact ⟨cs0, vs, by rw [htl]⟩

theorem BLRep.tail_node {B : Nat} {E T : Value} {q : BLQueue} {vs : List Value}
    {cs0 : List (Nat × List Value)} {l : List Nat} {c : Nat}
    (h : BLRep B E T q (cs0 ++ [(q.tail, vs)]) l c) :
    ∃ n po pu, q.hs.mem.qnode q.tail = some n ∧ BLCells B E T n po pu vs ∧ po ≤ B + 1 + c
      ∧ q.tail ≠ 0 ∧ n.next = 0
      ∧ Seg (nodeNext BLNode.next q.hs.mem) q.head (cs0.map Prod.fst) q.tail
      ∧ q.tail ∉ cs0.map Prod.fst := by
  have hnd := h.addr_nodup
  obtain ⟨n, po, pu, hn, hcl, hpo⟩ := h.nodes q.tail vs (by simp)
  have hchain := h.chain
  simp only [List.map_append, List.map_cons, List.map_nil] at hchain hnd
  obtain ⟨hseg, htl0, hnx⟩ := (Seg_snoc _ _ _ 0).mp hchain
  rw [nodeNext_of_qnode hn] at hnx
  refine ⟨n, po, pu, hn, hcl, hpo, htl0, Option.some.inj hnx, hseg, ?_⟩
  intro hm
  exact (List.nodup_append.mp hnd).2.2 hm (by simp)

/-- A push that finds the tail node full links a new node that holds the item. -/
theorem BLQueue_push_loop_new_node (B : Nat) (E T : Value) (hB : B < 2147483647)
    (hB1 : 1 ≤ B) (item : Value) (hiE : item ≠ E) (hiT : item ≠ T) (f : Nat) (q : BLQueue)
    (cs0 : List (Nat × List Value)) (vs : List Value) (l : List Nat) (c : Nat)
    (n : BLNode) (po : Nat)
    (hrep : BLRep B E T q (cs0 ++ [(q.tail, vs)]) l c)
    (hn : q.hs.mem.qnode q.tail = some n) (hcl : BLCells B E T n po B vs) :
    ∃ q', BLQueue_push_loop B E T item (f + 1) q = .ok q'
      ∧ BLRep B E T q' (cs0 ++ [(q.tail, vs), (q.hs.mem.brk, [item])]) l c
      ∧ q'.hs.mem.brk = q.hs.mem.brk + 1 ∧ q'.head = q.head
      ∧ (∀ a, a ∈ (cs0 ++ [(q.tail, vs)]).map Prod.fst →
          ∃ m m', q.hs.mem.qnode a = some m ∧ q'.hs.mem.qnode a = some m'
            ∧ PushedNode E T item m m')
      ∧ ∃ m', q'.hs.mem.qnode q.hs.mem.brk = some m' ∧ m'.pop_idx = 0 ∧ m'.push_idx = 1 := by
  obtain ⟨n0, po0, pu0, hn0, _, hpo, htl0, hnx, hseg, htl_notin⟩ := hrep.tail_node
  rw [hn] at hn0
  cases hn0
  have hpo_eq : po0 = po := by
    have h1 := hcl.pop
    rename_i hcl0
    have h2 := hcl0.pop
    omega
  subst hpo_eq
  obtain ⟨hchain, htail, hnodes, hohe, hfresh, hret⟩ := hrep
  obtain ⟨ht, _⟩ := arrayIndex_of_registered q.hs hret.reg
  have hbrk := hret.brk_pos
  have hne_of_mem : ∀ a w, (a, w) ∈ cs0 → a ≠ q.tail := by
    intro a w h e
    exact htl_notin (e ▸ List.mem_map_of_mem Prod.fst h)
  have htl_lt : q.tail < q.hs.mem.brk := hfresh q.tail vs (by simp)
  have htl_ne : q.tail ≠ q.hs.mem.brk := by omega
  have hpush : n.push_idx = (B : Int) := hcl.push hnx
  have hnlt : ¬ ((B : Int) < (B : Int)) := by omega
  have hb0 : bufIndex B 0 = some 0 := by
    simp [bufIndex]; omega
  have hm2 : ∀ (m : Mem BLNode) (k : BLNode) (o : Obj BLNode),
      (({ (m.store q.tail (Obj.qnode k)) with brk := q.hs.mem.brk + 1 } : Mem BLNode).store
        q.hs.mem.brk o).qnode q.tail = some k := by
    intro m k o
    rw [Mem.qnode_store_ne _ _ _ _ htl_ne]
    exact Mem.qnode_store_qnode _ _ _ htl0
  conv => enter [1, q', 1, 1]; unfold BLQueue_push_loop
  simp only [HazardPointer_protect_succ q.tail f q.hs _ ht, ne_eq, not_true_eq_false, if_false, hn,
    hpush, hnlt, hnx, if_true, BLNode_new_with_value, malloc, Mem.store_brk, hbrk, hb0, hm2,
    wrap32_of_range ((B : Int) + 1) (by omega) (by omega)]
  refine ⟨_, rfl, ?_, rfl, rfl, ?_, ⟨_, Mem.qnode_store_store _ _ _ _ _ (Ne.symm htl_ne) hbrk,
    rfl, rfl⟩⟩
  rotate_left
  · intro a ha
    simp only [List.map_append, List.map_cons, List.map_nil, List.mem_append,
      List.mem_singleton] at ha
    rcases ha with ha | ha
    · obtain ⟨⟨a', w⟩, hm, rfl⟩ := List.mem_map.mp ha
      obtain ⟨m, _, _, hmq, _⟩ := hnodes a' w (List.mem_append_left _ hm)
      have ha2 : a' ≠ q.hs.mem.brk := by
        have := hfresh a' w (List.mem_append_left _ hm); omega
      refine ⟨m, m, hmq, ?_, PushedNode.pushed_refl E T item m⟩
      show (Mem.store _ _ _).qnode a' = _
      rw [Mem.qnode_store_ne _ _ _ _ (hne_of_mem a' w hm), Mem.qnode_store_ne _ _ _ _ ha2]
      show (Mem.store _ _ _).qnode a' = _
      rw [Mem.qnode_store_ne _ _ _ _ (hne_of_mem a' w hm)]
      exact hmq
    · rw [ha]
      refine ⟨n, _, hn, Mem.qnode_store_qnode _ _ _ htl0, rfl, ?_, fun _ => Or.inl rfl⟩
      show n.push_idx ≤ (B : Int) + 1
      omega
  refine ⟨?_, ?_, ?_, ?_, ?_, ?_⟩
  · simp only [List.map_append, List.map_cons, List.map_nil]
    rw [show cs0.map Prod.fst ++ [q.tail, q.hs.mem.brk]
        = (cs0.map Prod.fst ++ [q.tail]) ++ [q.hs.mem.brk] by simp]
    refine (Seg_snoc _ _ _ 0).mpr ⟨(Seg_snoc _ _ _ _).mpr ⟨Seg_congr _ _ _ ?_ hseg, htl0, ?_⟩,
      hbrk, ?_⟩
    · intro x hx
      have hx1 : x ≠ q.tail := fun h => htl_notin (h ▸ hx)
      have hx2 : x ≠ q.hs.mem.brk := by
        obtain ⟨⟨a, w⟩, hmem, rfl⟩ := List.mem_map.mp hx
        have := hfresh a w (List.mem_append_left _ hmem)
        simp only at this ⊢
        omega
      apply nodeNext_congr
      show (Mem.store _ _ _).qnode x = _
      rw [Mem.qnode_store_ne _ _ _ _ hx1, Mem.qnode_store_ne _ _ _ _ hx2]
      show (Mem.store _ _ _).qnode x = _
      rw [Mem.qnode_store_ne _ _ _ _ hx1]
    · exact nodeNext_of_qnode (Mem.qnode_store_qnode _ _ _ htl0)
    · exact nodeNext_of_qnode (Mem.qnode_store_store _ _ _ _ _ (Ne.symm htl_ne) hbrk)
  · simp
  · intro a w hmem
    rcases List.mem_append.mp hmem with h | h
    · obtain ⟨m, po', pu', hm, hc', hp'⟩ := hnodes a w (List.mem_append_left _ h)
      have ha2 : a ≠ q.hs.mem.brk := by
        have := hfresh a w (List.mem_append_left _ h); omega
      refine ⟨m, po', pu', ?_, hc', hp'⟩
      show (Mem.store _ _ _).qnode a = _
      rw [Mem.qnode_store_ne _ _ _ _ (hne_of_mem a w h), Mem.qnode_store_ne _ _ _ _ ha2]
      show (Mem.store _ _ _).qnode a = _
      rw [Mem.qnode_store_ne _ _ _ _ (hne_of_mem a w h)]
      exact hm
    · simp only [List.mem_cons, Prod.mk.injEq, List.mem_singleton, List.not_mem_nil,
        or_false] at h
      rcases h with ⟨rfl, rfl⟩ | ⟨rfl, rfl⟩
      · refine ⟨_, po0, B, Mem.qnode_store_qnode _ _ _ htl0, ?_, hpo⟩
        refine ⟨hcl.pop, fun h => absurd h hbrk, ?_, fun _ => rfl, le_refl _, hcl.len, hcl.vals,
          hcl.taken, hcl.empty⟩
        show (0 : Int) ≤ (B : Int) + 1
        omega
      · refine ⟨_, 0, 1, Mem.qnode_store_store _ _ _ _ _ (Ne.symm htl_ne) hbrk, ?_, by omega⟩
        refine ⟨rfl, fun _ => rfl, Int.one_nonneg, fun h => absurd rfl h, hB1, rfl, ?_, ?_, ?_⟩
        · intro j w hj
          have hj0 : j = 0 := by
            by_contra hne
            have : ([item] : List Value)[j]? = none := by
              apply List.getElem?_eq_none; simp; omega
            rw [this] at hj; cases hj
          subst hj0
          simp at hj
          subst hj
          exact ⟨by simp, hiE, hiT⟩
        · intro i h1 h2 _
          omega
        · intro i h1 _ h3
          show (if i = 0 then item else if i < B then E else 0) = E
          rw [if_neg (by omega), if_pos h3]
  · intro a w hmem hw'
    rcases List.mem_append.mp hmem with h | h
    · exact hohe a w (List.mem_append_left _ h) hw'
    · simp only [List.mem_cons, Prod.mk.injEq, List.mem_singleton, List.not_mem_nil,
        or_false] at h
      rcases h with ⟨rfl, rfl⟩ | ⟨rfl, rfl⟩
      · exact hohe _ _ (by simp) hw'
      · simp at hw'
  · intro a w hmem
    show a < q.hs.mem.brk + 1
    rcases List.mem_append.mp hmem with h | h
    · have := hfresh a w (List.mem_append_left _ h); omega
    · simp only [List.mem_cons, Prod.mk.injEq, List.mem_singleton, List.not_mem_nil,
        or_false] at h
      rcases h with ⟨rfl, rfl⟩ | ⟨rfl, rfl⟩
      · omega
      · omega
  · refine hret.of_frame rfl ?_ rfl rfl ?_ (Nat.le_succ _) ?_
    · intro j hj
      simp [HazardPointer.setPointer, hj]
    · intro a ha
      have ha1 : a ≠ q.hs.mem.brk := by
        have := hret.rfresh a ha; omega
      show (Mem.store _ _ _).rnode a = _
      rw [Mem.rnode_store_qnode _ _ _ _ _ (hm2 _ _ _), Mem.rnode_store_ne _ _ _ _ ha1]
      show (Mem.store _ _ _).rnode a = _
      rw [Mem.rnode_store_qnode _ _ _ _ n hn]
    · intro x hx
      simp only [List.map_append, List.map_cons, List.map_nil, List.mem_append,
        List.mem_cons, List.mem_singleton, List.not_mem_nil, or_false] at hx
      rcases hx with hx | hx | hx
      · left
        simp only [List.map_append, List.map_cons, List.map_nil, List.mem_append,
          List.mem_singleton]
        exact Or.inl hx
      · left
        simp only [List.map_append, List.map_cons, List.map_nil, List.mem_append,
          List.mem_singleton]
        exact Or.inr hx
      · right; omega

/-- A push writes `item` into the cell `pu`, which held `old`. -/
theorem PushedNode.put (E T item : Value) (n : BLNode) (pu : Nat) (hpu : pu + 1 < 2147483648)
    (hp : n.push_idx = (pu : Int)) (hold : n.buffer pu = E ∨ n.buffer pu = T) :
    PushedNode E T item n
      { next := n.next, buffer := setCell n.buffer pu item,
        push_idx := wrap32 ((pu : Int) + 1), pop_idx := n.pop_idx } := by
  refine ⟨rfl, ?_, fun i => ?_⟩
  · show n.push_idx ≤ wrap32 ((pu : Int) + 1)
    rw [wrap32_nat_succ pu hpu, hp]
    push_cast
    omega
  · show setCell n.buffer pu item i = n.buffer i
      ∨ (setCell n.buffer pu item i = item ∧ (n.buffer i = E ∨ n.buffer i = T))
    unfold setCell
    by_cases hi : i = pu
    · rw [if_pos hi, hi]; exact Or.inr ⟨rfl, hold⟩
    · rw [if_neg hi]; exact Or.inl rfl

/-- The cells of the tail node after a push has written `item` at `pu`. -/
theorem BLCells.after_put {B : Nat} {E T : Value} {n : BLNode} {po pu : Nat} {vs : List Value}
    (hcl : BLCells B E T n po pu vs) (item : Value) (hiE : item ≠ E) (hiT : item ≠ T)
    (hB : B < 2147483647) (hlt : pu < B) (hnx : n.next = 0) (vs' : List Value)
    (hvs : (po ≤ pu ∧ vs' = vs ++ [item]) ∨ (pu < po ∧ vs' = [])) :
    BLCells B E T
      { next := n.next, buffer := setCell n.buffer pu item,
        push_idx := wrap32 ((pu : Int) + 1), pop_idx := n.pop_idx } po (pu + 1) vs' := by
  have hlen := hcl.len
  refine ⟨hcl.pop, fun _ => wrap32_nat_succ pu (by omega), ?_, fun h => absurd hnx h,
    by omega, ?_, ?_, ?_, ?_⟩
  · show (0 : Int) ≤ wrap32 ((pu : Int) + 1)
    rw [wrap32_nat_succ pu (by omega)]
    omega
  · rcases hvs with ⟨h, rfl⟩ | ⟨h, rfl⟩
    · simp only [List.length_append, List.length_singleton]; omega
    · simp only [List.length_nil]; omega
  · intro j w hj
    show setCell n.buffer pu item (po + j) = w ∧ w ≠ E ∧ w ≠ T
    rcases hvs with ⟨h, rfl⟩ | ⟨h, rfl⟩
    · by_cases hjl : j < vs.length
      · rw [List.getElem?_append_left hjl] at hj
        obtain ⟨h1, h2⟩ := hcl.vals j w hj
        refine ⟨?_, h2⟩
        unfold setCell
        rw [if_neg (by omega)]
        exact h1
      · have hjlen : j = vs.length := by
          by_contra hne
          have : (vs ++ [item])[j]? = none := by
            apply List.getElem?_eq_none
            simp only [List.length_append, List.length_singleton]
            omega
          rw [this] at hj
          cases hj
        rw [hjlen, List.getElem?_append_right (le_refl _)] at hj
        simp only [Nat.sub_self, List.getElem?_cons_zero, Option.some.injEq] at hj
        subst hj
        refine ⟨?_, hiE, hiT⟩
        unfold setCell
        rw [if_pos (by omega)]
    · simp at hj
  · intro i h1 h2 h3
    show setCell n.buffer pu item i = T
    unfold setCell
    rw [if_neg (by omega)]
    exact hcl.taken i (by omega) h2 h3
  · intro i h1 h2 h3
    show setCell n.buffer pu item i = E
    unfold setCell
    rw [if_neg (by omega)]
    exact hcl.empty i (by omega) h2 h3

/-- The retry loop of `BLQueue_push` on a represented state: it passes over the
cells of the tail node that a pop has taken, and puts `item` into the first cell
that is still empty or, when the node is used up, into a new node. -/
theorem BLQueue_push_loop_spec (B : Nat) (E T : Value) (hB : B < 2147483647) (hB1 : 1 ≤ B)
    (item : Value) (hiE : item ≠ E) (hiT : item ≠ T) (hET : E ≠ T) :
    ∀ (d f : Nat) (q : BLQueue) (cs0 : List (Nat × List Value)) (vs : List Value)
      (l : List Nat) (c : Nat) (n : BLNode) (po pu : Nat),
      BLRep B E T q (cs0 ++ [(q.tail, vs)]) l c →
      q.hs.mem.qnode q.tail = some n → BLCells B E T n po pu vs → B - pu = d →
      ∃ q' cs', BLQueue_push_loop B E T item (d + 1 + f) q = .ok q'
        ∧ BLRep B E T q' cs' l c
        ∧ (cs'.map Prod.snd).flatten
            = ((cs0 ++ [(q.tail, vs)]).map Prod.snd).flatten ++ [item]
        ∧ q'.hs.mem.brk + (cs0.length + 1) = q.hs.mem.brk + cs'.length
        ∧ q'.head = q.head
        ∧ ∀ a, a ∈ cs'.map Prod.fst →
            (a ∈ (cs0 ++ [(q.tail, vs)]).map Prod.fst
              ∧ ∃ m m', q.hs.mem.qnode a = some m ∧ q'.hs.mem.qnode a = some m'
                ∧ PushedNode E T item m m')
            ∨ (a = q.hs.mem.brk ∧ a ∉ (cs0 ++ [(q.tail, vs)]).map Prod.fst
              ∧ ∃ m', q'.hs.mem.qnode a = some m' ∧ m'.pop_idx = 0 ∧ m'.push_idx = 1)
  | 0, f, q, cs0, vs, l, c, n, po, pu, hrep, hn, hcl, hd => by
    have hpuB : pu = B := by
      have := hcl.pu_le
      omega
    rw [hpuB] at hcl
    obtain ⟨q', h1, h2, h3, h4, h5, h6⟩ :=
      BLQueue_push_loop_new_node B E T hB hB1 item hiE hiT f q cs0 vs l c n po hrep hn hcl
    refine ⟨q', _, by rw [show 0 + 1 + f = f + 1 by omega]; exact h1, h2, ?_, ?_, h4, ?_⟩
    · simp [List.flatten_append]
    · rw [h3]
      simp only [List.length_append, List.length_cons, List.length_nil]
      omega
    · intro a ha
      rw [show cs0 ++ [(q.tail, vs), (q.hs.mem.brk, [item])]
          = (cs0 ++ [(q.tail, vs)]) ++ [(q.hs.mem.brk, [item])] by simp] at ha
      rw [List.map_append, List.mem_append] at ha
      rcases ha with ha | ha
      · exact Or.inl ⟨ha, h5 a ha⟩
      · simp only [List.map_cons, List.map_nil, List.mem_singleton] at ha
        refine Or.inr ⟨ha, ?_, by rw [ha]; exact h6⟩
        intro hmem
        obtain ⟨⟨a', w⟩, hm, hfst⟩ := List.mem_map.mp hmem
        have := hrep.fresh a' w hm
        have hfst' : a' = a := hfst
        omega
  | d + 1, f, q, cs0, vs, l, c, n, po, pu, hrep, hn, hcl, hd => by
    obtain ⟨n0, po0, pu0, hn0, hcl0, hpo0, htl0, hnx, _, _⟩ := hrep.tail_node
    rw [hn] at hn0
    cases hn0
    have hpo : po ≤ B + 1 + c := by
      have h1 := hcl.pop
      have h2 := hcl0.pop
      omega
    obtain ⟨ht, _⟩ := arrayIndex_of_registered q.hs hrep.retired.reg
    have hlt : pu < B := by omega
    have hpush : n.push_idx = (pu : Int) := hcl.push hnx
    have hidx : (pu : Int) < (B : Int) := by omega
    have hb : bufIndex B (pu : Int) = some pu := by
      simp [bufIndex]; omega
    have hlen := hcl.len
    have htouch := double_store_touched q.hs q.tail
      { n with push_idx := wrap32 ((pu : Int) + 1) }
      { next := n.next, buffer := setCell n.buffer pu item,
        push_idx := wrap32 ((pu : Int) + 1), pop_idx := n.pop_idx } htl0
    by_cases hpp : po ≤ pu
    · -- the cell is still empty: the item goes there
      have hcell : n.buffer pu = E := hcl.empty pu (le_refl _) hpp hlt
      have hne : ¬ E = T := hET
      have hcl' := hcl.after_put item hiE hiT hB hlt hnx (vs ++ [item]) (Or.inl ⟨hpp, rfl⟩)
      have hrep' := BLRep.touch_node cs0 (vs ++ [item]) c hrep htouch hn rfl
        ⟨po, pu + 1, hcl', hpo⟩ (le_refl _) (fun h => by simp at h)
      refine ⟨_, _, ?_, hrep', ?_, ?_, rfl, ?_⟩
      · rw [show d + 1 + 1 + f = (d + 1 + f) + 1 by omega]
        conv_lhs => unfold BLQueue_push_loop
        simp only [HazardPointer_protect_succ q.tail (d + 1 + f) q.hs _ ht, ne_eq,
          not_true_eq_false, if_false, hn, hpush, hidx, if_true, hb, hcell, hne,
          not_false_eq_true]
      · simp [List.flatten_append]
      · show q.hs.mem.brk + _ = _
        simp only [List.length_append, List.length_cons, List.length_nil]
      · intro a ha
        left
        have ha' : a ∈ (cs0 ++ [(q.tail, vs)]).map Prod.fst := by
          simpa using ha
        exact ⟨ha', hrep.touched_nodes htouch hn (PushedNode E T item)
          (PushedNode.pushed_refl E T item)
          (PushedNode.put E T item n pu (by omega) hpush (Or.inl hcell)) a ha'⟩
    · -- a pop has taken the cell: the item is written over `TAKEN_VALUE` and the push retries
      have hpp' : pu < po := by omega
      have hvs : vs = [] := List.length_eq_zero.mp (by omega)
      subst hvs
      have hcell : n.buffer pu = T := hcl.taken pu (le_refl _) hpp' hlt
      have hcl' := hcl.after_put item hiE hiT hB hlt hnx [] (Or.inr ⟨hpp', rfl⟩)
      have hhead : q.tail = q.head := hrep.only_head_empty q.tail [] (by simp) rfl
      have hrep' := BLRep.touch_node cs0 [] c hrep htouch hn rfl
        ⟨po, pu + 1, hcl', hpo⟩ (le_refl _) (fun _ => hhead)
      obtain ⟨q', cs', b1, b2, b3, b4, b5, b6⟩ :=
        BLQueue_push_loop_spec B E T hB hB1 item hiE hiT hET d f _ cs0 [] l c _ po (pu + 1)
          hrep' htouch.node hcl' (by omega)
      refine ⟨q', cs', ?_, b2, b3, b4, b5, ?_⟩
      · rw [show d + 1 + 1 + f = (d + 1 + f) + 1 by omega]
        conv_lhs => unfold BLQueue_push_loop
        simp only [HazardPointer_protect_succ q.tail (d + 1 + f) q.hs _ ht, ne_eq,
          not_true_eq_false, if_false, hn, hpush, hidx, if_true, hb, hcell]
        exact b1
      · intro a ha
        rcases b6 a ha with ⟨c0, m2, m', c1, c2, c3⟩ | ⟨c1, c2, c3⟩
        · left
          obtain ⟨m, d1, d2⟩ := htouch.back hn (PushedNode E T item) (PushedNode.pushed_refl E T item)
            (PushedNode.put E T item n pu (by omega) hpush (Or.inr hcell)) a m2 c1
          exact ⟨c0, m, m', d1, c2, d2.pushed_trans c3⟩
        · right
          exact ⟨c1, c2, c3⟩

/-- `BLQueue_push` on a represented state. -/
theorem BLQueue_push_spec (B : Nat) (E T : Value) (hB : B < 2147483647) (hB1 : 1 ≤ B)
    (hET : E ≠ T) (f : Nat) (q : BLQueue) (cs : List (Nat × List Value)) (l : List Nat)
    (c : Nat) (item : Value) (hiE : item ≠ E) (hiT : item ≠ T) (hrep : BLRep B E T q cs l c) :
    ∃ q' cs', BLQueue_push B E T (B + 1 + f) q item = .ok q'
      ∧ BLRep B E T q' cs' l c
      ∧ (cs'.map Prod.snd).flatten = (cs.map Prod.snd).flatten ++ [item]
      ∧ q'.hs.mem.brk + cs.length = q.hs.mem.brk + cs'.length
      ∧ q'.head = q.head
      ∧ ∀ a, a ∈ cs'.map Prod.fst →
          (a ∈ cs.map Prod.fst
            ∧ ∃ m m', q.hs.mem.qnode a = some m ∧ q'.hs.mem.qnode a = some m'
              ∧ PushedNode E T item m m')
          ∨ (a = q.hs.mem.brk ∧ a ∉ cs.map Prod.fst
            ∧ ∃ m', q'.hs.mem.qnode a = some m' ∧ m'.pop_idx = 0 ∧ m'.push_idx = 1) := by
  obtain ⟨cs0, vs, rfl⟩ := hrep.tail_cases
  obtain ⟨n, po, pu, hn, hcl, _⟩ := hrep.tail_node
  obtain ⟨q', cs', h1, h2, h3, h4, h5, h6⟩ :=
    BLQueue_push_loop_spec B E T hB hB1 item hiE hiT hET (B - pu) (f + (B - (B - pu))) q cs0 vs
      l c n po pu hrep hn hcl rfl
  obtain ⟨ht, _⟩ := arrayIndex_of_registered q'.hs h2.retired.reg
  have hfuel : B + 1 + f = B - pu + 1 + (f + (B - (B - pu))) := by omega
  refine ⟨_, cs', ?_, h2.clear_slot 0, h3, ?_, h5, h6⟩
  · rw [hfuel]
    simp only [BLQueue_push, h1, HazardPointer_clear, ht]
  · simpa using h4

/-! ## BLQueue.c: a new queue and `BLQueue_is_empty` -/

/-- A new queue is represented by its single empty node, at address 1. -/
theorem BLQueue_new_rep (B : Nat) (E T : Value) (hp : HazardPointer)
    (thread_id num_threads : Int)
    (h0 : 0 ≤ thread_id) (h1 : thread_id < num_threads) (h2 : num_threads ≤ (MAX_THREADS : Int)) :
    ∃ q, BLQueue_new B E (HazardPointer_register (boot BLNode hp) thread_id num_threads) = .ok q
      ∧ BLRep B E T q [(1, [])] [] 0 ∧ q.hs.mem.brk = 2 ∧ q.head = 1
      ∧ ∃ m, q.hs.mem.qnode 1 = some m ∧ m.pop_idx = 0 := by
  have htlt : thread_id.toNat < MAX_THREADS := by
    have := Int.toNat_of_nonneg h0
    omega
  refine ⟨_, rfl, ⟨?_, rfl, ?_, ?_, ?_, ⟨⟨h0, h1, h2⟩, ?_, ⟨?_, ?_, ?_⟩, by simp, ?_, ?_, ?_⟩⟩,
    rfl, rfl, ⟨_, rfl, rfl⟩⟩
  · exact ⟨rfl, Nat.succ_ne_zero 0, 0, rfl, rfl⟩
  · intro a vs h
    simp at h
    obtain ⟨rfl, rfl⟩ := h
    refine ⟨_, 0, 0, rfl, ⟨rfl, fun _ => rfl, le_refl _, fun h => absurd rfl h, Nat.zero_le _,
      rfl, ?_, ?_, ?_⟩, Nat.zero_le _⟩
    · intro j w hj; simp at hj
    · intro i _ hi; omega
    · intro i _ _ hi
      show (if i < B then E else 0) = E
      simp [hi]
  · intro a vs h _
    simp at h
    exact h.1
  · intro a vs h
    simp at h
    rw [h.1]
    exact Nat.lt_succ_self 1
  · intro j hj _
    show (if j < MAX_THREADS then 0 else hp.pointer j) = 0
    simp [hj]
  · show Seg _ (if thread_id.toNat < MAX_THREADS then _ else _ : RetiredPointer_List).head [] 0
    simp [htlt, Seg]
  · show (if thread_id.toNat < MAX_THREADS then _ else _ : RetiredPointer_List).tail = _
    simp [htlt]
  · show (if thread_id.toNat < MAX_THREADS then _ else _ : RetiredPointer_List).size = _
    simp [htlt]
  · intro a ha; simp at ha
  · intro a ha; simp at ha
  · exact Nat.succ_ne_zero 1

/-- `BLQueue_is_empty` finds a value in the head node. -/
theorem BLQueue_is_empty_loop_value (B : Nat) (E T : Value) (f : Nat)
    (q : BLQueue) (v : Value) (vs0 : List Value) (cs1 : List (Nat × List Value)) (l : List Nat)
    (c : Nat) (hrep : BLRep B E T q ((q.head, v :: vs0) :: cs1) l c) :
    BLQueue_is_empty_loop B E T (f + 1) q
        = .ok (v, { q with hs := { q.hs with
                      hp := q.hs.hp.setPointer q.hs._thread_id.toNat q.head } })
      ∧ v ≠ E := by
  obtain ⟨n, po, pu, hn, hcl, hpo, hh0, _, _⟩ := hrep.head_cells
  obtain ⟨ht, _⟩ := arrayIndex_of_registered q.hs hrep.retired.reg
  have hlen := hcl.len
  simp only [List.length_cons] at hlen
  have hpu := hcl.pu_le
  have hpolt : po < B := by omega
  have hin : (po : Int) < (B : Int) := by omega
  have hb : bufIndex B (po : Int) = some po := by
    simp [bufIndex]; omega
  obtain ⟨hcell, hvE, hvT⟩ := hcl.vals 0 v (by simp)
  simp only [Nat.add_zero] at hcell
  refine ⟨?_, hvE⟩
  conv_lhs => unfold BLQueue_is_empty_loop
  simp only [HazardPointer_protect_succ q.head f q.hs _ ht, ne_eq, not_true_eq_false, if_false,
    hn, hcl.pop, hin, if_true, hb, hcell, hvE, hvT]

/-- The loop of `BLQueue_is_empty` on a represented state. -/
theorem BLQueue_is_empty_loop_rep (B : Nat) (E T : Value) (f : Nat) (q : BLQueue)
    (cs : List (Nat × List Value)) (l : List Nat) (c : Nat) (hrep : BLRep B E T q cs l c) :
    ∃ r q' cs' l', BLQueue_is_empty_loop B E T (130 + f) q = .ok (r, q')
      ∧ BLRep B E T q' cs' l' c
      ∧ (cs'.map Prod.snd).flatten = (cs.map Prod.snd).flatten
      ∧ (r = E ↔ (cs.map Prod.snd).flatten = [])
      ∧ q'.hs.mem.brk + cs'.length = q.hs.mem.brk + cs.length
      ∧ q'.tail = q.tail
      ∧ ∀ a, a ∈ cs'.map Prod.fst →
          ∃ m, q.hs.mem.qnode a = some m ∧ q'.hs.mem.qnode a = some m := by
  obtain ⟨vs0, cs1, rfl⟩ := hrep.head_split
  obtain ⟨n, po, pu, hn, hcl, hpo, hh0, hnil, hcons⟩ := hrep.head_cells
  obtain ⟨ht, _⟩ := arrayIndex_of_registered q.hs hrep.retired.reg
  have hsame : ∀ a, a ∈ ((q.head, vs0) :: cs1).map Prod.fst →
      ∃ m, q.hs.mem.qnode a = some m
        ∧ ({ q with hs := { q.hs with
              hp := q.hs.hp.setPointer q.hs._thread_id.toNat q.head } } : BLQueue).hs.mem.qnode a
            = some m := by
    intro a ha
    obtain ⟨⟨a', w⟩, hm, rfl⟩ := List.mem_map.mp ha
    obtain ⟨m, _, _, hmq, _⟩ := hrep.nodes a' w hm
    exact ⟨m, hmq, hmq⟩
  cases vs0 with
  | cons v vs0' =>
    obtain ⟨h1, hvE⟩ := BLQueue_is_empty_loop_value B E T (129 + f) q v vs0' cs1 l c hrep
    refine ⟨v, _, _, l, by rw [show 130 + f = 129 + f + 1 by omega]; exact h1,
      hrep.clear_slot q.head, rfl, ?_, rfl, rfl, hsame⟩
    simp [hvE]
  | nil =>
    have hlen := hcl.len
    simp only [List.length_nil] at hlen
    by_cases hpolt : po < B
    · have hpu : pu ≤ po := by omega
      have hnx : n.next = 0 := by
        by_contra h
        have := hcl.full h
        omega
      have hcs1 : cs1 = [] := by
        cases cs1 with
        | nil => rfl
        | cons p cs2 =>
          obtain ⟨h2, vs2⟩ := p
          obtain ⟨e, h20, _⟩ := hcons h2 vs2 cs2 rfl
          rw [hnx] at e
          exact absurd e.symm h20
      subst hcs1
      have hin : (po : Int) < (B : Int) := by omega
      have hb : bufIndex B (po : Int) = some po := by
        simp [bufIndex]; omega
      have hcell : n.buffer po = E := hcl.empty po hpu (le_refl _) hpolt
      refine ⟨E, _, _, l, ?_, hrep.clear_slot q.head, rfl, by simp, rfl, rfl, hsame⟩
      rw [show 130 + f = 129 + f + 1 by omega]
      conv_lhs => unfold BLQueue_is_empty_loop
      simp only [HazardPointer_protect_succ q.head (129 + f) q.hs _ ht, ne_eq, not_true_eq_false,
        if_false, hn, hcl.pop, hin, if_true, hb, hcell]
    · have hout : ¬ ((po : Int) < (B : Int)) := by omega
      cases cs1 with
      | nil =>
        have hnx := hnil rfl
        refine ⟨E, _, _, l, ?_, hrep.clear_slot q.head, rfl, by simp, rfl, rfl, hsame⟩
        rw [show 130 + f = 129 + f + 1 by omega]
        conv_lhs => unfold BLQueue_is_empty_loop
        simp only [HazardPointer_protect_succ q.head (129 + f) q.hs _ ht, ne_eq,
          not_true_eq_false, if_false, hn, hcl.pop, hout, hnx, if_true]
      | cons p cs2 =>
        obtain ⟨h2, vs2⟩ := p
        obtain ⟨hnx, h20, hvs2⟩ := hcons h2 vs2 cs2 rfl
        obtain ⟨v, vs2', rfl⟩ := List.exists_cons_of_ne_nil hvs2
        have htouch := HeadTouched.protect q.hs q.head n hn
        obtain ⟨hs3, l', a1, a2, a3, a4⟩ :=
          BL_advance (128 + f + 1 + 1) (by omega) hrep htouch hn
        obtain ⟨b1, hvE⟩ := BLQueue_is_empty_loop_value B E T (128 + f)
          { hs := hs3, head := h2, tail := q.tail } v vs2' cs2 l' c a2
        refine ⟨v, _, _, l', ?_, a2.clear_slot h2, ?_, ?_, ?_, rfl, ?_⟩
        · rw [show 130 + f = (128 + f + 1) + 1 by omega]
          conv_lhs => unfold BLQueue_is_empty_loop
          simp only [HazardPointer_protect_succ q.head (128 + f + 1) q.hs _ ht, ne_eq,
            not_true_eq_false, if_false, hn, hcl.pop, hout, hnx, h20, a1]
          exact b1
        · simp
        · simp [hvE]
        · show hs3.mem.brk + _ = _
          rw [a3]
          simp only [List.length_cons]
          omega
        · intro a ha
          obtain ⟨⟨a', w⟩, hm, rfl⟩ := List.mem_map.mp ha
          obtain ⟨m, _, _, hmq, _⟩ := a2.nodes a' w hm
          refine ⟨m, ?_, hmq⟩
          rw [← a4 _ ha]
          exact hmq

/-- `BLQueue_is_empty` on a represented state. -/
theorem BLQueue_is_empty_rep (B : Nat) (E T : Value) (f : Nat) (q : BLQueue)
    (cs : List (Nat × List Value)) (l : List Nat) (c : Nat) (hrep : BLRep B E T q cs l c) :
    ∃ q' cs' l', BLQueue_is_empty B E T (130 + f) q
          = .ok ((cs.map Prod.snd).flatten.isEmpty, q')
      ∧ BLRep B E T q' cs' l' c
      ∧ (cs'.map Prod.snd).flatten = (cs.map Prod.snd).flatten
      ∧ q'.hs.mem.brk + cs'.length = q.hs.mem.brk + cs.length
      ∧ q'.tail = q.tail
      ∧ ∀ a, a ∈ cs'.map Prod.fst →
          ∃ m, q.hs.mem.qnode a = some m ∧ q'.hs.mem.qnode a = some m := by
  obtain ⟨r, q', cs', l', h1, h2, h3, h4, h5, h6, h7⟩ :=
    BLQueue_is_empty_loop_rep B E T f q cs l c hrep
  obtain ⟨ht, _⟩ := arrayIndex_of_registered q'.hs h2.retired.reg
  refine ⟨_, cs', l', ?_, h2.clear_slot 0, h3, h5, h6, h7⟩
  simp only [BLQueue_is_empty, h1, HazardPointer_clear, ht]
  by_cases hr : r = E
  · simp [hr, h4.mp hr]
  · have : (cs.map Prod.snd).flatten ≠ [] := fun h => hr (h4.mpr h)
    simp [hr, this]

/-! ## BLQueue.c: sequences of calls below the wrap-around -/

/-- One call on a represented state, while `pop_idx` stays away from the
wrap-around: it returns what the reference queue returns, the state represents
the reference content, and every node of the queue either was there before and
moved as the call allows, or is the node that a push has just allocated. -/
theorem BLQueue_step_rep (B : Nat) (E T : Value) (hB : B < 2147483647) (hB1 : 1 ≤ B)
    (hET : E ≠ T) (f : Nat) (q : BLQueue) (cs : List (Nat × List Value)) (l : List Nat)
    (c : Nat) (op : Op) (hop : ∀ v, op = .push v → v ≠ E ∧ v ≠ T)
    (hrep : BLRep B E T q cs l c) (hc : B + c + 2 < 2147483647) :
    ∃ q' cs' l', BLQueue_step B E T (B + 130 + f) q op
          = .ok ((refStep (cs.map Prod.snd).flatten op).1.toRet E, q')
      ∧ BLRep B E T q' cs' l' (c + 1)
      ∧ (cs'.map Prod.snd).flatten = (refStep (cs.map Prod.snd).flatten op).2
      ∧ ∀ a, a ∈ cs'.map Prod.fst →
          (∃ m m', q.hs.mem.qnode a = some m ∧ q'.hs.mem.qnode a = some m'
            ∧ nodeMove E T op m m')
          ∨ (a ∉ cs.map Prod.fst
            ∧ ∃ m', q'.hs.mem.qnode a = some m' ∧ m'.pop_idx = 0 ∧ m'.push_idx = 1) := by
  cases op with
  | push v =>
    obtain ⟨hvE, hvT⟩ := hop v rfl
    obtain ⟨q', cs', h1, h2, h3, _, _, h6⟩ :=
      BLQueue_push_spec B E T hB hB1 hET (129 + f) q cs l c v hvE hvT hrep
    refine ⟨q', cs', l, ?_, h2.mono (Nat.le_succ c), by simp [refStep, h3], ?_⟩
    · rw [show B + 130 + f = B + 1 + (129 + f) by omega]
      simp [BLQueue_step, h1, refStep, RefRet.toRet]
    · intro a ha
      rcases h6 a ha with ⟨_, h⟩ | ⟨_, h, h'⟩
      · exact Or.inl h
      · exact Or.inr ⟨h, h'⟩
  | pop =>
    obtain ⟨r, q', cs', l', h1, h2, _, h3, h4, _, _, h7, _⟩ :=
      BLQueue_pop_spec B E T hB f q cs l c hrep hc
    exact ⟨q', cs', l', by simp [BLQueue_step, h1, h3], h2, h4, fun a ha => Or.inl (h7 a ha)⟩
  | is_empty =>
    obtain ⟨q', cs', l', h1, h2, h3, _, _, h6⟩ := BLQueue_is_empty_rep B E T (B + f) q cs l c hrep
    refine ⟨q', cs', l', ?_, h2.mono (Nat.le_succ c), by simp [refStep, h3], ?_⟩
    · rw [show B + 130 + f = 130 + (B + f) by omega]
      simp [BLQueue_step, h1, refStep, RefRet.toRet]
    · intro a ha
      obtain ⟨m, c1, c2⟩ := h6 a ha
      exact Or.inl ⟨m, m, c1, c2, rfl⟩

theorem BLQueue_run_rep (B : Nat) (E T : Value) (hB : B < 2147483647) (hB1 : 1 ≤ B)
    (hET : E ≠ T) (f : Nat) :
    ∀ (ops : List Op) (q : BLQueue) (vals : List Value) (c : Nat),
      (∀ v, v ∈ pushedValues ops → v ≠ E ∧ v ≠ T) → BLInv B E T q vals c →
      B + c + ops.length + 2 < 2147483647 →
      ∃ q', BLQueue_run B E T (B + 130 + f) q ops
            = .ok ((refRun vals ops).map (RefRet.toRet E), q')
        ∧ BLInv B E T q' (refFinal vals ops) (c + ops.length)
  | [], q, vals, c, _, h, _ => ⟨q, rfl, h⟩
  | op :: ops, q, vals, c, hv, h, hc => by
    have hop : ∀ v, op = .push v → v ≠ E ∧ v ≠ T := by
      intro v hv'
      subst hv'
      exact hv v (by simp [pushedValues])
    have hv' : ∀ v, v ∈ pushedValues ops → v ≠ E ∧ v ≠ T := by
      intro v hm
      apply hv v
      cases op <;> simp [pushedValues, hm]
    obtain ⟨cs, l, hrep, rfl⟩ := h
    simp only [List.length_cons] at hc
    obtain ⟨q1, cs1, l1, h1, h2, h3, _⟩ :=
      BLQueue_step_rep B E T hB hB1 hET f q cs l c op hop hrep (by omega)
    obtain ⟨q2, h4, h5⟩ :=
      BLQueue_run_rep B E T hB hB1 hET f ops q1 _ (c + 1) hv' ⟨cs1, l1, h2, h3.symm⟩ (by omega)
    refine ⟨q2, by simp [BLQueue_run, h1, h4, refRun], ?_⟩
    rw [show c + (op :: ops).length = c + 1 + ops.length by simp; omega]
    exact h5

/-- Calls on a new queue by a registered thread, fewer than would take a
`pop_idx` to the wrap-around: every call returns, and returns what the reference
FIFO queue returns. -/
theorem BLQueue_session_rep (B : Nat) (E T : Value) (hB1 : 1 ≤ B) (hET : E ≠ T) (fuel : Nat)
    (hp : HazardPointer) (thread_id num_threads : Int) (ops : List Op)
    (h0 : 0 ≤ thread_id) (h1 : thread_id < num_threads) (h2 : num_threads ≤ (MAX_THREADS : Int))
    (hfuel : B + 130 ≤ fuel) (hv : ∀ v, v ∈ pushedValues ops → v ≠ E ∧ v ≠ T)
    (hlen : B + ops.length + 2 < 2147483647) :
    ∃ q, BLQueue_session B E T fuel hp thread_id num_threads ops
          = .ok ((refRun [] ops).map (RefRet.toRet E), q)
      ∧ BLInv B E T q (refFinal [] ops) ops.length := by
  obtain ⟨f, rfl⟩ : ∃ f, fuel = B + 130 + f := ⟨fuel - (B + 130), by omega⟩
  obtain ⟨q0, hq0, hrep, _⟩ := BLQueue_new_rep B E T hp thread_id num_threads h0 h1 h2
  obtain ⟨q, h3, h4⟩ := BLQueue_run_rep B E T (by omega) hB1 hET f ops q0 [] 0 hv
    ⟨_, _, hrep, by simp⟩ (by omega)
  refine ⟨q, by simp only [BLQueue_session, hq0, h3], ?_⟩
  simpa using h4

/-! ## BLQueue.c: pushing and then popping everything -/

/-- Every node of a segment but the last has a successor, which is not null. -/
theorem Seg_inner_next {nx : Nat → Option Nat} :
    ∀ (l : List Nat) (a x b : Nat), Seg nx a (l ++ [x]) b →
      ∀ y, y ∈ l → ∃ k, nx y = some k ∧ k ≠ 0
  | [], _, _, _, _, y, hy => by simp at hy
  | z :: l, a, x, b, h, y, hy => by
    obtain ⟨e, _, n, hn, hrest⟩ := h
    rcases List.mem_cons.mp hy with rfl | hy'
    · refine ⟨n, e ▸ hn, ?_⟩
      cases l with
      | nil => exact hrest.1 ▸ hrest.2.1
      | cons w l' => exact hrest.1 ▸ hrest.2.1
    · exact Seg_inner_next l n x b hrest y hy'

theorem flatten_length_const (B : Nat) :
    ∀ (cs : List (Nat × List Value)), (∀ a vs, (a, vs) ∈ cs → vs.length = B) →
      (cs.map Prod.snd).flatten.length = cs.length * B
  | [], _ => by simp
  | (a, vs) :: cs, h => by
    have h1 := h a vs (by simp)
    have h2 := flatten_length_const B cs (fun a' vs' hm => h a' vs' (List.mem_cons_of_mem _ hm))
    simp only [List.map_cons, List.flatten_cons, List.length_append, List.length_cons, h1, h2]
    rw [Nat.succ_mul]
    omega

/-- When nothing has been popped yet, the values fill the nodes one after
another: `n ≥ 1` values take `⌈n / BUFFER_SIZE⌉` nodes. -/
theorem BLRep.node_count {B : Nat} {E T : Value} {q : BLQueue} {cs : List (Nat × List Value)}
    {l : List Nat} {c : Nat} (hrep : BLRep B E T q cs l c) (hB1 : 1 ≤ B)
    (hzero : ∀ a, a ∈ cs.map Prod.fst → ∃ m, q.hs.mem.qnode a = some m ∧ m.pop_idx = 0)
    (hne : (cs.map Prod.snd).flatten ≠ []) :
    cs.length = ((cs.map Prod.snd).flatten.length + B - 1) / B := by
  have hnd := hrep.addr_nodup
  obtain ⟨cs0, vt, rfl⟩ := hrep.tail_cases
  have hchain := hrep.chain
  simp only [List.map_append, List.map_cons, List.map_nil] at hchain hnd
  have hpo0 : ∀ a vs m po pu, (a, vs) ∈ cs0 ++ [(q.tail, vt)] → q.hs.mem.qnode a = some m →
      BLCells B E T m po pu vs → po = 0 := by
    intro a vs m po pu hm hmq hcl
    obtain ⟨m', hm', hz⟩ := hzero a (List.mem_map_of_mem Prod.fst hm)
    rw [hmq] at hm'
    cases hm'
    have := hcl.pop
    omega
  have hfull : ∀ a vs, (a, vs) ∈ cs0 → vs.length = B := by
    intro a vs hm
    obtain ⟨m, po, pu, hmq, hcl, _⟩ := hrep.nodes a vs (List.mem_append_left _ hm)
    have hpo := hpo0 a vs m po pu (List.mem_append_left _ hm) hmq hcl
    obtain ⟨k, hk, hk0⟩ := Seg_inner_next _ _ _ _ hchain a (List.mem_map_of_mem Prod.fst hm)
    rw [nodeNext_of_qnode hmq] at hk
    have hnext : m.next ≠ 0 := by
      rw [Option.some.inj hk]; exact hk0
    have := hcl.full hnext
    have := hcl.len
    omega
  obtain ⟨mt, pot, put, hmt, hclt, _⟩ := hrep.nodes q.tail vt (by simp)
  have hpot := hpo0 q.tail vt mt pot put (by simp) hmt hclt
  have hle : vt.length ≤ B := by
    have := hclt.len
    have := hclt.pu_le
    omega
  have hflat : ((cs0 ++ [(q.tail, vt)]).map Prod.snd).flatten.length
      = cs0.length * B + vt.length := by
    simp only [List.map_append, List.map_cons, List.map_nil, List.flatten_append,
      List.length_append, flatten_length_const B cs0 hfull, List.flatten_cons, List.flatten_nil,
      List.append_nil]
  have hpos : 1 ≤ vt.length := by
    by_contra hlt
    have hvt : vt = [] := List.length_eq_zero.mp (by omega)
    cases cs0 with
    | nil =>
      apply hne
      simp [hvt]
    | cons p cs0' =>
      have hhead : q.tail = q.head := hrep.only_head_empty q.tail vt (by simp) hvt
      have hp : q.head = p.1 := hchain.1
      have hmem : q.tail ∈ (p :: cs0').map Prod.fst := by
        rw [hhead, hp]; simp
      exact (List.nodup_append.mp hnd).2.2 hmem (by simp)
  rw [hflat]
  simp only [List.length_append, List.length_cons, List.length_nil]
  symm
  apply Nat.div_eq_of_lt_le
  · rw [Nat.add_mul]
    omega
  · rw [Nat.add_mul, Nat.add_mul]
    omega

/-- A queue that holds no value has a single node, which is head and tail. -/
theorem BLRep.empty_single {B : Nat} {E T : Value} {q : BLQueue} {cs : List (Nat × List Value)}
    {l : List Nat} {c : Nat} (hrep : BLRep B E T q cs l c)
    (he : (cs.map Prod.snd).flatten = []) : cs = [(q.head, [])] ∧ q.head = q.tail := by
  obtain ⟨vs0, cs1, rfl⟩ := hrep.head_split
  obtain ⟨n, po, pu, hn, hcl, hpo, hh0, hnil, hcons⟩ := hrep.head_cells
  cases cs1 with
  | cons p cs2 =>
    obtain ⟨h2, vs2⟩ := p
    obtain ⟨_, _, hvs2⟩ := hcons h2 vs2 cs2 rfl
    exfalso
    apply hvs2
    simp only [List.map_cons, List.flatten_cons, List.append_eq_nil] at he
    exact he.2.1
  | nil =>
    simp only [List.map_cons, List.map_nil, List.flatten_cons, List.flatten_nil,
      List.append_nil] at he
    subst he
    refine ⟨rfl, ?_⟩
    have := hrep.tail
    simpa using this

/-- Pushes alone: the values are appended, only nodes are allocated, and no
`pop_idx` moves. -/
theorem BLQueue_run_pushes (B : Nat) (E T : Value) (hB : B < 2147483647) (hB1 : 1 ≤ B)
    (hET : E ≠ T) (f : Nat) :
    ∀ (vs : List Value) (q : BLQueue) (cs : List (Nat × List Value)) (l : List Nat) (c : Nat),
      (∀ v, v ∈ vs → v ≠ E ∧ v ≠ T) → BLRep B E T q cs l c →
      (∀ a, a ∈ cs.map Prod.fst → ∃ m, q.hs.mem.qnode a = some m ∧ m.pop_idx = 0) →
      ∃ q' cs', BLQueue_run B E T (B + 130 + f) q (vs.map .push)
            = .ok (vs.map (fun _ => Ret.unit), q')
        ∧ BLRep B E T q' cs' l c
        ∧ (cs'.map Prod.snd).flatten = (cs.map Prod.snd).flatten ++ vs
        ∧ q'.hs.mem.brk + cs.length = q.hs.mem.brk + cs'.length
        ∧ (∀ a, a ∈ cs'.map Prod.fst → ∃ m, q'.hs.mem.qnode a = some m ∧ m.pop_idx = 0)
  | [], q, cs, l, c, _, hrep, hz => ⟨q, cs, rfl, hrep, by simp, rfl, hz⟩
  | v :: vs, q, cs, l, c, hv, hrep, hz => by
    obtain ⟨hvE, hvT⟩ := hv v (by simp)
    obtain ⟨q1, cs1, h1, h2, h3, h4, _, h6⟩ :=
      BLQueue_push_spec B E T hB hB1 hET (129 + f) q cs l c v hvE hvT hrep
    have hz1 : ∀ a, a ∈ cs1.map Prod.fst → ∃ m, q1.hs.mem.qnode a = some m ∧ m.pop_idx = 0 := by
      intro a ha
      rcases h6 a ha with ⟨ha0, m, m', c1, c2, c3⟩ | ⟨_, _, m', c2, c3, _⟩
      · refine ⟨m', c2, ?_⟩
        rw [c3.1]
        obtain ⟨m0, d1, d2⟩ := hz a ha0
        rw [c1] at d1
        cases d1
        exact d2
      · exact ⟨m', c2, c3⟩
    obtain ⟨q2, cs2, b1, b2, b3, b4, b5⟩ :=
      BLQueue_run_pushes B E T hB hB1 hET f vs q1 cs1 l c
        (fun w hw => hv w (List.mem_cons_of_mem _ hw)) h2 hz1
    refine ⟨q2, cs2, ?_, b2, ?_, by omega, b5⟩
    · rw [show B + 130 + f = B + 1 + (129 + f) by omega] at b1 ⊢
      simp only [List.map_cons, BLQueue_run, BLQueue_step, h1, b1]
    · rw [b3, h3]
      simp

/-- What was last retired after a run is what was last retired after the rest of the
run, made from the state that the first call leaves. -/
theorem lastRetired_run_cons (B : Nat) (E T : Value) (fuel : Nat) (q q1 : BLQueue) (op : Op)
    (r : Ret) (ops : List Op) (h : BLQueue_step B E T fuel q op = .ok (r, q1)) :
    lastRetired (BLQueue_run B E T fuel q (op :: ops))
      = lastRetired (BLQueue_run B E T fuel q1 ops) := by
  simp only [BLQueue_run, h]
  cases BLQueue_run B E T fuel q1 ops with
  | error e => rfl
  | ok p =>
    obtain ⟨rs, q2⟩ := p
    rfl

/-- Pops that take all the values of the queue, oldest first: each node that is
left behind costs one allocation, the list node of `HazardPointer_retire`, and is the
pointer last retired right after the pop that leaves it. -/
theorem BLQueue_run_pops (B : Nat) (E T : Value) (hB : B < 2147483647) (f : Nat) (c : Nat)
    (hc : B + c + 2 < 2147483647) :
    ∀ (vs : List Value) (q : BLQueue) (cs : List (Nat × List Value)) (l : List Nat),
      BLRep B E T q cs l c → (cs.map Prod.snd).flatten = vs →
      ∃ q' cs' l', BLQueue_run B E T (B + 130 + f) q (List.replicate vs.length .pop)
            = .ok (vs.map Ret.value, q')
        ∧ BLRep B E T q' cs' l' c
        ∧ (cs'.map Prod.snd).flatten = []
        ∧ q'.hs.mem.brk + cs'.length = q.hs.mem.brk + cs.length
        ∧ q'.tail = q.tail
        ∧ ∀ a, a ∈ cs.map Prod.fst → a ∉ cs'.map Prod.fst →
            ∃ k, k ≤ vs.length
              ∧ lastRetired (BLQueue_run B E T (B + 130 + f) q (List.replicate k .pop)) = some a
  | [], q, cs, l, hrep, he => ⟨q, cs, l, rfl, hrep, he, rfl, rfl, fun _ ha hna => absurd ha hna⟩
  | v :: vs, q, cs, l, hrep, he => by
    obtain ⟨r, q1, cs1, l1, h1, _, h2, h3, h4, h5, h6, _, h8⟩ :=
      BLQueue_pop_spec B E T hB f q cs l c hrep hc
    have hstep : BLQueue_step B E T (B + 130 + f) q .pop = .ok (.value r, q1) := by
      simp only [BLQueue_step, h1]
    rw [he] at h2 h3 h4
    have hr : r = v := by
      simp only [refStep, RefRet.toRet, Ret.value.injEq] at h3
      exact h3.symm
    subst hr
    obtain ⟨q2, cs2, l2, b1, b2, b3, b4, b5, b6⟩ :=
      BLQueue_run_pops B E T hB f c hc vs q1 cs1 l1 (h2 (by simp)) (by simpa [refStep] using h4)
    refine ⟨q2, cs2, l2, ?_, b2, b3, by omega, by rw [b5, h6], ?_⟩
    · simp only [List.length_cons, List.replicate_succ, List.map_cons, BLQueue_run, BLQueue_step,
        h1, b1]
    · intro a ha hna
      by_cases hin : a ∈ cs1.map Prod.fst
      · obtain ⟨k, hk, hk2⟩ := b6 a hin hna
        refine ⟨k + 1, by simp only [List.length_cons]; omega, ?_⟩
        rw [List.replicate_succ, lastRetired_run_cons B E T _ q q1 .pop _ _ hstep]
        exact hk2
      · rcases h8 with e | ⟨e, hl⟩
        · exact absurd (e ▸ ha) hin
        · rw [e] at ha
          rcases List.mem_cons.mp ha with h | h
          · refine ⟨1, by simp only [List.length_cons]; omega, ?_⟩
            rw [show List.replicate 1 Op.pop = [Op.pop] from rfl,
              lastRetired_run_cons B E T _ q q1 .pop _ _ hstep]
            rw [h]
            exact hl
          · exact absurd h hin

/-- C11: a registered thread pushes the values `vs` (one at least, none of them
`EMPTY_VALUE` or `TAKEN_VALUE`) onto a new queue and then pops as many times.  The
pops return the values in push order.  After the pushes the queue is a chain of
`⌈n / BUFFER_SIZE⌉` nodes and nothing else was allocated; after the pops only the
last of these nodes is left, and `⌈n / BUFFER_SIZE⌉ - 1` further cells were
allocated: the list node of each `HazardPointer_retire`, one for every node left
behind.  Every node but the last was handed to `HazardPointer_retire`: after some of
the pops it is the pointer held by the last node of the thread's retired list. -/
theorem BLQueue_push_all_pop_all (BUFFER_SIZE : Nat) (EMPTY_VALUE TAKEN_VALUE : Value)
    (fuel : Nat) (hp : HazardPointer) (thread_id num_threads : Int) (vs : List Value)
    (hB1 : 1 ≤ BUFFER_SIZE) (hB : BUFFER_SIZE + 2 < 2147483647)
    (hET : EMPTY_VALUE ≠ TAKEN_VALUE)
    (h0 : 0 ≤ thread_id) (h1 : thread_id < num_threads) (h2 : num_threads ≤ (MAX_THREADS : Int))
    (hfuel : BUFFER_SIZE + 130 ≤ fuel) (hne : vs ≠ [])
    (hv : ∀ v, v ∈ vs → v ≠ EMPTY_VALUE ∧ v ≠ TAKEN_VALUE) :
    ∃ q1 q2 l1,
      BLQueue_session BUFFER_SIZE EMPTY_VALUE TAKEN_VALUE fuel hp thread_id num_threads
          (vs.map .push) = .ok (vs.map (fun _ => Ret.unit), q1)
      ∧ BLQueue_run BUFFER_SIZE EMPTY_VALUE TAKEN_VALUE fuel q1 (List.replicate vs.length .pop)
          = .ok (vs.map Ret.value, q2)
      ∧ Chain (nodeNext BLNode.next q1.hs.mem) q1.head l1
      ∧ l1.length = (vs.length + BUFFER_SIZE - 1) / BUFFER_SIZE
      ∧ q1.hs.mem.brk = 1 + (vs.length + BUFFER_SIZE - 1) / BUFFER_SIZE
      ∧ Chain (nodeNext BLNode.next q2.hs.mem) q2.head [q1.tail]
      ∧ q2.tail = q1.tail
      ∧ q2.hs.mem.brk
          = q1.hs.mem.brk + ((vs.length + BUFFER_SIZE - 1) / BUFFER_SIZE - 1)
      ∧ ∀ a, a ∈ l1 → a ≠ q1.tail →
          ∃ k, k ≤ vs.length
            ∧ lastRetired (BLQueue_run BUFFER_SIZE EMPTY_VALUE TAKEN_VALUE fuel q1
                (List.replicate k .pop)) = some a := by
  obtain ⟨f, rfl⟩ : ∃ f, fuel = BUFFER_SIZE + 130 + f := ⟨fuel - (BUFFER_SIZE + 130), by omega⟩
  obtain ⟨q0, hq0, hrep0, hbrk0, hhead0, m0, hm0, hpop0⟩ :=
    BLQueue_new_rep BUFFER_SIZE EMPTY_VALUE TAKEN_VALUE hp thread_id num_threads h0 h1 h2
  have hz0 : ∀ a, a ∈ ([(1, [])] : List (Nat × List Value)).map Prod.fst →
      ∃ m, q0.hs.mem.qnode a = some m ∧ m.pop_idx = 0 := by
    intro a ha
    simp only [List.map_cons, List.map_nil, List.mem_singleton] at ha
    subst ha
    exact ⟨m0, hm0, hpop0⟩
  obtain ⟨q1, cs1, a1, a2, a3, a4, a5⟩ :=
    BLQueue_run_pushes BUFFER_SIZE EMPTY_VALUE TAKEN_VALUE (by omega) hB1 hET f vs q0 [(1, [])]
      [] 0 hv hrep0 hz0
  simp only [List.map_cons, List.map_nil, List.flatten_cons, List.flatten_nil, List.append_nil,
    List.nil_append, List.length_cons, List.length_nil] at a3 a4
  have hcount := a2.node_count hB1 a5 (by rw [a3]; exact hne)
  rw [a3] at hcount
  obtain ⟨q2, cs2, l2, b1, b2, b3, b4, b5, b6⟩ :=
    BLQueue_run_pops BUFFER_SIZE EMPTY_VALUE TAKEN_VALUE (by omega) f 0 (by omega) vs q1 cs1 []
      a2 a3
  obtain ⟨hcs2, hht⟩ := b2.empty_single b3
  have hchain2 := b2.chain
  rw [hcs2] at hchain2 b4
  simp only [List.length_cons, List.length_nil] at b4
  have hpos : 1 ≤ cs1.length := by
    obtain ⟨cs0, vt, hcs1⟩ := a2.tail_cases
    rw [hcs1]
    simp
  refine ⟨q1, q2, cs1.map Prod.fst, by simp only [BLQueue_session, hq0, a1], b1, a2.chain,
    by rw [List.length_map]; exact hcount, by rw [← hcount]; omega, ?_, b5,
    by rw [← hcount]; omega, ?_⟩
  · rw [← b5, ← hht]
    simpa using hchain2
  · intro a ha hne
    apply b6 a ha
    rw [hcs2]
    simp only [List.map_cons, List.map_nil, List.mem_singleton]
    intro e
    apply hne
    rw [e, hht, b5]

/-- C11 at the spec's input: `BUFFER_SIZE = 4`, the values 1 to 10; three nodes. -/
theorem BLQueue_push_all_pop_all_witness :
    ∃ q1 q2 l1,
      BLQueue_session 4 0 (-1) 134 hp0 0 1 ([1, 2, 3, 4, 5, 6, 7, 8, 9, 10].map .push)
          = .ok ([1, 2, 3, 4, 5, 6, 7, 8, 9, 10].map (fun _ => Ret.unit), q1)
      ∧ BLQueue_run 4 0 (-1) 134 q1
          (List.replicate ([1, 2, 3, 4, 5, 6, 7, 8, 9, 10] : List Value).length .pop)
          = .ok ([1, 2, 3, 4, 5, 6, 7, 8, 9, 10].map Ret.value, q2)
      ∧ Chain (nodeNext BLNode.next q1.hs.mem) q1.head l1
      ∧ l1.length = (([1, 2, 3, 4, 5, 6, 7, 8, 9, 10] : List Value).length + 4 - 1) / 4
      ∧ q1.hs.mem.brk = 1 + (([1, 2, 3, 4, 5, 6, 7, 8, 9, 10] : List Value).length + 4 - 1) / 4
      ∧ Chain (nodeNext BLNode.next q2.hs.mem) q2.head [q1.tail]
      ∧ q2.tail = q1.tail
      ∧ q2.hs.mem.brk = q1.hs.mem.brk
          + ((([1, 2, 3, 4, 5, 6, 7, 8, 9, 10] : List Value).length + 4 - 1) / 4 - 1)
      ∧ ∀ a, a ∈ l1 → a ≠ q1.tail →
          ∃ k, k ≤ ([1, 2, 3, 4, 5, 6, 7, 8, 9, 10] : List Value).length
            ∧ lastRetired (BLQueue_run 4 0 (-1) 134 q1 (List.replicate k .pop)) = some a :=
  BLQueue_push_all_pop_all 4 0 (-1) 134 hp0 0 1 [1, 2, 3, 4, 5, 6, 7, 8, 9, 10]
    (by decide) (by decide) (by decide) (by decide) (by decide) (by decide) (by decide)
    (by decide) (by decide)

/-! ## BLQueue.c: cells and counters -/

theorem cellMove_of_nodeMove (E T : Value) (op : Op) (n n' : BLNode)
    (h : nodeMove E T op n n') (i : Nat) : cellMove E T op (n.buffer i) (n'.buffer i) := by
  cases op with
  | push item =>
    rcases h.2.2 i with h1 | h1
    · exact Or.inl h1
    · exact Or.inr h1
  | pop =>
    rcases h.2.2 i with h1 | h1
    · exact Or.inl h1
    · by_cases hold : n.buffer i = T
      · exact Or.inl (h1.trans hold.symm)
      · exact Or.inr ⟨h1, hold⟩
  | is_empty =>
    have h' : n' = n := h
    rw [h']
    exact Or.inl rfl

theorem idx_le_of_nodeMove (E T : Value) (op : Op) (n n' : BLNode)
    (h : nodeMove E T op n n') : n.push_idx ≤ n'.push_idx ∧ n.pop_idx ≤ n'.pop_idx := by
  cases op with
  | push item => exact ⟨h.2.1, le_of_eq h.1.symm⟩
  | pop => exact ⟨le_of_eq h.1.symm, h.2.1⟩
  | is_empty =>
    have h' : n' = n := h
    rw [h']
    exact ⟨le_refl _, le_refl _⟩

/-- One more call after a sequence of calls on a new queue, all below the
wrap-around: the states before and after it are both represented. -/
theorem BLQueue_step_after_session (B : Nat) (E T : Value) (hB1 : 1 ≤ B) (hET : E ≠ T)
    (fuel : Nat) (hp : HazardPointer) (thread_id num_threads : Int) (ops : List Op) (op : Op)
    (h0 : 0 ≤ thread_id) (h1 : thread_id < num_threads) (h2 : num_threads ≤ (MAX_THREADS : Int))
    (hfuel : B + 130 ≤ fuel) (hv : ∀ v, v ∈ pushedValues (ops ++ [op]) → v ≠ E ∧ v ≠ T)
    (hlen : B + ops.length + 3 < 2147483647) :
    ∃ rs q r q' cs l cs' l',
      BLQueue_session B E T fuel hp thread_id num_threads ops = .ok (rs, q)
      ∧ BLQueue_step B E T fuel q op = .ok (r, q')
      ∧ BLRep B E T q cs l ops.length ∧ BLRep B E T q' cs' l' (ops.length + 1)
      ∧ ∀ a, a ∈ cs'.map Prod.fst →
          (∃ m m', q.hs.mem.qnode a = some m ∧ q'.hs.mem.qnode a = some m'
            ∧ nodeMove E T op m m')
          ∨ (a ∉ cs.map Prod.fst
            ∧ ∃ m', q'.hs.mem.qnode a = some m' ∧ m'.pop_idx = 0 ∧ m'.push_idx = 1) := by
  have hv1 : ∀ v, v ∈ pushedValues ops → v ≠ E ∧ v ≠ T := by
    intro v hm
    apply hv v
    rw [pushedValues_append]
    exact List.mem_append_left _ hm
  have hop : ∀ v, op = .push v → v ≠ E ∧ v ≠ T := by
    intro v hv'
    apply hv v
    rw [pushedValues_append, hv']
    simp [pushedValues]
  obtain ⟨q, hs, cs, l, hrep, _⟩ :=
    BLQueue_session_rep B E T hB1 hET fuel hp thread_id num_threads ops h0 h1 h2 hfuel hv1
      (by omega)
  obtain ⟨f, rfl⟩ : ∃ f, fuel = B + 130 + f := ⟨fuel - (B + 130), by omega⟩
  obtain ⟨q', cs', l', a1, a2, _, a4⟩ :=
    BLQueue_step_rep B E T (by omega) hB1 hET f q cs l ops.length op hop hrep (by omega)
  exact ⟨_, q, _, q', cs, l, cs', l', hs, a1, hrep, a2, a4⟩

/-- C16 (the claim fails), with `BUFFER_SIZE = 4`, `EMPTY_VALUE = 0`, `TAKEN_VALUE = -1`: a pop
of the new queue leaves `TAKEN_VALUE` in cell 0 of the node at address 1, and the push
of 5 that follows overwrites it: the cell then holds 5. -/
theorem BLQueue_push_overwrites_taken :
    cellAt (BLQueue_session 4 0 (-1) 6 hp0 0 1 [.pop]) 1 0 = some (-1)
      ∧ cellAt (BLQueue_session 4 0 (-1) 6 hp0 0 1 [.pop, .push 5]) 1 0 = some 5 := by
  decide

theorem BLQueue_pop_stuck_idx (B : Nat) (E T : Value) (f : Nat) (q : BLQueue) (p : Int)
    (hs : BLStuck B T q p) (hout : ¬ (p < (B : Int) ∧ p ≥ 0)) :
    ∃ q' n n', BLQueue_pop B E T (f + 1) q = .ok (E, q') ∧ q'.head = q.head
      ∧ q.hs.mem.qnode q.head = some n ∧ n.pop_idx = p
      ∧ q'.hs.mem.qnode q.head = some n' ∧ n'.pop_idx = wrap32 (p + 1) := by
  obtain ⟨hreg, hh0, n, hn, hnx, hp, hcells⟩ := hs
  obtain ⟨ht, _⟩ := arrayIndex_of_registered q.hs hreg
  have hloop : BLQueue_pop_loop B E T (f + 1) q
      = .ok (E, { q with hs := { q.hs with
          mem := q.hs.mem.store q.head (Obj.qnode { n with pop_idx := wrap32 (p + 1) })
          hp := q.hs.hp.setPointer q.hs._thread_id.toNat q.head } }) := by
    conv_lhs => unfold BLQueue_pop_loop
    simp only [HazardPointer_protect_succ q.head f q.hs _ ht, ne_eq, not_true_eq_false, if_false,
      hn, hp, hout, hnx, if_true]
  refine ⟨{ q with hs := { q.hs with
      mem := q.hs.mem.store q.head (Obj.qnode { n with pop_idx := wrap32 (p + 1) })
      hp := (q.hs.hp.setPointer q.hs._thread_id.toNat q.head).setPointer
        q.hs._thread_id.toNat 0 } },
    n, { n with pop_idx := wrap32 (p + 1) }, ?_, rfl, hn, hp,
    Mem.qnode_store_qnode _ _ _ hh0, rfl⟩
  simp only [BLQueue_pop, hloop, HazardPointer_clear, ht]

/-- C20 (the code at the failing input), with `BUFFER_SIZE = 1024`, `EMPTY_VALUE = 0`,
`TAKEN_VALUE = -1`: after `2^31 - 1025` pops of a new queue the `pop_idx` of its node is
`INT_MAX`, and the next pop takes it to `INT_MIN`: it has decreased and is negative. -/
theorem BLQueue_pop_idx_wraps :
    ∃ rs q q' n n',
      BLQueue_session 1024 0 (-1) 1025 hp0 0 1 (List.replicate 2147482623 .pop) = .ok (rs, q)
      ∧ BLQueue_pop 1024 0 (-1) 1025 q = .ok (0, q') ∧ q'.head = q.head
      ∧ q.hs.mem.qnode q.head = some n ∧ n.pop_idx = 2147483647
      ∧ q'.hs.mem.qnode q.head = some n' ∧ n'.pop_idx = -2147483648 := by
  obtain ⟨q, h1, h2⟩ := BLQueue_session_pops 1024 0 (-1) (by decide) 0 hp0 0 1
    (by decide) (by decide) (by decide) 2147482622 (by decide)
  have hw : wrap32 (((1024 : Nat) : Int) + 1 + ((2147482622 : Nat) : Int)) = 2147483647 := by
    unfold wrap32; decide
  rw [hw] at h2
  obtain ⟨q', n, n', a1, a2, a3, a4, a5, a6⟩ :=
    BLQueue_pop_stuck_idx 1024 0 (-1) 1024 q _ h2 (by decide)
  have hw2 : wrap32 ((2147483647 : Int) + 1) = -2147483648 := by
    unfold wrap32; decide
  rw [hw2] at a6
  exact ⟨_, q, q', n, n', h1, a1, a2, a3, a4, a5, a6⟩

/-- Below the wrap-around of `pop_idx`: a registered thread makes calls on a new queue,
fewer than would take a `pop_idx` to the wrap-around, and then one more call.  After this
call every node of the queue has `push_idx` and `pop_idx` non-negative, and not
below what they were before the call when the node was in the queue then. -/
theorem BLQueue_idx_monotone (BUFFER_SIZE : Nat) (EMPTY_VALUE TAKEN_VALUE : Value)
    (hB1 : 1 ≤ BUFFER_SIZE) (hET : EMPTY_VALUE ≠ TAKEN_VALUE)
    (fuel : Nat) (hp : HazardPointer) (thread_id num_threads : Int) (ops : List Op) (op : Op)
    (h0 : 0 ≤ thread_id) (h1 : thread_id < num_threads) (h2 : num_threads ≤ (MAX_THREADS : Int))
    (hfuel : BUFFER_SIZE + 130 ≤ fuel)
    (hv : ∀ v, v ∈ pushedValues (ops ++ [op]) → v ≠ EMPTY_VALUE ∧ v ≠ TAKEN_VALUE)
    (hlen : BUFFER_SIZE + ops.length + 3 < 2147483647) :
    ∃ rs q r q' l l',
      BLQueue_session BUFFER_SIZE EMPTY_VALUE TAKEN_VALUE fuel hp thread_id num_threads ops
        = .ok (rs, q)
      ∧ BLQueue_step BUFFER_SIZE EMPTY_VALUE TAKEN_VALUE fuel q op = .ok (r, q')
      ∧ Chain (nodeNext BLNode.next q.hs.mem) q.head l
      ∧ Chain (nodeNext BLNode.next q'.hs.mem) q'.head l'
      ∧ ∀ a, a ∈ l' →
          ∃ n', q'.hs.mem.qnode a = some n' ∧ 0 ≤ n'.push_idx ∧ 0 ≤ n'.pop_idx
            ∧ (a ∈ l → ∃ n, q.hs.mem.qnode a = some n
                ∧ n.push_idx ≤ n'.push_idx ∧ n.pop_idx ≤ n'.pop_idx) := by
  obtain ⟨rs, q, r, q', cs, l, cs', l', a1, a2, a3, a4, a5⟩ :=
    BLQueue_step_after_session BUFFER_SIZE EMPTY_VALUE TAKEN_VALUE hB1 hET fuel hp thread_id
      num_threads ops op h0 h1 h2 hfuel hv hlen
  refine ⟨rs, q, r, q', cs.map Prod.fst, cs'.map Prod.fst, a1, a2, a3.chain, a4.chain, ?_⟩
  intro a ha'
  obtain ⟨⟨a', w⟩, hm, rfl⟩ := List.mem_map.mp ha'
  obtain ⟨n', po, pu, hn', hcl, _⟩ := a4.nodes a' w hm
  refine ⟨n', hn', hcl.push_nonneg, ?_, ?_⟩
  · rw [hcl.pop]
    omega
  · intro ha
    rcases a5 a' ha' with ⟨m, m', c1, c2, c3⟩ | ⟨c1, _⟩
    · have c2' : q'.hs.mem.qnode a' = some m' := c2
      rw [hn'] at c2'
      cases c2'
      exact ⟨m, c1, idx_le_of_nodeMove _ _ op m n' c3⟩
    · exact absurd ha c1

/-- The counters at a concrete input: after a push and two pops, a pop. -/
theorem BLQueue_idx_monotone_witness :
    ∃ rs q r q' l l',
      BLQueue_session 4 0 (-1) 134 hp0 0 1 [.push 5, .pop, .pop] = .ok (rs, q)
      ∧ BLQueue_step 4 0 (-1) 134 q .pop = .ok (r, q')
      ∧ Chain (nodeNext BLNode.next q.hs.mem) q.head l
      ∧ Chain (nodeNext BLNode.next q'.hs.mem) q'.head l'
      ∧ ∀ a, a ∈ l' →
          ∃ n', q'.hs.mem.qnode a = some n' ∧ 0 ≤ n'.push_idx ∧ 0 ≤ n'.pop_idx
            ∧ (a ∈ l → ∃ n, q.hs.mem.qnode a = some n
                ∧ n.push_idx ≤ n'.push_idx ∧ n.pop_idx ≤ n'.pop_idx) :=
  BLQueue_idx_monotone 4 0 (-1) (by decide) (by decide) 134 hp0 0 1 [.push 5, .pop, .pop] .pop
    (by decide) (by decide) (by decide) (by decide) (by decide) (by decide)

/-- C18 (the code at the failing input), with `BUFFER_SIZE = 1024`, `EMPTY_VALUE = 0`,
`TAKEN_VALUE = -1`: after `2^32 - 1024` pops of a new queue, which all return, `pop_idx`
has wrapped around to 0, where the cell holds `TAKEN_VALUE`; `BLQueue_is_empty` then
retries for ever: whatever the fuel, its loop does not exit. -/
theorem BLQueue_is_empty_never_returns :
    ∃ rs q,
      BLQueue_session 1024 0 (-1) 1025 hp0 0 1 (List.replicate 4294966272 .pop) = .ok (rs, q)
      ∧ ∀ fuel, BLQueue_is_empty 1024 0 (-1) fuel q = .error .out_of_fuel := by
  obtain ⟨q, h1, h2⟩ := BLQueue_session_pops 1024 0 (-1) (by decide) 0 hp0 0 1
    (by decide) (by decide) (by decide) 4294966271 (by decide)
  have hw : wrap32 (((1024 : Nat) : Int) + 1 + ((4294966271 : Nat) : Int)) = 0 := by
    unfold wrap32; decide
  rw [hw] at h2
  refine ⟨_, q, h1, fun fuel => ?_⟩
  have := BLQueue_is_empty_loop_spins 1024 0 (-1) (by decide) 0 (by decide) fuel q h2
  simp only [BLQueue_is_empty, this]

/-! ## BLQueue.c: the index read by `BLQueue_is_empty` -/

/-- C23 (the code at the failing input), with `BUFFER_SIZE = 1024`, `EMPTY_VALUE = 0`,
`TAKEN_VALUE = -1`: the state after `2^31 - 1024` sequential pops of a new queue is reachable
by one registered thread, its head node has `pop_idx = INT_MIN`, which passes the only test
`idx < BUFFER_SIZE` that `BLQueue_is_empty` makes, and is no index of the buffer: the
access `buffer[idx]` made by `BLQueue_is_empty` is out of bounds. -/
theorem BLQueue_is_empty_index_out_of_range :
    ∃ rs q n,
      BLQueue_session 1024 0 (-1) 1025 hp0 0 1 (List.replicate 2147482624 .pop) = .ok (rs, q)
      ∧ q.hs.mem.qnode q.head = some n
      ∧ n.pop_idx = -2147483648
      ∧ n.pop_idx < ((1024 : Nat) : Int)
      ∧ bufIndex 1024 n.pop_idx = none
      ∧ BLQueue_is_empty 1024 0 (-1) 1025 q = .error .out_of_bounds := by
  obtain ⟨q, h1, h2⟩ := BLQueue_session_pops 1024 0 (-1) (by decide) 0 hp0 0 1
    (by decide) (by decide) (by decide) 2147482623 (by decide)
  have hw : wrap32 (((1024 : Nat) : Int) + 1 + ((2147482623 : Nat) : Int)) = -2147483648 := by
    unfold wrap32; decide
  rw [hw] at h2
  have h3 := BLQueue_is_empty_negative 1024 0 (-1) 1024 q _ h2 (by decide)
  obtain ⟨_, _, n, hn, _, hp, _⟩ := h2
  refine ⟨_, q, n, h1, hn, hp, ?_, ?_, h3⟩
  · rw [hp]; decide
  · rw [hp]; decide

/-! ## HazardPointer.c: the retired lists stay well formed -/

/-- A list described by `RetiredList` is well formed in the sense of `RetiredWellFormed`. -/
theorem RetiredList.well_formed {N : Type} {s : HPState N} {t : Nat} {l : List Nat}
    (h : RetiredList s t l) : RetiredWellFormed s t := by
  obtain ⟨hchain, htail, hsize⟩ := h
  refine ⟨l, hchain, hsize, ?_⟩
  rcases List.eq_nil_or_concat l with hnil | ⟨l0, x, hl0⟩
  · subst hnil
    have hh : (s.hp.retired_ptrs t).head = 0 := hchain
    have ht : (s.hp.retired_ptrs t).tail = 0 := by simpa using htail
    have hs : (s.hp.retired_ptrs t).size = 0 := by simpa using hsize
    refine ⟨by simp [hh, ht], by simp [ht, hs], fun h => absurd rfl h⟩
  · rw [List.concat_eq_append] at hl0
    subst hl0
    have ht : (s.hp.retired_ptrs t).tail = x := by simpa using htail
    obtain ⟨_, hx0, hnx⟩ := (Seg_snoc l0 _ x 0).mp hchain
    have hh : (s.hp.retired_ptrs t).head ≠ 0 := by
      cases l0 with
      | nil => exact hchain.2.1
      | cons a l1 => exact hchain.2.1
    have hs : (s.hp.retired_ptrs t).size ≠ 0 := by
      rw [hsize]; simp; omega
    refine ⟨by simp [hh, ht, hx0], by simp [ht, hx0, hs], fun _ => ⟨by simp [ht], by rw [ht]; exact hnx⟩⟩

/-- A well-formed list is one described by `RetiredList`, for the nodes reachable from
its `head`. -/
theorem RetiredWellFormed.retired_list {N : Type} {s : HPState N} {t : Nat}
    (h : RetiredWellFormed s t) : ∃ l, RetiredList s t l := by
  obtain ⟨l, hchain, hsize, _, hts, hlast⟩ := h
  refine ⟨l, hchain, ?_, hsize⟩
  by_cases hl : l = []
  · subst hl
    simpa using hts.mpr (by simpa using hsize)
  · rw [(hlast hl).1]; rfl

/-- What `add_to_retired_list` leaves alone: every cell but the new node and the old
tail. -/
theorem add_to_retired_list_frame {N : Type} (s s' : HPState N) (ptr t : Nat)
    (ht : arrayIndex s._thread_id = some t) (h : add_to_retired_list s ptr = .ok s') :
    ∀ a, a ≠ s.mem.brk → a ≠ (s.hp.retired_ptrs t).tail → s'.mem.obj a = s.mem.obj a := by
  intro a ha1 ha2
  simp only [add_to_retired_list, ht, create_retired__node, malloc] at h
  by_cases hb : s.mem.brk = 0
  · simp [hb] at h
  · simp only [hb, if_false] at h
    by_cases htl : (s.hp.retired_ptrs t).tail = 0
    · simp only [htl, if_true] at h
      cases h
      simp [Mem.store, ha1]
    · simp only [htl, if_false] at h
      split at h
      · cases h
      · cases h
        simp [Mem.store, ha1, ha2]

/-- The retired list of another thread, whose nodes the list of thread `t` neither
contains nor retires, is left as it is by a step that keeps to the list of `t`. -/
theorem RetiredList.of_others {N : Type} {s s' : HPState N} {t j : Nat} {lj : List Nat}
    (h : RetiredList s j lj) (hj : j ≠ t) (hss : SameSlots s s' t)
    (hobj : ∀ a, a ∈ lj → s'.mem.obj a = s.mem.obj a) : RetiredList s' j lj :=
  h.frame (hss.others j hj) (fun a ha => Mem.rnode_congr (hobj a ha))

/-- C22: in a state of a registered thread whose retired list is well formed (its nodes
are `l`, allocated, and no retired pointer is one of them), `add_to_retired_list`,
`clean_retired_list` and `HazardPointer_retire` all return and leave that list well
formed: `size` is the number of nodes reachable from `head`, `head` is null iff `tail` is
null iff `size` is 0, and a non-empty list has `tail` as its last node, with a null
`next`.  The well-formed list of any other thread `j`, whose nodes are apart from those
of `l` and from the pointers retired in `l`, stays well formed too. -/
theorem retired_lists_stay_well_formed {N : Type} (s : HPState N) (fuel ptr : Nat)
    (l : List Nat) (j : Nat) (lj : List Nat)
    (hreg : Registered s) (hl : RetiredList s s._thread_id.toNat l)
    (hsep : RetiredSeparate s l) (hbrk : s.mem.brk ≠ 0) (hfuel : l.length < fuel)
    (hj : j ≠ s._thread_id.toNat) (hlj : RetiredList s j lj)
    (hdisj : ∀ a, a ∈ lj → a ∉ l ∧ a < s.mem.brk
      ∧ ∀ x, x ∈ l → ∀ m, s.mem.rnode x = some m → m.pointer ≠ a) :
    (∃ s1, add_to_retired_list s ptr = .ok s1
        ∧ RetiredWellFormed s1 s._thread_id.toNat ∧ RetiredWellFormed s1 j)
      ∧ (∃ s2, clean_retired_list fuel s = .ok s2
        ∧ RetiredWellFormed s2 s._thread_id.toNat ∧ RetiredWellFormed s2 j)
      ∧ (∃ s3, HazardPointer_retire fuel s ptr = .ok s3
        ∧ RetiredWellFormed s3 s._thread_id.toNat ∧ RetiredWellFormed s3 j) := by
  obtain ⟨ht, _⟩ := arrayIndex_of_registered s hreg
  obtain ⟨hfresh, hptr⟩ := hsep
  -- the tail of a list is one of its nodes, or null
  have htail : ∀ (s0 : HPState N) (l0 : List Nat), RetiredList s0 s._thread_id.toNat l0 →
      ∀ a, a ≠ 0 → a ∉ l0 → a ≠ (s0.hp.retired_ptrs s._thread_id.toNat).tail := by
    intro s0 l0 h0 a ha0 hal0 e
    rw [h0.tail_eq] at e
    rcases List.eq_nil_or_concat l0 with hnil | ⟨l1, x, hl1⟩
    · subst hnil; exact ha0 (by simpa using e)
    · rw [List.concat_eq_append] at hl1
      subst hl1
      rw [getLast?_concat_getD] at e
      exact hal0 (by simp [e])
  have hlj0 : ∀ a, a ∈ lj → a ≠ 0 := fun a ha => hlj.mem_ne_zero a ha
  -- add_to_retired_list
  obtain ⟨s1, a1, a2, _, _, _, a6, _, _⟩ := add_to_retired_list_spec s ptr _ l ht hl hfresh hbrk
  have aj : RetiredList s1 j lj := hlj.of_others hj a6 (fun a ha =>
    add_to_retired_list_frame s s1 ptr _ ht a1 a (Nat.ne_of_lt (hdisj a ha).2.1)
      (htail s l hl a (hlj0 a ha) (hdisj a ha).1))
  -- clean_retired_list
  obtain ⟨s2, c1, c2, c3, c4, c5, _⟩ :=
    clean_retired_list_spec s fuel _ l ht hreg.2.2 hl hptr hfuel
  have cj : RetiredList s2 j lj := hlj.of_others hj c3 (fun a ha =>
    c5 a (hdisj a ha).1 (hdisj a ha).2.2)
  refine ⟨⟨s1, a1, a2.well_formed, aj.well_formed⟩, ⟨s2, c1, c2.well_formed, cj.well_formed⟩, ?_⟩
  -- HazardPointer_retire
  by_cases hsize : (s.hp.retired_ptrs s._thread_id.toNat).size = RETIRED_THRESHOLD
  · have ht2 : arrayIndex s2._thread_id = some s._thread_id.toNat := by
      rw [c3.thread_id]; exact ht
    have hsub : ∀ a, a ∈ l.filter (protectedBy s) → a ∈ l := fun a ha =>
      (List.mem_filter.mp ha).1
    obtain ⟨s3, d1, d2, _, _, _, d6, _, _⟩ := add_to_retired_list_spec s2 ptr _
      (l.filter (protectedBy s)) ht2 c2
      (fun a ha => by rw [c4]; exact hfresh a (hsub a ha)) (by rw [c4]; exact hbrk)
    have dj : RetiredList s3 j lj := cj.of_others hj d6 (fun a ha =>
      add_to_retired_list_frame s2 s3 ptr _ ht2 d1 a
        (by rw [c4]; exact Nat.ne_of_lt (hdisj a ha).2.1)
        (htail s2 _ c2 a (hlj0 a ha) (fun h => (hdisj a ha).1 (hsub a h))))
    refine ⟨s3, ?_, d2.well_formed, dj.well_formed⟩
    simp only [HazardPointer_retire, ht, hsize, if_true, c1, d1]
  · refine ⟨s1, ?_, a2.well_formed, aj.well_formed⟩
    simp only [HazardPointer_retire, ht, hsize, if_false, a1]

/-- C22 at a concrete state: thread 0 of 2 holds one retired node and thread 1 none. -/
theorem retired_lists_stay_well_formed_witness :
    (∃ s1, add_to_retired_list (scanState 1) 7 = .ok s1
        ∧ RetiredWellFormed s1 0 ∧ RetiredWellFormed s1 1)
      ∧ (∃ s2, clean_retired_list 2 (scanState 1) = .ok s2
        ∧ RetiredWellFormed s2 0 ∧ RetiredWellFormed s2 1)
      ∧ (∃ s3, HazardPointer_retire 2 (scanState 1) 7 = .ok s3
        ∧ RetiredWellFormed s3 0 ∧ RetiredWellFormed s3 1) :=
  retired_lists_stay_well_formed (scanState 1) 2 7 [2] 1 []
    (by simp [Registered, scanState, MAX_THREADS])
    ⟨⟨rfl, by decide, 0, rfl, rfl⟩, rfl, rfl⟩
    ⟨by intro a ha; simp at ha; subst ha; decide,
     by
      intro a ha m hm
      simp at ha
      subst ha
      have : m = { pointer := 1, next := 0 } := by
        have h2 : (scanState 1).mem.rnode 2 = some { pointer := 1, next := 0 } := rfl
        rw [h2] at hm
        exact (Option.some.inj hm).symm
      subst this
      decide⟩
    (by decide) (by decide) (by decide)
    ⟨rfl, rfl, rfl⟩
    (by intro a ha; simp at ha)

/-! ## BLQueue.c: a pop that closes the head node -/

/-- A pop on a queue whose only node holds no value and has `pop_idx = po ≤ BUFFER_SIZE`:
the loop takes the cells `po`, ..., `BUFFER_SIZE - 1` one by one, then finds the node used
up and without successor, and returns `EMPTY_VALUE` with `pop_idx = BUFFER_SIZE + 1`. -/
theorem BLQueue_pop_loop_close (B : Nat) (E T : Value) (hB : B < 2147483647) :
    ∀ (d f : Nat) (q : BLQueue) (l : List Nat) (c : Nat) (n : BLNode) (po pu : Nat),
      BLRep B E T q [(q.head, [])] l c →
      q.hs.mem.qnode q.head = some n → BLCells B E T n po pu [] → po + d = B →
      ∃ q' n', BLQueue_pop_loop B E T (d + 1 + f) q = .ok (E, q')
        ∧ BLRep B E T q' [(q.head, [])] l c
        ∧ q'.head = q.head ∧ q'.tail = q.tail ∧ q'.hs.mem.brk = q.hs.mem.brk
        ∧ q'.hs.mem.qnode q.head = some n' ∧ BLCells B E T n' (B + 1) pu [] ∧ n'.next = 0
  | 0, f, q, l, c, n, po, pu, hrep, hn, hcl, hd => by
    obtain ⟨n0, po0, pu0, hn0, hcl0, hpo, hh0, hnil, _⟩ := hrep.head_cells
    rw [hn] at hn0
    cases hn0
    obtain ⟨ht, _⟩ := arrayIndex_of_registered q.hs hrep.retired.reg
    have hnx : n.next = 0 := hnil rfl
    have hpoB : po = B := by omega
    have hout : ¬ ((po : Int) < (B : Int) ∧ (po : Int) ≥ 0) := by omega
    have hlen := hcl.len
    simp only [List.length_nil] at hlen
    have htouch : HeadTouched q.hs q.head
        { q.hs with
          mem := q.hs.mem.store q.head (Obj.qnode { n with pop_idx := wrap32 ((po : Int) + 1) })
          hp := q.hs.hp.setPointer q.hs._thread_id.toNat q.head }
        { n with pop_idx := wrap32 ((po : Int) + 1) } :=
      HeadTouched.store q.hs q.head _ hh0
    have hpop : wrap32 ((po : Int) + 1) = ((B + 1 : Nat) : Int) := by
      rw [wrap32_nat_succ po (by omega), hpoB]
    have hcl' : BLCells B E T { n with pop_idx := wrap32 ((po : Int) + 1) } (B + 1) pu [] := by
      refine ⟨hpop, hcl.push, hcl.push_nonneg, hcl.full, hcl.pu_le, ?_, ?_, ?_, ?_⟩
      · have := hcl.pu_le
        simp only [List.length_nil]
        omega
      · intro j w hj; simp at hj
      · intro i h1 h2 h3
        show n.buffer i = T
        exact hcl.taken i h1 (by omega) h3
      · intro i h1 h2 h3
        omega
    have hrep' := BLRep.touch_node [] [] c hrep htouch hn rfl
      ⟨B + 1, pu, hcl', by omega⟩ (le_refl _) (fun _ => rfl)
    refine ⟨_, _, ?_, hrep', rfl, rfl, rfl, htouch.node, hcl', hnx⟩
    rw [show 0 + 1 + f = f + 1 by omega]
    conv_lhs => unfold BLQueue_pop_loop
    simp only [HazardPointer_protect_succ q.head f q.hs _ ht, ne_eq,
      not_true_eq_false, if_false, hn, hcl.pop, hout, hnx, if_true]
  | d + 1, f, q, l, c, n, po, pu, hrep, hn, hcl, hd => by
    obtain ⟨n0, po0, pu0, hn0, hcl0, hpo, hh0, hnil, _⟩ := hrep.head_cells
    rw [hn] at hn0
    cases hn0
    obtain ⟨ht, _⟩ := arrayIndex_of_registered q.hs hrep.retired.reg
    have hpolt : po < B := by omega
    have hlen := hcl.len
    simp only [List.length_nil] at hlen
    have hpu : pu ≤ po := by omega
    have hin : (po : Int) < (B : Int) ∧ (po : Int) ≥ 0 := by omega
    have hb : bufIndex B (po : Int) = some po := by
      simp [bufIndex]; omega
    have hcell : n.buffer po = E := hcl.empty po hpu (le_refl _) hpolt
    have htouch := double_store_touched q.hs q.head
      { n with pop_idx := wrap32 ((po : Int) + 1) }
      { next := n.next, buffer := setCell n.buffer po T, push_idx := n.push_idx,
        pop_idx := wrap32 ((po : Int) + 1) } hh0
    have hcl' : BLCells B E T
        { next := n.next, buffer := setCell n.buffer po T, push_idx := n.push_idx,
          pop_idx := wrap32 ((po : Int) + 1) } (po + 1) pu [] := by
      refine ⟨wrap32_nat_succ po (by omega), hcl.push, hcl.push_nonneg, hcl.full, hcl.pu_le,
        by simp; omega, ?_, ?_, ?_⟩
      · intro j w hj; simp at hj
      · intro i h1 h2 h3
        show setCell n.buffer po T i = T
        unfold setCell
        by_cases hi : i = po
        · rw [if_pos hi]
        · rw [if_neg hi]
          exact hcl.taken i h1 (by omega) h3
      · intro i h1 h2 h3
        show setCell n.buffer po T i = E
        unfold setCell
        rw [if_neg (by omega)]
        exact hcl.empty i h1 (by omega) h3
    have hrep' := BLRep.touch_node [] [] c hrep htouch hn rfl
      ⟨po + 1, pu, hcl', by omega⟩ (le_refl _) (fun _ => rfl)
    obtain ⟨q', n', b1, b2, b3, b4, b5, b6, b7, b8⟩ :=
      BLQueue_pop_loop_close B E T hB d f _ l c _ (po + 1) pu hrep' (htouch.node) hcl'
        (by omega)
    refine ⟨q', n', ?_, b2, b3, b4, b5, b6, b7, b8⟩
    rw [show d + 1 + 1 + f = (d + 1 + f) + 1 by omega]
    conv_lhs => unfold BLQueue_pop_loop
    simp only [HazardPointer_protect_succ q.head (d + 1 + f) q.hs _ ht, ne_eq,
      not_true_eq_false, if_false, hn, hcl.pop, hin, and_self, if_true, hb, hcell]
    exact b1

/-- A push on a queue whose tail node is closed (`pop_idx` beyond `BUFFER_SIZE`, no value
waiting): every cell from `push_idx` on was taken by a pop, so each attempt of the loop
fails, and once `push_idx` reaches `BUFFER_SIZE` the item goes into a new node. -/
theorem BLQueue_push_loop_closed (B : Nat) (E T : Value) (hB : B < 2147483647) (hB1 : 1 ≤ B)
    (item : Value) (hiE : item ≠ E) (hiT : item ≠ T) :
    ∀ (d f : Nat) (q : BLQueue) (cs0 : List (Nat × List Value))
      (l : List Nat) (c : Nat) (n : BLNode) (po pu : Nat),
      BLRep B E T q (cs0 ++ [(q.tail, [])]) l c →
      q.hs.mem.qnode q.tail = some n → BLCells B E T n po pu [] → B < po → pu + d = B →
      ∃ q', BLQueue_push_loop B E T item (d + 1 + f) q = .ok q'
        ∧ BLRep B E T q' (cs0 ++ [(q.tail, []), (q.hs.mem.brk, [item])]) l c
        ∧ q'.hs.mem.brk = q.hs.mem.brk + 1 ∧ q'.head = q.head
        ∧ (∃ m', q'.hs.mem.qnode q.tail = some m' ∧ PushedNode E T item n m')
        ∧ ∃ m', q'.hs.mem.qnode q.hs.mem.brk = some m' ∧ m'.pop_idx = 0 ∧ m'.push_idx = 1
  | 0, f, q, cs0, l, c, n, po, pu, hrep, hn, hcl, hpo, hd => by
    have hpuB : pu = B := by omega
    rw [hpuB] at hcl
    obtain ⟨q', h1, h2, h3, h4, h5, h6⟩ :=
      BLQueue_push_loop_new_node B E T hB hB1 item hiE hiT f q cs0 [] l c n po hrep hn hcl
    refine ⟨q', by rw [show 0 + 1 + f = f + 1 by omega]; exact h1, h2, h3, h4, ?_, h6⟩
    obtain ⟨m, m', c1, c2, c3⟩ := h5 q.tail (by simp)
    rw [hn] at c1
    cases c1
    exact ⟨m', c2, c3⟩
  | d + 1, f, q, cs0, l, c, n, po, pu, hrep, hn, hcl, hpo, hd => by
    obtain ⟨n0, po0, pu0, hn0, hcl0, hpo0, htl0, hnx, _, _⟩ := hrep.tail_node
    rw [hn] at hn0
    cases hn0
    have hpoc : po ≤ B + 1 + c := by
      have h1 := hcl.pop
      have h2 := hcl0.pop
      omega
    obtain ⟨ht, _⟩ := arrayIndex_of_registered q.hs hrep.retired.reg
    have hlt : pu < B := by omega
    have hpush : n.push_idx = (pu : Int) := hcl.push hnx
    have hidx : (pu : Int) < (B : Int) := by omega
    have hb : bufIndex B (pu : Int) = some pu := by
      simp [bufIndex]; omega
    have htouch := double_store_touched q.hs q.tail
      { n with push_idx := wrap32 ((pu : Int) + 1) }
      { next := n.next, buffer := setCell n.buffer pu item,
        push_idx := wrap32 ((pu : Int) + 1), pop_idx := n.pop_idx } htl0
    have hpp' : pu < po := by omega
    have hcell : n.buffer pu = T := hcl.taken pu (le_refl _) hpp' hlt
    have hcl' := hcl.after_put item hiE hiT hB hlt hnx [] (Or.inr ⟨hpp', rfl⟩)
    have hhead : q.tail = q.head := hrep.only_head_empty q.tail [] (by simp) rfl
    have hrep' := BLRep.touch_node cs0 [] c hrep htouch hn rfl
      ⟨po, pu + 1, hcl', hpoc⟩ (le_refl _) (fun _ => hhead)
    obtain ⟨q', b1, b2, b3, b4, ⟨m', b5, b6⟩, b7⟩ :=
      BLQueue_push_loop_closed B E T hB hB1 item hiE hiT d f _ cs0 l c _ po (pu + 1)
        hrep' htouch.node hcl' hpo (by omega)
    refine ⟨q', ?_, b2, b3, b4, ⟨m', b5, ?_⟩, b7⟩
    · rw [show d + 1 + 1 + f = (d + 1 + f) + 1 by omega]
      conv_lhs => unfold BLQueue_push_loop
      simp only [HazardPointer_protect_succ q.tail (d + 1 + f) q.hs _ ht, ne_eq,
        not_true_eq_false, if_false, hn, hpush, hidx, if_true, hb, hcell]
      exact b1
    · exact (PushedNode.put E T item n pu (by omega) hpush (Or.inr hcell)).pushed_trans b6

/-- A pop and then a push on a represented queue that holds no value and whose head
node has `pop_idx = k < BUFFER_SIZE`: the pop returns `EMPTY_VALUE` and closes the node,
the push allocates a new node for its value. -/
theorem BLQueue_pop_push_closed (B : Nat) (E T : Value) (hB : B < 2147483647) (hB1 : 1 ≤ B)
    (f : Nat) (q : BLQueue) (cs : List (Nat × List Value)) (l : List Nat) (c : Nat)
    (n : BLNode) (k : Nat) (item : Value) (hiE : item ≠ E) (hiT : item ≠ T)
    (hrep : BLRep B E T q cs l c) (he : (cs.map Prod.snd).flatten = [])
    (hn : q.hs.mem.qnode q.head = some n) (hk : n.pop_idx = (k : Int)) (hkB : k < B) :
    ∃ q1 n1 q2 n1' n2,
      n.next = 0
      ∧ BLQueue_pop B E T (B + 1 + f) q = .ok (E, q1)
      ∧ q1.head = q.head ∧ q1.hs.mem.brk = q.hs.mem.brk
      ∧ q1.hs.mem.qnode q.head = some n1
      ∧ n1.pop_idx = (B : Int) + 1 ∧ n1.next = 0
      ∧ (∀ i, k ≤ i → i < B → n1.buffer i = T)
      ∧ BLQueue_push B E T (B + 1 + f) q1 item = .ok q2
      ∧ q2.hs.mem.brk = q1.hs.mem.brk + 1 ∧ q2.tail = q1.hs.mem.brk
      ∧ q2.head = q.head ∧ q2.tail ≠ q.head
      ∧ q2.hs.mem.qnode q.head = some n1' ∧ n1'.next = q2.tail
      ∧ n1'.pop_idx = (B : Int) + 1
      ∧ q2.hs.mem.qnode q2.tail = some n2 ∧ n2.next = 0 ∧ n2.buffer 0 = item
      ∧ n2.pop_idx = 0 ∧ n2.push_idx = 1
      ∧ BLRep B E T q2 [(q.head, []), (q2.tail, [item])] l c := by
  obtain ⟨hcs, hht⟩ := hrep.empty_single he
  subst hcs
  obtain ⟨n0, po, pu, hn0, hcl, hpo, hh0, hnil, _⟩ := hrep.head_cells
  rw [hn] at hn0
  cases hn0
  have hpk : po = k := by
    have h1 := hcl.pop
    omega
  subst hpk
  have hlen := hcl.len
  simp only [List.length_nil] at hlen
  have hpule := hcl.pu_le
  -- the pop
  obtain ⟨qa, n1, a1, a2, a3, a4, a5, a6, a7, a8⟩ :=
    BLQueue_pop_loop_close B E T hB (B - po) (f + po) q l c n po pu hrep hn hcl (by omega)
  obtain ⟨hta, _⟩ := arrayIndex_of_registered qa.hs a2.retired.reg
  have hpop : BLQueue_pop B E T (B + 1 + f) q
      = .ok (E, { qa with hs := { qa.hs with
          hp := qa.hs.hp.setPointer qa.hs._thread_id.toNat 0 } }) := by
    rw [show B + 1 + f = B - po + 1 + (f + po) by omega]
    simp only [BLQueue_pop, a1, HazardPointer_clear, hta]
  have hrep1 := a2.clear_slot 0
  -- the push
  have hrep1' : BLRep B E T
      { qa with hs := { qa.hs with hp := qa.hs.hp.setPointer qa.hs._thread_id.toNat 0 } }
      ([] ++ [(qa.tail, [])]) l c := by
    have e : qa.tail = q.head := by rw [a4]; exact hht.symm
    have h := hrep1
    rw [← e] at h
    exact h
  have hn1 : qa.hs.mem.qnode qa.tail = some n1 := by
    rw [a4, ← hht]; exact a6
  obtain ⟨qb, b1, b2, b3, b4, ⟨n1', b5, b6⟩, ⟨n2, b7, b8, b9⟩⟩ :=
    BLQueue_push_loop_closed B E T hB hB1 item hiE hiT (B - pu) (f + pu)
      { qa with hs := { qa.hs with hp := qa.hs.hp.setPointer qa.hs._thread_id.toNat 0 } }
      [] l c n1 (B + 1) pu hrep1' hn1 a7 (Nat.lt_succ_self B) (by omega)
  obtain ⟨htb, _⟩ := arrayIndex_of_registered qb.hs b2.retired.reg
  have hpush : BLQueue_push B E T (B + 1 + f)
      { qa with hs := { qa.hs with hp := qa.hs.hp.setPointer qa.hs._thread_id.toNat 0 } } item
      = .ok { qb with hs := { qb.hs with
          hp := qb.hs.hp.setPointer qb.hs._thread_id.toNat 0 } } := by
    rw [show B + 1 + f = B - pu + 1 + (f + pu) by omega]
    simp only [BLQueue_push, b1, HazardPointer_clear, htb]
  have hqat : qa.tail = q.head := by rw [a4]; exact hht.symm
  have hrep2 : BLRep B E T qb [(q.head, []), (qa.hs.mem.brk, [item])] l c := by
    have := b2
    simp only [List.nil_append] at this
    rw [← hqat]
    exact this
  have htail : qb.tail = qa.hs.mem.brk := by
    have := hrep2.tail
    simp at this
    exact this.symm
  have hbh : qb.head = q.head := by rw [b4]; exact a3
  have hfresh : q.head < qa.hs.mem.brk := by
    rw [a5]
    exact hrep.fresh q.head [] (by simp)
  -- the closed node now points to the new one
  have hrep2' : BLRep B E T qb ((qb.head, []) :: [(qa.hs.mem.brk, [item])]) l c := by
    rw [hbh]; exact hrep2
  obtain ⟨m1, po1, pu1, hm1, hcl1, _, _, _, hcons⟩ := hrep2'.head_cells
  obtain ⟨hnx1, _, _⟩ := hcons _ _ _ rfl
  have hm1' : qb.hs.mem.qnode q.head = some m1 := by rw [← hbh]; exact hm1
  have hb5 : qb.hs.mem.qnode q.head = some n1' := by rw [← hqat]; exact b5
  have hm1n : m1 = n1' := by
    rw [hm1'] at hb5
    exact Option.some.inj hb5
  subst hm1n
  -- the new node
  obtain ⟨m2, po2, pu2, hm2, hcl2, _⟩ := hrep2.nodes qa.hs.mem.brk [item] (by simp)
  have hm2n : m2 = n2 := by
    have e : qb.hs.mem.qnode qa.hs.mem.brk = some n2 := b7
    rw [hm2] at e
    exact Option.some.inj e
  subst hm2n
  have hpo2 : po2 = 0 := by
    have h1 := hcl2.pop
    omega
  subst hpo2
  have hitem : m2.buffer 0 = item := by
    have := (hcl2.vals 0 item (by simp)).1
    simpa using this
  have hnx2 : m2.next = 0 := by
    rw [← htail] at hrep2
    have hr : BLRep B E T qb ([(q.head, [])] ++ [(qb.tail, [item])]) l c := hrep2
    obtain ⟨m, _, _, hm, _, _, _, hmx, _, _⟩ := hr.tail_node
    rw [htail, hm2] at hm
    cases hm
    exact hmx
  refine ⟨_, n1, _, m1, m2, hnil rfl, hpop, a3, a5, a6, ?_, a8, ?_, hpush, b3, htail, hbh, ?_,
    hm1', ?_, ?_, ?_, hnx2, hitem, b8, b9, ?_⟩
  · have := a7.pop
    rw [this]; push_cast; rfl
  · intro i h1 h2
    exact a7.taken i (by omega) (by omega) h2
  · show qb.tail ≠ q.head
    rw [htail]; omega
  · show m1.next = qb.tail
    rw [htail]; exact hnx1
  · have h1 := b6.1
    have h2 := a7.pop
    rw [h1, h2]; push_cast; rfl
  · show qb.hs.mem.qnode qb.tail = some m2
    rw [htail]; exact hm2
  · have := hrep2.clear_slot 0
    rw [← htail] at this
    exact this

/-- Below the wrap-around of `pop_idx`: in a state reached by sequential calls of one
registered thread on a new queue, with no unpopped value and a head node with
`pop_idx = k < BUFFER_SIZE` (such a node has no successor), `BLQueue_pop` returns
`EMPTY_VALUE` and closes the node: the cells `k`, ..., `BUFFER_SIZE - 1` are left
`TAKEN_VALUE` and `pop_idx` is left at `BUFFER_SIZE + 1`.  The next `BLQueue_push` then
returns with its value in cell 0 of a newly allocated node, linked behind the closed one,
which still holds no value of the queue. -/
theorem BLQueue_pop_closes_node (B : Nat) (E T : Value) (hB1 : 1 ≤ B) (hET : E ≠ T)
    (fuel : Nat) (hp : HazardPointer) (thread_id num_threads : Int) (ops : List Op)
    (k : Nat) (item : Value)
    (h0 : 0 ≤ thread_id) (h1 : thread_id < num_threads) (h2 : num_threads ≤ (MAX_THREADS : Int))
    (hfuel : B + 130 ≤ fuel) (hv : ∀ v, v ∈ pushedValues ops → v ≠ E ∧ v ≠ T)
    (hlen : B + ops.length + 2 < 2147483647)
    (hiE : item ≠ E) (hiT : item ≠ T)
    (hnone : refFinal [] ops = [])
    (hk : headPopIdx (BLQueue_session B E T fuel hp thread_id num_threads ops) = some (k : Int))
    (hkB : k < B) :
    ∃ rs q n q1 n1 q2 n1' n2 l c,
      BLQueue_session B E T fuel hp thread_id num_threads ops = .ok (rs, q)
      ∧ q.hs.mem.qnode q.head = some n ∧ n.pop_idx = (k : Int) ∧ n.next = 0
      ∧ BLQueue_pop B E T fuel q = .ok (E, q1)
      ∧ q1.head = q.head ∧ q1.hs.mem.brk = q.hs.mem.brk
      ∧ q1.hs.mem.qnode q.head = some n1
      ∧ n1.pop_idx = (B : Int) + 1 ∧ n1.next = 0
      ∧ (∀ i, k ≤ i → i < B → n1.buffer i = T)
      ∧ BLQueue_push B E T fuel q1 item = .ok q2
      ∧ q2.hs.mem.brk = q1.hs.mem.brk + 1 ∧ q2.tail = q1.hs.mem.brk
      ∧ q2.head = q.head ∧ q2.tail ≠ q.head
      ∧ q2.hs.mem.qnode q.head = some n1' ∧ n1'.next = q2.tail
      ∧ n1'.pop_idx = (B : Int) + 1
      ∧ q2.hs.mem.qnode q2.tail = some n2 ∧ n2.next = 0 ∧ n2.buffer 0 = item
      ∧ n2.pop_idx = 0 ∧ n2.push_idx = 1
      ∧ BLRep B E T q2 [(q.head, []), (q2.tail, [item])] l c := by
  obtain ⟨q, hs, cs, l, hrep, hvals⟩ :=
    BLQueue_session_rep B E T hB1 hET fuel hp thread_id num_threads ops h0 h1 h2 hfuel hv hlen
  rw [hs] at hk
  simp only [headPopIdx, Option.map_eq_some'] at hk
  obtain ⟨n, hn, hnk⟩ := hk
  have he : (cs.map Prod.snd).flatten = [] := by rw [← hvals]; exact hnone
  obtain ⟨q1, n1, q2, n1', n2, c1, c2, c3⟩ :=
    BLQueue_pop_push_closed B E T (by omega) hB1 (fuel - (B + 1)) q cs l ops.length n k item
      hiE hiT hrep he hn hnk hkB
  rw [show B + 1 + (fuel - (B + 1)) = fuel by omega] at c2 c3
  exact ⟨_, q, n, q1, n1, q2, n1', n2, l, ops.length, hs, hn, hnk, c1, c2, c3⟩

/-- With `BUFFER_SIZE = 4`, `EMPTY_VALUE = 0`, `TAKEN_VALUE = -1`: after a push and a
pop the only node has `pop_idx = 1`; the next pop closes it and the push of 7 goes to a
new node. -/
theorem BLQueue_pop_closes_node_witness :
    ∃ rs q n q1 n1 q2 n1' n2 l c,
      BLQueue_session 4 0 (-1) 134 hp0 0 1 [.push 5, .pop] = .ok (rs, q)
      ∧ q.hs.mem.qnode q.head = some n ∧ n.pop_idx = ((1 : Nat) : Int) ∧ n.next = 0
      ∧ BLQueue_pop 4 0 (-1) 134 q = .ok (0, q1)
      ∧ q1.head = q.head ∧ q1.hs.mem.brk = q.hs.mem.brk
      ∧ q1.hs.mem.qnode q.head = some n1
      ∧ n1.pop_idx = ((4 : Nat) : Int) + 1 ∧ n1.next = 0
      ∧ (∀ i, 1 ≤ i → i < 4 → n1.buffer i = -1)
      ∧ BLQueue_push 4 0 (-1) 134 q1 7 = .ok q2
      ∧ q2.hs.mem.brk = q1.hs.mem.brk + 1 ∧ q2.tail = q1.hs.mem.brk
      ∧ q2.head = q.head ∧ q2.tail ≠ q.head
      ∧ q2.hs.mem.qnode q.head = some n1' ∧ n1'.next = q2.tail
      ∧ n1'.pop_idx = ((4 : Nat) : Int) + 1
      ∧ q2.hs.mem.qnode q2.tail = some n2 ∧ n2.next = 0 ∧ n2.buffer 0 = 7
      ∧ n2.pop_idx = 0 ∧ n2.push_idx = 1
      ∧ BLRep 4 0 (-1) q2 [(q.head, []), (q2.tail, [7])] l c :=
  BLQueue_pop_closes_node 4 0 (-1) (by decide) (by decide) 134 hp0 0 1 [.push 5, .pop] 1 7
    (by decide) (by decide) (by decide) (by decide) (by decide) (by decide) (by decide)
    (by decide) (by decide) (by decide) (by decide)

/-! ## BLQueue.c: a pop after the wrap-around of `pop_idx` -/

theorem refFinal_replicate_pop (n : Nat) : refFinal [] (List.replicate n Op.pop) = [] := by
  induction n with
  | zero => rfl
  | succ n ih => simpa only [List.replicate_succ, refFinal, refStep] using ih

/-- C21 (the code at the failing input), with `BUFFER_SIZE = 1024`, `EMPTY_VALUE = 0`,
`TAKEN_VALUE = -1`: after `2^32 - 1024` pops of a new queue there is no unpopped value and
the head node has no successor and `pop_idx = 0 < BUFFER_SIZE`, the 32-bit counter having
wrapped around.  The pop made in this state does not return `EMPTY_VALUE` and does not
close the node: it returns `TAKEN_VALUE` and leaves `pop_idx = 1`. -/
theorem BLQueue_pop_reopens_closed_node :
    ∃ rs q n q' n',
      BLQueue_session 1024 0 (-1) 1025 hp0 0 1 (List.replicate 4294966272 .pop) = .ok (rs, q)
      ∧ refFinal [] (List.replicate 4294966272 .pop) = []
      ∧ q.hs.mem.qnode q.head = some n ∧ n.pop_idx = 0 ∧ n.next = 0
      ∧ BLQueue_pop 1024 0 (-1) 1025 q = .ok (-1, q')
      ∧ q'.hs.mem.qnode q'.head = some n' ∧ n'.pop_idx = 1
      ∧ n'.pop_idx ≠ ((1024 : Nat) : Int) + 1 := by
  obtain ⟨q, h1, h2⟩ := BLQueue_session_pops 1024 0 (-1) (by decide) 0 hp0 0 1
    (by decide) (by decide) (by decide) 4294966271 (by decide)
  have hw : wrap32 (((1024 : Nat) : Int) + 1 + ((4294966271 : Nat) : Int)) = 0 := by
    unfold wrap32; decide
  rw [hw] at h2
  obtain ⟨q', h3, h4⟩ := BLQueue_pop_inside 1024 0 (-1) 1024 q 0 (by decide) h2 (by decide)
  have hw1 : wrap32 ((0 : Int) + 1) = 1 := by
    unfold wrap32; decide
  rw [hw1] at h4
  obtain ⟨_, _, n, hn, hnx, hp, _⟩ := h2
  obtain ⟨_, _, n', hn', _, hp', _⟩ := h4
  refine ⟨_, q, n, q', n', h1, refFinal_replicate_pop _, hn, hp, hnx, h3, hn', hp', ?_⟩
  rw [hp']; decide

/-! ## BLQueue.c: what holds in every reachable state, and the cells -/

/-- More fuel does not change the result of a scan that returned. -/
theorem clean_retired_list_loop_mono {N : Type} (t k : Nat) :
    ∀ (fuel : Nat) (s : HPState N) (curr prev : Nat) (r : HPState N × Nat),
      clean_retired_list_loop t fuel s curr prev = .ok r →
      clean_retired_list_loop t (fuel + k) s curr prev = .ok r
  | 0, s, curr, prev, r, h => by simp [clean_retired_list_loop] at h
  | fuel + 1, s, curr, prev, r, h => by
    rw [show fuel + 1 + k = (fuel + k) + 1 by omega]
    unfold clean_retired_list_loop at h ⊢
    by_cases hc : curr = 0
    · simp only [hc, if_true] at h ⊢
      exact h
    · simp only [hc, if_false] at h ⊢
      cases hr : s.mem.rnode curr with
      | none => simp [hr] at h
      | some c =>
        simp only [hr] at h ⊢
        cases hcf : can_free_node s curr with
        | error e => simp [hcf] at h
        | ok b =>
          cases b with
          | false =>
            simp only [hcf] at h ⊢
            exact clean_retired_list_loop_mono t k fuel s c.next curr r h
          | true =>
            simp only [hcf] at h ⊢
            by_cases hp : prev = 0
            · simp only [hp, if_true, hr] at h ⊢
              cases h3 : (free s.mem c.pointer).rnode curr with
              | none => simp [h3] at h
              | some c3 =>
                simp only [h3] at h ⊢
                exact clean_retired_list_loop_mono t k fuel _ c.next 0 r h
            · simp only [hp, if_false] at h ⊢
              cases hrp : s.mem.rnode prev with
              | none => simp [hrp] at h
              | some p =>
                simp only [hrp] at h ⊢
                cases h2 : (s.mem.store prev (Obj.rnode { pointer := p.pointer, next := c.next })).rnode
                    curr with
                | none => simp [h2] at h
                | some c2 =>
                  simp only [h2] at h ⊢
                  cases h3 : (free (s.mem.store prev
                      (Obj.rnode { pointer := p.pointer, next := c.next })) c2.pointer).rnode curr with
                  | none => simp [h3] at h
                  | some c3 =>
                    simp only [h3] at h ⊢
                    exact clean_retired_list_loop_mono t k fuel _ c.next prev r h

theorem clean_retired_list_mono {N : Type} (k fuel : Nat) (s s' : HPState N)
    (h : clean_retired_list fuel s = .ok s') : clean_retired_list (fuel + k) s = .ok s' := by
  unfold clean_retired_list at h ⊢
  split at h
  · cases h
  · rename_i t ht
    simp only [ht]
    split at h
    · cases h
    · rename_i s1 prev h1
      rw [clean_retired_list_loop_mono t k fuel s _ 0 _ h1]
      exact h

theorem HazardPointer_retire_mono {N : Type} (k fuel : Nat) (s s' : HPState N) (ptr : Nat)
    (h : HazardPointer_retire fuel s ptr = .ok s') :
    HazardPointer_retire (fuel + k) s ptr = .ok s' := by
  unfold HazardPointer_retire at h ⊢
  cases ht : arrayIndex s._thread_id with
  | none => simp [ht] at h
  | some t =>
    simp only [ht] at h ⊢
    by_cases hsz : (s.hp.retired_ptrs t).size = RETIRED_THRESHOLD
    · rw [if_pos hsz] at h ⊢
      cases h1 : clean_retired_list fuel s with
      | error e => simp [h1] at h
      | ok s1 =>
        simp only [h1] at h
        rw [clean_retired_list_mono k fuel s s1 h1]
        exact h
    · rw [if_neg hsz] at h ⊢
      exact h

theorem advance_head_mono {N : Type} (k fuel : Nat) (hs : HPState N) (head e next : Nat)
    (r : HPState N × Nat) (h : advance_head fuel hs head e next = .ok r) :
    advance_head (fuel + k) hs head e next = .ok r := by
  unfold advance_head at h ⊢
  split at h
  · rename_i he
    rw [if_pos he]
    split at h
    · cases h
    · rename_i hs1 h1
      rw [HazardPointer_retire_mono k fuel hs hs1 _ h1]
      exact h
  · rename_i he
    rw [if_neg he]
    exact h

/-- The head node of a queue in a reachable state. -/
theorem BLWeak.first_node {B : Nat} {E T : Value} {q : BLQueue} {as l : List Nat}
    (h : BLWeak B E T q as l) :
    ∃ rest n, as = q.head :: rest ∧ q.head ≠ 0 ∧ q.hs.mem.qnode q.head = some n
      ∧ (rest = [] → n.next = 0 ∧ q.tail = q.head)
      ∧ (∀ h2 r2, rest = h2 :: r2 → n.next = h2 ∧ h2 ≠ 0) := by
  cases as with
  | nil => have := h.tail; simp at this
  | cons a rest =>
    obtain ⟨e, hne, k, hk, hseg⟩ := h.chain
    obtain ⟨n, hn, hnk⟩ := nodeNext_some hk
    subst e
    refine ⟨rest, n, rfl, hne, hn, ?_, ?_⟩
    · intro hr
      subst hr
      have h0 : k = 0 := hseg
      have ht := h.tail
      simp only [List.getLast?_singleton, Option.some.injEq] at ht
      exact ⟨by rw [hnk]; exact h0, ht.symm⟩
    · intro h2 r2 hr
      subst hr
      obtain ⟨e2, hne2, _⟩ := hseg
      rw [hnk, e2]
      exact ⟨rfl, e2 ▸ hne2⟩

/-- The tail node of a queue in a reachable state is the last node of the chain. -/
theorem BLWeak.last_node {B : Nat} {E T : Value} {q : BLQueue} {as l : List Nat}
    (h : BLWeak B E T q as l) :
    ∃ pre n, as = pre ++ [q.tail] ∧ q.tail ≠ 0 ∧ q.hs.mem.qnode q.tail = some n ∧ n.next = 0
      ∧ q.tail ∉ pre ∧ Seg (nodeNext BLNode.next q.hs.mem) q.head pre q.tail := by
  have hnd := Chain_nodup _ _ h.chain
  rcases List.eq_nil_or_concat as with hnil | ⟨pre, x, hx⟩
  · subst hnil; have := h.tail; simp at this
  · rw [List.concat_eq_append] at hx
    subst hx
    have ht : x = q.tail := by simpa using h.tail
    subst ht
    obtain ⟨hseg, h0, hnx⟩ := (Seg_snoc pre _ _ 0).mp h.chain
    obtain ⟨n, hn, hnk⟩ := nodeNext_some hnx
    refine ⟨pre, n, rfl, h0, hn, hnk, ?_, hseg⟩
    intro hmem
    exact (List.nodup_append.mp hnd).2.2 hmem (by simp)

theorem BLWeak.weak_nodes {B : Nat} {E T : Value} {q : BLQueue} {as l : List Nat}
    (h : BLWeak B E T q as l) (a : Nat) (ha : a ∈ as) : ∃ n, q.hs.mem.qnode a = some n := by
  obtain ⟨k, hk⟩ := Seg_mem_some as _ 0 h.chain a ha
  obtain ⟨n, hn, _⟩ := nodeNext_some hk
  exact ⟨n, hn⟩

/-- The queue after one of its nodes was touched without changing its `next`. -/
theorem BLWeak.touch_weak {B : Nat} {E T : Value} {q : BLQueue} {as l : List Nat} {a : Nat}
    {hs2 : HPState BLNode} {n n' : BLNode}
    (h : BLWeak B E T q as l) (ht : HeadTouched q.hs a hs2 n')
    (hn : q.hs.mem.qnode a = some n) (hnext : n'.next = n.next)
    (hcells : a = q.tail → ∀ i, i < B → n'.push_idx ≤ (i : Int) →
      n'.buffer i = E ∨ n'.buffer i = T) :
    BLWeak B E T { q with hs := hs2 } as l := by
  obtain ⟨hchain, htail, hc, hfresh, hret⟩ := h
  refine ⟨?_, htail, ?_, ?_, ht.retired hn hret⟩
  · refine Seg_congr _ _ _ ?_ hchain
    intro x _
    by_cases hx : x = a
    · subst hx
      show nodeNext BLNode.next hs2.mem _ = _
      rw [nodeNext_of_qnode ht.node, nodeNext_of_qnode hn, hnext]
    · exact nodeNext_congr (Mem.qnode_congr (ht.obj x hx))
  · intro m hm
    have hm' : hs2.mem.qnode q.tail = some m := hm
    by_cases hx : a = q.tail
    · rw [← hx, ht.node] at hm'
      cases hm'
      exact hcells hx
    · rw [Mem.qnode_congr (ht.obj q.tail (Ne.symm hx))] at hm'
      exact hc m hm'
  · intro x hx
    show x < hs2.mem.brk
    rw [ht.brk]
    exact hfresh x hx

theorem BLWeak.touched_weak {B : Nat} {E T : Value} {q : BLQueue} {as l : List Nat} {x : Nat}
    {hs2 : HPState BLNode} {n n' : BLNode}
    (h : BLWeak B E T q as l) (ht : HeadTouched q.hs x hs2 n')
    (hn : q.hs.mem.qnode x = some n) (R : BLNode → BLNode → Prop) (hrefl : ∀ m, R m m)
    (hR : R n n') :
    ∀ a, a ∈ as → ∃ m m', q.hs.mem.qnode a = some m ∧ hs2.mem.qnode a = some m' ∧ R m m' := by
  intro a ha
  obtain ⟨m, hmq⟩ := h.weak_nodes a ha
  by_cases hx : a = x
  · rw [hx] at hmq ⊢
    rw [hn] at hmq
    cases hmq
    exact ⟨n, n', hn, ht.node, hR⟩
  · exact ⟨m, m, hmq, by rw [Mem.qnode_congr (ht.obj a hx)]; exact hmq, hrefl m⟩

theorem BLWeak.slot_weak {B : Nat} {E T : Value} {q : BLQueue} {as l : List Nat}
    (h : BLWeak B E T q as l) (x : Nat) :
    BLWeak B E T
      { q with hs := { q.hs with hp := q.hs.hp.setPointer q.hs._thread_id.toNat x } } as l := by
  obtain ⟨hchain, htail, hc, hfresh, hret⟩ := h
  refine ⟨hchain, htail, hc, hfresh, ?_⟩
  refine hret.of_frame rfl ?_ rfl rfl (fun _ _ => rfl) (le_refl _) (fun x hx => Or.inl hx)
  intro j hj
  simp [HazardPointer.setPointer, hj]

/-- A represented state is a reachable state in the weak sense. -/
theorem BLRep.weak {B : Nat} {E T : Value} {q : BLQueue} {cs : List (Nat × List Value)}
    {l : List Nat} {c : Nat} (h : BLRep B E T q cs l c) :
    BLWeak B E T q (cs.map Prod.fst) l := by
  obtain ⟨cs0, vs, rfl⟩ := h.tail_cases
  obtain ⟨n, po, pu, hn, hcl, _, _, hnx, _, _⟩ := h.tail_node
  refine ⟨h.chain, h.tail, ?_, ?_, h.retired⟩
  · intro m hm i hi hpi
    rw [hn] at hm
    cases hm
    have hp := hcl.push hnx
    have hpui : pu ≤ i := by omega
    by_cases hpo : i < po
    · exact Or.inr (hcl.taken i hpui hpo hi)
    · exact Or.inl (hcl.empty i hpui (by omega) hi)
  · intro a ha
    obtain ⟨⟨a', w⟩, hm, rfl⟩ := List.mem_map.mp ha
    exact h.fresh a' w hm

/-- The head of a `BLQueue` in a reachable state moves on to its successor and the old
head is retired, if `advance_head` returns. -/
theorem BLWeak.advance {B : Nat} {E T : Value} {q : BLQueue} {h2 : Nat} {rest l : List Nat}
    {hs2 hs3 : HPState BLNode} {n n' : BLNode} {x : Nat} (fuel : Nat)
    (h : BLWeak B E T q (q.head :: h2 :: rest) l)
    (ht : HeadTouched q.hs q.head hs2 n') (hn : q.hs.mem.qnode q.head = some n)
    (hadv : advance_head fuel hs2 q.head q.head h2 = .ok (hs3, x)) :
    x = h2 ∧ ∃ l', BLWeak B E T { hs := hs3, head := h2, tail := q.tail } (h2 :: rest) l'
      ∧ ∀ a, a ∈ h2 :: rest → hs3.mem.qnode a = q.hs.mem.qnode a := by
  have hnd := Chain_nodup _ _ h.chain
  simp only [List.nodup_cons] at hnd
  obtain ⟨hchain, htail, hc, hfresh, hret⟩ := h
  obtain ⟨e, hh0, nx, hnx, hrest⟩ := hchain
  have hret2 : RetiredOK hs2 (q.head :: h2 :: rest) l := ht.retired hn hret
  have hlive_ne : ∀ a, a ∈ h2 :: rest → a ≠ q.head := by
    intro a ha h
    exact hnd.1 (h ▸ ha)
  have hnodes : ∀ a, a ∈ h2 :: rest → ∃ k, q.hs.mem.qnode a = some k := by
    intro a ha
    obtain ⟨k, hk⟩ := Seg_mem_some _ _ 0 hrest a ha
    obtain ⟨m, hm, _⟩ := nodeNext_some hk
    exact ⟨m, hm⟩
  have hlive : ∀ a, a ∈ h2 :: rest → (∃ k, hs2.mem.qnode a = some k) ∧ a < hs2.mem.brk := by
    intro a ha
    obtain ⟨m, hmq⟩ := hnodes a ha
    refine ⟨⟨m, ?_⟩, ?_⟩
    · rw [Mem.qnode_congr (ht.obj a (hlive_ne a ha))]; exact hmq
    · rw [ht.brk]; exact hfresh a (List.mem_cons_of_mem _ ha)
  have hprot : hs2.hp.pointer hs2._thread_id.toNat = q.head := by
    rw [ht.hp, ht.thread_id]
    simp [HazardPointer.setPointer]
  obtain ⟨hs3', l', r1, r2, r3, r4, r5⟩ :=
    HazardPointer_retire_seq hs2 (fuel + 129) q.head n' _ l hret2 (by omega) ht.node hprot
      (by rw [ht.brk]; exact hfresh q.head (by simp)) hnd.1 hlive
  have hadv' := advance_head_mono 129 fuel hs2 q.head q.head h2 _ hadv
  simp only [advance_head, if_true, r1] at hadv'
  have e1 : hs3' = hs3 := by
    have := Except.ok.inj hadv'
    exact (Prod.mk.inj this).1
  have e2 : h2 = x := by
    have := Except.ok.inj hadv'
    exact (Prod.mk.inj this).2
  subst e1
  have hq3 : ∀ a, a ∈ h2 :: rest → hs3'.mem.qnode a = q.hs.mem.qnode a := by
    intro a ha
    rw [r5 a ha, Mem.qnode_congr (ht.obj a (hlive_ne a ha))]
  refine ⟨e2.symm, l', ⟨?_, ?_, ?_, ?_, r2⟩, hq3⟩
  · have hrest' : Chain (nodeNext BLNode.next q.hs.mem) h2 (h2 :: rest) := by
      have e3 : nx = h2 := hrest.1
      rw [e3] at hrest
      exact hrest
    exact Seg_congr _ _ _ (fun y hy => nodeNext_congr (hq3 y hy)) hrest'
  · simpa [List.getLast?_cons_cons] using htail
  · intro m hm
    have hm' : hs3'.mem.qnode q.tail = some m := hm
    have hmem : q.tail ∈ h2 :: rest := by
      have : (h2 :: rest).getLast? = some q.tail := by
        simpa [List.getLast?_cons_cons] using htail
      exact List.mem_of_getLast?_eq_some this
    rw [hq3 q.tail hmem] at hm'
    exact hc m hm'
  · intro a ha
    show a < hs3'.mem.brk
    rw [r4, ht.brk]
    have := hfresh a (List.mem_cons_of_mem _ ha)
    omega


theorem TakenCells.taken_refl (T : Value) (n : BLNode) : TakenCells T n n := fun _ => Or.inl rfl

theorem TakenCells.taken_trans {T : Value} {a b c : BLNode} (h1 : TakenCells T a b)
    (h2 : TakenCells T b c) : TakenCells T a c := by
  intro i
  rcases h2 i with h | h
  · rw [h]; exact h1 i
  · exact Or.inr h

theorem PutCells.put_refl (E T item : Value) (n : BLNode) : PutCells E T item n n :=
  fun _ => Or.inl rfl

theorem PutCells.put_trans {E T item : Value} {a b c : BLNode} (h1 : PutCells E T item a b)
    (h2 : PutCells E T item b c) : PutCells E T item a c := by
  intro i
  rcases h2 i with h | ⟨h, hb⟩
  · rw [h]; exact h1 i
  · rcases h1 i with h' | ⟨_, ha⟩
    · exact Or.inr ⟨h, h' ▸ hb⟩
    · exact Or.inr ⟨h, ha⟩

theorem bufIndex_some {size : Nat} {x : Int} {i : Nat} (h : bufIndex size x = some i) :
    0 ≤ x ∧ x = (i : Int) ∧ i < size := by
  unfold bufIndex at h
  split at h
  · rename_i hc
    have := Option.some.inj h
    omega
  · cases h

/-- The loop of `BLQueue_pop` from a reachable state, if it returns: the state it leaves
is a reachable state, the nodes still in the queue were there before, and their cells are
as before or hold `TAKEN_VALUE`. -/
theorem BLQueue_pop_loop_weak (B : Nat) (E T : Value) :
    ∀ (fuel : Nat) (q : BLQueue) (as l : List Nat) (v : Value) (q' : BLQueue),
      BLWeak B E T q as l → BLQueue_pop_loop B E T fuel q = .ok (v, q') →
      ∃ as' l', BLWeak B E T q' as' l' ∧ (∀ a, a ∈ as' → a ∈ as)
        ∧ ∀ a, a ∈ as' → ∃ n n', q.hs.mem.qnode a = some n ∧ q'.hs.mem.qnode a = some n'
            ∧ TakenCells T n n'
  | 0, q, as, l, v, q', hw, h => by simp [BLQueue_pop_loop] at h
  | fuel + 1, q, as, l, v, q', hw, h => by
    obtain ⟨rest, n, has, hh0, hn, hnil, hcons⟩ := hw.first_node
    obtain ⟨ht, _⟩ := arrayIndex_of_registered q.hs hw.retired.reg
    unfold BLQueue_pop_loop at h
    simp only [HazardPointer_protect_succ q.head fuel q.hs _ ht, ne_eq, not_true_eq_false,
      if_false, hn] at h
    by_cases hin : n.pop_idx < (B : Int) ∧ n.pop_idx ≥ 0
    · rw [if_pos hin] at h
      cases hb : bufIndex B n.pop_idx with
      | none => simp [hb] at h
      | some i =>
        simp only [hb] at h
        have htouch := double_store_touched q.hs q.head
          { n with pop_idx := wrap32 (n.pop_idx + 1) }
          { next := n.next, buffer := setCell n.buffer i T, push_idx := n.push_idx,
            pop_idx := wrap32 (n.pop_idx + 1) } hh0
        have hR : TakenCells T n
            { next := n.next, buffer := setCell n.buffer i T, push_idx := n.push_idx,
              pop_idx := wrap32 (n.pop_idx + 1) } := by
          intro j
          show setCell n.buffer i T j = n.buffer j ∨ setCell n.buffer i T j = T
          unfold setCell
          by_cases hj : j = i
          · rw [if_pos hj]; exact Or.inr rfl
          · rw [if_neg hj]; exact Or.inl rfl
        have hw2 := hw.touch_weak htouch hn rfl (by
          intro _ j hj hpj
          show setCell n.buffer i T j = E ∨ setCell n.buffer i T j = T
          unfold setCell
          by_cases hji : j = i
          · rw [if_pos hji]; exact Or.inr rfl
          · rw [if_neg hji]
            exact hw.cells n (by rename_i e; rw [← e]; exact hn) j hj hpj)
        by_cases hv : n.buffer i = E
        · rw [if_neg (not_not.mpr hv)] at h
          obtain ⟨as', l', b1, b2, b3⟩ := BLQueue_pop_loop_weak B E T fuel _ as l v q' hw2 h
          refine ⟨as', l', b1, b2, ?_⟩
          intro a ha
          obtain ⟨m2, m', c1, c2, c3⟩ := b3 a ha
          obtain ⟨m, d1, d2⟩ := htouch.back hn (TakenCells T) (TakenCells.taken_refl T) hR a m2 c1
          exact ⟨m, m', d1, c2, d2.taken_trans c3⟩
        · rw [if_pos hv] at h
          have := Prod.mk.inj (Except.ok.inj h)
          obtain ⟨_, e2⟩ := this
          subst e2
          exact ⟨as, l, hw2, fun _ ha => ha,
            hw.touched_weak htouch hn (TakenCells T) (TakenCells.taken_refl T) hR⟩
    · rw [if_neg hin] at h
      have htouch : HeadTouched q.hs q.head
          { q.hs with
            mem := q.hs.mem.store q.head (Obj.qnode { n with pop_idx := wrap32 (n.pop_idx + 1) })
            hp := q.hs.hp.setPointer q.hs._thread_id.toNat q.head }
          { n with pop_idx := wrap32 (n.pop_idx + 1) } :=
        HeadTouched.store q.hs q.head _ hh0
      have hR : TakenCells T n { n with pop_idx := wrap32 (n.pop_idx + 1) } :=
        fun _ => Or.inl rfl
      have hw2 := hw.touch_weak htouch hn rfl (fun e j hj hpj =>
        hw.cells n (by rw [← e]; exact hn) j hj hpj)
      by_cases hnx : n.next = 0
      · rw [if_pos hnx] at h
        have := Prod.mk.inj (Except.ok.inj h)
        obtain ⟨_, e2⟩ := this
        subst e2
        exact ⟨as, l, hw2, fun _ ha => ha,
          hw.touched_weak htouch hn (TakenCells T) (TakenCells.taken_refl T) hR⟩
      · rw [if_neg hnx] at h
        cases rest with
        | nil => exact absurd (hnil rfl).1 hnx
        | cons h2 r2 =>
          obtain ⟨hnx2, h20⟩ := hcons h2 r2 rfl
          cases hadv : advance_head (fuel + 1)
              { q.hs with
                mem := q.hs.mem.store q.head
                  (Obj.qnode { n with pop_idx := wrap32 (n.pop_idx + 1) })
                hp := q.hs.hp.setPointer q.hs._thread_id.toNat q.head }
              q.head q.head n.next with
          | error e => simp [hadv] at h
          | ok p =>
            obtain ⟨hs3, x⟩ := p
            simp only [hadv] at h
            have hadv2 : advance_head (fuel + 1)
                { q.hs with
                  mem := q.hs.mem.store q.head
                    (Obj.qnode { n with pop_idx := wrap32 (n.pop_idx + 1) })
                  hp := q.hs.hp.setPointer q.hs._thread_id.toNat q.head }
                q.head q.head h2 = .ok (hs3, x) := by
              rw [← hnx2]; exact hadv
            rw [has] at hw
            obtain ⟨ex, l3, hw3, hq3⟩ := hw.advance (fuel + 1) htouch hn hadv2
            subst ex
            obtain ⟨as', l', b1, b2, b3⟩ := BLQueue_pop_loop_weak B E T fuel _ _ l3 v q' hw3 h
            refine ⟨as', l', b1, fun a ha => by rw [has]; exact List.mem_cons_of_mem _ (b2 a ha),
              ?_⟩
            intro a ha
            obtain ⟨m2, m', c1, c2, c3⟩ := b3 a ha
            have c1' : hs3.mem.qnode a = some m2 := c1
            rw [hq3 a (b2 a ha)] at c1'
            exact ⟨m2, m', c1', c2, c3⟩


/-- The loop of `BLQueue_is_empty` from a reachable state, if it returns: the state it
leaves is a reachable state, and the nodes still in the queue are as they were. -/
theorem BLQueue_is_empty_loop_weak (B : Nat) (E T : Value) :
    ∀ (fuel : Nat) (q : BLQueue) (as l : List Nat) (v : Value) (q' : BLQueue),
      BLWeak B E T q as l → BLQueue_is_empty_loop B E T fuel q = .ok (v, q') →
      ∃ as' l', BLWeak B E T q' as' l' ∧ (∀ a, a ∈ as' → a ∈ as)
        ∧ ∀ a, a ∈ as' → ∃ n, q.hs.mem.qnode a = some n ∧ q'.hs.mem.qnode a = some n
  | 0, q, as, l, v, q', hw, h => by simp [BLQueue_is_empty_loop] at h
  | fuel + 1, q, as, l, v, q', hw, h => by
    obtain ⟨rest, n, has, hh0, hn, hnil, hcons⟩ := hw.first_node
    obtain ⟨ht, _⟩ := arrayIndex_of_registered q.hs hw.retired.reg
    unfold BLQueue_is_empty_loop at h
    simp only [HazardPointer_protect_succ q.head fuel q.hs _ ht, ne_eq, not_true_eq_false,
      if_false, hn] at h
    have hw2 := hw.slot_weak q.head
    have hsame : ∀ a, a ∈ as → ∃ m, q.hs.mem.qnode a = some m
        ∧ ({ q with hs := { q.hs with
              hp := q.hs.hp.setPointer q.hs._thread_id.toNat q.head } } : BLQueue).hs.mem.qnode a
            = some m := by
      intro a ha
      obtain ⟨m, hm⟩ := hw.weak_nodes a ha
      exact ⟨m, hm, hm⟩
    by_cases hin : n.pop_idx < (B : Int)
    · rw [if_pos hin] at h
      cases hb : bufIndex B n.pop_idx with
      | none => simp [hb] at h
      | some i =>
        simp only [hb] at h
        by_cases hv : n.buffer i = E
        · rw [if_pos hv] at h
          have := Prod.mk.inj (Except.ok.inj h)
          obtain ⟨_, e2⟩ := this
          subst e2
          exact ⟨as, l, hw2, fun _ ha => ha, hsame⟩
        · rw [if_neg hv] at h
          by_cases hvT : n.buffer i = T
          · rw [if_pos hvT] at h
            obtain ⟨as', l', b1, b2, b3⟩ :=
              BLQueue_is_empty_loop_weak B E T fuel _ as l v q' hw2 h
            exact ⟨as', l', b1, b2, b3⟩
          · rw [if_neg hvT] at h
            have := Prod.mk.inj (Except.ok.inj h)
            obtain ⟨_, e2⟩ := this
            subst e2
            exact ⟨as, l, hw2, fun _ ha => ha, hsame⟩
    · rw [if_neg hin] at h
      by_cases hnx : n.next = 0
      · rw [if_pos hnx] at h
        have := Prod.mk.inj (Except.ok.inj h)
        obtain ⟨_, e2⟩ := this
        subst e2
        exact ⟨as, l, hw2, fun _ ha => ha, hsame⟩
      · rw [if_neg hnx] at h
        cases rest with
        | nil => exact absurd (hnil rfl).1 hnx
        | cons h2 r2 =>
          obtain ⟨hnx2, h20⟩ := hcons h2 r2 rfl
          have htouch := HeadTouched.protect q.hs q.head n hn
          cases hadv : advance_head (fuel + 1)
              { q.hs with hp := q.hs.hp.setPointer q.hs._thread_id.toNat q.head }
              q.head q.head n.next with
          | error e => simp [hadv] at h
          | ok p =>
            obtain ⟨hs3, x⟩ := p
            simp only [hadv] at h
            rw [hnx2] at hadv
            rw [has] at hw
            obtain ⟨ex, l3, hw3, hq3⟩ := hw.advance (fuel + 1) htouch hn hadv
            subst ex
            obtain ⟨as', l', b1, b2, b3⟩ :=
              BLQueue_is_empty_loop_weak B E T fuel _ _ l3 v q' hw3 h
            refine ⟨as', l', b1, fun a ha => by rw [has]; exact List.mem_cons_of_mem _ (b2 a ha),
              ?_⟩
            intro a ha
            obtain ⟨m, c1, c2⟩ := b3 a ha
            have c1' : hs3.mem.qnode a = some m := c1
            rw [hq3 a (b2 a ha)] at c1'
            exact ⟨m, c1', c2⟩


theorem BLQueue_push_loop_weak (B : Nat) (E T : Value) (hB : B ≤ 2147483647) (item : Value) :
    ∀ (fuel : Nat) (q : BLQueue) (as l : List Nat) (q' : BLQueue),
      BLWeak B E T q as l → BLQueue_push_loop B E T item fuel q = .ok q' →
      ∃ as' l', BLWeak B E T q' as' l'
        ∧ ∀ a, a ∈ as → ∃ n n', q.hs.mem.qnode a = some n ∧ q'.hs.mem.qnode a = some n'
            ∧ PutCells E T item n n'
  | 0, q, as, l, q', hw, h => by simp [BLQueue_push_loop] at h
  | fuel + 1, q, as, l, q', hw, h => by
    obtain ⟨pre, n, has, htl0, hn, hnx, hnotin, hseg⟩ := hw.last_node
    obtain ⟨ht, _⟩ := arrayIndex_of_registered q.hs hw.retired.reg
    unfold BLQueue_push_loop at h
    simp only [HazardPointer_protect_succ q.tail fuel q.hs _ ht, ne_eq, not_true_eq_false,
      if_false, hn] at h
    by_cases hlt : n.push_idx < (B : Int)
    · rw [if_pos hlt] at h
      cases hb : bufIndex B n.push_idx with
      | none => simp [hb] at h
      | some i =>
        simp only [hb] at h
        obtain ⟨hi0, hie, hiB⟩ := bufIndex_some hb
        have hcell := hw.cells n hn i hiB (by omega)
        have hwr : wrap32 (n.push_idx + 1) = n.push_idx + 1 :=
          wrap32_of_range _ (by omega) (by omega)
        have htouch := double_store_touched q.hs q.tail
          { n with push_idx := wrap32 (n.push_idx + 1) }
          { next := n.next, buffer := setCell n.buffer i item,
            push_idx := wrap32 (n.push_idx + 1), pop_idx := n.pop_idx } htl0
        have hR : PutCells E T item n
            { next := n.next, buffer := setCell n.buffer i item,
              push_idx := wrap32 (n.push_idx + 1), pop_idx := n.pop_idx } := by
          intro j
          show setCell n.buffer i item j = n.buffer j
            ∨ (setCell n.buffer i item j = item ∧ (n.buffer j = E ∨ n.buffer j = T))
          unfold setCell
          by_cases hj : j = i
          · rw [if_pos hj, hj]; exact Or.inr ⟨rfl, hcell⟩
          · rw [if_neg hj]; exact Or.inl rfl
        have hw2 := hw.touch_weak htouch hn rfl (by
          intro _ j hj hpj
          have hpj' : n.push_idx + 1 ≤ (j : Int) := hwr ▸ hpj
          show setCell n.buffer i item j = E ∨ setCell n.buffer i item j = T
          unfold setCell
          rw [if_neg (by omega)]
          exact hw.cells n hn j hj (by omega))
        by_cases hvr : n.buffer i = T
        · rw [if_neg (not_not.mpr hvr)] at h
          obtain ⟨as', l', b1, b3⟩ := BLQueue_push_loop_weak B E T hB item fuel _ as l q' hw2 h
          refine ⟨as', l', b1, ?_⟩
          intro a ha
          obtain ⟨m2, m', c1, c2, c3⟩ := b3 a ha
          obtain ⟨m, d1, d2⟩ :=
            htouch.back hn (PutCells E T item) (PutCells.put_refl E T item) hR a m2 c1
          exact ⟨m, m', d1, c2, d2.put_trans c3⟩
        · rw [if_pos hvr] at h
          have e2 := Except.ok.inj h
          subst e2
          exact ⟨as, l, hw2,
            hw.touched_weak htouch hn (PutCells E T item) (PutCells.put_refl E T item) hR⟩
    · rw [if_neg hlt, if_pos hnx] at h
      have hbrk := hw.retired.brk_pos
      simp only [BLNode_new_with_value, malloc, Mem.store_brk, hbrk, if_false] at h
      have htl_lt : q.tail < q.hs.mem.brk := hw.fresh q.tail (by rw [has]; simp)
      have htl_ne : q.tail ≠ q.hs.mem.brk := by omega
      have hm2 : ∀ (m : Mem BLNode) (k : BLNode) (o : Obj BLNode),
          (({ (m.store q.tail (Obj.qnode k)) with brk := q.hs.mem.brk + 1 } : Mem BLNode).store
            q.hs.mem.brk o).qnode q.tail = some k := by
        intro m k o
        rw [Mem.qnode_store_ne _ _ _ _ htl_ne]
        exact Mem.qnode_store_qnode _ _ _ htl0
      cases hb0 : bufIndex B 0 with
      | none => simp [hb0] at h
      | some i0 =>
        obtain ⟨_, hi00, hB1⟩ := bufIndex_some hb0
        have hi0 : i0 = 0 := by omega
        subst hi0
        simp only [hb0, if_true, hm2] at h
        have e2 := Except.ok.inj h
        subst e2
        obtain ⟨hchain, htail, hc, hfresh, hret⟩ := hw
        have hne_of_mem : ∀ a, a ∈ pre → a ≠ q.tail := fun a ha e => hnotin (e ▸ ha)
        have hfr : ∀ a, a ∈ pre → a ≠ q.hs.mem.brk := by
          intro a ha
          have := hfresh a (by rw [has]; exact List.mem_append_left _ ha)
          omega
        refine ⟨as ++ [q.hs.mem.brk], l, ⟨?_, ?_, ?_, ?_, ?_⟩, ?_⟩
        · rw [has]
          refine (Seg_snoc _ _ _ 0).mpr ⟨(Seg_snoc _ _ _ _).mpr ⟨Seg_congr _ _ _ ?_ hseg, htl0, ?_⟩,
            hbrk, ?_⟩
          · intro x hx
            apply nodeNext_congr
            show (Mem.store _ _ _).qnode x = _
            rw [Mem.qnode_store_ne _ _ _ _ (hne_of_mem x hx), Mem.qnode_store_ne _ _ _ _ (hfr x hx)]
            show (Mem.store _ _ _).qnode x = _
            rw [Mem.qnode_store_ne _ _ _ _ (hne_of_mem x hx)]
          · exact nodeNext_of_qnode (Mem.qnode_store_qnode _ _ _ htl0)
          · exact nodeNext_of_qnode (Mem.qnode_store_store _ _ _ _ _ (Ne.symm htl_ne) hbrk)
        · simp
        · intro m hm j hj hpj
          have hm' : (Mem.store _ _ _).qnode q.hs.mem.brk = some m := hm
          rw [Mem.qnode_store_store _ _ _ _ _ (Ne.symm htl_ne) hbrk] at hm'
          cases hm'
          have hpj' : (1 : Int) ≤ (j : Int) := hpj
          show (if j = 0 then item else if j < B then E else 0) = E
            ∨ (if j = 0 then item else if j < B then E else 0) = T
          rw [if_neg (by omega), if_pos hj]
          exact Or.inl rfl
        · intro a ha
          show a < q.hs.mem.brk + 1
          rcases List.mem_append.mp ha with h1 | h1
          · have := hfresh a h1; omega
          · simp only [List.mem_singleton] at h1
            omega
        · refine hret.of_frame rfl ?_ rfl rfl ?_ (Nat.le_succ _) ?_
          · intro j hj
            simp [HazardPointer.setPointer, hj]
          · intro a ha
            have ha1 : a ≠ q.hs.mem.brk := by
              have := hret.rfresh a ha; omega
            show (Mem.store _ _ _).rnode a = _
            rw [Mem.rnode_store_qnode _ _ _ _ _ (hm2 _ _ _), Mem.rnode_store_ne _ _ _ _ ha1]
            show (Mem.store _ _ _).rnode a = _
            rw [Mem.rnode_store_qnode _ _ _ _ n hn]
          · intro x hx
            rcases List.mem_append.mp hx with h1 | h1
            · exact Or.inl h1
            · simp only [List.mem_singleton] at h1
              right; omega
        · intro a ha
          rw [has] at ha
          rcases List.mem_append.mp ha with h1 | h1
          · obtain ⟨k, hk⟩ := Seg_mem_some _ _ _ hseg a h1
            obtain ⟨m, hmq, _⟩ := nodeNext_some hk
            refine ⟨m, m, hmq, ?_, PutCells.put_refl E T item m⟩
            show (Mem.store _ _ _).qnode a = _
            rw [Mem.qnode_store_ne _ _ _ _ (hne_of_mem a h1), Mem.qnode_store_ne _ _ _ _ (hfr a h1)]
            show (Mem.store _ _ _).qnode a = _
            rw [Mem.qnode_store_ne _ _ _ _ (hne_of_mem a h1)]
            exact hmq
          · simp only [List.mem_singleton] at h1
            rw [h1]
            exact ⟨n, _, hn, Mem.qnode_store_qnode _ _ _ htl0, fun _ => Or.inl rfl⟩


/-- One call on a `BLQueue` in a reachable state, if it returns: the state it leaves is a
reachable state, and every cell of a node that stays in the queue has moved as the call
allows. -/
theorem BLQueue_step_weak (B : Nat) (E T : Value) (hB : B ≤ 2147483647) (fuel : Nat)
    (q : BLQueue) (as l : List Nat) (op : Op) (r : Ret) (q' : BLQueue)
    (hw : BLWeak B E T q as l) (h : BLQueue_step B E T fuel q op = .ok (r, q')) :
    ∃ as' l', BLWeak B E T q' as' l'
      ∧ ∀ a, a ∈ as → a ∈ as' →
          ∃ n n', q.hs.mem.qnode a = some n ∧ q'.hs.mem.qnode a = some n'
            ∧ ∀ i, cellMove E T op (n.buffer i) (n'.buffer i) := by
  cases op with
  | push item =>
    simp only [BLQueue_step, BLQueue_push] at h
    cases hl : BLQueue_push_loop B E T item fuel q with
    | error e => simp [hl] at h
    | ok q1 =>
      obtain ⟨as', l', b1, b2⟩ := BLQueue_push_loop_weak B E T hB item fuel q as l q1 hw hl
      obtain ⟨ht, _⟩ := arrayIndex_of_registered q1.hs b1.retired.reg
      simp only [hl, HazardPointer_clear, ht] at h
      obtain ⟨_, e2⟩ := Prod.mk.inj (Except.ok.inj h)
      subst e2
      refine ⟨as', l', b1.slot_weak 0, ?_⟩
      intro a ha _
      obtain ⟨n, n', c1, c2, c3⟩ := b2 a ha
      exact ⟨n, n', c1, c2, fun i => c3 i⟩
  | pop =>
    simp only [BLQueue_step, BLQueue_pop] at h
    cases hl : BLQueue_pop_loop B E T fuel q with
    | error e => simp [hl] at h
    | ok p =>
      obtain ⟨v, q1⟩ := p
      obtain ⟨as', l', b1, _, b3⟩ := BLQueue_pop_loop_weak B E T fuel q as l v q1 hw hl
      obtain ⟨ht, _⟩ := arrayIndex_of_registered q1.hs b1.retired.reg
      simp only [hl, HazardPointer_clear, ht] at h
      obtain ⟨_, e2⟩ := Prod.mk.inj (Except.ok.inj h)
      subst e2
      refine ⟨as', l', b1.slot_weak 0, ?_⟩
      intro a _ ha'
      obtain ⟨n, n', c1, c2, c3⟩ := b3 a ha'
      refine ⟨n, n', c1, c2, fun i => ?_⟩
      rcases c3 i with h1 | h1
      · exact Or.inl h1
      · by_cases hT : n.buffer i = T
        · exact Or.inl (by rw [h1, hT])
        · exact Or.inr ⟨h1, hT⟩
  | is_empty =>
    simp only [BLQueue_step, BLQueue_is_empty] at h
    cases hl : BLQueue_is_empty_loop B E T fuel q with
    | error e => simp [hl] at h
    | ok p =>
      obtain ⟨v, q1⟩ := p
      obtain ⟨as', l', b1, _, b3⟩ := BLQueue_is_empty_loop_weak B E T fuel q as l v q1 hw hl
      obtain ⟨ht, _⟩ := arrayIndex_of_registered q1.hs b1.retired.reg
      simp only [hl, HazardPointer_clear, ht] at h
      obtain ⟨_, e2⟩ := Prod.mk.inj (Except.ok.inj h)
      subst e2
      refine ⟨as', l', b1.slot_weak 0, ?_⟩
      intro a _ ha'
      obtain ⟨n, c1, c2⟩ := b3 a ha'
      exact ⟨n, n, c1, c2, fun i => Or.inl rfl⟩

/-- Every state that a sequence of calls reaches from a reachable state is one. -/
theorem BLQueue_run_weak (B : Nat) (E T : Value) (hB : B ≤ 2147483647) (fuel : Nat) :
    ∀ (ops : List Op) (q : BLQueue) (as l : List Nat) (rs : List Ret) (q' : BLQueue),
      BLWeak B E T q as l → BLQueue_run B E T fuel q ops = .ok (rs, q') →
      ∃ as' l', BLWeak B E T q' as' l'
  | [], q, as, l, rs, q', hw, h => by
    simp only [BLQueue_run] at h
    obtain ⟨_, e2⟩ := Prod.mk.inj (Except.ok.inj h)
    subst e2
    exact ⟨as, l, hw⟩
  | op :: ops, q, as, l, rs, q', hw, h => by
    simp only [BLQueue_run] at h
    cases hst : BLQueue_step B E T fuel q op with
    | error e => simp [hst] at h
    | ok p =>
      obtain ⟨r, q1⟩ := p
      obtain ⟨as1, l1, hw1, _⟩ := BLQueue_step_weak B E T hB fuel q as l op r q1 hw hst
      simp only [hst] at h
      cases hrun : BLQueue_run B E T fuel q1 ops with
      | error e => simp [hrun] at h
      | ok p2 =>
        obtain ⟨rs2, q2⟩ := p2
        simp only [hrun] at h
        obtain ⟨_, e2⟩ := Prod.mk.inj (Except.ok.inj h)
        subst e2
        exact BLQueue_run_weak B E T hB fuel ops q1 as1 l1 rs2 q2 hw1 hrun

/-- Every state that a registered thread reaches by calls on a new queue is a reachable
state in the weak sense, however long the sequence of calls. -/
theorem BLQueue_session_weak (B : Nat) (E T : Value) (hB : B ≤ 2147483647) (fuel : Nat)
    (hp : HazardPointer) (thread_id num_threads : Int) (ops : List Op)
    (h0 : 0 ≤ thread_id) (h1 : thread_id < num_threads) (h2 : num_threads ≤ (MAX_THREADS : Int))
    (rs : List Ret) (q : BLQueue)
    (h : BLQueue_session B E T fuel hp thread_id num_threads ops = .ok (rs, q)) :
    ∃ as l, BLWeak B E T q as l := by
  obtain ⟨q0, hq0, hrep, _⟩ := BLQueue_new_rep B E T hp thread_id num_threads h0 h1 h2
  simp only [BLQueue_session, hq0] at h
  exact BLQueue_run_weak B E T hB fuel ops q0 _ _ rs q hrep.weak h

/-- C16 (amended): a registered thread makes any sequence of calls on a new queue and
then one more call.  If these calls return, a cell of a node that is in the queue before
and after the last call either stays as it is, or goes from `EMPTY_VALUE` or from
`TAKEN_VALUE` to the item of the push, or goes from a value or from `EMPTY_VALUE` to
`TAKEN_VALUE` in a pop. -/
theorem BLQueue_cell_moves (BUFFER_SIZE : Nat) (EMPTY_VALUE TAKEN_VALUE : Value)
    (hB : BUFFER_SIZE ≤ 2147483647)
    (fuel : Nat) (hp : HazardPointer) (thread_id num_threads : Int) (ops : List Op) (op : Op)
    (h0 : 0 ≤ thread_id) (h1 : thread_id < num_threads) (h2 : num_threads ≤ (MAX_THREADS : Int))
    (rs : List Ret) (q : BLQueue) (r : Ret) (q' : BLQueue)
    (hs : BLQueue_session BUFFER_SIZE EMPTY_VALUE TAKEN_VALUE fuel hp thread_id num_threads ops
      = .ok (rs, q))
    (hstep : BLQueue_step BUFFER_SIZE EMPTY_VALUE TAKEN_VALUE fuel q op = .ok (r, q')) :
    ∃ l l',
      Chain (nodeNext BLNode.next q.hs.mem) q.head l
      ∧ Chain (nodeNext BLNode.next q'.hs.mem) q'.head l'
      ∧ ∀ a, a ∈ l → a ∈ l' →
          ∃ n n', q.hs.mem.qnode a = some n ∧ q'.hs.mem.qnode a = some n'
            ∧ ∀ i, cellMove EMPTY_VALUE TAKEN_VALUE op (n.buffer i) (n'.buffer i) := by
  obtain ⟨as, l, hw⟩ := BLQueue_session_weak BUFFER_SIZE EMPTY_VALUE TAKEN_VALUE hB fuel hp
    thread_id num_threads ops h0 h1 h2 rs q hs
  obtain ⟨as', l', hw', hd⟩ := BLQueue_step_weak BUFFER_SIZE EMPTY_VALUE TAKEN_VALUE hB fuel q as l
    op r q' hw hstep
  exact ⟨as, as', hw.chain, hw'.chain, hd⟩

/-- C16 (amended) at a concrete input: after a pop and a push, a push. -/
theorem BLQueue_cell_moves_witness :
    ∃ rs q r q' l l',
      BLQueue_session 4 0 (-1) 134 hp0 0 1 [.pop, .push 5] = .ok (rs, q)
      ∧ BLQueue_step 4 0 (-1) 134 q (.push 6) = .ok (r, q')
      ∧ Chain (nodeNext BLNode.next q.hs.mem) q.head l
      ∧ Chain (nodeNext BLNode.next q'.hs.mem) q'.head l'
      ∧ ∀ a, a ∈ l → a ∈ l' →
          ∃ n n', q.hs.mem.qnode a = some n ∧ q'.hs.mem.qnode a = some n'
            ∧ ∀ i, cellMove 0 (-1) (.push 6) (n.buffer i) (n'.buffer i) := by
  obtain ⟨rs, q, r, q', _, _, _, _, a1, a2, _⟩ :=
    BLQueue_step_after_session 4 0 (-1) (by decide) (by decide) 134 hp0 0 1 [.pop, .push 5]
      (.push 6) (by decide) (by decide) (by decide) (by decide) (by decide) (by decide)
  obtain ⟨l, l', c⟩ := BLQueue_cell_moves 4 0 (-1) (by decide) 134 hp0 0 1 [.pop, .push 5]
    (.push 6) (by decide) (by decide) (by decide) rs q r q' a1 a2
  exact ⟨rs, q, r, q', l, l', a1, a2, c⟩

/-- The cells after the wrap-around of `pop_idx`, with `BUFFER_SIZE = 1024`,
`EMPTY_VALUE = 0`, `TAKEN_VALUE = -1`: in the state after `2^32 - 1024` pops of a new queue,
where the next pop returns `TAKEN_VALUE`, that pop still moves the cells as a pop may. -/
theorem BLQueue_cells_after_wraparound :
    ∃ rs q q' l l',
      BLQueue_session 1024 0 (-1) 1025 hp0 0 1 (List.replicate 4294966272 .pop) = .ok (rs, q)
      ∧ BLQueue_step 1024 0 (-1) 1025 q .pop = .ok (.value (-1), q')
      ∧ Chain (nodeNext BLNode.next q.hs.mem) q.head l
      ∧ Chain (nodeNext BLNode.next q'.hs.mem) q'.head l'
      ∧ ∀ a, a ∈ l → a ∈ l' →
          ∃ n n', q.hs.mem.qnode a = some n ∧ q'.hs.mem.qnode a = some n'
            ∧ ∀ i, cellMove 0 (-1) .pop (n.buffer i) (n'.buffer i) := by
  obtain ⟨q, h1, h2⟩ := BLQueue_session_pops 1024 0 (-1) (by decide) 0 hp0 0 1
    (by decide) (by decide) (by decide) 4294966271 (by decide)
  have hw : wrap32 (((1024 : Nat) : Int) + 1 + ((4294966271 : Nat) : Int)) = 0 := by
    unfold wrap32; decide
  rw [hw] at h2
  obtain ⟨q', h3, _⟩ := BLQueue_pop_inside 1024 0 (-1) 1024 q 0 (by decide) h2 (by decide)
  have hstep : BLQueue_step 1024 0 (-1) 1025 q .pop = .ok (.value (-1), q') := by
    simp only [BLQueue_step, h3]
  obtain ⟨as, l, hwk⟩ := BLQueue_session_weak 1024 0 (-1) (by decide) 1025 hp0 0 1 _
    (by decide) (by decide) (by decide) _ q h1
  obtain ⟨as', l', hwk', hd⟩ := BLQueue_step_weak 1024 0 (-1) (by decide) 1025 q as l
    .pop _ q' hwk hstep
  exact ⟨_, q, q', as, as', h1, hstep, hwk.chain, hwk'.chain, hd⟩

end NBQ
